import Mathlib

/-!
# A shallow embedding of the Coin block-storage and state engine

The development follows the Go sources of the repository:

* `pkg/block` (transactions, headers, blocks),
* `pkg/blockchain/coindatabase` (the UTXO engine: a write-back cache over a
  persistent key-value store of coin records),
* `pkg/blockchain/chainwriter`, `pkg/blockchain/blockinfodatabase` and
  `pkg/blockchain` (the chain manager).

Conventions of the embedding.

* Go `uint32` values are natural numbers; every operation that can wrap is
  written with an explicit `% 2 ^ 32`.
* Go maps and the LevelDB stores are association lists read through `kvGet`
  (first binding), written through `kvPut` (in-place replacement or
  insertion) and `kvDelete`.
* A Go panic (index out of range, failed file read) is the value `none` of an
  `Option` result; a nil pointer result is an inner `Option`.
* SHA-256 and the protobuf wire format are external libraries; they enter
  the development as the fields of `Ext`.
* A nil slice and an empty slice are the same list `[]`.
* Slices are shorter than 2^32, so that the conversion `uint32(i)` of a slice
  position is the position itself.
-/

namespace StencilCoin

/-! ## Blocks and transactions (`pkg/block`) -/

/-- TransactionInput of `pkg/block/transaction.go`. -/
structure TransactionInput where
  ReferenceTransactionHash : String
  OutputIndex : Nat
  UnlockingScript : String
deriving DecidableEq, Repr

/-- TransactionOutput of `pkg/block/transaction.go`. -/
structure TransactionOutput where
  Amount : Nat
  LockingScript : String
deriving DecidableEq, Repr

/-- Transaction of `pkg/block/transaction.go`. -/
structure Transaction where
  Version : Nat
  Inputs : List TransactionInput
  Outputs : List TransactionOutput
  LockTime : Nat
deriving DecidableEq, Repr

/-- Header of `pkg/block/block.go`. -/
structure Header where
  Version : Nat
  PreviousHash : String
  MerkleRoot : String
  DifficultyTarget : String
  Nonce : Nat
  Timestamp : Nat
deriving DecidableEq, Repr

/-- Block of `pkg/block/block.go`. -/
structure Block where
  Header : Header
  Transactions : List Transaction
deriving DecidableEq, Repr

/-- Modelled from the spec: the declaration of `chainwriter.UndoBlock` is not
among the sources; its four parallel vectors are the ones read by
`CoinDatabase.UndoCoins` and written by `BlockChain.makeUndoBlock`. -/
structure UndoBlock where
  TransactionInputHashes : List String
  OutputIndexes : List Nat
  Amounts : List Nat
  LockingScripts : List String
deriving DecidableEq, Repr

/-- The external libraries the sources call: SHA-256 over the protobuf
encoding (`Transaction.Hash`, `Block.Hash`, the latter hashing the header
only) and `proto.Marshal` / `proto.Unmarshal` followed by the `Decode…`
constructors for blocks and undo blocks. -/
structure Ext where
  txHash : Transaction → String
  headerHash : Header → String
  marshalBlock : Block → List Nat
  unmarshalBlock : List Nat → Block
  marshalUndoBlock : UndoBlock → List Nat
  unmarshalUndoBlock : List Nat → UndoBlock

/-- Block.Hash: the hash of a block is the hash of its header. -/
def Block.Hash (E : Ext) (b : Block) : String := E.headerHash b.Header

/-- Transaction.Hash. -/
def Transaction.Hash (E : Ext) (tx : Transaction) : String := E.txHash tx

/-- Transaction.IsCoinbase. -/
def Transaction.IsCoinbase (tx : Transaction) : Bool := tx.Inputs.length == 0

/-! ## Key-value stores -/

/-- Lookup in a key-value store: the first binding of the key. -/
def kvGet {α β : Type} [DecidableEq α] : List (α × β) → α → Option β
  | [], _ => none
  | (k, v) :: rest, a => if k = a then some v else kvGet rest a

/-- Write to a key-value store: replaces the binding of the key where it
stands, or adds a binding. -/
def kvPut {α β : Type} [DecidableEq α] : List (α × β) → α → β → List (α × β)
  | [], a, b => [(a, b)]
  | (k, v) :: rest, a, b =>
    if k = a then (a, b) :: rest else (k, v) :: kvPut rest a b

/-- Deletion from a key-value store. -/
def kvDelete {α β : Type} [DecidableEq α] (m : List (α × β)) (a : α) : List (α × β) :=
  m.filter (fun kv => decide (kv.1 ≠ a))

/-! ## The coin database (`pkg/blockchain/coindatabase`) -/

/-- Modelled from the spec: the declaration of `CoinLocator` is not among the
sources; it is the pair built in `UndoCoins`, `storeTransactionsInMainCache`
and `makeUndoBlock`. -/
structure CoinLocator where
  ReferenceTransactionHash : String
  OutputIndex : Nat
deriving DecidableEq, Repr

/-- Modelled from the spec: the declaration of `Coin` is not among the
sources; it is the pair built in `storeTransactionsInMainCache` and
`GetCoin`. -/
structure Coin where
  TransactionOutput : TransactionOutput
  IsSpent : Bool
deriving DecidableEq, Repr

/-- Modelled from the spec: the declaration of `CoinRecord` is not among the
sources; it is the record built in `createCoinRecord` and `UndoCoins`. -/
structure CoinRecord where
  Version : Nat
  OutputIndexes : List Nat
  Amounts : List Nat
  LockingScripts : List String
deriving DecidableEq, Repr

/-- The record obtained by decoding an absent value: `proto.Unmarshal` of no
bytes leaves every field at its zero value. -/
def CoinRecord.empty : CoinRecord := ⟨0, [], [], []⟩

/-- CoinDatabase of `coindatabase.go`: `db` is the LevelDB store of coin
records under transaction hashes (records are kept as values: the protobuf
round trip of a record is taken to be lossless), `mainCache` the Go map. -/
structure CoinDatabase where
  db : List (String × CoinRecord)
  mainCache : List (CoinLocator × Coin)
  mainCacheSize : Nat
  mainCacheCapacity : Nat
deriving DecidableEq, Repr

namespace CoinDatabase

/-- Modelled from the spec: `makeCoinLocator` is not among the sources; a
CoinLocator is the pair (reference transaction hash, output index) of the
input, as `makeUndoBlock` builds it by hand. -/
def makeCoinLocator (txi : TransactionInput) : CoinLocator :=
  ⟨txi.ReferenceTransactionHash, txi.OutputIndex⟩

/-- New of `coindatabase.go`, on an empty LevelDB directory. -/
def New (mainCacheCapacity : Nat) : CoinDatabase :=
  { db := [], mainCache := [], mainCacheSize := 0, mainCacheCapacity := mainCacheCapacity }

/-- The function `contains` of `coindatabase.go`. -/
def contains : List Nat → Nat → Bool
  | [], _ => false
  | a :: rest, e => if a = e then true else contains rest e

/-- The function `indexOf` of `coindatabase.go`: the first position of `e`,
or -1. -/
def indexOf : List Nat → Nat → Int
  | [], _ => -1
  | a :: rest, e =>
    if a = e then 0 else (if indexOf rest e < 0 then -1 else indexOf rest e + 1)

/-- The loop of ValidateTransaction over the inputs. -/
def validateInputs (c : CoinDatabase) : List TransactionInput → Except String Unit
  | [] => Except.ok ()
  | txi :: rest =>
    match kvGet c.mainCache (makeCoinLocator txi) with
    | some coin =>
      if coin.IsSpent then Except.error "[validateTransaction] coin already spent"
      else validateInputs c rest
    | none =>
      match kvGet c.db txi.ReferenceTransactionHash with
      | none => Except.error "[validateTransaction] coin not in leveldb"
      | some cr =>
        if !contains cr.OutputIndexes txi.OutputIndex then
          Except.error "[validateTransaction] coinRecord did not contain Coin"
        else validateInputs c rest

/-- ValidateTransaction: `Except.ok ()` is the nil error. The function reads
the cache and the store and writes neither. -/
def ValidateTransaction (c : CoinDatabase) (transaction : Transaction) : Except String Unit :=
  validateInputs c transaction.Inputs

/-- ValidateBlock. -/
def ValidateBlock (c : CoinDatabase) : List Transaction → Bool
  | [] => true
  | tx :: rest =>
    match ValidateTransaction c tx with
    | Except.error _ => false
    | Except.ok _ => ValidateBlock c rest

/-- The function `getCoinRecordFromDB`: `none` is the nil record. -/
def getCoinRecordFromDB (c : CoinDatabase) (txHash : String) : Option CoinRecord :=
  kvGet c.db txHash

/-- The function `putRecordInDB`. -/
def putRecordInDB (c : CoinDatabase) (txHash : String) (cr : CoinRecord) : CoinDatabase :=
  { c with db := kvPut c.db txHash cr }

/-- The function `removeCoinFromRecord`. The three re-slicings
`append(s[:index], s[index+1:]...)` panic when `index` is not a position of
the slice, which can happen for `Amounts` and `LockingScripts`. -/
def removeCoinFromRecord (cr : CoinRecord) (outputIndex : Nat) : Option CoinRecord :=
  let index := indexOf cr.OutputIndexes outputIndex
  if index < 0 then some cr
  else if index.toNat < cr.Amounts.length ∧ index.toNat < cr.LockingScripts.length then
    some { cr with
      OutputIndexes := cr.OutputIndexes.eraseIdx index.toNat
      Amounts := cr.Amounts.eraseIdx index.toNat
      LockingScripts := cr.LockingScripts.eraseIdx index.toNat }
  else none

/-- The function `removeCoinFromDB`. -/
def removeCoinFromDB (c : CoinDatabase) (txHash : String) (cl : CoinLocator) :
    Option CoinDatabase :=
  match getCoinRecordFromDB c txHash with
  | none => some c
  | some cr =>
    if cr.Amounts.length ≤ 1 then some { c with db := kvDelete c.db txHash }
    else
      match removeCoinFromRecord cr cl.OutputIndex with
      | none => none
      | some cr2 => some (putRecordInDB c txHash cr2)

/-- GetCoin: `some none` is the nil coin, `none` a panic on
`cr.Amounts[index]` or `cr.LockingScripts[index]`. -/
def GetCoin (c : CoinDatabase) (cl : CoinLocator) : Option (Option Coin) :=
  match kvGet c.mainCache cl with
  | some coin => some (some coin)
  | none =>
    match getCoinRecordFromDB c cl.ReferenceTransactionHash with
    | none => some none
    | some cr =>
      let index := indexOf cr.OutputIndexes cl.OutputIndex
      if index < 0 then some none
      else
        match cr.Amounts.get? index.toNat, cr.LockingScripts.get? index.toNat with
        | some a, some l => some (some ⟨⟨a, l⟩, false⟩)
        | _, _ => none

/-! ### FlushMainCache -/

/-- Step (1) of the first loop of FlushMainCache: the record of a
transaction hash is taken from `updated`, the map `updatedCoinRecords`, else
decoded from the store (an absent record decodes to the empty one). -/
def flushLookup (db updated : List (String × CoinRecord)) (txHash : String) : CoinRecord :=
  match kvGet updated txHash with
  | some cr2 => cr2
  | none =>
    match kvGet db txHash with
    | some r => r
    | none => CoinRecord.empty

/-- The first loop of FlushMainCache, over the entries of the cache. An
unspent entry is skipped; for a spent entry the coin is removed from the
record of its transaction, which goes into `updated`. Go visits the entries
of a map in an unspecified order; the entries have distinct locators, so the
records obtained do not depend on it. -/
def flushCollect (db : List (String × CoinRecord)) :
    List (CoinLocator × Coin) → List (String × CoinRecord) →
    Option (List (String × CoinRecord))
  | [], updated => some updated
  | (cl, coin) :: rest, updated =>
    if !coin.IsSpent then flushCollect db rest updated
    else
      match removeCoinFromRecord (flushLookup db updated cl.ReferenceTransactionHash)
          cl.OutputIndex with
      | none => none
      | some cr3 => flushCollect db rest (kvPut updated cl.ReferenceTransactionHash cr3)

/-- The second loop of FlushMainCache: write the new records, deleting the
ones that became empty. -/
def flushWrite : List (String × CoinRecord) → List (String × CoinRecord) →
    List (String × CoinRecord)
  | db, [] => db
  | db, (key, cr) :: rest =>
    if cr.OutputIndexes.length = 0 then flushWrite (kvDelete db key) rest
    else flushWrite (kvPut db key cr) rest

/-- FlushMainCache: the spent entries leave the cache (the unspent ones
stay), `mainCacheSize` is reset to 0. -/
def FlushMainCache (c : CoinDatabase) : Option CoinDatabase :=
  match flushCollect c.db c.mainCache [] with
  | none => none
  | some updated =>
    some { c with
      db := flushWrite c.db updated
      mainCache := c.mainCache.filter (fun e => !e.2.IsSpent)
      mainCacheSize := 0 }

/-! ### StoreBlock -/

/-- The inner loop of `updateSpentCoins` over the inputs of one transaction
whose hash is `txHash`. -/
def updateSpentInputs (txHash : String) :
    CoinDatabase → List TransactionInput → Option CoinDatabase
  | c, [] => some c
  | c, txi :: rest =>
    let cl := makeCoinLocator txi
    match kvGet c.mainCache cl with
    | some coin =>
      updateSpentInputs txHash
        { c with mainCache := kvPut c.mainCache cl { coin with IsSpent := true } } rest
    | none =>
      match removeCoinFromDB c txHash cl with
      | none => none
      | some c2 => updateSpentInputs txHash c2 rest

/-- The function `updateSpentCoins`. In the branch of a coin that is not in
the cache the source passes `tx.Hash()`, the hash of the spending
transaction, to `removeCoinFromDB`. -/
def updateSpentCoins (E : Ext) : CoinDatabase → List Transaction → Option CoinDatabase
  | c, [] => some c
  | c, tx :: rest =>
    match updateSpentInputs (tx.Hash E) c tx.Inputs with
    | none => none
    | some c2 => updateSpentCoins E c2 rest

/-- The capacity check of `storeTransactionsInMainCache`, made before every
output of a transaction with `n` outputs: the cache is flushed when
`mainCacheSize + n` (a uint32 sum) reaches the capacity. -/
def flushIfFull (n : Nat) (c : CoinDatabase) : Option CoinDatabase :=
  if (c.mainCacheSize + n) % 2 ^ 32 ≥ c.mainCacheCapacity then FlushMainCache c
  else some c

/-- The inner loop of `storeTransactionsInMainCache` over the outputs of
one transaction: `n` is `len(tx.Outputs)`, `i` the position of the first
output of the list. -/
def storeOutputs (txHash : String) (n : Nat) :
    CoinDatabase → Nat → List TransactionOutput → Option CoinDatabase
  | c, _, [] => some c
  | c, i, txo :: rest =>
    match flushIfFull n c with
    | none => none
    | some c2 =>
      storeOutputs txHash n
        { c2 with
          mainCache := kvPut c2.mainCache ⟨txHash, i⟩ ⟨txo, false⟩
          mainCacheSize := (c2.mainCacheSize + 1) % 2 ^ 32 }
        (i + 1) rest

/-- The function `storeTransactionsInMainCache`. -/
def storeTransactionsInMainCache (E : Ext) :
    CoinDatabase → List Transaction → Option CoinDatabase
  | c, [] => some c
  | c, tx :: rest =>
    match storeOutputs (tx.Hash E) tx.Outputs.length c 0 tx.Outputs with
    | none => none
    | some c2 => storeTransactionsInMainCache E c2 rest

/-- The function `createCoinRecord`. -/
def createCoinRecord (tx : Transaction) : CoinRecord :=
  { Version := 0
    OutputIndexes := List.range tx.Outputs.length
    Amounts := tx.Outputs.map (fun txo => txo.Amount)
    LockingScripts := tx.Outputs.map (fun txo => txo.LockingScript) }

/-- The function `storeTransactionsInDB`. -/
def storeTransactionsInDB (E : Ext) : CoinDatabase → List Transaction → CoinDatabase
  | c, [] => c
  | c, tx :: rest =>
    storeTransactionsInDB E (putRecordInDB c (tx.Hash E) (createCoinRecord tx)) rest

/-- StoreBlock. -/
def StoreBlock (E : Ext) (c : CoinDatabase) (transactions : List Transaction) :
    Option CoinDatabase :=
  match updateSpentCoins E c transactions with
  | none => none
  | some c1 =>
    match storeTransactionsInMainCache E c1 transactions with
    | none => none
    | some c2 => some (storeTransactionsInDB E c2 transactions)

/-! ### UndoCoins -/

/-- The loop of UndoCoins deleting the cache entries of the outputs
`j, j+1, …` of a transaction; `mainCacheSize` is decremented once per
output, whether or not an entry was there. -/
def undoOutputs (txHash : String) : CoinDatabase → Nat → Nat → CoinDatabase
  | c, _, 0 => c
  | c, j, k + 1 =>
    undoOutputs txHash
      { c with
        mainCache := kvDelete c.mainCache ⟨txHash, j⟩
        mainCacheSize := (c.mainCacheSize + (2 ^ 32 - 1)) % 2 ^ 32 }
      (j + 1) k

/-- Part (1) of UndoCoins: erase the coins and the coin record of every
transaction of the block. -/
def undoTransactions (E : Ext) : CoinDatabase → List Transaction → CoinDatabase
  | c, [] => c
  | c, tx :: rest =>
    let c1 := undoOutputs (tx.Hash E) c 0 tx.Outputs.length
    undoTransactions E { c1 with db := kvDelete c1.db (tx.Hash E) } rest

/-- The function `addCoinToRecord`; the three indexings of the undo block
panic when `index` is out of range. -/
def addCoinToRecord (cr : CoinRecord) (ub : UndoBlock) (index : Nat) : Option CoinRecord :=
  match ub.OutputIndexes.get? index, ub.Amounts.get? index, ub.LockingScripts.get? index with
  | some o, some a, some l =>
    some { cr with
      OutputIndexes := cr.OutputIndexes ++ [o]
      Amounts := cr.Amounts ++ [a]
      LockingScripts := cr.LockingScripts ++ [l] }
  | _, _, _ => none

/-- Part (2) of UndoCoins: the loop over the positions `j, j+1, …` of the
undo block, `hashes` being the hashes from position `j` on. -/
def undoInputs (ub : UndoBlock) : CoinDatabase → Nat → List String → Option CoinDatabase
  | c, _, [] => some c
  | c, j, txHash :: rest =>
    match ub.OutputIndexes.get? j with
    | none => none
    | some oi =>
      let cl : CoinLocator := ⟨txHash, oi⟩
      let c1 :=
        match kvGet c.mainCache cl with
        | some coin => { c with mainCache := kvPut c.mainCache cl { coin with IsSpent := false } }
        | none => c
      let cr :=
        match getCoinRecordFromDB c1 txHash with
        | some r => addCoinToRecord r ub j
        | none => some ⟨0, ub.OutputIndexes, ub.Amounts, ub.LockingScripts⟩
      match cr with
      | none => none
      | some r => undoInputs ub (putRecordInDB c1 txHash r) (j + 1) rest

/-- UndoCoins; `undoBlocks[i]` panics when there are fewer undo blocks than
blocks. -/
def UndoCoins (E : Ext) : CoinDatabase → List Block → List UndoBlock → Option CoinDatabase
  | c, [], _ => some c
  | c, b :: bs, ubs =>
    let c1 := undoTransactions E c b.Transactions
    match ubs with
    | [] => none
    | ub :: ubs2 =>
      match undoInputs ub c1 0 ub.TransactionInputHashes with
      | none => none
      | some c2 => UndoCoins E c2 bs ubs2

/-! ### GetBalance -/

/-- The inner loop of GetBalance over the locking scripts of one record,
`i` being the position of the first script of the list; `cr.Amounts[i]` is
read, and can panic, only where the script matches. -/
def balanceOfRecord (publicKey : String) (amounts : List Nat) :
    Nat → List String → Nat → Option Nat
  | _, [], balance => some balance
  | i, pK :: rest, balance =>
    if pK = publicKey then
      match amounts.get? i with
      | none => none
      | some a => balanceOfRecord publicKey amounts (i + 1) rest ((balance + a) % 2 ^ 32)
    else balanceOfRecord publicKey amounts (i + 1) rest balance

/-- The iterator loop of GetBalance over the store. -/
def balanceOfStore (publicKey : String) : List (String × CoinRecord) → Nat → Option Nat
  | [], balance => some balance
  | (_, cr) :: rest, balance =>
    match balanceOfRecord publicKey cr.Amounts 0 cr.LockingScripts balance with
    | none => none
    | some b => balanceOfStore publicKey rest b

/-- GetBalance: the balance and the state left by the flush. -/
def GetBalance (c : CoinDatabase) (publicKey : String) : Option (Nat × CoinDatabase) :=
  match FlushMainCache c with
  | none => none
  | some c1 =>
    match balanceOfStore publicKey c1.db 0 with
    | none => none
    | some b => some (b, c1)

end CoinDatabase

/-! ## The block-info database (`pkg/blockchain/blockinfodatabase`) -/

/-- Modelled from the spec: the declaration of `BlockRecord` is not among the
sources; its fields are the ones `ChainWriter.StoreBlock` fills in. -/
structure BlockRecord where
  Header : Header
  Height : Nat
  NumberOfTransactions : Nat
  BlockFile : String
  BlockStartOffset : Nat
  BlockEndOffset : Nat
  UndoFile : String
  UndoStartOffset : Nat
  UndoEndOffset : Nat
deriving DecidableEq, Repr

/-- Modelled from the spec: `DecodeBlockRecord` is not among the sources; on
the empty protobuf message that `GetBlockRecord` decodes for an absent key,
every getter returns the zero value of its field. -/
def BlockRecord.zero : BlockRecord :=
  ⟨⟨0, "", "", "", 0, 0⟩, 0, 0, "", 0, 0, "", 0, 0⟩

/-- BlockInfoDatabase: the LevelDB store of block records under block
hashes (records are kept as values). -/
structure BlockInfoDatabase where
  db : List (String × BlockRecord)
deriving DecidableEq, Repr

/-- StoreBlockRecord. -/
def BlockInfoDatabase.StoreBlockRecord (d : BlockInfoDatabase) (hash : String)
    (blockRecord : BlockRecord) : BlockInfoDatabase :=
  ⟨kvPut d.db hash blockRecord⟩

/-- GetBlockRecord: a failed `Get` is only logged, and the record decoded
from no bytes is returned. -/
def BlockInfoDatabase.GetBlockRecord (d : BlockInfoDatabase) (hash : String) : BlockRecord :=
  match kvGet d.db hash with
  | some br => br
  | none => BlockRecord.zero

/-! ## The chain writer (`pkg/blockchain/chainwriter`) -/

/-- Modelled from the spec: the declaration of `FileInfo` is not among the
sources; its fields are the ones `WriteBlock` fills in. -/
structure FileInfo where
  FileName : String
  StartOffset : Nat
  EndOffset : Nat
deriving DecidableEq, Repr

/-- ChainWriter of `chainwriter.go`, together with the files of its data
directory (`disk`: file name to content). -/
structure ChainWriter where
  FileExtension : String
  DataDirectory : String
  BlockFileName : String
  CurrentBlockFileNumber : Nat
  CurrentBlockOffset : Nat
  MaxBlockFileSize : Nat
  UndoFileName : String
  CurrentUndoFileNumber : Nat
  CurrentUndoOffset : Nat
  MaxUndoFileSize : Nat
  disk : List (String × List Nat)
deriving DecidableEq, Repr

/-- Modelled from the spec: the declaration of `chainwriter.Config` is not
among the sources; its fields are the ones `chainwriter.New` reads. -/
structure ChainWriterConfig where
  FileExtension : String
  DataDirectory : String
  BlockFileName : String
  MaxBlockFileSize : Nat
  UndoFileName : String
  MaxUndoFileSize : Nat
deriving DecidableEq, Repr

namespace ChainWriter

/-- New of `chainwriter.go`, on a fresh data directory. -/
def New (config : ChainWriterConfig) : ChainWriter :=
  { FileExtension := config.FileExtension
    DataDirectory := config.DataDirectory
    BlockFileName := config.BlockFileName
    CurrentBlockFileNumber := 0
    CurrentBlockOffset := 0
    MaxBlockFileSize := config.MaxBlockFileSize
    UndoFileName := config.UndoFileName
    CurrentUndoFileNumber := 0
    CurrentUndoOffset := 0
    MaxUndoFileSize := config.MaxUndoFileSize
    disk := [] }

/-- The function `writeToDisk` of `readwrite.go`: append to the file,
creating it when absent. -/
def writeToDisk (disk : List (String × List Nat)) (fileName : String) (data : List Nat) :
    List (String × List Nat) :=
  match kvGet disk fileName with
  | some content => kvPut disk fileName (content ++ data)
  | none => kvPut disk fileName data

/-- The function `readFromDisk` of `readwrite.go`: it panics when the file
cannot be opened and when fewer than `EndOffset - StartOffset` bytes (a
uint32 difference) are read. -/
def readFromDisk (disk : List (String × List Nat)) (info : FileInfo) : Option (List Nat) :=
  match kvGet disk info.FileName with
  | none => none
  | some content =>
    let numBytes := (info.EndOffset + (2 ^ 32 - info.StartOffset % 2 ^ 32)) % 2 ^ 32
    let buf := (content.drop info.StartOffset).take numBytes
    if buf.length = numBytes then some buf else none

/-- WriteBlock. -/
def WriteBlock (cw : ChainWriter) (serializedBlock : List Nat) : FileInfo × ChainWriter :=
  let length := serializedBlock.length % 2 ^ 32
  let cw1 :=
    if (cw.CurrentBlockOffset + length) % 2 ^ 32 ≥ cw.MaxBlockFileSize then
      { cw with
        CurrentBlockOffset := 0
        CurrentBlockFileNumber := (cw.CurrentBlockFileNumber + 1) % 2 ^ 32 }
    else cw
  let fileName :=
    cw1.DataDirectory ++ "/" ++ cw1.BlockFileName ++ "_" ++
      toString cw1.CurrentBlockFileNumber ++ cw1.FileExtension
  let fi : FileInfo :=
    ⟨fileName, cw1.CurrentBlockOffset, (cw1.CurrentBlockOffset + length) % 2 ^ 32⟩
  (fi, { cw1 with
    disk := writeToDisk cw1.disk fileName serializedBlock
    CurrentBlockOffset := (cw1.CurrentBlockOffset + length) % 2 ^ 32 })

/-- WriteUndoBlock. -/
def WriteUndoBlock (cw : ChainWriter) (serializedUndoBlock : List Nat) :
    FileInfo × ChainWriter :=
  let length := serializedUndoBlock.length % 2 ^ 32
  let cw1 :=
    if (cw.CurrentUndoOffset + length) % 2 ^ 32 ≥ cw.MaxUndoFileSize then
      { cw with
        CurrentUndoOffset := 0
        CurrentUndoFileNumber := (cw.CurrentUndoFileNumber + 1) % 2 ^ 32 }
    else cw
  let fileName :=
    cw1.DataDirectory ++ "/" ++ cw1.UndoFileName ++ "_" ++
      toString cw1.CurrentUndoFileNumber ++ cw1.FileExtension
  let fi : FileInfo :=
    ⟨fileName, cw1.CurrentUndoOffset, (cw1.CurrentUndoOffset + length) % 2 ^ 32⟩
  (fi, { cw1 with
    disk := writeToDisk cw1.disk fileName serializedUndoBlock
    CurrentUndoOffset := (cw1.CurrentUndoOffset + length) % 2 ^ 32 })

/-- StoreBlock of `chainwriter.go`: the undo block is written only when its
`Amounts` slice is not nil. -/
def StoreBlock (E : Ext) (cw : ChainWriter) (bl : Block) (undoBlock : UndoBlock)
    (height : Nat) : BlockRecord × ChainWriter :=
  let serializedBlock := E.marshalBlock bl
  let serializedUndoBlock := E.marshalUndoBlock undoBlock
  let (bfi, cw1) := WriteBlock cw serializedBlock
  let (ufi, cw2) :=
    if undoBlock.Amounts ≠ [] then WriteUndoBlock cw1 serializedUndoBlock
    else ((⟨"", 0, 0⟩ : FileInfo), cw1)
  ({ Header := bl.Header
     Height := height
     NumberOfTransactions := bl.Transactions.length % 2 ^ 32
     BlockFile := bfi.FileName
     BlockStartOffset := bfi.StartOffset
     BlockEndOffset := bfi.EndOffset
     UndoFile := ufi.FileName
     UndoStartOffset := ufi.StartOffset
     UndoEndOffset := ufi.EndOffset }, cw2)

/-- ReadBlock. -/
def ReadBlock (E : Ext) (cw : ChainWriter) (fi : FileInfo) : Option Block :=
  match readFromDisk cw.disk fi with
  | none => none
  | some bytes => some (E.unmarshalBlock bytes)

/-- ReadUndoBlock. -/
def ReadUndoBlock (E : Ext) (cw : ChainWriter) (fi : FileInfo) : Option UndoBlock :=
  match readFromDisk cw.disk fi with
  | none => none
  | some bytes => some (E.unmarshalUndoBlock bytes)

end ChainWriter

/-! ## The chain manager (`pkg/blockchain/blockchain.go`) -/

/-- Modelled from the spec: the declaration of `blockchain.Config` and the
default configurations of the three stores are not among the sources; the
record holds the values `blockchain.New` reads from them. -/
structure Config where
  GenesisPublicKey : String
  InitialSubsidy : Nat
  ChainWriterConfig : ChainWriterConfig
  MainCacheCapacity : Nat
deriving DecidableEq, Repr

/-- BlockChain of `blockchain.go` (the address and the channel apart). -/
structure BlockChain where
  Length : Nat
  LastBlock : Block
  LastHash : String
  UnsafeHashes : List String
  maxHashes : Nat
  BlockInfoDB : BlockInfoDatabase
  ChainWriter : ChainWriter
  CoinDB : CoinDatabase
deriving DecidableEq, Repr

namespace BlockChain

/-- GenesisBlock. -/
def GenesisBlock (config : Config) : Block :=
  { Header := ⟨0, "", "", "", 0, 0⟩
    Transactions :=
      [{ Version := 0
         Inputs := []
         Outputs := [⟨config.InitialSubsidy, config.GenesisPublicKey⟩]
         LockTime := 0 }] }

/-- New of `blockchain.go`. -/
def New (E : Ext) (config : Config) : Option BlockChain :=
  let genBlock := GenesisBlock config
  let hash := genBlock.Hash E
  match CoinDatabase.StoreBlock E (CoinDatabase.New config.MainCacheCapacity)
      genBlock.Transactions with
  | none => none
  | some coinDB =>
    let (br, cw) :=
      ChainWriter.StoreBlock E (ChainWriter.New config.ChainWriterConfig) genBlock
        ⟨[], [], [], []⟩ 1
    some
      { Length := 1
        LastBlock := genBlock
        LastHash := hash
        UnsafeHashes := [hash]
        maxHashes := 6
        BlockInfoDB := BlockInfoDatabase.StoreBlockRecord ⟨[]⟩ hash br
        ChainWriter := cw
        CoinDB := coinDB }

/-- The inner loop of `makeUndoBlock` over the inputs of the transactions,
flattened: `none` is a panic of GetCoin, `some none` the early return of the
empty undo block on a nil coin. -/
def undoEntries (c : CoinDatabase) :
    List TransactionInput → UndoBlock → Option (Option UndoBlock)
  | [], ub => some (some ub)
  | txi :: rest, ub =>
    match CoinDatabase.GetCoin c ⟨txi.ReferenceTransactionHash, txi.OutputIndex⟩ with
    | none => none
    | some none => some none
    | some (some coin) =>
      undoEntries c rest
        { TransactionInputHashes := ub.TransactionInputHashes ++ [txi.ReferenceTransactionHash]
          OutputIndexes := ub.OutputIndexes ++ [txi.OutputIndex]
          Amounts := ub.Amounts ++ [coin.TransactionOutput.Amount]
          LockingScripts := ub.LockingScripts ++ [coin.TransactionOutput.LockingScript] }

/-- The function `makeUndoBlock`. -/
def makeUndoBlock (bc : BlockChain) (txs : List Transaction) : Option UndoBlock :=
  match undoEntries bc.CoinDB (txs.flatMap (fun tx => tx.Inputs)) ⟨[], [], [], []⟩ with
  | none => none
  | some none => some ⟨[], [], [], []⟩
  | some (some ub) => some ub

/-- GetBlock. -/
def GetBlock (E : Ext) (bc : BlockChain) (blockHash : String) : Option Block :=
  let br := bc.BlockInfoDB.GetBlockRecord blockHash
  ChainWriter.ReadBlock E bc.ChainWriter ⟨br.BlockFile, br.BlockStartOffset, br.BlockEndOffset⟩

/-- The function `getUndoBlock`. -/
def getUndoBlock (E : Ext) (bc : BlockChain) (blockHash : String) : Option UndoBlock :=
  let br := bc.BlockInfoDB.GetBlockRecord blockHash
  ChainWriter.ReadUndoBlock E bc.ChainWriter ⟨br.UndoFile, br.UndoStartOffset, br.UndoEndOffset⟩

/-- The function `appendsToActiveChain`. -/
def appendsToActiveChain (E : Ext) (bc : BlockChain) (b : Block) : Bool :=
  bc.LastBlock.Hash E == b.Header.PreviousHash

/-- The loop of `getForkLengthAndAncestor`: `k` iterations are left. -/
def forkWalk (bc : BlockChain) : Nat → Nat → String → Int × String
  | 0, _, _ => (-1, "")
  | k + 1, forkLength, nextHash =>
    if nextHash ∈ bc.UnsafeHashes then (forkLength, nextHash)
    else
      forkWalk bc k (forkLength + 1)
        (bc.BlockInfoDB.GetBlockRecord nextHash).Header.PreviousHash

/-- The function `getForkLengthAndAncestor`. -/
def getForkLengthAndAncestor (bc : BlockChain) (startHash : String) : Int × String :=
  forkWalk bc (bc.UnsafeHashes.length + 1) 0 startHash

/-- The function `getBlocksAndUndoBlocks`. -/
def getBlocksAndUndoBlocks (E : Ext) (bc : BlockChain) :
    Nat → String → Option (List Block × List UndoBlock)
  | 0, _ => some ([], [])
  | n + 1, nextHash =>
    match GetBlock E bc nextHash, getUndoBlock E bc nextHash with
    | some b, some ub =>
      match getBlocksAndUndoBlocks E bc n b.Header.PreviousHash with
      | none => none
      | some (blocks, undoBlocks) => some (b :: blocks, ub :: undoBlocks)
    | _, _ => none

/-- The first loop of part (3) of `handleFork`, at index `i`: pop the last
unsafe hash until `UnsafeHashes[i]` is the ancestor or `i` reaches 0. -/
def trimUnsafeHashes (ancestorHash : String) : List String → Nat → Option (List String)
  | uh, 0 => some uh
  | uh, i + 1 =>
    match uh.get? (i + 1) with
    | none => none
    | some h =>
      if h = ancestorHash then some uh
      else trimUnsafeHashes ancestorHash uh.dropLast i

/-- Part (5) of `handleFork`: every block of `blocks` is validated (a
failure is only logged) and stored. -/
def storeForkBlocks (E : Ext) : CoinDatabase → List Block → Option CoinDatabase
  | c, [] => some c
  | c, bl :: rest =>
    match CoinDatabase.StoreBlock E c bl.Transactions with
    | none => none
    | some c2 => storeForkBlocks E c2 rest

/-- The function `handleFork`. -/
def handleFork (E : Ext) (bc : BlockChain) (b : Block) (height : Nat) : Option BlockChain :=
  let fa := getForkLengthAndAncestor bc (b.Hash E)
  if fa.1 < 0 then some bc
  else
    match getBlocksAndUndoBlocks E bc fa.1.toNat bc.LastHash with
    | none => none
    | some (blocks, undoBlocks) =>
      match trimUnsafeHashes fa.2 bc.UnsafeHashes (min 6 fa.1.toNat - 1) with
      | none => none
      | some uh =>
        match CoinDatabase.UndoCoins E bc.CoinDB blocks undoBlocks with
        | none => none
        | some c1 =>
          match storeForkBlocks E c1 blocks with
          | none => none
          | some c2 =>
            some { bc with
              UnsafeHashes := uh ++ (blocks.reverse.map (fun bl => bl.Hash E))
              CoinDB := c2
              LastBlock := b
              LastHash := b.Hash E
              Length := height }

/-- Steps 2 to 6 of HandleBlock: make the undo block, look up the record of
the previous block, store the block and the undo block to disk and the block
record in the block-info database. The result is the chain after these
steps and the height of the block. -/
def persistBlock (E : Ext) (bc : BlockChain) (b : Block) : Option (BlockChain × Nat) :=
  match makeUndoBlock bc b.Transactions with
  | none => none
  | some ub =>
    let previousBr := bc.BlockInfoDB.GetBlockRecord b.Header.PreviousHash
    let height := (previousBr.Height + 1) % 2 ^ 32
    let (br, cw) := ChainWriter.StoreBlock E bc.ChainWriter b ub height
    some ({ bc with
      ChainWriter := cw
      BlockInfoDB := bc.BlockInfoDB.StoreBlockRecord (b.Hash E) br }, height)

/-- HandleBlock. -/
def HandleBlock (E : Ext) (bc : BlockChain) (b : Block) : Option BlockChain :=
  let appends := appendsToActiveChain E bc b
  let blockHash := b.Hash E
  if appends && !CoinDatabase.ValidateBlock bc.CoinDB b.Transactions then some bc
  else
    match persistBlock E bc b with
    | none => none
    | some (bc1, height) =>
      if appends then
        match CoinDatabase.StoreBlock E bc1.CoinDB b.Transactions with
        | none => none
        | some c =>
          some { bc1 with
            CoinDB := c
            Length := (bc1.Length + 1) % 2 ^ 32
            LastBlock := b
            LastHash := blockHash
            UnsafeHashes :=
              (if bc1.UnsafeHashes.length ≥ 6 then bc1.UnsafeHashes.drop 1
               else bc1.UnsafeHashes) ++ [blockHash] }
      else if height > bc1.Length then handleFork E bc1 b height
      else some bc1

/-- A sequence of HandleBlock calls. -/
def handleBlocks (E : Ext) : BlockChain → List Block → Option BlockChain
  | bc, [] => some bc
  | bc, b :: rest =>
    match HandleBlock E bc b with
    | none => none
    | some bc1 => handleBlocks E bc1 rest

/-- GetBalance of `blockchain.go`. -/
def GetBalance (bc : BlockChain) (pk : String) : Option (Nat × BlockChain) :=
  match CoinDatabase.GetBalance bc.CoinDB pk with
  | none => none
  | some (n, c) => some (n, { bc with CoinDB := c })

end BlockChain

/-! ## Block validation of the node (`pkg/validation.go`) -/

/-- Node.CheckBlock: `none` is the nil block; the other checks are commented
out in the source, what is left is `CoinDB.ValidateBlock`. -/
def CheckBlock (bc : BlockChain) (b : Option Block) : Bool :=
  match b with
  | none => false
  | some bl => CoinDatabase.ValidateBlock bc.CoinDB bl.Transactions

/-! ## The protobuf messages and the codec (`pkg/pro`, `pkg/block`) -/

/-- Modelled from the spec: the generated message `pro.TransactionInput` is
not among the sources; its fields are the ones `EncodeTransactionInput`
fills and the getters of `DecodeTransactionInput` read. -/
structure pro.TransactionInput where
  ReferenceTransactionHash : String
  OutputIndex : Nat
  UnlockingScript : String
deriving DecidableEq, Repr

/-- Modelled from the spec: the generated message `pro.TransactionOutput` is
not among the sources; its fields are the ones `EncodeTransactionOutput`
fills. -/
structure pro.TransactionOutput where
  Amount : Nat
  LockingScript : String
deriving DecidableEq, Repr

/-- Modelled from the spec: the generated message `pro.Transaction` is not
among the sources; its fields are the ones `EncodeTransaction` fills. -/
structure pro.Transaction where
  Version : Nat
  Inputs : List pro.TransactionInput
  Outputs : List pro.TransactionOutput
  LockTime : Nat
deriving DecidableEq, Repr

/-- Modelled from the spec: the generated message `pro.Header` is not among
the sources; its fields are the ones `EncodeHeader` fills. -/
structure pro.Header where
  Version : Nat
  PreviousHash : String
  MerkleRoot : String
  DifficultyTarget : String
  Nonce : Nat
  Timestamp : Nat
deriving DecidableEq, Repr

/-- Modelled from the spec: the generated message `pro.Block` is not among
the sources; its fields are the ones `EncodeBlock` fills. -/
structure pro.Block where
  Header : pro.Header
  Transactions : List pro.Transaction
deriving DecidableEq, Repr

/-- EncodeTransactionInput. -/
def EncodeTransactionInput (txi : TransactionInput) : pro.TransactionInput :=
  { ReferenceTransactionHash := txi.ReferenceTransactionHash
    OutputIndex := txi.OutputIndex
    UnlockingScript := txi.UnlockingScript }

/-- DecodeTransactionInput. -/
def DecodeTransactionInput (ptxi : pro.TransactionInput) : TransactionInput :=
  { ReferenceTransactionHash := ptxi.ReferenceTransactionHash
    OutputIndex := ptxi.OutputIndex
    UnlockingScript := ptxi.UnlockingScript }

/-- EncodeTransactionOutput. -/
def EncodeTransactionOutput (txo : TransactionOutput) : pro.TransactionOutput :=
  { Amount := txo.Amount, LockingScript := txo.LockingScript }

/-- DecodeTransactionOutput. -/
def DecodeTransactionOutput (ptxo : pro.TransactionOutput) : TransactionOutput :=
  { Amount := ptxo.Amount, LockingScript := ptxo.LockingScript }

/-- The loop `for _, x := range xs { ys = append(ys, f(x)) }` of the
encoders and decoders, from the nil slice. -/
def appendEach {α β : Type} (f : α → β) : List α → List β → List β
  | [], ys => ys
  | x :: rest, ys => appendEach f rest (ys ++ [f x])

/-- EncodeTransaction. -/
def EncodeTransaction (tx : Transaction) : pro.Transaction :=
  { Version := tx.Version
    Inputs := appendEach EncodeTransactionInput tx.Inputs []
    Outputs := appendEach EncodeTransactionOutput tx.Outputs []
    LockTime := tx.LockTime }

/-- DecodeTransaction. -/
def DecodeTransaction (ptx : pro.Transaction) : Transaction :=
  { Version := ptx.Version
    Inputs := appendEach DecodeTransactionInput ptx.Inputs []
    Outputs := appendEach DecodeTransactionOutput ptx.Outputs []
    LockTime := ptx.LockTime }

/-- EncodeHeader, on a header that is not nil. -/
def EncodeHeader (header : Header) : pro.Header :=
  { Version := header.Version
    PreviousHash := header.PreviousHash
    MerkleRoot := header.MerkleRoot
    DifficultyTarget := header.DifficultyTarget
    Nonce := header.Nonce
    Timestamp := header.Timestamp }

/-- DecodeHeader. -/
def DecodeHeader (pheader : pro.Header) : Header :=
  { Version := pheader.Version
    PreviousHash := pheader.PreviousHash
    MerkleRoot := pheader.MerkleRoot
    DifficultyTarget := pheader.DifficultyTarget
    Nonce := pheader.Nonce
    Timestamp := pheader.Timestamp }

/-- EncodeBlock. -/
def EncodeBlock (b : Block) : pro.Block :=
  { Header := EncodeHeader b.Header
    Transactions := appendEach EncodeTransaction b.Transactions [] }

/-- DecodeBlock. -/
def DecodeBlock (pb : pro.Block) : Block :=
  { Header := DecodeHeader pb.Header
    Transactions := appendEach DecodeTransaction pb.Transactions [] }

/-! ## The Merkle root (`pkg/block/block.go`) -/

/-- The libraries CalculateMerkleRoot calls: `hex.DecodeString`, whose error
is dropped, and `utils.Hash`, which is not among the sources. -/
structure HashExt where
  decodeHex : String → List Nat
  hash : List Nat → String

/-- The inner loop of CalculateMerkleRoot, `for i := 0; i < len(hashes);
i += 2`: `hashes[i+1]` panics on a list of odd length. -/
def merklePairs (H : HashExt) : List String → Option (List String)
  | [] => some []
  | [_] => none
  | a :: b :: rest =>
    match merklePairs H rest with
    | none => none
    | some newHashes => some (H.hash (H.decodeHex a ++ H.decodeHex b) :: newHashes)

/-- The loop `for len(hashes) != 1` of CalculateMerkleRoot with `fuel`
iterations left; `none` is a panic or the end of the fuel (on the empty list
the loop does not end). -/
def merkleLevels (H : HashExt) : Nat → List String → Option String
  | 0, _ => none
  | fuel + 1, hashes =>
    if hashes.length ≠ 1 then
      match
        (if hashes.length % 2 ≠ 0 then
          (match hashes.getLast? with
            | none => none
            | some h => some (hashes ++ [h]))
         else some hashes) with
      | none => none
      | some hashes1 =>
        match merklePairs H hashes1 with
        | none => none
        | some newHashes => merkleLevels H fuel newHashes
    else hashes.head?

/-- CalculateMerkleRoot, the level loop running on `fuel`. -/
def CalculateMerkleRoot (E : Ext) (H : HashExt) (fuel : Nat) (txs : List Transaction) :
    Option String :=
  match
    (if txs.length > 1 ∧ txs.length % 2 ≠ 0 then
      (match txs.getLast? with
        | none => none
        | some t => some (txs ++ [t]))
     else some txs) with
  | none => none
  | some txs1 => merkleLevels H fuel (appendEach (Transaction.Hash E) txs1 [])

/-- One level of the duplicate-last-odd Merkle tree, as the specification
words it: adjacent pairs are hashed, a last node without a partner is
paired with itself. -/
def merkleSpecLevel (H : HashExt) : List String → List String
  | [] => []
  | [a] => [H.hash (H.decodeHex a ++ H.decodeHex a)]
  | a :: b :: rest => H.hash (H.decodeHex a ++ H.decodeHex b) :: merkleSpecLevel H rest

/-- The duplicate-last-odd Merkle root of a list of hashes, as the
specification words it: a single node is the root, otherwise the root is the
root of the next level; `fuel` bounds the number of levels. -/
def merkleSpecRoot (H : HashExt) : Nat → List String → Option String
  | 0, _ => none
  | _ + 1, [h] => some h
  | fuel + 1, hs => merkleSpecRoot H fuel (merkleSpecLevel H hs)

/-! ## The chain manager: reading the active chain -/

namespace BlockChain

/-- The function `reverseBlocks`: the slice is reversed in place. -/
def reverseBlocks (s : List Block) : List Block := s.reverse

/-- The function `reverseHashes`: the slice is reversed in place. -/
def reverseHashes (s : List String) : List String := s.reverse

/-- The loop `for currentHeight >= start` of GetBlocks with `fuel`
iterations left: `none` is a panic of ReadBlock or the end of the fuel (with
`start = 0` the condition holds for every uint32). The bounds check before
the loop only logs. -/
def getBlocksLoop (E : Ext) (bc : BlockChain) (start last : Nat) :
    Nat → Nat → String → List Block → Option (List Block)
  | 0, _, _, _ => none
  | fuel + 1, currentHeight, nextHash, blocks =>
    if currentHeight ≥ start then
      if currentHeight ≤ last then
        match ChainWriter.ReadBlock E bc.ChainWriter
            ⟨(bc.BlockInfoDB.GetBlockRecord nextHash).BlockFile,
              (bc.BlockInfoDB.GetBlockRecord nextHash).BlockStartOffset,
              (bc.BlockInfoDB.GetBlockRecord nextHash).BlockEndOffset⟩ with
        | none => none
        | some nextBlock =>
          getBlocksLoop E bc start last fuel ((currentHeight + (2 ^ 32 - 1)) % 2 ^ 32)
            (bc.BlockInfoDB.GetBlockRecord nextHash).Header.PreviousHash (blocks ++ [nextBlock])
      else
        getBlocksLoop E bc start last fuel ((currentHeight + (2 ^ 32 - 1)) % 2 ^ 32)
          (bc.BlockInfoDB.GetBlockRecord nextHash).Header.PreviousHash blocks
    else some blocks

/-- GetBlocks, the loop running on `fuel`. -/
def GetBlocks (E : Ext) (bc : BlockChain) (fuel start last : Nat) : Option (List Block) :=
  match getBlocksLoop E bc start last fuel bc.Length (bc.LastBlock.Hash E) [] with
  | none => none
  | some blocks => some (reverseBlocks blocks)

/-- The loop `for currentHeight >= start` of GetHashes with `fuel`
iterations left: `none` is the end of the fuel. -/
def getHashesLoop (bc : BlockChain) (start last : Nat) :
    Nat → Nat → String → List String → Option (List String)
  | 0, _, _, _ => none
  | fuel + 1, currentHeight, nextHash, hashes =>
    if currentHeight ≥ start then
      getHashesLoop bc start last fuel ((currentHeight + (2 ^ 32 - 1)) % 2 ^ 32)
        (bc.BlockInfoDB.GetBlockRecord nextHash).Header.PreviousHash
        (if currentHeight ≤ last then hashes ++ [nextHash] else hashes)
    else some hashes

/-- GetHashes, the loop running on `fuel`. -/
def GetHashes (E : Ext) (bc : BlockChain) (fuel start last : Nat) : Option (List String) :=
  match getHashesLoop bc start last fuel bc.Length (bc.LastBlock.Hash E) [] with
  | none => none
  | some hashes => some (reverseHashes hashes)

end BlockChain

/-! ## Sizes and validation (`pkg/pro/constructors.go`, `pkg/block`, `pkg/validation.go`) -/

/-- The loop of SumOutputs: `r += v.Amount` on a uint32. -/
def Transaction.sumOutputsLoop : List TransactionOutput → Nat → Nat
  | [], r => r
  | v :: rest, r => Transaction.sumOutputsLoop rest ((r + v.Amount) % 2 ^ 32)

/-- Transaction.SumOutputs. -/
def Transaction.SumOutputs (tx : Transaction) : Nat :=
  Transaction.sumOutputsLoop tx.Outputs 0

/-- The first loop of `pro.SizeOfTransaction`: `unsafe.Sizeof` of a string
header is 16 bytes and of a uint32 is 4 bytes (on a 64-bit platform); the
sum is a uint32. -/
def pro.sizeOfInputs : List pro.TransactionInput → Nat → Nat
  | [], sz => sz
  | _ :: rest, sz =>
    pro.sizeOfInputs rest ((((sz + 16) % 2 ^ 32 + 16) % 2 ^ 32 + 4) % 2 ^ 32)

/-- The second loop of `pro.SizeOfTransaction`. -/
def pro.sizeOfOutputs : List pro.TransactionOutput → Nat → Nat
  | [], sz => sz
  | _ :: rest, sz => pro.sizeOfOutputs rest (((sz + 4) % 2 ^ 32 + 16) % 2 ^ 32)

/-- The function `pro.SizeOfTransaction`. -/
def pro.SizeOfTransaction (t : pro.Transaction) : Nat :=
  ((pro.sizeOfOutputs t.Outputs (pro.sizeOfInputs t.Inputs 0) + 4) % 2 ^ 32 + 4) % 2 ^ 32

/-- The function `pro.SizeOfHeader`: PreviousHash, Version, DifficultyTarget,
Nonce and Timestamp are counted. -/
def pro.SizeOfHeader (_h : pro.Header) : Nat :=
  (((((((((0 + 16) % 2 ^ 32) + 4) % 2 ^ 32) + 16) % 2 ^ 32) + 4) % 2 ^ 32) + 4) % 2 ^ 32

/-- The loop of `pro.SizeOfBlock`. -/
def pro.sizeOfTransactions : List pro.Transaction → Nat → Nat
  | [], sz => sz
  | t :: rest, sz => pro.sizeOfTransactions rest ((sz + pro.SizeOfTransaction t) % 2 ^ 32)

/-- The function `pro.SizeOfBlock`. -/
def pro.SizeOfBlock (b : pro.Block) : Nat :=
  (pro.sizeOfTransactions b.Transactions 0 + pro.SizeOfHeader b.Header) % 2 ^ 32

/-- Transaction.Size. -/
def Transaction.Size (tx : Transaction) : Nat := pro.SizeOfTransaction (EncodeTransaction tx)

/-- Block.Size. -/
def Block.Size (b : Block) : Nat := pro.SizeOfBlock (EncodeBlock b)

/-- Config of `pkg/config.go`: the field the validation reads. -/
structure pkg.Config where
  MaxBlockSize : Nat
deriving DecidableEq, Repr

/-- CheckBlockSyntax. -/
def CheckBlockSyntax (b : Block) : Bool :=
  match b.Transactions with
  | [] => false
  | tx :: _ => tx.IsCoinbase && decide (tx.SumOutputs > 0)

/-- CheckBlockSemantics: the body is `return true`, under the comment "This
function was removed so that students could implement it in
miner.CalculateNonce". -/
def CheckBlockSemantics (_b : Block) : Bool := true

/-- Node.CheckBlockConfiguration. -/
def CheckBlockConfiguration (config : pkg.Config) (b : Block) : Bool :=
  decide (b.Size ≤ config.MaxBlockSize)

/-- The loop of CheckTransactionSyntax over the outputs: `false` is the
early `return false`. -/
def checkOutputAmounts : List TransactionOutput → Bool
  | [] => true
  | txo :: rest => if txo.Amount ≤ 0 then false else checkOutputAmounts rest

/-- CheckTransactionSyntax. -/
def CheckTransactionSyntax (t : Transaction) : Bool :=
  if checkOutputAmounts t.Outputs then
    decide (t.Inputs.length > 0) && decide (t.Outputs.length > 0)
  else false

/-- Node.CheckTransactionSemantics: the body is `return false`. -/
def CheckTransactionSemantics (_tx : Transaction) : Bool := false

/-- Node.CheckTransactionConfiguration. -/
def CheckTransactionConfiguration (config : pkg.Config) (t : Transaction) : Bool :=
  decide (t.Size ≤ config.MaxBlockSize)

/-- The comparison `a < b` of two Go strings, byte by byte; the strings are
given by the codes of their characters, which are their bytes for the
hexadecimal strings that hashes and difficulty targets are. -/
def bytesLess : List Nat → List Nat → Bool
  | _, [] => false
  | [], _ :: _ => true
  | a :: as, b :: bs => decide (a < b) || (a == b && bytesLess as bs)

/-- The proof-of-work condition as the specification words it: the hash of
the block, compared as a byte string, is less than its difficulty
target. -/
def hashBelowTarget (E : Ext) (b : Block) : Bool :=
  bytesLess ((b.Hash E).data.map Char.toNat) (b.Header.DifficultyTarget.data.map Char.toNat)

/-! ## The transaction heap (`pkg/block/transactionheap.go`) -/

/-- HeapNode of `transactionheap.go`. -/
structure HeapNode where
  Priority : Nat
  Transaction : Transaction
deriving DecidableEq, Repr

/-- Heap.Less: whether the node at `i` has a larger priority than the node
at `j`; an index out of range (a panic in Go) gives `false`. -/
def Heap.Less (h : List HeapNode) (i j : Nat) : Bool :=
  match h.get? i, h.get? j with
  | some a, some b => decide (a.Priority > b.Priority)
  | _, _ => false

/-- Heap.Swap; an index out of range (a panic in Go) leaves the heap. -/
def Heap.Swap (h : List HeapNode) (i j : Nat) : List HeapNode :=
  match h.get? i, h.get? j with
  | some a, some b => (h.set i b).set j a
  | _, _ => h

/-- The function `up` of the Go library `container/heap`, on a Heap, with
`fuel` iterations left: the node at `j` moves up while it is `Less` than its
parent at `(j - 1) / 2`. -/
def heap.up : Nat → List HeapNode → Nat → Option (List HeapNode)
  | 0, _, _ => none
  | fuel + 1, h, j =>
    if (j - 1) / 2 = j ∨ Heap.Less h j ((j - 1) / 2) = false then some h
    else heap.up fuel (Heap.Swap h ((j - 1) / 2) j) ((j - 1) / 2)

/-- The function `down` of the Go library `container/heap`, on a Heap, with
`fuel` iterations left: the node at `i` moves down below the child that is
`Less` than the other while that child is `Less` than it. -/
def heap.down : Nat → List HeapNode → Nat → Nat → Option (List HeapNode)
  | 0, _, _, _ => none
  | fuel + 1, h, i, n =>
    if 2 * i + 1 ≥ n then some h
    else if Heap.Less h
        (if 2 * i + 2 < n ∧ Heap.Less h (2 * i + 2) (2 * i + 1) = true then 2 * i + 2
          else 2 * i + 1) i = false then some h
    else
      heap.down fuel
        (Heap.Swap h i
          (if 2 * i + 2 < n ∧ Heap.Less h (2 * i + 2) (2 * i + 1) = true then 2 * i + 2
            else 2 * i + 1))
        (if 2 * i + 2 < n ∧ Heap.Less h (2 * i + 2) (2 * i + 1) = true then 2 * i + 2
          else 2 * i + 1) n

/-- The loop `for i := n/2 - 1; i >= 0; i--` of `heap.Init`, `k` being the
number of indexes left. -/
def heap.initLoop : List HeapNode → Nat → Option (List HeapNode)
  | h, 0 => some h
  | h, k + 1 =>
    match heap.down (h.length + 1) h k h.length with
    | none => none
    | some h2 => heap.initLoop h2 k

/-- The function `Init` of the Go library `container/heap`. -/
def heap.Init (h : List HeapNode) : Option (List HeapNode) :=
  heap.initLoop h (h.length / 2)

/-- The function `Push` of the Go library `container/heap`: Heap.Push appends
the node and `up` moves it from the last index. -/
def heap.Push (h : List HeapNode) (x : HeapNode) : Option (List HeapNode) :=
  heap.up (h.length + 1) (h ++ [x]) h.length

/-- NewTransactionHeap: `heap.Init` of the nil slice. -/
def NewTransactionHeap : List HeapNode := []

/-- Heap.Add; `none` for `t` is the nil transaction. -/
def Heap.Add (h : List HeapNode) (p : Nat) (t : Option Transaction) :
    Option (List HeapNode) :=
  match t with
  | none => some h
  | some tx => heap.Push h ⟨p, tx⟩

/-- The loop of Heap.GetIndex, `i` being the index of the first node of the
list. -/
def Heap.getIndexLoop (E : Ext) (tHash : String) : List HeapNode → Nat → Nat × Bool
  | [], _ => (0, false)
  | v :: rest, i =>
    if v.Transaction.Hash E = tHash then (i, true)
    else Heap.getIndexLoop E tHash rest (i + 1)

/-- Heap.GetIndex. -/
def Heap.GetIndex (E : Ext) (h : List HeapNode) (t : Option Transaction) : Nat × Bool :=
  match t with
  | none => (0, false)
  | some tx => Heap.getIndexLoop E (tx.Hash E) h 0

/-- Heap.Has. -/
def Heap.Has (E : Ext) (h : List HeapNode) (t : Option Transaction) : Bool :=
  match t with
  | none => false
  | some tx => h.any (fun node => decide (node.Transaction.Hash E = tx.Hash E))

/-- The loop of Heap.Remove over `ts`, with the heap, the removed
transactions `r` and the uint32 `totalPriority` so far. At a nil transaction
the function returns the nil slice and the total, and `heap.Init` is not
reached; at the end of `ts` the heap goes through `heap.Init`. The outer
`none` is the end of the fuel of `heap.Init` or an index out of range. -/
def Heap.removeLoop (E : Ext) :
    List HeapNode → List (Option Transaction) → List Transaction → Nat →
      Option (List HeapNode × Option (List Transaction) × Nat)
  | h, [], r, totalPriority =>
    match heap.Init h with
    | none => none
    | some h2 => some (h2, some r, totalPriority)
  | h, none :: _, _, totalPriority => some (h, none, totalPriority)
  | h, some t :: rest, r, totalPriority =>
    if (Heap.GetIndex E h (some t)).2 then
      match h.get? (Heap.GetIndex E h (some t)).1 with
      | none => none
      | some node =>
        Heap.removeLoop E
          (Heap.Swap h (Heap.GetIndex E h (some t)).1 (h.length - 1)).dropLast rest
          (r ++ [t]) ((totalPriority + node.Priority) % 2 ^ 32)
    else Heap.removeLoop E h rest r totalPriority

/-- Heap.Remove: the heap left, the removed transactions (`none` is the nil
slice) and the total priority removed. -/
def Heap.Remove (E : Ext) (h : List HeapNode) (ts : List (Option Transaction)) :
    Option (List HeapNode × Option (List Transaction) × Nat) :=
  Heap.removeLoop E h ts [] 0

/-! ## The miner (`pkg/miner`) -/

/-- Config of `miner/config.go`; the difficulty is a byte string. -/
structure miner.Config where
  HasMiner : Bool
  Version : Nat
  DefineLockTime : Nat
  TransactionPoolCapacity : Nat
  PriorityLimit : Nat
  BlockSize : Nat
  NonceLimit : Nat
  InitialSubsidy : Nat
  SubsidyHalvingRate : Nat
  MaxHalvings : Nat
  InitialPOWDifficulty : List Nat
deriving DecidableEq, Repr

/-- TxPool of `transactionpool.go` (the mutex apart; the atomic counters are
their values). -/
structure miner.TxPool where
  CurrentPriority : Nat
  PriorityLimit : Nat
  TxQ : List HeapNode
  Count : Nat
  Capacity : Nat
deriving DecidableEq, Repr

/-- Miner of `miner.go`: the fields NewMiningPool and CalculateMintingReward
read. -/
structure miner.Miner where
  Config : miner.Config
  TxPool : miner.TxPool
  ChainLength : Nat
deriving DecidableEq, Repr

/-- NewTxPool. -/
def miner.NewTxPool (c : miner.Config) : miner.TxPool :=
  { CurrentPriority := 0
    PriorityLimit := c.PriorityLimit
    TxQ := NewTransactionHeap
    Count := 0
    Capacity := c.TransactionPoolCapacity }

/-- CalculatePriority: `none` for `t` is the nil transaction, the result
`none` the panic of the division by a size 0. -/
def miner.CalculatePriority (t : Option Transaction) (sumInputs : Nat) : Option Nat :=
  match t with
  | none => some 0
  | some tx =>
    if tx.Size = 0 then none
    else if (((sumInputs + (2 ^ 32 - tx.SumOutputs)) % 2 ^ 32) * 100) % 2 ^ 32 / tx.Size = 0 then
      some 1
    else some ((((sumInputs + (2 ^ 32 - tx.SumOutputs)) % 2 ^ 32) * 100) % 2 ^ 32 / tx.Size)

/-- TxPool.Add. -/
def miner.TxPool.Add (tp : miner.TxPool) (t : Option Transaction) (sumInputs : Nat) :
    Option miner.TxPool :=
  match t with
  | none => some tp
  | some tx =>
    if tp.Count ≥ tp.Capacity then some tp
    else
      match miner.CalculatePriority (some tx) sumInputs with
      | none => none
      | some pri =>
        match Heap.Add tp.TxQ pri (some tx) with
        | none => none
        | some q =>
          some { tp with
            CurrentPriority := (tp.CurrentPriority + pri) % 2 ^ 32
            TxQ := q
            Count := (tp.Count + 1) % 2 ^ 32 }

/-- TxPool.CheckTransactions. -/
def miner.TxPool.CheckTransactions (E : Ext) (tp : miner.TxPool)
    (txs : List (Option Transaction)) : Option miner.TxPool :=
  match Heap.Remove E tp.TxQ txs with
  | none => none
  | some (q, amtRem, totalPriority) =>
    some { tp with
      TxQ := q
      Count := (tp.Count + (2 ^ 32 - (amtRem.getD []).length % 2 ^ 32)) % 2 ^ 32
      CurrentPriority := (tp.CurrentPriority + (2 ^ 32 - totalPriority % 2 ^ 32)) % 2 ^ 32 }

/-- The loop of NewMiningPool over the heap slice, with the uint32 `blkSz`
and the transactions taken so far. -/
def miner.miningPoolLoop (blockSize : Nat) : List HeapNode → Nat → List Transaction →
    List Transaction
  | [], _, txs => txs
  | node :: rest, blkSz, txs =>
    if (blkSz + node.Transaction.Size) % 2 ^ 32 < blockSize then
      miner.miningPoolLoop blockSize rest ((blkSz + node.Transaction.Size) % 2 ^ 32)
        (txs ++ [node.Transaction])
    else txs

/-- NewMiningPool. -/
def miner.Miner.NewMiningPool (m : miner.Miner) : List Transaction :=
  miner.miningPoolLoop m.Config.BlockSize m.TxPool.TxQ 100 []

/-- The conversion `uint32(math.Pow(2, float64(halvings)))`: the power is
exact in a float64; up to 2^31 the conversion is exact, beyond it the Go
specification leaves the value to the implementation, and the Go compiler
on 64-bit platforms converts to an int64 and keeps the low 32 bits, which
are 0 for every power of two from 2^32 on. -/
def miner.powAsUint32 (halvings : Nat) : Nat := 2 ^ halvings % 2 ^ 32

/-- CalculateMintingReward: `none` is the panic of an integer division by
zero. -/
def miner.Miner.CalculateMintingReward (m : miner.Miner) : Option Nat :=
  if m.ChainLength ≥ (m.Config.SubsidyHalvingRate * m.Config.MaxHalvings) % 2 ^ 32 then some 0
  else if m.Config.SubsidyHalvingRate = 0 then none
  else if miner.powAsUint32 (m.ChainLength / m.Config.SubsidyHalvingRate) = 0 then none
  else
    some (m.Config.InitialSubsidy
      / miner.powAsUint32 (m.ChainLength / m.Config.SubsidyHalvingRate))

/-- A call on a transaction pool: TxPool.Add or TxPool.CheckTransactions. -/
inductive miner.PoolCall where
  | add (t : Option Transaction) (sumInputs : Nat)
  | check (txs : List (Option Transaction))
deriving DecidableEq, Repr

/-- A sequence of calls on a transaction pool. -/
def miner.TxPool.calls (E : Ext) : miner.TxPool → List miner.PoolCall → Option miner.TxPool
  | tp, [] => some tp
  | tp, miner.PoolCall.add t sumInputs :: rest =>
    match miner.TxPool.Add tp t sumInputs with
    | none => none
    | some tp2 => miner.TxPool.calls E tp2 rest
  | tp, miner.PoolCall.check txs :: rest =>
    match miner.TxPool.CheckTransactions E tp txs with
    | none => none
    | some tp2 => miner.TxPool.calls E tp2 rest

/-- The sum of the priorities of the nodes of a heap. -/
def Heap.prioritySum (h : List HeapNode) : Nat := (h.map (fun node => node.Priority)).sum

/-- The call is an Add of a transaction whose size fits a uint32, or a
CheckTransactions of a list without a nil transaction. -/
def miner.PoolCall.regular : miner.PoolCall → Bool
  | miner.PoolCall.add none _ => true
  | miner.PoolCall.add (some tx) _ =>
    decide (36 * tx.Inputs.length + 20 * tx.Outputs.length + 8 < 2 ^ 32)
  | miner.PoolCall.check txs => txs.all (fun t => t.isSome)

/-! ## A concrete instance of the external libraries

The instance below is used to run the code on concrete chains. Its hashes
render the hashed value as text, so that the sample transactions and headers
used below, which differ pairwise, have different hashes; its wire format
writes a number as one cell, a string and a sequence behind their length. -/

namespace Sample

/-- Rendering of a transaction input. -/
def showInput (txi : TransactionInput) : String :=
  "<" ++ txi.ReferenceTransactionHash ++ ":" ++ toString txi.OutputIndex

/-- Rendering of a transaction output. -/
def showOutput (txo : TransactionOutput) : String :=
  ">" ++ toString txo.Amount ++ ":" ++ txo.LockingScript

/-- The sample transaction hash. -/
def txHash (tx : Transaction) : String :=
  "t" ++ toString tx.Version ++ "." ++ toString tx.LockTime ++
    String.join (tx.Inputs.map showInput) ++ String.join (tx.Outputs.map showOutput)

/-- The sample header hash. -/
def headerHash (h : Header) : String :=
  "h" ++ toString h.Nonce ++ "^" ++ h.PreviousHash

/-- Wire format of a string. -/
def encStr (s : String) : List Nat := s.length :: s.data.map Char.toNat

/-- Wire format of a sequence. -/
def encList {α : Type} (f : α → List Nat) (l : List α) : List Nat :=
  l.length :: (l.map f).flatten

/-- Reading a number. -/
def decNat : List Nat → Option (Nat × List Nat)
  | [] => none
  | n :: r => some (n, r)

/-- Reading a string. -/
def decStr : List Nat → Option (String × List Nat)
  | [] => none
  | n :: r =>
    if r.length < n then none
    else some (String.mk ((r.take n).map Char.ofNat), r.drop n)

/-- Reading `k` items. -/
def decMany {α : Type} (p : List Nat → Option (α × List Nat)) :
    Nat → List Nat → Option (List α × List Nat)
  | 0, bs => some ([], bs)
  | k + 1, bs =>
    match p bs with
    | none => none
    | some (a, r) =>
      match decMany p k r with
      | none => none
      | some (l, r2) => some (a :: l, r2)

/-- Reading a sequence. -/
def decList {α : Type} (p : List Nat → Option (α × List Nat)) (bs : List Nat) :
    Option (List α × List Nat) :=
  match bs with
  | [] => none
  | n :: r => decMany p n r

/-- Wire format of a transaction input. -/
def encInput (txi : TransactionInput) : List Nat :=
  encStr txi.ReferenceTransactionHash ++ [txi.OutputIndex] ++ encStr txi.UnlockingScript

/-- Reading a transaction input. -/
def decInput (bs : List Nat) : Option (TransactionInput × List Nat) := do
  let (h, r1) ← decStr bs
  let (i, r2) ← decNat r1
  let (u, r3) ← decStr r2
  pure (⟨h, i, u⟩, r3)

/-- Wire format of a transaction output. -/
def encOutput (txo : TransactionOutput) : List Nat :=
  [txo.Amount] ++ encStr txo.LockingScript

/-- Reading a transaction output. -/
def decOutput (bs : List Nat) : Option (TransactionOutput × List Nat) := do
  let (a, r1) ← decNat bs
  let (l, r2) ← decStr r1
  pure (⟨a, l⟩, r2)

/-- Wire format of a transaction. -/
def encTx (tx : Transaction) : List Nat :=
  [tx.Version] ++ encList encInput tx.Inputs ++ encList encOutput tx.Outputs ++ [tx.LockTime]

/-- Reading a transaction. -/
def decTx (bs : List Nat) : Option (Transaction × List Nat) := do
  let (v, r1) ← decNat bs
  let (ins, r2) ← decList decInput r1
  let (outs, r3) ← decList decOutput r2
  let (lt, r4) ← decNat r3
  pure (⟨v, ins, outs, lt⟩, r4)

/-- Wire format of a header. -/
def encHeader (h : Header) : List Nat :=
  [h.Version] ++ encStr h.PreviousHash ++ encStr h.MerkleRoot ++ encStr h.DifficultyTarget ++
    [h.Nonce] ++ [h.Timestamp]

/-- Reading a header. -/
def decHeader (bs : List Nat) : Option (Header × List Nat) := do
  let (v, r1) ← decNat bs
  let (p, r2) ← decStr r1
  let (m, r3) ← decStr r2
  let (d, r4) ← decStr r3
  let (n, r5) ← decNat r4
  let (t, r6) ← decNat r5
  pure (⟨v, p, m, d, n, t⟩, r6)

/-- The sample block encoding. -/
def marshalBlock (b : Block) : List Nat :=
  encHeader b.Header ++ encList encTx b.Transactions

/-- The sample block decoding; undecodable bytes give the zero block. -/
def unmarshalBlock (bs : List Nat) : Block :=
  match decHeader bs with
  | none => ⟨⟨0, "", "", "", 0, 0⟩, []⟩
  | some (h, r) =>
    match decList decTx r with
    | none => ⟨h, []⟩
    | some (txs, _) => ⟨h, txs⟩

/-- The sample undo-block encoding. -/
def marshalUndoBlock (ub : UndoBlock) : List Nat :=
  encList encStr ub.TransactionInputHashes ++ encList (fun n => [n]) ub.OutputIndexes ++
    encList (fun n => [n]) ub.Amounts ++ encList encStr ub.LockingScripts

/-- Reading an undo block. -/
def decUndoBlock (bs : List Nat) : Option (UndoBlock × List Nat) := do
  let (h, r1) ← decList decStr bs
  let (o, r2) ← decList decNat r1
  let (a, r3) ← decList decNat r2
  let (l, r4) ← decList decStr r3
  pure (⟨h, o, a, l⟩, r4)

/-- The sample undo-block decoding; undecodable bytes give the zero undo
block. -/
def unmarshalUndoBlock (bs : List Nat) : UndoBlock :=
  match decUndoBlock bs with
  | none => ⟨[], [], [], []⟩
  | some (ub, _) => ub

/-- The sample instance of the external libraries. -/
def ext : Ext :=
  { txHash := txHash
    headerHash := headerHash
    marshalBlock := marshalBlock
    unmarshalBlock := unmarshalBlock
    marshalUndoBlock := marshalUndoBlock
    unmarshalUndoBlock := unmarshalUndoBlock }

/-- The sample configuration: subsidy 50 to "PK", a cache of 100 coins,
segments of 10000 bytes. -/
def config : Config :=
  { GenesisPublicKey := "PK"
    InitialSubsidy := 50
    ChainWriterConfig := ⟨".txt", "data", "block", 10000, "undo", 10000⟩
    MainCacheCapacity := 100 }

/-! ### Sample transactions, blocks and chains -/

/-- The genesis transaction of the sample configuration. -/
def genesisTx : Transaction := ⟨0, [], [⟨50, "PK"⟩], 0⟩

/-- The hash of the genesis block of the sample configuration. -/
def genesisHash : String := (BlockChain.GenesisBlock config).Hash ext

/-- A transaction spending output 0 of `prevTx` into one output of 50 for
`pk`. -/
def spendTx (prevTx : Transaction) (pk : String) : Transaction :=
  ⟨0, [⟨txHash prevTx, 0, ""⟩], [⟨50, pk⟩], 0⟩

/-- A coinbase of 50 for `pk`; `n` tells coinbases apart. -/
def coinbaseTx (n : Nat) (pk : String) : Transaction := ⟨0, [], [⟨50, pk⟩], n⟩

/-- A block on top of the block of hash `prev`. -/
def mkBlock (prev : String) (nonce : Nat) (txs : List Transaction) : Block :=
  ⟨⟨0, prev, "", "", nonce, 0⟩, txs⟩

/-- The sample chain after `New` and the HandleBlock calls on `blocks`. -/
def chainAfter (blocks : List Block) : Option BlockChain :=
  match BlockChain.New ext config with
  | none => none
  | some bc => BlockChain.handleBlocks ext bc blocks

/-- Spends the genesis coin to "PK1". -/
def tx1 : Transaction := spendTx genesisTx "PK1"

/-- Block of height 2 on the genesis block. -/
def block1 : Block := mkBlock genesisHash 1 [tx1]

/-- Spends the coin of `tx1` to "PK2". -/
def tx2 : Transaction := spendTx tx1 "PK2"

/-- Block of height 3 on `block1`. -/
def block2 : Block := mkBlock (block1.Hash ext) 2 [tx2]

/-- A coinbase of 50 for "PK3": the transaction of the first fork block. -/
def forkTx2 : Transaction := coinbaseTx 12 "PK3"

/-- Fork block of height 3 on `block1`. -/
def forkBlock2 : Block := mkBlock (block1.Hash ext) 12 [forkTx2]

/-- A coinbase of 50 for "PK4": the transaction of the second fork block. -/
def forkTx3 : Transaction := coinbaseTx 13 "PK4"

/-- Fork block of height 4 on `forkBlock2`. -/
def forkBlock3 : Block := mkBlock (forkBlock2.Hash ext) 13 [forkTx3]

/-- A chain of `k` blocks on top of the block of hash `prev`, the block of
nonce `n` holding one transaction that spends the coin of `prevTx`. -/
def spendChain : Nat → Nat → String → Transaction → List Block
  | 0, _, _, _ => []
  | k + 1, n, prev, prevTx =>
    (mkBlock prev n [spendTx prevTx ("K" ++ toString n)]) ::
      spendChain k (n + 1) ((mkBlock prev n [spendTx prevTx ("K" ++ toString n)]).Hash ext)
        (spendTx prevTx ("K" ++ toString n))

/-- A chain of `k` coinbase-only blocks on top of the block of hash `prev`. -/
def coinbaseChain (pk : String) : Nat → Nat → String → List Block
  | 0, _, _ => []
  | k + 1, n, prev =>
    (mkBlock prev n [coinbaseTx n pk]) ::
      coinbaseChain pk k (n + 1) ((mkBlock prev n [coinbaseTx n pk]).Hash ext)

/-- The hash of the last block of a list (of the genesis block for the empty
list) and the transaction of that block. -/
def tipOf : List Block → String × Transaction
  | [] => (genesisHash, genesisTx)
  | [b] => (b.Hash ext, b.Transactions.headD genesisTx)
  | _ :: b :: rest => tipOf (b :: rest)

/-- The zero chain state, the value of `stateAfter` when a call panics. -/
def zeroChain : BlockChain :=
  { Length := 0
    LastBlock := ⟨⟨0, "", "", "", 0, 0⟩, []⟩
    LastHash := ""
    UnsafeHashes := []
    maxHashes := 0
    BlockInfoDB := ⟨[]⟩
    ChainWriter := ChainWriter.New ⟨"", "", "", 0, "", 0⟩
    CoinDB := CoinDatabase.New 0 }

/-- The chain state of `chainAfter`. -/
def stateAfter (blocks : List Block) : BlockChain :=
  (chainAfter blocks).getD zeroChain

/-- Six coinbase-only blocks on the genesis block, then six coinbase-only
blocks of a second branch on the genesis block. -/
def deepBlocks : List Block :=
  coinbaseChain "A" 6 1 genesisHash ++ coinbaseChain "B" 6 11 genesisHash

/-- The seventh block of the second branch: its height is 8. -/
def deepTip : Block :=
  mkBlock (tipOf (coinbaseChain "B" 6 11 genesisHash)).1 17 [coinbaseTx 17 "B"]

/-- The chain and the height after steps 2 to 6 of HandleBlock on
`deepTip`. -/
def deepPersisted : BlockChain × Nat :=
  (BlockChain.persistBlock ext (stateAfter deepBlocks) deepTip).getD (zeroChain, 0)

/-- The undo block of `block1` on the chain made by `New`. -/
def undo1 : UndoBlock := ⟨[txHash genesisTx], [0], [50], ["PK"]⟩

/-- The coin database after storing the genesis transaction and `tx1`,
flushing the cache, and undoing `block1`. -/
def revertedCoinDB : Option CoinDatabase :=
  match CoinDatabase.StoreBlock ext (CoinDatabase.New 100) [genesisTx] with
  | none => none
  | some c0 =>
    match CoinDatabase.StoreBlock ext c0 [tx1] with
    | none => none
    | some c1 =>
      match CoinDatabase.FlushMainCache c1 with
      | none => none
      | some c2 => CoinDatabase.UndoCoins ext c2 [block1] [undo1]

/-- A transaction whose two inputs both reference the genesis coin. -/
def doubleSpendTx : Transaction :=
  ⟨0, [⟨txHash genesisTx, 0, ""⟩, ⟨txHash genesisTx, 0, ""⟩], [⟨50, "A"⟩, ⟨50, "B"⟩], 0⟩

/-- A block on the genesis block holding `doubleSpendTx`. -/
def doubleSpendBlock : Block := mkBlock genesisHash 1 [doubleSpendTx]

/-- The blocks of the reorganization sample: `block1` and `block2` are
appended, `forkBlock2` is retained; `forkBlock3`, handled next, has height
4. -/
def reorgBlocks : List Block := [block1, block2, forkBlock2]

/-- Five blocks on the genesis block, each spending the coin of the one
before. -/
def longBlocks : List Block := spendChain 5 1 genesisHash genesisTx

/-- Fork block of height 6 on the fourth block of `longBlocks`, holding one
coinbase. -/
def longFork1 : Block := mkBlock (tipOf (longBlocks.take 4)).1 21 [coinbaseTx 21 "F1"]

/-- Fork block of height 7 on `longFork1`, holding one coinbase. -/
def longFork2 : Block := mkBlock (longFork1.Hash ext) 22 [coinbaseTx 22 "F2"]

/-- A block on the genesis block whose only transaction is the genesis
transaction again: one coinbase of 50 for "PK". -/
def sameCoinbaseBlock : Block := mkBlock genesisHash 1 [genesisTx]

/-- A block on the genesis block with one coinbase of 50 for "PK" that
differs from the genesis transaction by its lock time. -/
def coinbaseBlock : Block := mkBlock genesisHash 1 [coinbaseTx 1 "PK"]

/-- A block on `coinbaseBlock` spending the genesis coin into 50 for
"PK2". -/
def spendBlock : Block := mkBlock (coinbaseBlock.Hash ext) 2 [spendTx genesisTx "PK2"]

/-- The coin database of capacity 2 holding the genesis coin. -/
def smallCoinDB : CoinDatabase :=
  (CoinDatabase.StoreBlock ext (CoinDatabase.New 2) [genesisTx]).getD (CoinDatabase.New 2)

/-- A block body that makes the cache of `smallCoinDB` flush twice: `tx1`
spends the genesis coin, and a coinbase pays two outputs to "A". -/
def flushingTxs : List Transaction := [tx1, ⟨0, [], [⟨30, "A"⟩, ⟨20, "A"⟩], 7⟩]

/-- A block on the genesis block whose transaction spends a coin that does
not exist. -/
def invalidBlock : Block := mkBlock genesisHash 1 [spendTx (coinbaseTx 99 "X") "Y"]

/-- A second block on the genesis block, holding one coinbase for "B". -/
def siblingBlock : Block := mkBlock genesisHash 11 [coinbaseTx 11 "B"]

/-- StoreBlock calls in succession, one per block body. -/
def storeBlocks : CoinDatabase → List (List Transaction) → Option CoinDatabase
  | c, [] => some c
  | c, txs :: rest =>
    match CoinDatabase.StoreBlock ext c txs with
    | none => none
    | some c1 => storeBlocks c1 rest

/-- The coin database of capacity 100 after the genesis transaction and
`tx1`: the cache holds the genesis coin marked spent and the coin of `tx1`. -/
def spentCacheDB : CoinDatabase :=
  (storeBlocks (CoinDatabase.New 100) [[genesisTx], [tx1]]).getD (CoinDatabase.New 100)

/-- Three coinbases of one output each, for "A", "B" and "C". -/
def threeCoinbases : List (List Transaction) :=
  [[coinbaseTx 1 "A"], [coinbaseTx 2 "B"], [coinbaseTx 3 "C"]]

/-- The coin database of capacity 2 after the first two of the three
coinbases. -/
def twoCoinbaseDB : CoinDatabase :=
  (storeBlocks (CoinDatabase.New 2) (threeCoinbases.take 2)).getD (CoinDatabase.New 2)

/-- The coin database of capacity 2 after the three coinbases stored in
succession. -/
def threeCoinbaseDB : CoinDatabase :=
  (storeBlocks (CoinDatabase.New 2) threeCoinbases).getD (CoinDatabase.New 2)

/-- The coin database of capacity 100 after StoreBlock of the genesis
transaction, StoreBlock of `tx1`, UndoCoins of `block1` with its undo block
and StoreBlock of `tx1` again: the genesis coin is marked spent in the cache
and its coin record lists output index 0 twice. -/
def respentCoinDB : Option CoinDatabase :=
  match storeBlocks (CoinDatabase.New 100) [[genesisTx], [tx1]] with
  | none => none
  | some c1 =>
    match CoinDatabase.UndoCoins ext c1 [block1] [undo1] with
    | none => none
    | some c2 => CoinDatabase.StoreBlock ext c2 [tx1]

/-- The sample configuration with block files of at most 60 bytes. -/
def segmentConfig : Config :=
  { GenesisPublicKey := "PK"
    InitialSubsidy := 50
    ChainWriterConfig := ⟨".txt", "data", "block", 60, "undo", 10000⟩
    MainCacheCapacity := 100 }

/-- The chain on `segmentConfig` after `New` and the HandleBlock calls on
`blocks`; the zero chain when a call panics. -/
def segmentChain (blocks : List Block) : BlockChain :=
  match BlockChain.New ext segmentConfig with
  | none => zeroChain
  | some bc => (BlockChain.handleBlocks ext bc blocks).getD zeroChain

/-- A toy instance of the hash libraries: the decoder reads the characters
of the string, the hash writes them back between brackets. -/
def hashExt : HashExt :=
  { decodeHex := fun s => s.data.map Char.toNat
    hash := fun bytes => "<" ++ String.mk (bytes.map Char.ofNat) ++ ">" }

/-- The blocks of the three coinbases of `threeCoinbases`, each on the
genesis block. -/
def threeCoinbaseBlocks : List Block :=
  [mkBlock genesisHash 1 [coinbaseTx 1 "A"], mkBlock genesisHash 2 [coinbaseTx 2 "B"],
    mkBlock genesisHash 3 [coinbaseTx 3 "C"]]

/-- Spends the coin of `tx2` to "PK3". -/
def tx3 : Transaction := spendTx tx2 "PK3"

/-- Block of height 4 on `block2`. -/
def block3 : Block := mkBlock (block2.Hash ext) 3 [tx3]

/-- Three coinbase-only blocks in a row on top of `block3`. -/
def upperBlock1 : Block := mkBlock (block3.Hash ext) 4 [coinbaseTx 4 "O"]

/-- The block on `upperBlock1`. -/
def upperBlock2 : Block := mkBlock (upperBlock1.Hash ext) 5 [coinbaseTx 5 "O"]

/-- The block on `upperBlock2`. -/
def upperBlock3 : Block := mkBlock (upperBlock2.Hash ext) 6 [coinbaseTx 6 "O"]

/-- A run in which `block2`, `block3` and `upperBlock1` arrive before their
ancestor `block1`, and `block2` and `block3` arrive a second time after
it. -/
def outOfOrderBlocks : List Block :=
  [block2, block3, upperBlock1, block1, block2, block3, upperBlock2, upperBlock3]

/-- The undo block of `block2`: the coin of `tx1`. -/
def undo2 : UndoBlock := ⟨[txHash tx1], [0], [50], ["PK1"]⟩

/-- The coin database of capacity 100 after StoreBlock of the genesis
transaction, of `tx1` and of `tx2`. -/
def twoSpendsDB : CoinDatabase :=
  (storeBlocks (CoinDatabase.New 100) [[genesisTx], [tx1], [tx2]]).getD (CoinDatabase.New 100)

/-- A coin database whose store holds, under "hA", a record of output 1
alone, and whose mainCache holds the spent coin 0 of "hB", which has no
record. -/
def partialDB : CoinDatabase :=
  { db := [("hA", ⟨0, [1], [7], ["X"]⟩)]
    mainCache := [(⟨"hB", 0⟩, ⟨⟨5, "Y"⟩, true⟩)]
    mainCacheSize := 1
    mainCacheCapacity := 100 }

/-- An undo block restoring output 0 of "hA", output 0 of "hB" and output 2
of "hA". -/
def mixedUndo : UndoBlock := ⟨["hA", "hB", "hA"], [0, 0, 2], [3, 5, 9], ["P", "Y", "Q"]⟩

/-- A block of one coinbase, whose hash is neither "hA" nor "hB". -/
def loneBlock : Block := mkBlock "" 0 [coinbaseTx 9 "Z"]

/-- A block on the genesis block whose only transaction is a coinbase with
two outputs of 2^31 each. -/
def wrapBlock : Block :=
  mkBlock genesisHash 7 [⟨0, [], [⟨2147483648, "PK"⟩, ⟨2147483648, "PK"⟩], 0⟩]

/-- A block on the genesis block without transactions. -/
def emptyBlock : Block := mkBlock genesisHash 8 []

/-- The default configuration of the node: MaxBlockSize. -/
def nodeConfig : pkg.Config := ⟨10000000⟩

/-- A block on the genesis block with a coinbase of 50 for "M" and `tx1`,
which spends the genesis coin. -/
def minedBlock : Block := mkBlock genesisHash 9 [coinbaseTx 21 "M", tx1]

/-- The block `minedBlock` with the difficulty target "00ff". -/
def targetBlock : Block := ⟨⟨0, genesisHash, "", "00ff", 9, 0⟩, [coinbaseTx 21 "M", tx1]⟩

/-- The default configuration of the miner; the difficulty, computed by
`utils.CalcPOWD`, is left empty. -/
def minerConfig : miner.Config :=
  { HasMiner := true
    Version := 0
    DefineLockTime := 0
    TransactionPoolCapacity := 50
    PriorityLimit := 10
    BlockSize := 1000
    NonceLimit := 1048576
    InitialSubsidy := 50
    SubsidyHalvingRate := 10
    MaxHalvings := 10
    InitialPOWDifficulty := [] }

/-- A transaction with eight inputs, of the outputs of the transaction
`tag`, and one output of `amount` for "M": its size is 316. -/
def wideTx (tag : String) (amount : Nat) : Transaction :=
  ⟨0, (List.range 8).map (fun i => ⟨tag, i, ""⟩), [⟨amount, "M"⟩], 0⟩

/-- The pool of the default configuration after Add of three transactions of
fees 32, 19 and 30, that is of priorities 10, 6 and 9. -/
def rankedPool : Option miner.TxPool :=
  miner.TxPool.calls ext (miner.NewTxPool minerConfig)
    [miner.PoolCall.add (some (wideTx "a" 50)) 82,
      miner.PoolCall.add (some (wideTx "b" 50)) 69,
      miner.PoolCall.add (some (wideTx "c" 50)) 80]

/-- The miner of the default configuration with the pool `rankedPool`. -/
def rankedMiner : miner.Miner :=
  { Config := minerConfig
    TxPool := rankedPool.getD (miner.NewTxPool minerConfig)
    ChainLength := 1 }

/-- Ten coinbase transactions that differ in their lock time. -/
def tenTransactions : List Transaction := (List.range 10).map (fun i => coinbaseTx i "O")

/-- Add of each of `tenTransactions`, with inputs summing to 60. -/
def tenAdds : List miner.PoolCall :=
  tenTransactions.map (fun t => miner.PoolCall.add (some t) 60)

/-- The default pool after `tenAdds`. -/
def tenPool : miner.TxPool :=
  (miner.TxPool.calls ext (miner.NewTxPool minerConfig) tenAdds).getD
    (miner.NewTxPool minerConfig)

/-- The default configuration of the miner with a halving at every block and
64 halvings. -/
def halvingConfig : miner.Config :=
  { minerConfig with SubsidyHalvingRate := 1, MaxHalvings := 64 }

/-- The default configuration of the miner with SubsidyHalvingRate and
MaxHalvings of 65536, whose product is 2^32. -/
def wideConfig : miner.Config :=
  { minerConfig with SubsidyHalvingRate := 65536, MaxHalvings := 65536 }

/-- The chain of the reorganization sample after steps 2 to 6 of
HandleBlock on `forkBlock3`: the state `handleFork` starts from. -/
def forkState : BlockChain :=
  ((BlockChain.persistBlock ext (stateAfter reorgBlocks) forkBlock3).map (fun p => p.1)).getD
    zeroChain

end Sample

/-! ## Specification predicates -/

/-- An input resolves to an unspent coin: either the cache holds its locator
with `IsSpent = false`, or the cache does not hold it and a coin record is
stored under its reference transaction hash whose output indexes contain its
output index. -/
def CoinDatabase.resolvesUnspent (c : CoinDatabase) (txi : TransactionInput) : Prop :=
  (∃ coin, kvGet c.mainCache (CoinDatabase.makeCoinLocator txi) = some coin ∧
      coin.IsSpent = false) ∨
  (kvGet c.mainCache (CoinDatabase.makeCoinLocator txi) = none ∧
    ∃ cr, kvGet c.db txi.ReferenceTransactionHash = some cr ∧
      txi.OutputIndex ∈ cr.OutputIndexes)

/-- The three vectors of a coin record have the same length. -/
def CoinRecord.Aligned (r : CoinRecord) : Prop :=
  r.Amounts.length = r.OutputIndexes.length ∧ r.LockingScripts.length = r.OutputIndexes.length

/-- Every coin record of the persistent store is aligned. -/
def CoinDatabase.AlignedDB (c : CoinDatabase) : Prop :=
  ∀ kv ∈ c.db, kv.2.Aligned

/-- No two transactions of the list with different outputs have the same
hash (for SHA-256: no collision among the transactions of the block). -/
def HashesAgree (E : Ext) (txs : List Transaction) : Prop :=
  ∀ t1 ∈ txs, ∀ t2 ∈ txs, t1.Hash E = t2.Hash E → t1.Outputs = t2.Outputs

/-- The hash of the parent of the block of hash `h`, as the block-info
database records it. -/
def BlockChain.parentHash (bc : BlockChain) (h : String) : String :=
  (bc.BlockInfoDB.GetBlockRecord h).Header.PreviousHash

/-! ## Balances without wrap-around -/

/-- The sum of the amounts standing at the positions of the locking scripts
equal to `pk`. -/
def sumWhere (pk : String) : List String → List Nat → Nat
  | s :: ss, a :: as => (if s = pk then a else 0) + sumWhere pk ss as
  | _, _ => 0

/-- What a coin record adds to the balance of `pk`, uint32 wrap-around
apart. -/
def recordSum (pk : String) (r : CoinRecord) : Nat := sumWhere pk r.LockingScripts r.Amounts

/-- What the store adds to the balance of `pk`, uint32 wrap-around apart. -/
def dbSum (pk : String) (db : List (String × CoinRecord)) : Nat :=
  (db.map (fun kv => recordSum pk kv.2)).sum

/-- The amount at the first position of output index `idx` when the locking
script there is `pk`, and 0 otherwise. -/
def valAt (pk : String) : List Nat → List Nat → List String → Nat → Nat
  | o :: os, a :: as, s :: ss, idx =>
    if o = idx then (if s = pk then a else 0) else valAt pk os as ss idx
  | _, _, _, _ => 0

/-- What the coin of output index `idx` adds to the balance of `pk` in a
coin record. -/
def coinValue (pk : String) (r : CoinRecord) (idx : Nat) : Nat :=
  valAt pk r.OutputIndexes r.Amounts r.LockingScripts idx

/-- What the spent entries of a cache add to the balance of `pk` in the
records they are removed from by a flush that has already collected
`updated`. -/
def pendingIn (pk : String) (db updated : List (String × CoinRecord)) :
    List (CoinLocator × Coin) → Nat
  | [] => 0
  | (cl, coin) :: rest =>
    (if coin.IsSpent then
        coinValue pk (CoinDatabase.flushLookup db updated cl.ReferenceTransactionHash)
          cl.OutputIndex
      else 0) + pendingIn pk db updated rest

/-- The part of the stored balance of `pk` that belongs to coins marked
spent in the cache and not flushed yet. -/
def CoinDatabase.pending (pk : String) (c : CoinDatabase) : Nat :=
  pendingIn pk c.db [] c.mainCache

/-- The balance of `pk` in the store as a flush that has collected `updated`
will leave it: a record of the store counts through its collected
version. -/
def overlaySum (pk : String) (db updated : List (String × CoinRecord)) : Nat :=
  (db.map (fun kv => recordSum pk ((kvGet updated kv.1).getD kv.2))).sum

/-- The coin database has distinct keys in the store and in the cache (as a
LevelDB store and a Go map have) and aligned records. -/
def CoinDatabase.WellFormed (c : CoinDatabase) : Prop :=
  (c.db.map Prod.fst).Nodup ∧ (c.mainCache.map Prod.fst).Nodup ∧ c.AlignedDB

/-- The input references an unspent coin of the cache that its coin record
still lists with the same amount and locking script. -/
def CoinDatabase.inputReady (c : CoinDatabase) (txi : TransactionInput) : Bool :=
  match kvGet c.mainCache (CoinDatabase.makeCoinLocator txi) with
  | some coin =>
    !coin.IsSpent &&
      decide (CoinDatabase.GetCoin { c with mainCache := [] } (CoinDatabase.makeCoinLocator txi)
        = some (some ⟨coin.TransactionOutput, false⟩))
  | none => false

/-- The amount of the coin that GetCoin returns for the input when its
locking script is `pk`, and 0 otherwise. -/
def CoinDatabase.inputValue (pk : String) (c : CoinDatabase) (txi : TransactionInput) : Nat :=
  match CoinDatabase.GetCoin c (CoinDatabase.makeCoinLocator txi) with
  | some (some coin) =>
    if coin.TransactionOutput.LockingScript = pk then coin.TransactionOutput.Amount else 0
  | _ => 0

/-- The sum of the amounts of the coins referenced by the inputs of the
transactions whose locking script is `pk`. -/
def CoinDatabase.inputSum (pk : String) (c : CoinDatabase) (txs : List Transaction) : Nat :=
  ((txs.flatMap (fun tx => tx.Inputs)).map (CoinDatabase.inputValue pk c)).sum

/-- The sum of the amounts of the outputs of a transaction whose locking
script is `pk`. -/
def txOutputSum (pk : String) (tx : Transaction) : Nat :=
  ((tx.Outputs.filter (fun txo => decide (txo.LockingScript = pk))).map
    (fun txo => txo.Amount)).sum

/-- The sum of the amounts of the outputs of the transactions whose locking
script is `pk`. -/
def outputSum (pk : String) (txs : List Transaction) : Nat :=
  (txs.map (txOutputSum pk)).sum

/-- No entry of the cache whose transaction hash is in `fresh` is spent. -/
def CoinDatabase.FreshUnspent (fresh : List String) (c : CoinDatabase) : Prop :=
  ∀ e ∈ c.mainCache, e.1.ReferenceTransactionHash ∈ fresh → e.2.IsSpent = false

/-- Every block of the list has as PreviousHash the hash of the block before
it, the first one the hash `h`. -/
def BlockChain.linked (E : Ext) : String → List Block → Prop
  | _, [] => True
  | h, b :: rest => b.Header.PreviousHash = h ∧ BlockChain.linked E (b.Hash E) rest

/-- Every block of the list passes ValidateBlock at the time HandleBlock
receives it, the blocks being handled in order. -/
def BlockChain.validWhenHandled (E : Ext) : BlockChain → List Block → Bool
  | _, [] => true
  | bc, b :: rest =>
    CoinDatabase.ValidateBlock bc.CoinDB b.Transactions &&
      (match BlockChain.HandleBlock E bc b with
        | none => true
        | some bc2 => BlockChain.validWhenHandled E bc2 rest)

/-- The part of GetCoin that reads the coin of output index `outputIndex`
from a coin record: `some none` is the nil coin, `none` a panic. -/
def CoinDatabase.coinOfRecord (cr : CoinRecord) (outputIndex : Nat) : Option (Option Coin) :=
  let index := CoinDatabase.indexOf cr.OutputIndexes outputIndex
  if index < 0 then some none
  else
    match cr.Amounts.get? index.toNat, cr.LockingScripts.get? index.toNat with
    | some a, some l => some (some ⟨⟨a, l⟩, false⟩)
    | _, _ => none

/-- The name WriteBlock gives the block file of number `n`. -/
def ChainWriter.blockFile (cw : ChainWriter) (n : Nat) : String :=
  cw.DataDirectory ++ "/" ++ cw.BlockFileName ++ "_" ++ toString n ++ cw.FileExtension

/-- The name WriteUndoBlock gives the undo file of number `n`. -/
def ChainWriter.undoFile (cw : ChainWriter) (n : Nat) : String :=
  cw.DataDirectory ++ "/" ++ cw.UndoFileName ++ "_" ++ toString n ++ cw.FileExtension

/-- No block file is an undo file. -/
def ChainWriter.SeparateLogs (cw : ChainWriter) : Prop :=
  ∀ n m, cw.blockFile n ≠ cw.undoFile m

/-- The block log agrees with the counters of the writer: the current block
file holds `CurrentBlockOffset` bytes (none when it does not exist yet), the
offset is at most 2^31, and no block file of a higher number exists. -/
def ChainWriter.BlockLogSynced (cw : ChainWriter) : Prop :=
  ((kvGet cw.disk (cw.blockFile cw.CurrentBlockFileNumber)).getD []).length
      = cw.CurrentBlockOffset ∧
    cw.CurrentBlockOffset ≤ 2 ^ 31 ∧
    ∀ m, cw.CurrentBlockFileNumber < m → kvGet cw.disk (cw.blockFile m) = none

/-- The byte range recorded under the hash of `b` is where the serialized
block lies: the range has the length of the serialized block, and the file
of the record holds the serialized block from the start offset on. -/
def BlockChain.StoredAt (E : Ext) (bc : BlockChain) (b : Block) : Prop :=
  (bc.BlockInfoDB.GetBlockRecord (b.Hash E)).BlockEndOffset
      = (bc.BlockInfoDB.GetBlockRecord (b.Hash E)).BlockStartOffset
        + (E.marshalBlock b).length ∧
    (bc.BlockInfoDB.GetBlockRecord (b.Hash E)).BlockEndOffset < 2 ^ 32 ∧
    ∃ content,
      kvGet bc.ChainWriter.disk (bc.BlockInfoDB.GetBlockRecord (b.Hash E)).BlockFile
        = some content ∧
      (content.drop (bc.BlockInfoDB.GetBlockRecord (b.Hash E)).BlockStartOffset).take
        (E.marshalBlock b).length = E.marshalBlock b

/-- A sequence of WriteBlock calls: the FileInfos returned, in call order,
and the writer left. -/
def ChainWriter.writeBlocks : ChainWriter → List (List Nat) → List FileInfo × ChainWriter
  | cw, [] => ([], cw)
  | cw, bytes :: rest =>
    ((ChainWriter.WriteBlock cw bytes).1 ::
        (ChainWriter.writeBlocks (ChainWriter.WriteBlock cw bytes).2 rest).1,
      (ChainWriter.writeBlocks (ChainWriter.WriteBlock cw bytes).2 rest).2)

/-- A sequence of WriteUndoBlock calls: the FileInfos returned, in call
order, and the writer left. -/
def ChainWriter.writeUndoBlocks : ChainWriter → List (List Nat) → List FileInfo × ChainWriter
  | cw, [] => ([], cw)
  | cw, bytes :: rest =>
    ((ChainWriter.WriteUndoBlock cw bytes).1 ::
        (ChainWriter.writeUndoBlocks (ChainWriter.WriteUndoBlock cw bytes).2 rest).1,
      (ChainWriter.writeUndoBlocks (ChainWriter.WriteUndoBlock cw bytes).2 rest).2)

/-- The writer with the roles of the block log and the undo log exchanged:
WriteUndoBlock is WriteBlock on it. -/
def ChainWriter.swapLogs (cw : ChainWriter) : ChainWriter :=
  { cw with
    BlockFileName := cw.UndoFileName
    CurrentBlockFileNumber := cw.CurrentUndoFileNumber
    CurrentBlockOffset := cw.CurrentUndoOffset
    MaxBlockFileSize := cw.MaxUndoFileSize
    UndoFileName := cw.BlockFileName
    CurrentUndoFileNumber := cw.CurrentBlockFileNumber
    CurrentUndoOffset := cw.CurrentBlockOffset
    MaxUndoFileSize := cw.MaxBlockFileSize }

/-- The FileInfos of a sequence of writes do not overlap and fill each file
in write order from offset 0: two of them name different files or the
earlier one ends where the later one starts or before; each range runs
forward; the first write to a file starts at 0; and a write starts where the
previous write to the same file ended. -/
def ChainWriter.FillsInOrder (infos : List FileInfo) : Prop :=
  infos.Pairwise (fun a b => a.FileName ≠ b.FileName ∨ a.EndOffset ≤ b.StartOffset) ∧
  (∀ a ∈ infos, a.StartOffset ≤ a.EndOffset) ∧
  (∀ pre b post, infos = pre ++ b :: post → (∀ a ∈ pre, a.FileName ≠ b.FileName) →
    b.StartOffset = 0) ∧
  (∀ pre a mid b post, infos = pre ++ a :: (mid ++ b :: post) → a.FileName = b.FileName →
    (∀ m ∈ mid, m.FileName ≠ b.FileName) → b.StartOffset = a.EndOffset)

/-- The hash reached from LastHash after `n` steps along the PreviousHash of
the block records: the active chain, from the tip downwards. -/
def BlockChain.activeHash (bc : BlockChain) : Nat → String
  | 0 => bc.LastHash
  | n + 1 => bc.parentHash (BlockChain.activeHash bc n)

/-- Every block of the list, when HandleBlock receives it, has a hash under
which no block record is stored yet and a parent whose block record is
stored, the blocks being handled in order. -/
def BlockChain.arrivesInOrder (E : Ext) : BlockChain → List Block → Bool
  | _, [] => true
  | bc, b :: rest =>
    (kvGet bc.BlockInfoDB.db (b.Hash E)).isNone &&
      (kvGet bc.BlockInfoDB.db b.Header.PreviousHash).isSome &&
      (match BlockChain.HandleBlock E bc b with
        | none => true
        | some bc2 => BlockChain.arrivesInOrder E bc2 rest)

/-- The block records are in order: every record has a height between 1 and
the number of records, the record under the hash `g` of the genesis block
has height 1 and every other record has a parent record of height one less;
the record under LastHash has height Length; and LastHash is the hash of
LastBlock. -/
def BlockChain.RecordsInOrder (E : Ext) (g : String) (bc : BlockChain) : Prop :=
  (∀ h br, kvGet bc.BlockInfoDB.db h = some br →
    1 ≤ br.Height ∧ br.Height ≤ bc.BlockInfoDB.db.length ∧
    ((h = g ∧ br.Height = 1) ∨
      ∃ pr, kvGet bc.BlockInfoDB.db br.Header.PreviousHash = some pr ∧
        pr.Height + 1 = br.Height)) ∧
  (∃ br, kvGet bc.BlockInfoDB.db bc.LastHash = some br ∧ br.Height = bc.Length) ∧
  bc.LastHash = bc.LastBlock.Hash E

/-- Every block record names the byte range of a block of the recorded hash
that unmarshalling gives back, and the record under the hash `g` is the one
of the block `genesis`. -/
def BlockChain.AllStored (E : Ext) (g : String) (genesis : Block) (bc : BlockChain) : Prop :=
  (∀ h br, kvGet bc.BlockInfoDB.db h = some br →
    ∃ b, b.Hash E = h ∧ BlockChain.StoredAt E bc b ∧ E.unmarshalBlock (E.marshalBlock b) = b) ∧
  kvGet bc.BlockInfoDB.db g ≠ none ∧ genesis.Hash E = g ∧ BlockChain.StoredAt E bc genesis ∧
  E.unmarshalBlock (E.marshalBlock genesis) = genesis

/-- The block GetBlock returns for the hash reached after `n` steps from
LastHash; the empty block when GetBlock panics. -/
def BlockChain.activeBlock (E : Ext) (bc : BlockChain) (n : Nat) : Block :=
  (BlockChain.GetBlock E bc (bc.activeHash n)).getD ⟨⟨0, "", "", "", 0, 0⟩, []⟩

/-- The coin locators of the positions of the undo block. -/
def UndoBlock.locators (ub : UndoBlock) : List CoinLocator :=
  List.zipWith CoinLocator.mk ub.TransactionInputHashes ub.OutputIndexes

/-- The positions of the undo block: the coin locator and the output
(amount and locking script) of each. -/
def UndoBlock.entries (ub : UndoBlock) : List (CoinLocator × TransactionOutput) :=
  List.zip ub.locators (List.zipWith TransactionOutput.mk ub.Amounts ub.LockingScripts)

/-- The coin database accounts for the coin `cl` of output `out` as a coin
that was spent or is there: mainCache holds it with that output, spent or
not; or mainCache does not hold it and its coin record exists and either
has aligned vectors that do not list the output index, or lists it and
gives that output at its first position. -/
def CoinDatabase.restorable (c : CoinDatabase) (cl : CoinLocator) (out : TransactionOutput) :
    Bool :=
  match kvGet c.mainCache cl with
  | some coin => decide (coin.TransactionOutput = out)
  | none =>
    match kvGet c.db cl.ReferenceTransactionHash with
    | none => false
    | some cr =>
      decide (cr.Amounts.length = cr.OutputIndexes.length ∧
        cr.LockingScripts.length = cr.OutputIndexes.length ∧
        cl.OutputIndex ∉ cr.OutputIndexes) ||
      decide (CoinDatabase.coinOfRecord cr cl.OutputIndex = some (some ⟨out, false⟩))

/-- One pass of the loop of part (2) of UndoCoins, for the position of coin
locator `cl` and output `out` of the undo block `ub`. -/
def CoinDatabase.undoInput (ub : UndoBlock) (c : CoinDatabase) (cl : CoinLocator)
    (out : TransactionOutput) : CoinDatabase :=
  CoinDatabase.putRecordInDB
    (match kvGet c.mainCache cl with
      | some coin => { c with mainCache := kvPut c.mainCache cl { coin with IsSpent := false } }
      | none => c)
    cl.ReferenceTransactionHash
    (match kvGet c.db cl.ReferenceTransactionHash with
      | some r =>
        { r with
          OutputIndexes := r.OutputIndexes ++ [cl.OutputIndex]
          Amounts := r.Amounts ++ [out.Amount]
          LockingScripts := r.LockingScripts ++ [out.LockingScript] }
      | none => ⟨0, ub.OutputIndexes, ub.Amounts, ub.LockingScripts⟩)

/-! ## Key-value stores: lemmas -/

theorem kvGet_kvPut_self {α β : Type} [DecidableEq α] (m : List (α × β)) (a : α) (b : β) :
    kvGet (kvPut m a b) a = some b := by
  induction m with
  | nil => simp [kvPut, kvGet]
  | cons kv rest ih =>
    obtain ⟨k, v⟩ := kv
    by_cases h : k = a
    · simp [kvPut, kvGet, h]
    · simp [kvPut, kvGet, h, ih]

theorem kvGet_kvPut_of_ne {α β : Type} [DecidableEq α] (m : List (α × β)) {a a2 : α} (b : β)
    (hne : a ≠ a2) : kvGet (kvPut m a b) a2 = kvGet m a2 := by
  induction m with
  | nil => simp [kvPut, kvGet, hne]
  | cons kv rest ih =>
    obtain ⟨k, v⟩ := kv
    by_cases h : k = a
    · subst h
      simp [kvPut, kvGet, hne]
    · by_cases h2 : k = a2
      · subst h2
        simp [kvPut, kvGet, h]
      · simp [kvPut, kvGet, h, h2, ih]

theorem kvGet_kvDelete_self {α β : Type} [DecidableEq α] (m : List (α × β)) (a : α) :
    kvGet (kvDelete m a) a = none := by
  induction m with
  | nil => simp [kvDelete, kvGet]
  | cons kv rest ih =>
    obtain ⟨k, v⟩ := kv
    by_cases h : k = a
    · simpa [kvDelete, List.filter_cons, h] using ih
    · simpa [kvDelete, List.filter_cons, h, kvGet] using ih

theorem kvGet_kvDelete_of_ne {α β : Type} [DecidableEq α] (m : List (α × β)) {a a2 : α}
    (hne : a ≠ a2) : kvGet (kvDelete m a) a2 = kvGet m a2 := by
  induction m with
  | nil => simp [kvDelete, kvGet]
  | cons kv rest ih =>
    obtain ⟨k, v⟩ := kv
    by_cases h : k = a
    · subst h
      simpa [kvDelete, List.filter_cons, kvGet, hne] using ih
    · by_cases h2 : k = a2
      · subst h2
        simp [kvDelete, List.filter_cons, h, kvGet]
      · simpa [kvDelete, List.filter_cons, h, kvGet, h2] using ih

theorem kvGet_filter_of_kvGet {α β : Type} [DecidableEq α] (p : α × β → Bool)
    (m : List (α × β)) {a : α} {b : β} (hget : kvGet m a = some b) (hp : p (a, b) = true) :
    kvGet (m.filter p) a = some b := by
  induction m with
  | nil => simp [kvGet] at hget
  | cons kv rest ih =>
    obtain ⟨k, v⟩ := kv
    by_cases h : k = a
    · subst h
      simp only [kvGet, if_true, Option.some.injEq] at hget
      subst hget
      simp [List.filter_cons, hp, kvGet]
    · simp only [kvGet, h, if_false] at hget
      by_cases hk : p (k, v) = true
      · simp [List.filter_cons, hk, kvGet, h, ih hget]
      · simp [List.filter_cons, hk, ih hget]

theorem kvGet_mem {α β : Type} [DecidableEq α] (m : List (α × β)) {a : α} {b : β}
    (hget : kvGet m a = some b) : (a, b) ∈ m := by
  induction m with
  | nil => simp [kvGet] at hget
  | cons kv rest ih =>
    obtain ⟨k, v⟩ := kv
    by_cases h : k = a
    · subst h
      simp only [kvGet, if_true, Option.some.injEq] at hget
      subst hget
      simp
    · simp only [kvGet, h, if_false] at hget
      exact List.mem_cons_of_mem _ (ih hget)

/-! ## Validation -/

namespace CoinDatabase

theorem contains_iff_mem (s : List Nat) (e : Nat) : contains s e = true ↔ e ∈ s := by
  induction s with
  | nil => simp [contains]
  | cons a rest ih =>
    by_cases h : a = e
    · simp [contains, h]
    · have h2 : ¬ e = a := fun h3 => h h3.symm
      simp [contains, h, h2, ih]

theorem validateInputs_ok_iff (c : CoinDatabase) (ins : List TransactionInput) :
    validateInputs c ins = Except.ok () ↔ ∀ txi ∈ ins, resolvesUnspent c txi := by
  induction ins with
  | nil => simp [validateInputs]
  | cons txi rest ih =>
    rw [List.forall_mem_cons, ← ih, validateInputs]
    unfold resolvesUnspent
    cases hc : kvGet c.mainCache (makeCoinLocator txi) with
    | some coin =>
      cases hs : coin.IsSpent <;> simp [hs]
    | none =>
      cases hd : kvGet c.db txi.ReferenceTransactionHash with
      | none => simp
      | some cr =>
        by_cases hm : txi.OutputIndex ∈ cr.OutputIndexes
        · simp [(contains_iff_mem _ _).2 hm, hm]
        · have hf : contains cr.OutputIndexes txi.OutputIndex = false := by
            cases hcon : contains cr.OutputIndexes txi.OutputIndex with
            | false => rfl
            | true => exact absurd ((contains_iff_mem _ _).1 hcon) hm
          simp [hf, hm]

theorem validateBlock_iff (c : CoinDatabase) (txs : List Transaction) :
    ValidateBlock c txs = true ↔ ∀ t ∈ txs, ValidateTransaction c t = Except.ok () := by
  induction txs with
  | nil => simp [ValidateBlock]
  | cons tx rest ih =>
    rw [List.forall_mem_cons, ← ih, ValidateBlock]
    cases hv : ValidateTransaction c tx with
    | error e => simp
    | ok u => simp

/-- C4: ValidateTransaction returns no error exactly when every input of
the transaction resolves to an unspent coin (cache entry with
`IsSpent = false`, or no cache entry and a stored coin record that contains
the output index); ValidateBlock is true exactly when ValidateTransaction
succeeds on every transaction; a coinbase always passes. Both functions
return a verdict only: they have no state to change. -/
theorem C4_validate_iff_inputs_unspent (c : CoinDatabase) (tx : Transaction)
    (txs : List Transaction) :
    (ValidateTransaction c tx = Except.ok () ↔ ∀ txi ∈ tx.Inputs, resolvesUnspent c txi) ∧
    (ValidateBlock c txs = true ↔ ∀ t ∈ txs, ValidateTransaction c t = Except.ok ()) ∧
    (∀ t : Transaction, t.IsCoinbase = true → ValidateTransaction c t = Except.ok ()) := by
  refine ⟨validateInputs_ok_iff c tx.Inputs, validateBlock_iff c txs, ?_⟩
  intro t ht
  have hnil : t.Inputs = [] := by
    simpa [Transaction.IsCoinbase] using ht
  simp [ValidateTransaction, hnil, validateInputs]

end CoinDatabase

/-! ## Forks that are too deep -/

namespace BlockChain

theorem forkWalk_of_not_mem (bc : BlockChain) (k : Nat) :
    ∀ (n : Nat) (h : String),
      (∀ j, j < k → (parentHash bc)^[j] h ∉ bc.UnsafeHashes) →
      forkWalk bc k n h = (-1, "") := by
  induction k with
  | zero => intro n h _; rfl
  | succ k ih =>
    intro n h hall
    have h0 : h ∉ bc.UnsafeHashes := by simpa using hall 0 (Nat.succ_pos k)
    unfold forkWalk
    rw [if_neg h0]
    apply ih
    intro j hj
    have := hall (j + 1) (Nat.succ_lt_succ hj)
    simpa [Function.iterate_succ, parentHash] using this

theorem persistBlock_fields (E : Ext) (bc : BlockChain) (b : Block) (bc1 : BlockChain)
    (height : Nat) (hp : persistBlock E bc b = some (bc1, height)) :
    bc1.Length = bc.Length ∧ bc1.LastBlock = bc.LastBlock ∧ bc1.LastHash = bc.LastHash ∧
    bc1.UnsafeHashes = bc.UnsafeHashes ∧ bc1.CoinDB = bc.CoinDB ∧
    bc1.maxHashes = bc.maxHashes := by
  unfold persistBlock at hp
  cases hu : makeUndoBlock bc b.Transactions with
  | none => simp [hu] at hp
  | some ub =>
    simp only [hu, Option.some.injEq, Prod.mk.injEq] at hp
    obtain ⟨h1, _⟩ := hp
    subst h1
    simp

/-- C10: a fork that is too deep does not reorganize. For a block that does
not append, whose height exceeds Length and on whose parent chain (followed
through the block-info database, the block itself included) none of the
first len(UnsafeHashes)+1 hashes is in UnsafeHashes, the walk of
getForkLengthAndAncestor returns -1 and HandleBlock returns with Length,
LastBlock, LastHash, UnsafeHashes and the whole coin database (cache, cache
size, coin records) as they were. -/
theorem C10_deep_fork_leaves_state (E : Ext) (bc : BlockChain) (b : Block) (bc1 : BlockChain)
    (height : Nat)
    (happ : appendsToActiveChain E bc b = false)
    (hp : persistBlock E bc b = some (bc1, height))
    (hheight : height > bc.Length)
    (hdeep : ∀ j, j ≤ bc.UnsafeHashes.length →
      (parentHash bc1)^[j] (b.Hash E) ∉ bc.UnsafeHashes) :
    (getForkLengthAndAncestor bc1 (b.Hash E)).1 = -1 ∧
    ∃ bc2, HandleBlock E bc b = some bc2 ∧
      bc2.Length = bc.Length ∧ bc2.LastBlock = bc.LastBlock ∧ bc2.LastHash = bc.LastHash ∧
      bc2.UnsafeHashes = bc.UnsafeHashes ∧ bc2.CoinDB = bc.CoinDB := by
  obtain ⟨hL, hB, hH, hU, hC, _⟩ := persistBlock_fields E bc b bc1 height hp
  have hwalk : getForkLengthAndAncestor bc1 (b.Hash E) = (-1, "") := by
    unfold getForkLengthAndAncestor
    apply forkWalk_of_not_mem
    intro j hj
    rw [hU] at hj ⊢
    exact hdeep j (Nat.lt_succ_iff.mp hj)
  refine ⟨by rw [hwalk], bc1, ?_, hL, hB, hH, hU, hC⟩
  unfold HandleBlock
  have hgt : height > bc1.Length := by rw [hL]; exact hheight
  simp only [happ, Bool.false_and, hp, if_true, hgt]
  unfold handleFork
  simp [hwalk]

set_option maxRecDepth 1000000 in
/-- C10, witness: after six blocks on the genesis block (Length 7, the
genesis hash no longer among the six unsafe hashes) and six blocks of a
second branch on the genesis block, the seventh block of that branch has
height 8 and no ancestor among the unsafe hashes; HandleBlock leaves the
chain fields and the coin database as they were. -/
theorem C10_deep_fork_leaves_state_witness :
    Sample.chainAfter Sample.deepBlocks = some (Sample.stateAfter Sample.deepBlocks) ∧
    (Sample.stateAfter Sample.deepBlocks).Length = 7 ∧
    ∃ bc2, HandleBlock Sample.ext (Sample.stateAfter Sample.deepBlocks) Sample.deepTip
        = some bc2 ∧
      bc2.Length = 7 ∧
      bc2.UnsafeHashes = (Sample.stateAfter Sample.deepBlocks).UnsafeHashes ∧
      bc2.CoinDB = (Sample.stateAfter Sample.deepBlocks).CoinDB := by
  obtain ⟨_, bc2, h1, h2, _, _, h5, h6⟩ :=
    C10_deep_fork_leaves_state Sample.ext (Sample.stateAfter Sample.deepBlocks) Sample.deepTip
      Sample.deepPersisted.1 Sample.deepPersisted.2 (by decide) (by decide) (by decide)
      (by decide)
  exact ⟨by decide, by decide, bc2, h1, by rw [h2]; decide, h5, h6⟩

end BlockChain

/-! ## The code on the sample chains -/

namespace Sample

set_option maxRecDepth 1000000 in
/-- C1, the code at the failing input: on the chain made by `New` (genesis
coin of 50 for "PK"), `undo1` is the undo block makeUndoBlock computes for
`block1`, which spends the genesis coin; GetBalance("PK") is 50 before
StoreBlock, and 100 after StoreBlock followed by UndoCoins: UndoCoins
appends the restored coin to a coin record that still holds it. -/
theorem C1_store_then_undo_doubles_balance :
    ∃ bc c1 c2,
      BlockChain.New ext config = some bc ∧
      BlockChain.makeUndoBlock bc block1.Transactions = some undo1 ∧
      CoinDatabase.StoreBlock ext bc.CoinDB block1.Transactions = some c1 ∧
      CoinDatabase.UndoCoins ext c1 [block1] [undo1] = some c2 ∧
      (CoinDatabase.GetBalance bc.CoinDB "PK").map Prod.fst = some 50 ∧
      (CoinDatabase.GetBalance c2 "PK").map Prod.fst = some 100 :=
  ⟨_, _, _, rfl, by decide, rfl, rfl, by decide, by decide⟩

set_option maxRecDepth 1000000 in
/-- C2, the code at the failing input: in `revertedCoinDB` the genesis coin
is held only in its coin record; ValidateBlock accepts `tx1`, which spends
it, and after StoreBlock GetCoin still returns the coin with
`IsSpent = false`: `updateSpentCoins` looks for the record under the hash
of the spending transaction. -/
theorem C2_spent_record_coin_still_unspent :
    ∃ c c2,
      revertedCoinDB = some c ∧
      c.mainCache = [] ∧
      CoinDatabase.ValidateBlock c [tx1] = true ∧
      CoinDatabase.StoreBlock ext c [tx1] = some c2 ∧
      CoinDatabase.GetCoin c2 (CoinDatabase.makeCoinLocator ⟨txHash genesisTx, 0, ""⟩)
        = some (some ⟨⟨50, "PK"⟩, false⟩) :=
  ⟨_, _, rfl, by decide, by decide, rfl, by decide⟩

set_option maxRecDepth 1000000 in
/-- C5, the code at the failing input: on the chain made by `New`, the
block `doubleSpendBlock`, whose transaction references the genesis coin in
both of its inputs, passes ValidateBlock and CheckBlock; once handled, the
50 of the genesis coin have become 50 for "A" and 50 for "B". -/
theorem C5_double_spend_block_accepted :
    ∃ bc bc2,
      BlockChain.New ext config = some bc ∧
      CoinDatabase.ValidateBlock bc.CoinDB doubleSpendBlock.Transactions = true ∧
      CheckBlock bc (some doubleSpendBlock) = true ∧
      BlockChain.HandleBlock ext bc doubleSpendBlock = some bc2 ∧
      bc2.LastHash = doubleSpendBlock.Hash ext ∧
      (BlockChain.GetBalance bc2 "A").map Prod.fst = some 50 ∧
      (BlockChain.GetBalance bc2 "B").map Prod.fst = some 50 :=
  ⟨_, _, rfl, by decide, by decide, rfl, by decide, by decide, by decide⟩

set_option maxRecDepth 1000000 in
/-- C7, the code at the failing input: chain genesis, `block1`, `block2`
(Length 3) with the retained `forkBlock2` on `block1`; `forkBlock3` passes
CheckBlock, has height 4, and the ancestor `block1` is found at fork length
2. After HandleBlock the tip is `forkBlock3`, yet GetCoin returns nil for
the coinbase outputs of both fork blocks and the unspent coin of the
reverted `tx2`, and GetBalance counts "PK2" (reverted chain) and neither
"PK3" nor "PK4" (coinbases of the fork): `handleFork` stores again the
blocks it has just undone. -/
theorem C7_reorg_keeps_reverted_coins :
    ∃ bc,
      chainAfter reorgBlocks = some (stateAfter reorgBlocks) ∧
      (stateAfter reorgBlocks).Length = 3 ∧
      CheckBlock (stateAfter reorgBlocks) (some forkBlock3) = true ∧
      (BlockChain.persistBlock ext (stateAfter reorgBlocks) forkBlock3).map
          (fun r => (r.2, BlockChain.getForkLengthAndAncestor r.1 (forkBlock3.Hash ext)))
        = some (4, 2, block1.Hash ext) ∧
      BlockChain.HandleBlock ext (stateAfter reorgBlocks) forkBlock3 = some bc ∧
      bc.LastHash = forkBlock3.Hash ext ∧ bc.Length = 4 ∧
      CoinDatabase.GetCoin bc.CoinDB ⟨txHash forkTx3, 0⟩ = some none ∧
      CoinDatabase.GetCoin bc.CoinDB ⟨txHash forkTx2, 0⟩ = some none ∧
      CoinDatabase.GetCoin bc.CoinDB ⟨txHash tx2, 0⟩ = some (some ⟨⟨50, "PK2"⟩, false⟩) ∧
      (BlockChain.GetBalance bc "PK3").map Prod.fst = some 0 ∧
      (BlockChain.GetBalance bc "PK4").map Prod.fst = some 0 ∧
      (BlockChain.GetBalance bc "PK2").map Prod.fst = some 50 :=
  ⟨_, by decide, by decide, by decide, by decide, rfl, by decide, by decide, by decide,
    by decide, by decide, by decide, by decide, by decide⟩

set_option maxRecDepth 1000000 in
/-- C8, the code at the failing input: after the five blocks of
`longBlocks` the chain has Length 6 and six unsafe hashes; `longFork1` on the
fourth block is retained, `longFork2` passes CheckBlock, has height 7 and
takes the `handleFork` path (fork length 2), after which UnsafeHashes has
seven elements. -/
theorem C8_fork_leaves_seven_unsafe_hashes :
    ∃ bc,
      chainAfter (longBlocks ++ [longFork1]) = some (stateAfter (longBlocks ++ [longFork1])) ∧
      (stateAfter (longBlocks ++ [longFork1])).Length = 6 ∧
      (stateAfter (longBlocks ++ [longFork1])).UnsafeHashes.length = 6 ∧
      CheckBlock (stateAfter (longBlocks ++ [longFork1])) (some longFork2) = true ∧
      (BlockChain.persistBlock ext (stateAfter (longBlocks ++ [longFork1])) longFork2).map
          (fun r => (r.2, (BlockChain.getForkLengthAndAncestor r.1 (longFork2.Hash ext)).1))
        = some (7, 2) ∧
      BlockChain.HandleBlock ext (stateAfter (longBlocks ++ [longFork1])) longFork2 = some bc ∧
      bc.LastHash = longFork2.Hash ext ∧
      bc.UnsafeHashes.length = 7 :=
  ⟨_, by decide, by decide, by decide, by decide, by decide, rfl, by decide, by decide⟩

set_option maxRecDepth 1000000 in
/-- C9, the code at the failing input: on the chain of C7, after the
reorganization onto `forkBlock3` UnsafeHashes is genesis, `block1`, `block2`,
`block1`, `block2`: the hashes appended are those of the reverted blocks,
and the last element is not LastHash. -/
theorem C9_unsafe_hashes_after_reorg :
    ∃ bc,
      BlockChain.HandleBlock ext (stateAfter reorgBlocks) forkBlock3 = some bc ∧
      bc.LastHash = forkBlock3.Hash ext ∧
      bc.UnsafeHashes =
        [genesisHash, block1.Hash ext, block2.Hash ext, block1.Hash ext, block2.Hash ext] ∧
      bc.UnsafeHashes.getLast? ≠ some bc.LastHash :=
  ⟨_, rfl, by decide, by decide, by decide⟩

end Sample

theorem forall_kvPut {α β : Type} [DecidableEq α] (P : β → Prop) (m : List (α × β)) (a : α)
    (b : β) (hm : ∀ kv ∈ m, P kv.2) (hb : P b) : ∀ kv ∈ kvPut m a b, P kv.2 := by
  induction m with
  | nil =>
    intro kv hkv
    simp only [kvPut, List.mem_singleton] at hkv
    subst hkv
    exact hb
  | cons x rest ih =>
    obtain ⟨k, v⟩ := x
    intro kv hkv
    by_cases h : k = a
    · simp only [kvPut, h, if_true, List.mem_cons] at hkv
      rcases hkv with hkv | hkv
      · subst hkv
        exact hb
      · exact hm kv (List.mem_cons_of_mem _ hkv)
    · simp only [kvPut, h, if_false, List.mem_cons] at hkv
      rcases hkv with hkv | hkv
      · subst hkv
        exact hm (k, v) (List.mem_cons_self _ _)
      · exact ih (fun kv2 h2 => hm kv2 (List.mem_cons_of_mem _ h2)) kv hkv

theorem forall_kvDelete {α β : Type} [DecidableEq α] (P : β → Prop) (m : List (α × β)) (a : α)
    (hm : ∀ kv ∈ m, P kv.2) : ∀ kv ∈ kvDelete m a, P kv.2 := by
  intro kv hkv
  exact hm kv (List.mem_of_mem_filter hkv)

namespace CoinDatabase

theorem indexOf_eq (s : List Nat) (e : Nat) :
    indexOf s e = if e ∈ s then ((List.indexOf e s : Nat) : Int) else -1 := by
  induction s with
  | nil => simp [indexOf]
  | cons a rest ih =>
    by_cases h : a = e
    · subst h
      simp [indexOf]
    · have h2 : ¬ e = a := fun h3 => h h3.symm
      rw [indexOf, if_neg h, ih, List.indexOf_cons_ne _ h]
      by_cases hm : e ∈ rest
      · simp [hm, h2]
      · simp [hm, h2]

theorem indexOf_neg_iff (s : List Nat) (e : Nat) : indexOf s e < 0 ↔ e ∉ s := by
  rw [indexOf_eq]
  by_cases hm : e ∈ s
  · simp [hm]
  · simp [hm]

theorem indexOf_toNat_lt (s : List Nat) (e : Nat) (h : ¬ indexOf s e < 0) :
    (indexOf s e).toNat < s.length := by
  have hm : e ∈ s := by
    by_contra hn
    exact h ((indexOf_neg_iff s e).2 hn)
  rw [indexOf_eq, if_pos hm]
  simpa using List.indexOf_lt_length.2 hm

/-! ### Alignment is kept, and aligned records never panic -/

theorem aligned_empty : CoinRecord.empty.Aligned := by
  simp [CoinRecord.empty, CoinRecord.Aligned]

theorem removeCoinFromRecord_aligned (cr : CoinRecord) (o : Nat) (h : cr.Aligned) :
    ∃ cr2, removeCoinFromRecord cr o = some cr2 ∧ cr2.Aligned := by
  unfold removeCoinFromRecord
  by_cases hneg : indexOf cr.OutputIndexes o < 0
  · exact ⟨cr, by simp [hneg], h⟩
  · have hlt := indexOf_toNat_lt _ _ hneg
    obtain ⟨h1, h2⟩ := h
    have hc : (indexOf cr.OutputIndexes o).toNat < cr.Amounts.length ∧
        (indexOf cr.OutputIndexes o).toNat < cr.LockingScripts.length := by
      rw [h1, h2]; exact ⟨hlt, hlt⟩
    rw [if_neg hneg, if_pos hc]
    refine ⟨_, rfl, ?_⟩
    simp [CoinRecord.Aligned, List.length_eraseIdx, hlt, hc.1, hc.2, h1, h2]

theorem removeCoinFromDB_aligned (c : CoinDatabase) (txHash : String) (cl : CoinLocator)
    (h : c.AlignedDB) :
    ∃ c2, removeCoinFromDB c txHash cl = some c2 ∧ c2.AlignedDB ∧
      c2.mainCache = c.mainCache ∧ c2.mainCacheSize = c.mainCacheSize ∧
      c2.mainCacheCapacity = c.mainCacheCapacity := by
  unfold removeCoinFromDB getCoinRecordFromDB
  cases hg : kvGet c.db txHash with
  | none => exact ⟨c, rfl, h, rfl, rfl, rfl⟩
  | some cr =>
    by_cases hlen : cr.Amounts.length ≤ 1
    · simp only [hlen, if_true]
      exact ⟨_, rfl, forall_kvDelete _ _ _ h, rfl, rfl, rfl⟩
    · have hcr : cr.Aligned := h _ (kvGet_mem _ hg)
      obtain ⟨cr2, hr, ha⟩ := removeCoinFromRecord_aligned cr cl.OutputIndex hcr
      simp only [hlen, if_false, hr]
      exact ⟨putRecordInDB c txHash cr2, rfl, forall_kvPut _ _ _ _ h ha, rfl, rfl, rfl⟩

theorem updateSpentInputs_aligned (txHash : String) (ins : List TransactionInput) :
    ∀ c : CoinDatabase, c.AlignedDB →
      ∃ c2, updateSpentInputs txHash c ins = some c2 ∧ c2.AlignedDB ∧
        c2.mainCacheCapacity = c.mainCacheCapacity := by
  induction ins with
  | nil => intro c h; exact ⟨c, rfl, h, rfl⟩
  | cons txi rest ih =>
    intro c h
    rw [updateSpentInputs]
    cases hg : kvGet c.mainCache (makeCoinLocator txi) with
    | some coin =>
      obtain ⟨c2, h1, h2, h3⟩ := ih
        { c with mainCache := kvPut c.mainCache (makeCoinLocator txi) { coin with IsSpent := true } }
        h
      exact ⟨c2, h1, h2, h3⟩
    | none =>
      obtain ⟨c1, hr, ha, _, _, hcap⟩ := removeCoinFromDB_aligned c txHash (makeCoinLocator txi) h
      obtain ⟨c2, h1, h2, h3⟩ := ih c1 ha
      exact ⟨c2, by simp only [hr, h1], h2, by rw [h3, hcap]⟩

theorem updateSpentCoins_aligned (E : Ext) (txs : List Transaction) :
    ∀ c : CoinDatabase, c.AlignedDB →
      ∃ c2, updateSpentCoins E c txs = some c2 ∧ c2.AlignedDB ∧
        c2.mainCacheCapacity = c.mainCacheCapacity := by
  induction txs with
  | nil => intro c h; exact ⟨c, rfl, h, rfl⟩
  | cons tx rest ih =>
    intro c h
    obtain ⟨c1, hr, ha, hcap⟩ := updateSpentInputs_aligned (tx.Hash E) tx.Inputs c h
    obtain ⟨c2, h1, h2, h3⟩ := ih c1 ha
    exact ⟨c2, by simp only [updateSpentCoins, hr, h1], h2, by rw [h3, hcap]⟩

theorem flushCollect_aligned (db : List (String × CoinRecord)) (hdb : ∀ kv ∈ db, kv.2.Aligned)
    (cache : List (CoinLocator × Coin)) :
    ∀ updated : List (String × CoinRecord), (∀ kv ∈ updated, kv.2.Aligned) →
      ∃ u2, flushCollect db cache updated = some u2 ∧ ∀ kv ∈ u2, kv.2.Aligned := by
  induction cache with
  | nil => intro updated hu; exact ⟨updated, rfl, hu⟩
  | cons e rest ih =>
    obtain ⟨cl, coin⟩ := e
    intro updated hu
    rw [flushCollect]
    cases hs : coin.IsSpent with
    | false => simpa using ih updated hu
    | true =>
      simp only [Bool.not_true, Bool.false_eq_true, if_false]
      have hcr : (flushLookup db updated cl.ReferenceTransactionHash).Aligned := by
        unfold flushLookup
        cases h1 : kvGet updated cl.ReferenceTransactionHash with
        | some cr2 => exact hu _ (kvGet_mem _ h1)
        | none =>
          cases h2 : kvGet db cl.ReferenceTransactionHash with
          | some r => exact hdb _ (kvGet_mem _ h2)
          | none => exact aligned_empty
      obtain ⟨cr3, hr, ha⟩ := removeCoinFromRecord_aligned _ cl.OutputIndex hcr
      rw [hr]
      exact ih _ (forall_kvPut _ _ _ _ hu ha)

theorem flushWrite_aligned (updated : List (String × CoinRecord)) :
    ∀ db : List (String × CoinRecord), (∀ kv ∈ db, kv.2.Aligned) →
      (∀ kv ∈ updated, kv.2.Aligned) → ∀ kv ∈ flushWrite db updated, kv.2.Aligned := by
  induction updated with
  | nil => intro db hdb _; simpa [flushWrite] using hdb
  | cons e rest ih =>
    obtain ⟨key, cr⟩ := e
    intro db hdb hu
    rw [flushWrite]
    have hrest : ∀ kv ∈ rest, kv.2.Aligned := fun kv h => hu kv (List.mem_cons_of_mem _ h)
    by_cases hz : cr.OutputIndexes.length = 0
    · rw [if_pos hz]
      exact ih _ (forall_kvDelete _ _ _ hdb) hrest
    · rw [if_neg hz]
      exact ih _ (forall_kvPut _ _ _ _ hdb (hu _ (List.mem_cons_self _ _))) hrest

theorem FlushMainCache_aligned (c : CoinDatabase) (h : c.AlignedDB) :
    ∃ c2, FlushMainCache c = some c2 ∧ c2.AlignedDB ∧
      c2.mainCacheCapacity = c.mainCacheCapacity := by
  obtain ⟨u2, hc, hu⟩ := flushCollect_aligned c.db h c.mainCache [] (by simp)
  simp only [FlushMainCache, hc]
  exact ⟨_, rfl, flushWrite_aligned u2 c.db h hu, rfl⟩

theorem flushIfFull_aligned (n : Nat) (c : CoinDatabase) (h : c.AlignedDB) :
    ∃ c2, flushIfFull n c = some c2 ∧ c2.AlignedDB ∧
      c2.mainCacheCapacity = c.mainCacheCapacity := by
  unfold flushIfFull
  by_cases hc : (c.mainCacheSize + n) % 2 ^ 32 ≥ c.mainCacheCapacity
  · rw [if_pos hc]; exact FlushMainCache_aligned c h
  · rw [if_neg hc]; exact ⟨c, rfl, h, rfl⟩

theorem storeOutputs_aligned (txHash : String) (n : Nat) (outs : List TransactionOutput) :
    ∀ (c : CoinDatabase) (i : Nat), c.AlignedDB →
      ∃ c2, storeOutputs txHash n c i outs = some c2 ∧ c2.AlignedDB ∧
        c2.mainCacheCapacity = c.mainCacheCapacity := by
  induction outs with
  | nil => intro c i h; exact ⟨c, rfl, h, rfl⟩
  | cons txo rest ih =>
    intro c i h
    obtain ⟨c1, hf, ha, hcap⟩ := flushIfFull_aligned n c h
    obtain ⟨c2, h1, h2, h3⟩ := ih
      { c1 with
        mainCache := kvPut c1.mainCache ⟨txHash, i⟩ ⟨txo, false⟩
        mainCacheSize := (c1.mainCacheSize + 1) % 2 ^ 32 } (i + 1) ha
    exact ⟨c2, by simp only [storeOutputs, hf, h1], h2, by rw [h3]; exact hcap⟩

theorem storeTransactionsInMainCache_aligned (E : Ext) (txs : List Transaction) :
    ∀ c : CoinDatabase, c.AlignedDB →
      ∃ c2, storeTransactionsInMainCache E c txs = some c2 ∧ c2.AlignedDB ∧
        c2.mainCacheCapacity = c.mainCacheCapacity := by
  induction txs with
  | nil => intro c h; exact ⟨c, rfl, h, rfl⟩
  | cons tx rest ih =>
    intro c h
    obtain ⟨c1, hr, ha, hcap⟩ := storeOutputs_aligned (tx.Hash E) tx.Outputs.length tx.Outputs c 0 h
    obtain ⟨c2, h1, h2, h3⟩ := ih c1 ha
    exact ⟨c2, by simp only [storeTransactionsInMainCache, hr, h1], h2, by rw [h3, hcap]⟩

theorem createCoinRecord_aligned (tx : Transaction) : (createCoinRecord tx).Aligned := by
  simp [createCoinRecord, CoinRecord.Aligned]

theorem storeTransactionsInDB_aligned (E : Ext) (txs : List Transaction) :
    ∀ c : CoinDatabase, c.AlignedDB → (storeTransactionsInDB E c txs).AlignedDB := by
  induction txs with
  | nil => intro c h; exact h
  | cons tx rest ih =>
    intro c h
    rw [storeTransactionsInDB]
    exact ih _ (forall_kvPut _ _ _ _ h (createCoinRecord_aligned tx))

theorem StoreBlock_aligned (E : Ext) (c : CoinDatabase) (txs : List Transaction)
    (h : c.AlignedDB) : ∃ c2, StoreBlock E c txs = some c2 ∧ c2.AlignedDB := by
  obtain ⟨c1, h1, a1, _⟩ := updateSpentCoins_aligned E txs c h
  obtain ⟨c2, h2, a2, _⟩ := storeTransactionsInMainCache_aligned E txs c1 a1
  simp only [StoreBlock, h1, h2]
  exact ⟨_, rfl, storeTransactionsInDB_aligned E txs c2 a2⟩

end CoinDatabase

namespace CoinDatabase

/-! ### StoreBlock leaves every output of the block in the cache -/

theorem FlushMainCache_keeps_unspent (c c2 : CoinDatabase) (hf : FlushMainCache c = some c2)
    (cl : CoinLocator) (coin : Coin) (hg : kvGet c.mainCache cl = some coin)
    (hs : coin.IsSpent = false) : kvGet c2.mainCache cl = some coin := by
  unfold FlushMainCache at hf
  cases hc : flushCollect c.db c.mainCache [] with
  | none => simp [hc] at hf
  | some u =>
    simp only [hc, Option.some.injEq] at hf
    subst hf
    exact kvGet_filter_of_kvGet _ _ hg (by simp [hs])

theorem flushIfFull_keeps_unspent (n : Nat) (c c2 : CoinDatabase)
    (hf : flushIfFull n c = some c2)
    (cl : CoinLocator) (coin : Coin) (hg : kvGet c.mainCache cl = some coin)
    (hs : coin.IsSpent = false) : kvGet c2.mainCache cl = some coin := by
  unfold flushIfFull at hf
  by_cases hc : (c.mainCacheSize + n) % 2 ^ 32 ≥ c.mainCacheCapacity
  · rw [if_pos hc] at hf
    exact FlushMainCache_keeps_unspent c c2 hf cl coin hg hs
  · rw [if_neg hc] at hf
    simp only [Option.some.injEq] at hf
    subst hf
    exact hg

theorem storeOutputs_cache (txHash : String) (n : Nat) (outs : List TransactionOutput) :
    ∀ (c : CoinDatabase) (i : Nat) (c2 : CoinDatabase),
      storeOutputs txHash n c i outs = some c2 →
      (∀ j txo, outs.get? j = some txo →
        kvGet c2.mainCache ⟨txHash, i + j⟩ = some ⟨txo, false⟩) ∧
      (∀ cl coin, kvGet c.mainCache cl = some coin → coin.IsSpent = false →
        (cl.ReferenceTransactionHash ≠ txHash ∨ cl.OutputIndex < i) →
        kvGet c2.mainCache cl = some coin) := by
  induction outs with
  | nil =>
    intro c i c2 h
    simp only [storeOutputs, Option.some.injEq] at h
    subst h
    exact ⟨by intro j txo hj; simp at hj, fun cl coin hg _ _ => hg⟩
  | cons txo rest ih =>
    intro c i c2 h
    rw [storeOutputs] at h
    cases hf : flushIfFull n c with
    | none => simp [hf] at h
    | some c1 =>
      simp only [hf] at h
      obtain ⟨ih1, ih2⟩ := ih _ (i + 1) c2 h
      constructor
      · intro j t hj
        cases j with
        | zero =>
          simp only [List.get?_cons_zero, Option.some.injEq] at hj
          subst hj
          apply ih2
          · exact kvGet_kvPut_self _ _ _
          · rfl
          · right; exact Nat.lt_succ_self i
        | succ j =>
          simp only [List.get?_cons_succ] at hj
          have := ih1 j t hj
          rw [show i + (j + 1) = i + 1 + j by omega]
          exact this
      · intro cl coin hg hs hcl
        apply ih2 cl coin _ hs
        · rcases hcl with hcl | hcl
          · left; exact hcl
          · right; exact Nat.lt_succ_of_lt hcl
        · have hne : (⟨txHash, i⟩ : CoinLocator) ≠ cl := by
            intro heq
            subst heq
            rcases hcl with hcl | hcl
            · exact hcl rfl
            · exact Nat.lt_irrefl _ hcl
          show kvGet (kvPut c1.mainCache ⟨txHash, i⟩ ⟨txo, false⟩) cl = some coin
          rw [kvGet_kvPut_of_ne _ _ hne]
          exact flushIfFull_keeps_unspent n c c1 hf cl coin hg hs

theorem storeTransactionsInMainCache_keeps (E : Ext) (txs : List Transaction) :
    ∀ (c c2 : CoinDatabase), storeTransactionsInMainCache E c txs = some c2 →
      ∀ cl coin, kvGet c.mainCache cl = some coin → coin.IsSpent = false →
        (∀ tx ∈ txs, tx.Hash E ≠ cl.ReferenceTransactionHash) →
        kvGet c2.mainCache cl = some coin := by
  induction txs with
  | nil =>
    intro c c2 h cl coin hg _ _
    simp only [storeTransactionsInMainCache, Option.some.injEq] at h
    subst h
    exact hg
  | cons tx rest ih =>
    intro c c2 h cl coin hg hs hne
    rw [storeTransactionsInMainCache] at h
    cases hso : storeOutputs (tx.Hash E) tx.Outputs.length c 0 tx.Outputs with
    | none => simp [hso] at h
    | some c1 =>
      simp only [hso] at h
      apply ih c1 c2 h cl coin _ hs (fun t ht => hne t (List.mem_cons_of_mem _ ht))
      exact (storeOutputs_cache _ _ _ c 0 c1 hso).2 cl coin hg hs
        (Or.inl (fun heq => hne tx (List.mem_cons_self _ _) heq.symm))

theorem storeTransactionsInMainCache_cache (E : Ext) (txs : List Transaction) :
    ∀ (c c2 : CoinDatabase), HashesAgree E txs →
      storeTransactionsInMainCache E c txs = some c2 →
      ∀ tx ∈ txs, ∀ i txo, tx.Outputs.get? i = some txo →
        kvGet c2.mainCache ⟨tx.Hash E, i⟩ = some ⟨txo, false⟩ := by
  induction txs with
  | nil => intro c c2 _ _ tx htx; simp at htx
  | cons t rest ih =>
    intro c c2 hagree h tx htx i txo hi
    rw [storeTransactionsInMainCache] at h
    cases hso : storeOutputs (t.Hash E) t.Outputs.length c 0 t.Outputs with
    | none => simp [hso] at h
    | some c1 =>
      simp only [hso] at h
      have hagree2 : HashesAgree E rest := fun a ha b hb hab =>
        hagree a (List.mem_cons_of_mem _ ha) b (List.mem_cons_of_mem _ hb) hab
      by_cases hex : ∃ t2 ∈ rest, t2.Hash E = tx.Hash E
      · obtain ⟨t2, ht2, heq⟩ := hex
        have hout : t2.Outputs = tx.Outputs :=
          hagree t2 (List.mem_cons_of_mem _ ht2) tx htx heq
        have := ih c1 c2 hagree2 h t2 ht2 i txo (by rw [hout]; exact hi)
        rw [heq] at this
        exact this
      · have hnone : ∀ t2 ∈ rest, t2.Hash E ≠ tx.Hash E := fun t2 ht2 heq => hex ⟨t2, ht2, heq⟩
        have htx2 : tx = t := by
          rcases List.mem_cons.1 htx with h1 | h1
          · exact h1
          · exact absurd rfl (hnone tx h1)
        subst htx2
        have h1 := (storeOutputs_cache _ _ _ c 0 c1 hso).1 i txo hi
        rw [Nat.zero_add] at h1
        exact storeTransactionsInMainCache_keeps E rest c1 c2 h _ _ h1 rfl hnone

theorem storeTransactionsInDB_mainCache (E : Ext) (txs : List Transaction) :
    ∀ c : CoinDatabase, (storeTransactionsInDB E c txs).mainCache = c.mainCache := by
  induction txs with
  | nil => intro c; rfl
  | cons tx rest ih =>
    intro c
    rw [storeTransactionsInDB, ih]
    rfl

/-- C3: for every coin-database state and every list of transactions (no two
of which collide under the hash with different outputs), StoreBlock returns
whenever the stored coin records are aligned, and whenever it returns, every
output `i` of every transaction of the list is returned by GetCoin with
`IsSpent = false`, its amount and its locking script; the flushes triggered
on the way evict spent coins only. -/
theorem C3_stored_outputs_are_unspent_coins (E : Ext) (c : CoinDatabase)
    (txs : List Transaction) (hagree : HashesAgree E txs) :
    (c.AlignedDB → ∃ c2, StoreBlock E c txs = some c2) ∧
    ∀ c2, StoreBlock E c txs = some c2 →
      ∀ tx ∈ txs, ∀ i txo, tx.Outputs.get? i = some txo →
        GetCoin c2 ⟨tx.Hash E, i⟩ = some (some ⟨txo, false⟩) := by
  constructor
  · intro ha
    obtain ⟨c2, h, _⟩ := StoreBlock_aligned E c txs ha
    exact ⟨c2, h⟩
  · intro c2 h tx htx i txo hi
    unfold StoreBlock at h
    cases h1 : updateSpentCoins E c txs with
    | none => simp [h1] at h
    | some c1 =>
      cases h2 : storeTransactionsInMainCache E c1 txs with
      | none => simp [h1, h2] at h
      | some c3 =>
        simp only [h1, h2, Option.some.injEq] at h
        subst h
        have hc := storeTransactionsInMainCache_cache E txs c1 c3 hagree h2 tx htx i txo hi
        unfold GetCoin
        rw [storeTransactionsInDB_mainCache, hc]

set_option maxRecDepth 1000000 in
/-- C3, witness: `smallCoinDB` has capacity 2 and holds the genesis coin;
storing `flushingTxs` flushes the cache on the way (the spent genesis coin
is evicted), and the three outputs of the two transactions are returned
unspent by GetCoin. -/
theorem C3_stored_outputs_are_unspent_coins_witness :
    ∃ c2, StoreBlock Sample.ext Sample.smallCoinDB Sample.flushingTxs = some c2 ∧
      GetCoin c2 ⟨Sample.txHash Sample.genesisTx, 0⟩ = some none ∧
      GetCoin c2 ⟨Sample.txHash Sample.tx1, 0⟩ = some (some ⟨⟨50, "PK1"⟩, false⟩) ∧
      GetCoin c2 ⟨Sample.txHash ⟨0, [], [⟨30, "A"⟩, ⟨20, "A"⟩], 7⟩, 0⟩
        = some (some ⟨⟨30, "A"⟩, false⟩) ∧
      GetCoin c2 ⟨Sample.txHash ⟨0, [], [⟨30, "A"⟩, ⟨20, "A"⟩], 7⟩, 1⟩
        = some (some ⟨⟨20, "A"⟩, false⟩) := by
  have hagree : HashesAgree Sample.ext Sample.flushingTxs := by
    unfold HashesAgree
    decide
  have hal : Sample.smallCoinDB.AlignedDB := by
    unfold AlignedDB CoinRecord.Aligned
    decide
  obtain ⟨htot, hget⟩ :=
    C3_stored_outputs_are_unspent_coins Sample.ext Sample.smallCoinDB Sample.flushingTxs hagree
  obtain ⟨c2, hc2⟩ := htot hal
  refine ⟨c2, hc2, ?_, ?_, ?_, ?_⟩
  · have : StoreBlock Sample.ext Sample.smallCoinDB Sample.flushingTxs
        = some ((StoreBlock Sample.ext Sample.smallCoinDB Sample.flushingTxs).getD
            Sample.smallCoinDB) := by decide
    rw [this, Option.some.injEq] at hc2
    subst hc2
    decide
  · exact hget c2 hc2 Sample.tx1 (by decide) 0 _ rfl
  · exact hget c2 hc2 _ (by decide) 0 _ rfl
  · exact hget c2 hc2 _ (by decide) 1 _ rfl

end CoinDatabase

namespace CoinDatabase

/-! ### Removing a coin from a record, seen from the balance -/

theorem indexOf_cons_ne (a e : Nat) (rest : List Nat) (h : a ≠ e) :
    indexOf (a :: rest) e = if indexOf rest e < 0 then -1 else indexOf rest e + 1 := by
  rw [indexOf, if_neg h]

theorem indexOf_ge_neg_one (s : List Nat) (e : Nat) : -1 ≤ indexOf s e := by
  rw [indexOf_eq]
  split <;> omega

theorem erase_sum (pk : String) (os : List Nat) :
    ∀ (as : List Nat) (ss : List String) (idx : Nat),
      as.length = os.length → ss.length = os.length →
      (indexOf os idx < 0 → valAt pk os as ss idx = 0) ∧
      (¬ indexOf os idx < 0 →
        sumWhere pk (ss.eraseIdx (indexOf os idx).toNat) (as.eraseIdx (indexOf os idx).toNat)
          + valAt pk os as ss idx = sumWhere pk ss as) := by
  induction os with
  | nil =>
    intro as ss idx _ _
    exact ⟨fun _ => by simp [valAt], fun h => absurd (by simp [indexOf]) h⟩
  | cons o os ih =>
    intro as ss idx ha hs
    cases as with
    | nil => simp at ha
    | cons a as =>
      cases ss with
      | nil => simp at hs
      | cons s ss =>
        simp only [List.length_cons, Nat.add_right_cancel_iff] at ha hs
        obtain ⟨ih1, ih2⟩ := ih as ss idx ha hs
        by_cases ho : o = idx
        · subst ho
          constructor
          · intro h; simp [indexOf] at h
          · intro _
            simp [indexOf, valAt, sumWhere]
            omega
        · rw [indexOf_cons_ne _ _ _ ho]
          by_cases hneg : indexOf os idx < 0
          · simp only [hneg, if_true]
            constructor
            · intro _; simp [valAt, ho, ih1 hneg]
            · intro h; exact absurd (by omega) h
          · simp only [hneg, if_false]
            have hge := indexOf_ge_neg_one os idx
            constructor
            · intro h; omega
            · intro _
              have ht : (indexOf os idx + 1).toNat = (indexOf os idx).toNat + 1 := by omega
              rw [ht]
              simp only [List.eraseIdx_cons_succ, sumWhere, valAt, ho, if_false]
              have := ih2 hneg
              omega

theorem removeCoinFromRecord_sum (pk : String) (cr cr2 : CoinRecord) (idx : Nat)
    (hal : cr.Aligned) (h : removeCoinFromRecord cr idx = some cr2) :
    recordSum pk cr2 + coinValue pk cr idx = recordSum pk cr := by
  obtain ⟨h1, h2⟩ := erase_sum pk cr.OutputIndexes cr.Amounts cr.LockingScripts idx hal.1 hal.2
  unfold removeCoinFromRecord at h
  by_cases hneg : indexOf cr.OutputIndexes idx < 0
  · simp only [hneg, if_true, Option.some.injEq] at h
    subst h
    simp [coinValue, h1 hneg]
  · have hlt := indexOf_toNat_lt _ _ hneg
    have hc : (indexOf cr.OutputIndexes idx).toNat < cr.Amounts.length ∧
        (indexOf cr.OutputIndexes idx).toNat < cr.LockingScripts.length := by
      rw [hal.1, hal.2]; exact ⟨hlt, hlt⟩
    simp only [hneg, if_false, hc, and_self, if_true, Option.some.injEq] at h
    subst h
    exact h2 hneg

theorem erase_valAt (pk : String) (os : List Nat) :
    ∀ (as : List Nat) (ss : List String) (idx b : Nat),
      as.length = os.length → ss.length = os.length → idx ≠ b →
      ¬ indexOf os idx < 0 →
      valAt pk (os.eraseIdx (indexOf os idx).toNat) (as.eraseIdx (indexOf os idx).toNat)
          (ss.eraseIdx (indexOf os idx).toNat) b = valAt pk os as ss b := by
  induction os with
  | nil =>
    intro as ss idx b _ _ _ h
    exact absurd (by simp [indexOf]) h
  | cons o os ih =>
    intro as ss idx b ha hs hne hnn
    cases as with
    | nil => simp at ha
    | cons a as =>
      cases ss with
      | nil => simp at hs
      | cons s ss =>
        simp only [List.length_cons, Nat.add_right_cancel_iff] at ha hs
        by_cases ho : o = idx
        · subst ho
          simp [indexOf, valAt, hne]
        · rw [indexOf_cons_ne _ _ _ ho] at hnn ⊢
          by_cases hneg : indexOf os idx < 0
          · simp only [hneg, if_true] at hnn
            exact absurd (by omega) hnn
          · simp only [hneg, if_false]
            have hge := indexOf_ge_neg_one os idx
            have ht : (indexOf os idx + 1).toNat = (indexOf os idx).toNat + 1 := by omega
            rw [ht]
            simp only [List.eraseIdx_cons_succ, valAt]
            rw [ih as ss idx b ha hs hne hneg]

theorem removeCoinFromRecord_coinValue (pk : String) (cr cr2 : CoinRecord) (idx b : Nat)
    (hal : cr.Aligned) (h : removeCoinFromRecord cr idx = some cr2) (hne : idx ≠ b) :
    coinValue pk cr2 b = coinValue pk cr b := by
  unfold removeCoinFromRecord at h
  by_cases hneg : indexOf cr.OutputIndexes idx < 0
  · simp only [hneg, if_true, Option.some.injEq] at h
    subst h
    rfl
  · have hlt := indexOf_toNat_lt _ _ hneg
    have hc : (indexOf cr.OutputIndexes idx).toNat < cr.Amounts.length ∧
        (indexOf cr.OutputIndexes idx).toNat < cr.LockingScripts.length := by
      rw [hal.1, hal.2]; exact ⟨hlt, hlt⟩
    simp only [hneg, if_false, hc, and_self, if_true, Option.some.injEq] at h
    subst h
    exact erase_valAt pk _ _ _ idx b hal.1 hal.2 hne hneg

theorem removeCoinFromRecord_nil (cr cr2 : CoinRecord) (idx : Nat)
    (hnil : cr.OutputIndexes = []) (h : removeCoinFromRecord cr idx = some cr2) : cr2 = cr := by
  unfold removeCoinFromRecord at h
  simp [hnil, indexOf] at h
  exact h.symm

theorem recordSum_of_nil (pk : String) (cr : CoinRecord) (hal : cr.Aligned)
    (hnil : cr.OutputIndexes = []) : recordSum pk cr = 0 := by
  obtain ⟨h1, h2⟩ := hal
  rw [hnil] at h1 h2
  simp only [List.length_nil, List.length_eq_zero] at h1 h2
  simp [recordSum, h1, h2, sumWhere]

theorem coinValue_of_nil (pk : String) (cr : CoinRecord) (idx : Nat)
    (hnil : cr.OutputIndexes = []) : coinValue pk cr idx = 0 := by
  simp [coinValue, hnil, valAt]

end CoinDatabase

/-! ### Keys of a key-value store -/

theorem kvGet_eq_none_iff {α β : Type} [DecidableEq α] (m : List (α × β)) (a : α) :
    kvGet m a = none ↔ a ∉ m.map Prod.fst := by
  induction m with
  | nil => simp [kvGet]
  | cons kv rest ih =>
    obtain ⟨k, v⟩ := kv
    by_cases h : k = a
    · simp [kvGet, h]
    · have h2 : ¬ a = k := fun h3 => h h3.symm
      simp [kvGet, h, h2, ih]

theorem kvPut_keys_of_mem {α β : Type} [DecidableEq α] (m : List (α × β)) (a : α) (b : β)
    (h : a ∈ m.map Prod.fst) : (kvPut m a b).map Prod.fst = m.map Prod.fst := by
  induction m with
  | nil => simp at h
  | cons kv rest ih =>
    obtain ⟨k, v⟩ := kv
    by_cases hk : k = a
    · simp [kvPut, hk]
    · have h2 : a ∈ rest.map Prod.fst := by
        simp only [List.map_cons, List.mem_cons] at h
        rcases h with h | h
        · exact absurd h.symm hk
        · exact h
      simp [kvPut, hk, ih h2]

theorem kvPut_keys_of_not_mem {α β : Type} [DecidableEq α] (m : List (α × β)) (a : α) (b : β)
    (h : a ∉ m.map Prod.fst) : kvPut m a b = m ++ [(a, b)] := by
  induction m with
  | nil => simp [kvPut]
  | cons kv rest ih =>
    obtain ⟨k, v⟩ := kv
    simp only [List.map_cons, List.mem_cons, not_or] at h
    have hk : ¬ k = a := fun h3 => h.1 h3.symm
    simp [kvPut, hk, ih h.2]

theorem nodup_keys_kvPut {α β : Type} [DecidableEq α] (m : List (α × β)) (a : α) (b : β)
    (h : (m.map Prod.fst).Nodup) : ((kvPut m a b).map Prod.fst).Nodup := by
  by_cases hm : a ∈ m.map Prod.fst
  · rw [kvPut_keys_of_mem m a b hm]; exact h
  · rw [kvPut_keys_of_not_mem m a b hm, List.map_append]
    simp only [List.map_cons, List.map_nil]
    exact List.Nodup.append h (List.nodup_singleton a) (by simpa using hm)

theorem kvDelete_keys {α β : Type} [DecidableEq α] (m : List (α × β)) (a : α) :
    (kvDelete m a).map Prod.fst = (m.map Prod.fst).filter (fun k => decide (k ≠ a)) := by
  unfold kvDelete
  rw [List.filter_map]
  rfl

theorem nodup_keys_kvDelete {α β : Type} [DecidableEq α] (m : List (α × β)) (a : α)
    (h : (m.map Prod.fst).Nodup) : ((kvDelete m a).map Prod.fst).Nodup := by
  rw [kvDelete_keys]
  exact h.filter _

theorem kvPut_mem {α β : Type} [DecidableEq α] (m : List (α × β)) (a : α) (b : β)
    (kv : α × β) (h : kv ∈ kvPut m a b) : kv ∈ m ∨ kv = (a, b) := by
  induction m with
  | nil =>
    simp only [kvPut, List.mem_singleton] at h
    exact Or.inr h
  | cons x rest ih =>
    obtain ⟨k, v⟩ := x
    by_cases hk : k = a
    · simp only [kvPut, hk, if_true, List.mem_cons] at h
      rcases h with h | h
      · exact Or.inr h
      · exact Or.inl (List.mem_cons_of_mem _ h)
    · simp only [kvPut, hk, if_false, List.mem_cons] at h
      rcases h with h | h
      · exact Or.inl (h ▸ List.mem_cons_self _ _)
      · rcases ih h with h2 | h2
        · exact Or.inl (List.mem_cons_of_mem _ h2)
        · exact Or.inr h2

namespace CoinDatabase

/-! ### A flush, seen from the balance -/

theorem overlaySum_nil (pk : String) (db : List (String × CoinRecord)) :
    overlaySum pk db [] = dbSum pk db := by
  simp [overlaySum, dbSum, kvGet]

theorem overlaySum_kvPut (pk : String) (u : List (String × CoinRecord)) (h : String)
    (r2 : CoinRecord) (db : List (String × CoinRecord)) (hnd : (db.map Prod.fst).Nodup) :
    overlaySum pk db (kvPut u h r2) +
        (match kvGet db h with
          | some r0 => recordSum pk ((kvGet u h).getD r0)
          | none => 0)
      = overlaySum pk db u +
        (match kvGet db h with
          | some _ => recordSum pk r2
          | none => 0) := by
  induction db with
  | nil => simp [overlaySum, kvGet]
  | cons kv rest ih =>
    obtain ⟨k, v⟩ := kv
    simp only [List.map_cons, List.nodup_cons] at hnd
    obtain ⟨hk, hrest⟩ := hnd
    have ih2 := ih hrest
    by_cases hkh : k = h
    · subst hkh
      have hnone : kvGet rest k = none := (kvGet_eq_none_iff rest k).2 hk
      rw [hnone] at ih2
      simp only [Nat.add_zero] at ih2
      simp only [overlaySum] at ih2 ⊢
      simp only [List.map_cons, List.sum_cons, kvGet, if_true, kvGet_kvPut_self, Option.getD_some]
      omega
    · have hne : h ≠ k := fun h3 => hkh h3.symm
      simp only [overlaySum] at ih2 ⊢
      simp only [List.map_cons, List.sum_cons, kvGet, hkh, if_false, kvGet_kvPut_of_ne _ _ hne]
      omega

theorem flushLookup_aligned (db u : List (String × CoinRecord)) (h : String)
    (hdb : ∀ kv ∈ db, kv.2.Aligned) (hu : ∀ kv ∈ u, kv.2.Aligned) :
    (flushLookup db u h).Aligned := by
  unfold flushLookup
  cases h1 : kvGet u h with
  | some cr2 => exact hu _ (kvGet_mem _ h1)
  | none =>
    cases h2 : kvGet db h with
    | some r => exact hdb _ (kvGet_mem _ h2)
    | none => exact aligned_empty

theorem flushLookup_kvPut_self (db u : List (String × CoinRecord)) (h : String) (r : CoinRecord) :
    flushLookup db (kvPut u h r) h = r := by
  simp [flushLookup, kvGet_kvPut_self]

theorem flushLookup_kvPut_of_ne (db u : List (String × CoinRecord)) (h h2 : String)
    (r : CoinRecord) (hne : h ≠ h2) : flushLookup db (kvPut u h r) h2 = flushLookup db u h2 := by
  simp [flushLookup, kvGet_kvPut_of_ne _ _ hne]

theorem pendingIn_kvPut (pk : String) (db u : List (String × CoinRecord)) (cl : CoinLocator)
    (r2 : CoinRecord) (hdb : ∀ kv ∈ db, kv.2.Aligned) (hu : ∀ kv ∈ u, kv.2.Aligned)
    (hr : removeCoinFromRecord (flushLookup db u cl.ReferenceTransactionHash) cl.OutputIndex
      = some r2)
    (rest : List (CoinLocator × Coin)) (hne : ∀ e ∈ rest, e.1 ≠ cl) :
    pendingIn pk db (kvPut u cl.ReferenceTransactionHash r2) rest = pendingIn pk db u rest := by
  induction rest with
  | nil => rfl
  | cons e rest ih =>
    obtain ⟨cl2, coin2⟩ := e
    have ih2 := ih (fun e he => hne e (List.mem_cons_of_mem _ he))
    have hcl : cl2 ≠ cl := hne (cl2, coin2) (List.mem_cons_self _ _)
    simp only [pendingIn, ih2]
    congr 1
    cases hs : coin2.IsSpent with
    | false => simp
    | true =>
      simp only [if_true]
      by_cases hh : cl.ReferenceTransactionHash = cl2.ReferenceTransactionHash
      · rw [← hh, flushLookup_kvPut_self]
        have hidx : cl.OutputIndex ≠ cl2.OutputIndex := by
          intro hi
          apply hcl
          cases cl; cases cl2
          simp only at hh hi
          subst hh; subst hi
          rfl
        exact removeCoinFromRecord_coinValue pk _ _ _ _
          (flushLookup_aligned db u _ hdb hu) hr hidx
      · rw [flushLookup_kvPut_of_ne _ _ _ _ _ hh]

theorem flushCollect_sum (pk : String) (db : List (String × CoinRecord))
    (hdb : ∀ kv ∈ db, kv.2.Aligned) (hnd : (db.map Prod.fst).Nodup)
    (cache : List (CoinLocator × Coin)) :
    ∀ (u u2 : List (String × CoinRecord)),
      (cache.map Prod.fst).Nodup →
      (∀ kv ∈ u, kv.2.Aligned) →
      (∀ kv ∈ u, kv.1 ∉ db.map Prod.fst → kv.2.OutputIndexes = []) →
      (u.map Prod.fst).Nodup →
      flushCollect db cache u = some u2 →
      overlaySum pk db u2 + pendingIn pk db u cache = overlaySum pk db u ∧
      (∀ kv ∈ u2, kv.2.Aligned) ∧
      (∀ kv ∈ u2, kv.1 ∉ db.map Prod.fst → kv.2.OutputIndexes = []) ∧
      (u2.map Prod.fst).Nodup := by
  induction cache with
  | nil =>
    intro u u2 _ hu hiv hun h
    simp only [flushCollect, Option.some.injEq] at h
    subst h
    exact ⟨by simp [pendingIn], hu, hiv, hun⟩
  | cons e rest ih =>
    obtain ⟨cl, coin⟩ := e
    intro u u2 hcn hu hiv hun h
    simp only [List.map_cons, List.nodup_cons] at hcn
    obtain ⟨hcl, hrestnd⟩ := hcn
    rw [flushCollect] at h
    cases hs : coin.IsSpent with
    | false =>
      simp only [hs, Bool.not_false, if_true] at h
      obtain ⟨h1, h2, h3, h4⟩ := ih u u2 hrestnd hu hiv hun h
      refine ⟨?_, h2, h3, h4⟩
      simp only [pendingIn, hs, Bool.false_eq_true, if_false, Nat.zero_add]
      exact h1
    | true =>
      simp only [hs, Bool.not_true, Bool.false_eq_true, if_false] at h
      have hral := flushLookup_aligned db u cl.ReferenceTransactionHash hdb hu
      cases hr : removeCoinFromRecord (flushLookup db u cl.ReferenceTransactionHash)
          cl.OutputIndex with
      | none => simp [hr] at h
      | some r2 =>
        simp only [hr] at h
        have hr2al : r2.Aligned := by
          obtain ⟨r3, hr3, hal3⟩ := removeCoinFromRecord_aligned _ cl.OutputIndex hral
          rw [hr, Option.some.injEq] at hr3
          subst hr3
          exact hal3
        have hu1 : ∀ kv ∈ kvPut u cl.ReferenceTransactionHash r2, kv.2.Aligned :=
          forall_kvPut _ _ _ _ hu hr2al
        have hnilcase : cl.ReferenceTransactionHash ∉ db.map Prod.fst →
            (flushLookup db u cl.ReferenceTransactionHash).OutputIndexes = [] := by
          intro hnot
          unfold flushLookup
          cases h1 : kvGet u cl.ReferenceTransactionHash with
          | some cr2 => exact hiv _ (kvGet_mem _ h1) hnot
          | none =>
            rw [(kvGet_eq_none_iff db _).2 hnot]
            rfl
        have hiv1 : ∀ kv ∈ kvPut u cl.ReferenceTransactionHash r2,
            kv.1 ∉ db.map Prod.fst → kv.2.OutputIndexes = [] := by
          intro kv hkv hnot
          rcases kvPut_mem _ _ _ _ hkv with hkv | hkv
          · exact hiv kv hkv hnot
          · subst hkv
            have hnil := hnilcase hnot
            rw [removeCoinFromRecord_nil _ _ _ hnil hr]
            exact hnil
        have hun1 := nodup_keys_kvPut u cl.ReferenceTransactionHash r2 hun
        obtain ⟨h1, h2, h3, h4⟩ := ih _ u2 hrestnd hu1 hiv1 hun1 h
        refine ⟨?_, h2, h3, h4⟩
        have hne : ∀ e ∈ rest, e.1 ≠ cl := by
          intro e he heq
          apply hcl
          rw [← heq]
          exact List.mem_map_of_mem _ he
        rw [pendingIn_kvPut pk db u cl r2 hdb hu hr rest hne] at h1
        have hsum := removeCoinFromRecord_sum pk _ _ _ hral hr
        have hov := overlaySum_kvPut pk u cl.ReferenceTransactionHash r2 db hnd
        simp only [pendingIn, hs, if_true]
        cases hg : kvGet db cl.ReferenceTransactionHash with
        | some r0 =>
          rw [hg] at hov
          simp only at hov
          have hfl : flushLookup db u cl.ReferenceTransactionHash
              = (kvGet u cl.ReferenceTransactionHash).getD r0 := by
            unfold flushLookup
            cases kvGet u cl.ReferenceTransactionHash <;> simp [hg]
          rw [← hfl] at hov
          omega
        | none =>
          rw [hg] at hov
          simp only [Nat.add_zero] at hov
          have hnil := hnilcase ((kvGet_eq_none_iff db _).1 hg)
          rw [coinValue_of_nil pk _ _ hnil]
          omega

end CoinDatabase

namespace CoinDatabase

theorem overlaySum_cons (pk : String) (k : String) (v : CoinRecord)
    (db u : List (String × CoinRecord)) :
    overlaySum pk ((k, v) :: db) u = recordSum pk ((kvGet u k).getD v) + overlaySum pk db u := by
  simp [overlaySum]

theorem kvGet_cons_of_ne {α β : Type} [DecidableEq α] (m : List (α × β)) (k a : α) (v : β)
    (h : k ≠ a) : kvGet ((k, v) :: m) a = kvGet m a := by
  simp [kvGet, h]

theorem kvGet_cons_self {α β : Type} [DecidableEq α] (m : List (α × β)) (k : α) (v : β) :
    kvGet ((k, v) :: m) k = some v := by
  simp [kvGet]

theorem overlaySum_cons_of_not_mem (pk : String) (key : String) (cr : CoinRecord)
    (rest : List (String × CoinRecord)) (db : List (String × CoinRecord))
    (h : key ∉ db.map Prod.fst) :
    overlaySum pk db ((key, cr) :: rest) = overlaySum pk db rest := by
  induction db with
  | nil => rfl
  | cons kv db ih =>
    obtain ⟨k, v⟩ := kv
    simp only [List.map_cons, List.mem_cons, not_or] at h
    rw [overlaySum_cons, overlaySum_cons, ih h.2, kvGet_cons_of_ne _ _ _ _ h.1]

theorem overlaySum_kvDelete (pk : String) (key : String) (cr : CoinRecord)
    (rest : List (String × CoinRecord)) (hz : recordSum pk cr = 0)
    (db : List (String × CoinRecord)) :
    overlaySum pk (kvDelete db key) rest = overlaySum pk db ((key, cr) :: rest) := by
  induction db with
  | nil => rfl
  | cons kv db ih =>
    obtain ⟨k, v⟩ := kv
    by_cases hk : k = key
    · subst hk
      have hdel : kvDelete ((k, v) :: db) k = kvDelete db k := by
        simp [kvDelete, List.filter_cons]
      rw [hdel, ih, overlaySum_cons, kvGet_cons_self, Option.getD_some, hz, Nat.zero_add]
    · have hk2 : key ≠ k := fun h3 => hk h3.symm
      have hdel : kvDelete ((k, v) :: db) key = (k, v) :: kvDelete db key := by
        simp [kvDelete, List.filter_cons, hk]
      rw [hdel, overlaySum_cons, overlaySum_cons, ih, kvGet_cons_of_ne _ _ _ _ hk2]

theorem overlaySum_kvPut_store (pk : String) (key : String) (cr : CoinRecord)
    (rest : List (String × CoinRecord)) (hrest : key ∉ rest.map Prod.fst)
    (db : List (String × CoinRecord)) (hnd : (db.map Prod.fst).Nodup)
    (hmem : key ∈ db.map Prod.fst) :
    overlaySum pk (kvPut db key cr) rest = overlaySum pk db ((key, cr) :: rest) := by
  induction db with
  | nil => simp at hmem
  | cons kv db ih =>
    obtain ⟨k, v⟩ := kv
    simp only [List.map_cons, List.nodup_cons] at hnd
    by_cases hk : k = key
    · subst hk
      have hput : kvPut ((k, v) :: db) k cr = (k, cr) :: db := by simp [kvPut]
      have hnone : kvGet rest k = none := (kvGet_eq_none_iff rest k).2 hrest
      rw [hput, overlaySum_cons, overlaySum_cons, overlaySum_cons_of_not_mem pk k cr rest db hnd.1,
        kvGet_cons_self, hnone]
      rfl
    · have hk2 : key ≠ k := fun h3 => hk h3.symm
      have hmem2 : key ∈ db.map Prod.fst := by
        simp only [List.map_cons, List.mem_cons] at hmem
        rcases hmem with h | h
        · exact absurd h hk2
        · exact h
      have hput : kvPut ((k, v) :: db) key cr = (k, v) :: kvPut db key cr := by
        simp [kvPut, hk]
      rw [hput, overlaySum_cons, overlaySum_cons, ih hnd.2 hmem2, kvGet_cons_of_ne _ _ _ _ hk2]

theorem flushWrite_sum (pk : String) (u : List (String × CoinRecord)) :
    ∀ db : List (String × CoinRecord),
      (db.map Prod.fst).Nodup → (u.map Prod.fst).Nodup →
      (∀ kv ∈ u, kv.2.Aligned) →
      (∀ kv ∈ u, kv.1 ∉ db.map Prod.fst → kv.2.OutputIndexes = []) →
      dbSum pk (flushWrite db u) = overlaySum pk db u ∧
      ((flushWrite db u).map Prod.fst).Nodup ∧
      (∀ k ∈ (flushWrite db u).map Prod.fst, k ∈ db.map Prod.fst) := by
  induction u with
  | nil =>
    intro db hnd _ _ _
    exact ⟨by rw [flushWrite, overlaySum_nil], by rw [flushWrite]; exact hnd,
      by rw [flushWrite]; exact fun k hk => hk⟩
  | cons e rest ih =>
    obtain ⟨key, cr⟩ := e
    intro db hnd hun hal hiv
    simp only [List.map_cons, List.nodup_cons] at hun
    obtain ⟨hkey, hrestnd⟩ := hun
    have halrest : ∀ kv ∈ rest, kv.2.Aligned := fun kv h => hal kv (List.mem_cons_of_mem _ h)
    have hcr : cr.Aligned := hal _ (List.mem_cons_self _ _)
    rw [flushWrite]
    by_cases hz : cr.OutputIndexes.length = 0
    · rw [if_pos hz]
      have hnil : cr.OutputIndexes = [] := List.length_eq_zero.1 hz
      have hiv2 : ∀ kv ∈ rest, kv.1 ∉ (kvDelete db key).map Prod.fst →
          kv.2.OutputIndexes = [] := by
        intro kv hkv hnot
        apply hiv kv (List.mem_cons_of_mem _ hkv)
        intro hin
        apply hnot
        rw [kvDelete_keys]
        refine List.mem_filter.2 ⟨hin, ?_⟩
        have : kv.1 ≠ key := by
          intro heq
          apply hkey
          rw [← heq]
          exact List.mem_map_of_mem _ hkv
        simpa using this
      obtain ⟨h1, h2, h3⟩ :=
        ih (kvDelete db key) (nodup_keys_kvDelete db key hnd) hrestnd halrest hiv2
      refine ⟨by rw [h1, overlaySum_kvDelete pk key cr rest (recordSum_of_nil pk cr hcr hnil)],
        h2, ?_⟩
      intro k hk
      have := h3 k hk
      rw [kvDelete_keys] at this
      exact (List.mem_filter.1 this).1
    · rw [if_neg hz]
      have hmem : key ∈ db.map Prod.fst := by
        by_contra hnot
        exact hz (by rw [hiv (key, cr) (List.mem_cons_self _ _) hnot]; rfl)
      have hiv2 : ∀ kv ∈ rest, kv.1 ∉ (kvPut db key cr).map Prod.fst →
          kv.2.OutputIndexes = [] := by
        intro kv hkv hnot
        rw [kvPut_keys_of_mem db key cr hmem] at hnot
        exact hiv kv (List.mem_cons_of_mem _ hkv) hnot
      obtain ⟨h1, h2, h3⟩ :=
        ih (kvPut db key cr) (nodup_keys_kvPut db key cr hnd) hrestnd halrest hiv2
      refine ⟨by rw [h1, overlaySum_kvPut_store pk key cr rest hkey db hnd hmem], h2, ?_⟩
      intro k hk
      have := h3 k hk
      rw [kvPut_keys_of_mem db key cr hmem] at this
      exact this

theorem pendingIn_filter_unspent (pk : String) (db u : List (String × CoinRecord))
    (cache : List (CoinLocator × Coin)) :
    pendingIn pk db u (cache.filter (fun e => !e.2.IsSpent)) = 0 := by
  induction cache with
  | nil => rfl
  | cons e rest ih =>
    obtain ⟨cl, coin⟩ := e
    cases hs : coin.IsSpent with
    | false => simp [List.filter_cons, hs, pendingIn, ih]
    | true => simp [List.filter_cons, hs, ih]

theorem FlushMainCache_sum (pk : String) (c : CoinDatabase)
    (hdb : (c.db.map Prod.fst).Nodup) (hcache : (c.mainCache.map Prod.fst).Nodup)
    (hal : c.AlignedDB) :
    ∃ c2, FlushMainCache c = some c2 ∧
      dbSum pk c2.db + pending pk c = dbSum pk c.db ∧
      pending pk c2 = 0 ∧
      (c2.db.map Prod.fst).Nodup ∧ (c2.mainCache.map Prod.fst).Nodup ∧ c2.AlignedDB ∧
      c2.mainCache = c.mainCache.filter (fun e => !e.2.IsSpent) ∧
      c2.mainCacheCapacity = c.mainCacheCapacity ∧
      (∀ k ∈ c2.db.map Prod.fst, k ∈ c.db.map Prod.fst) := by
  obtain ⟨u2, hc, _⟩ := flushCollect_aligned c.db hal c.mainCache [] (by simp)
  obtain ⟨h1, h2, h3, h4⟩ := flushCollect_sum pk c.db hal hdb c.mainCache [] u2 hcache
    (by simp) (by simp) (by simp) hc
  obtain ⟨h5, h6, h7⟩ := flushWrite_sum pk u2 c.db hdb h4 h2 h3
  simp only [FlushMainCache, hc]
  refine ⟨_, rfl, ?_, ?_, h6, ?_, flushWrite_aligned u2 c.db hal h2, rfl, rfl, h7⟩
  · show dbSum pk (flushWrite c.db u2) + pendingIn pk c.db [] c.mainCache = dbSum pk c.db
    rw [h5, h1, overlaySum_nil]
  · exact pendingIn_filter_unspent pk _ _ _
  · show ((c.mainCache.filter (fun e => !e.2.IsSpent)).map Prod.fst).Nodup
    exact (List.Nodup.sublist (List.Sublist.map _ (List.filter_sublist _)) hcache)

/-! ### GetBalance is the sum over the flushed store -/

theorem balanceOfRecord_eq (pk : String) (amounts : List Nat) (scripts : List String) :
    ∀ (i bal : Nat), i + scripts.length ≤ amounts.length →
      ∃ b, balanceOfRecord pk amounts i scripts bal = some b ∧
        b % 2 ^ 32 = (bal + sumWhere pk scripts (amounts.drop i)) % 2 ^ 32 ∧
        (bal < 2 ^ 32 → b < 2 ^ 32) := by
  induction scripts with
  | nil =>
    intro i bal _
    exact ⟨bal, rfl, by simp [sumWhere], fun h => h⟩
  | cons s ss ih =>
    intro i bal hlen
    simp only [List.length_cons] at hlen
    have hi : i < amounts.length := by omega
    have hdrop : amounts.drop i = amounts[i] :: amounts.drop (i + 1) :=
      List.drop_eq_getElem_cons hi
    have hget : amounts.get? i = some amounts[i] := by
      simp [List.getElem?_eq_getElem hi]
    rw [balanceOfRecord, hdrop]
    by_cases hs : s = pk
    · simp only [hs, if_true, hget, sumWhere]
      obtain ⟨b, h1, h2, h3⟩ := ih (i + 1) ((bal + amounts[i]) % 2 ^ 32) (by omega)
      refine ⟨b, h1, ?_, fun _ => h3 (Nat.mod_lt _ (by norm_num))⟩
      rw [h2]
      omega
    · simp only [hs, if_false, sumWhere, Nat.zero_add]
      exact ih (i + 1) bal (by omega)

theorem balanceOfStore_eq (pk : String) (db : List (String × CoinRecord))
    (hal : ∀ kv ∈ db, kv.2.Aligned) :
    ∀ bal : Nat, ∃ b, balanceOfStore pk db bal = some b ∧
      b % 2 ^ 32 = (bal + dbSum pk db) % 2 ^ 32 ∧ (bal < 2 ^ 32 → b < 2 ^ 32) := by
  induction db with
  | nil => intro bal; exact ⟨bal, rfl, by simp [dbSum], fun h => h⟩
  | cons kv rest ih =>
    obtain ⟨k, cr⟩ := kv
    intro bal
    have hcr : cr.Aligned := hal (k, cr) (List.mem_cons_self _ _)
    obtain ⟨b1, h1, h2, h3⟩ := balanceOfRecord_eq pk cr.Amounts cr.LockingScripts 0 bal
      (by rw [hcr.1, hcr.2]; omega)
    obtain ⟨b2, h4, h5, h6⟩ := ih (fun kv h => hal kv (List.mem_cons_of_mem _ h)) b1
    refine ⟨b2, by simp only [balanceOfStore, h1, h4], ?_, fun hb => h6 (h3 hb)⟩
    rw [h5]
    simp only [List.drop_zero] at h2
    simp only [dbSum, List.map_cons, List.sum_cons, recordSum] at h2 ⊢
    omega

theorem GetBalance_eq (pk : String) (c : CoinDatabase)
    (hdb : (c.db.map Prod.fst).Nodup) (hcache : (c.mainCache.map Prod.fst).Nodup)
    (hal : c.AlignedDB) :
    ∃ c2, GetBalance c pk = some (dbSum pk c2.db % 2 ^ 32, c2) ∧
      dbSum pk c2.db + pending pk c = dbSum pk c.db := by
  obtain ⟨c2, h1, h2, _, _, _, hal2, _, _, _⟩ := FlushMainCache_sum pk c hdb hcache hal
  obtain ⟨b, h3, h4, h5⟩ := balanceOfStore_eq pk c2.db hal2 0
  have hb : b = dbSum pk c2.db % 2 ^ 32 := by
    have := h5 (by norm_num)
    rw [Nat.zero_add] at h4
    rw [← h4]
    exact (Nat.mod_eq_of_lt this).symm
  subst hb
  exact ⟨c2, by simp only [GetBalance, h1, h3], h2⟩

end CoinDatabase

namespace CoinDatabase

/-! ### Marking the inputs spent, seen from the balance -/

theorem valAt_of_get (pk : String) (os : List Nat) :
    ∀ (as : List Nat) (ss : List String) (idx a : Nat) (s : String),
      ¬ indexOf os idx < 0 →
      as.get? (indexOf os idx).toNat = some a →
      ss.get? (indexOf os idx).toNat = some s →
      valAt pk os as ss idx = if s = pk then a else 0 := by
  induction os with
  | nil =>
    intro as ss idx a s h _ _
    exact absurd (by simp [indexOf]) h
  | cons o os ih =>
    intro as ss idx a s hnn ha hs
    by_cases ho : o = idx
    · subst ho
      simp only [indexOf, if_true, Int.toNat_zero] at ha hs
      cases as with
      | nil => simp at ha
      | cons a0 as =>
        cases ss with
        | nil => simp at hs
        | cons s0 ss =>
          simp only [List.get?_cons_zero, Option.some.injEq] at ha hs
          subst ha; subst hs
          simp [valAt]
    · rw [indexOf_cons_ne _ _ _ ho] at hnn ha hs
      by_cases hneg : indexOf os idx < 0
      · simp only [hneg, if_true] at hnn
        exact absurd (by omega) hnn
      · simp only [hneg, if_false] at ha hs
        have hge := indexOf_ge_neg_one os idx
        have ht : (indexOf os idx + 1).toNat = (indexOf os idx).toNat + 1 := by omega
        rw [ht] at ha hs
        cases as with
        | nil => simp at ha
        | cons a0 as =>
          cases ss with
          | nil => simp at hs
          | cons s0 ss =>
            simp only [List.get?_cons_succ] at ha hs
            simp only [valAt, ho, if_false]
            exact ih as ss idx a s hneg ha hs

theorem coinValue_of_record_coin (pk : String) (c : CoinDatabase) (cl : CoinLocator)
    (txo : TransactionOutput)
    (h : GetCoin { c with mainCache := [] } cl = some (some ⟨txo, false⟩)) :
    coinValue pk (flushLookup c.db [] cl.ReferenceTransactionHash) cl.OutputIndex
      = if txo.LockingScript = pk then txo.Amount else 0 := by
  unfold GetCoin getCoinRecordFromDB at h
  simp only [kvGet] at h
  cases hg : kvGet c.db cl.ReferenceTransactionHash with
  | none => simp [hg] at h
  | some cr =>
    simp only [hg] at h
    by_cases hneg : indexOf cr.OutputIndexes cl.OutputIndex < 0
    · simp [hneg] at h
    · simp only [hneg, if_false] at h
      cases ha : cr.Amounts.get? (indexOf cr.OutputIndexes cl.OutputIndex).toNat with
      | none =>
        rw [ha] at h
        simp at h
      | some a =>
        cases hs : cr.LockingScripts.get? (indexOf cr.OutputIndexes cl.OutputIndex).toNat with
        | none =>
          rw [ha, hs] at h
          simp at h
        | some s =>
          rw [ha, hs] at h
          simp only [Option.some.injEq, Coin.mk.injEq, and_true] at h
          subst h
          have hfl : flushLookup c.db [] cl.ReferenceTransactionHash = cr := by
            simp [flushLookup, kvGet, hg]
          rw [hfl]
          exact valAt_of_get pk _ _ _ _ a s hneg ha hs

theorem inputReady_spec (c : CoinDatabase) (txi : TransactionInput)
    (h : inputReady c txi = true) :
    ∃ coin, kvGet c.mainCache (makeCoinLocator txi) = some coin ∧ coin.IsSpent = false ∧
      GetCoin { c with mainCache := [] } (makeCoinLocator txi)
        = some (some ⟨coin.TransactionOutput, false⟩) := by
  unfold inputReady at h
  cases hg : kvGet c.mainCache (makeCoinLocator txi) with
  | none => simp [hg] at h
  | some coin =>
    simp only [hg, Bool.and_eq_true, Bool.not_eq_true', decide_eq_true_eq] at h
    exact ⟨coin, rfl, h.1, h.2⟩

theorem inputValue_of_ready (pk : String) (c : CoinDatabase) (txi : TransactionInput)
    (h : inputReady c txi = true) :
    inputValue pk c txi
      = coinValue pk (flushLookup c.db [] txi.ReferenceTransactionHash) txi.OutputIndex := by
  obtain ⟨coin, h1, _, h3⟩ := inputReady_spec c txi h
  have := coinValue_of_record_coin pk c (makeCoinLocator txi) coin.TransactionOutput h3
  simp only [makeCoinLocator] at this
  rw [this]
  simp [inputValue, GetCoin, h1]

theorem pendingIn_mark_spent (pk : String) (db : List (String × CoinRecord))
    (cl : CoinLocator) (coin : Coin) (hs : coin.IsSpent = false)
    (cache : List (CoinLocator × Coin)) (hg : kvGet cache cl = some coin) :
    pendingIn pk db [] (kvPut cache cl { coin with IsSpent := true })
      = pendingIn pk db [] cache
        + coinValue pk (flushLookup db [] cl.ReferenceTransactionHash) cl.OutputIndex := by
  induction cache with
  | nil => simp [kvGet] at hg
  | cons e rest ih =>
    obtain ⟨k, v⟩ := e
    by_cases hk : k = cl
    · subst hk
      rw [kvGet_cons_self, Option.some.injEq] at hg
      subst hg
      have hput : kvPut ((k, v) :: rest) k { v with IsSpent := true }
          = (k, { v with IsSpent := true }) :: rest := by simp [kvPut]
      rw [hput]
      simp only [pendingIn, hs, if_true, Bool.false_eq_true, if_false]
      omega
    · rw [kvGet_cons_of_ne _ _ _ _ hk] at hg
      have hput : kvPut ((k, v) :: rest) cl { coin with IsSpent := true }
          = (k, v) :: kvPut rest cl { coin with IsSpent := true } := by simp [kvPut, hk]
      rw [hput]
      simp only [pendingIn, ih hg]
      omega

theorem kvGet_some_of_mem_keys {α β : Type} [DecidableEq α] (m : List (α × β)) (a : α)
    (h : kvGet m a ≠ none) : a ∈ m.map Prod.fst := by
  by_contra hn
  exact h ((kvGet_eq_none_iff m a).2 hn)

theorem updateSpentInputs_sum (pk : String) (txHash : String) (ins : List TransactionInput) :
    ∀ c : CoinDatabase,
      (ins.map makeCoinLocator).Nodup →
      (∀ txi ∈ ins, ∃ coin, kvGet c.mainCache (makeCoinLocator txi) = some coin ∧
        coin.IsSpent = false) →
      ∃ c2, updateSpentInputs txHash c ins = some c2 ∧
        c2.db = c.db ∧ c2.mainCacheCapacity = c.mainCacheCapacity ∧
        c2.mainCache.map Prod.fst = c.mainCache.map Prod.fst ∧
        (∀ cl, cl ∉ ins.map makeCoinLocator → kvGet c2.mainCache cl = kvGet c.mainCache cl) ∧
        pending pk c2 = pending pk c +
          (ins.map (fun txi =>
            coinValue pk (flushLookup c.db [] txi.ReferenceTransactionHash)
              txi.OutputIndex)).sum := by
  induction ins with
  | nil =>
    intro c _ _
    exact ⟨c, rfl, rfl, rfl, rfl, fun _ _ => rfl, by simp⟩
  | cons txi rest ih =>
    intro c hnd hready
    simp only [List.map_cons, List.nodup_cons] at hnd
    obtain ⟨hnot, hnd2⟩ := hnd
    obtain ⟨coin, hg, hs⟩ := hready txi (List.mem_cons_self _ _)
    rw [updateSpentInputs]
    simp only [hg]
    have hready2 : ∀ t ∈ rest, ∃ coin2,
        kvGet (kvPut c.mainCache (makeCoinLocator txi) { coin with IsSpent := true })
          (makeCoinLocator t) = some coin2 ∧ coin2.IsSpent = false := by
      intro t ht
      obtain ⟨coin2, hg2, hs2⟩ := hready t (List.mem_cons_of_mem _ ht)
      have hne : makeCoinLocator txi ≠ makeCoinLocator t := by
        intro heq
        apply hnot
        rw [heq]
        exact List.mem_map_of_mem _ ht
      exact ⟨coin2, by rw [kvGet_kvPut_of_ne _ _ hne]; exact hg2, hs2⟩
    obtain ⟨c2, h1, h2, h3, h4, h5, h6⟩ := ih
      { c with mainCache := kvPut c.mainCache (makeCoinLocator txi) { coin with IsSpent := true } }
      hnd2 hready2
    refine ⟨c2, h1, h2, h3, ?_, ?_, ?_⟩
    · rw [h4]
      exact kvPut_keys_of_mem _ _ _ (kvGet_some_of_mem_keys _ _ (by rw [hg]; simp))
    · intro cl hcl
      simp only [List.map_cons, List.mem_cons, not_or] at hcl
      rw [h5 cl hcl.2]
      exact kvGet_kvPut_of_ne _ _ (fun heq => hcl.1 heq.symm)
    · rw [h6]
      simp only [pending, List.map_cons, List.sum_cons]
      rw [pendingIn_mark_spent pk c.db _ coin hs c.mainCache hg]
      simp only [makeCoinLocator]
      omega

theorem updateSpentCoins_sum (pk : String) (E : Ext) (txs : List Transaction) :
    ∀ c : CoinDatabase,
      ((txs.flatMap (fun tx => tx.Inputs)).map makeCoinLocator).Nodup →
      (∀ txi ∈ txs.flatMap (fun tx => tx.Inputs),
        ∃ coin, kvGet c.mainCache (makeCoinLocator txi) = some coin ∧ coin.IsSpent = false) →
      ∃ c2, updateSpentCoins E c txs = some c2 ∧
        c2.db = c.db ∧ c2.mainCacheCapacity = c.mainCacheCapacity ∧
        c2.mainCache.map Prod.fst = c.mainCache.map Prod.fst ∧
        pending pk c2 = pending pk c +
          ((txs.flatMap (fun tx => tx.Inputs)).map (fun txi =>
            coinValue pk (flushLookup c.db [] txi.ReferenceTransactionHash)
              txi.OutputIndex)).sum := by
  induction txs with
  | nil =>
    intro c _ _
    exact ⟨c, rfl, rfl, rfl, rfl, by simp⟩
  | cons tx rest ih =>
    intro c hnd hready
    simp only [List.flatMap_cons, List.map_append] at hnd
    obtain ⟨hnd1, hnd2, hdisj⟩ := List.nodup_append.1 hnd
    have hready1 : ∀ txi ∈ tx.Inputs, ∃ coin,
        kvGet c.mainCache (makeCoinLocator txi) = some coin ∧ coin.IsSpent = false :=
      fun txi h => hready txi (by simp [List.flatMap_cons, h])
    obtain ⟨c1, h1, h2, h3, h4, h5, h6⟩ := updateSpentInputs_sum pk (tx.Hash E) tx.Inputs c
      hnd1 hready1
    have hready2 : ∀ txi ∈ rest.flatMap (fun tx => tx.Inputs), ∃ coin,
        kvGet c1.mainCache (makeCoinLocator txi) = some coin ∧ coin.IsSpent = false := by
      intro txi h
      have hnotin : makeCoinLocator txi ∉ tx.Inputs.map makeCoinLocator := by
        intro hin
        exact hdisj hin (List.mem_map_of_mem _ h)
      rw [h5 _ hnotin]
      exact hready txi (by simp only [List.flatMap_cons, List.mem_append]; exact Or.inr h)
    obtain ⟨c2, g1, g2, g3, g4, g6⟩ := ih c1 hnd2 hready2
    refine ⟨c2, by simp only [updateSpentCoins, h1, g1], by rw [g2, h2], by rw [g3, h3],
      by rw [g4, h4], ?_⟩
    rw [g6, h6, h2]
    simp only [List.flatMap_cons, List.map_append, List.sum_append]
    omega

end CoinDatabase

namespace CoinDatabase

/-! ### Storing the outputs, seen from the balance -/

theorem pendingIn_put_unspent (pk : String) (db u : List (String × CoinRecord))
    (k : CoinLocator) (txo : TransactionOutput) (cache : List (CoinLocator × Coin))
    (h : ∀ coin, kvGet cache k = some coin → coin.IsSpent = false) :
    pendingIn pk db u (kvPut cache k ⟨txo, false⟩) = pendingIn pk db u cache := by
  induction cache with
  | nil => simp [kvPut, pendingIn]
  | cons e rest ih =>
    obtain ⟨k2, v⟩ := e
    by_cases hk : k2 = k
    · subst hk
      have hv : v.IsSpent = false := h v (kvGet_cons_self _ _ _)
      have hput : kvPut ((k2, v) :: rest) k2 ⟨txo, false⟩ = (k2, ⟨txo, false⟩) :: rest := by
        simp [kvPut]
      rw [hput]
      simp [pendingIn, hv]
    · have hput : kvPut ((k2, v) :: rest) k ⟨txo, false⟩
          = (k2, v) :: kvPut rest k ⟨txo, false⟩ := by simp [kvPut, hk]
      rw [hput]
      simp only [pendingIn]
      rw [ih (fun coin hc => h coin (by rw [kvGet_cons_of_ne _ _ _ _ hk]; exact hc))]

theorem flushIfFull_sum (pk : String) (fresh : List String) (n : Nat) (c : CoinDatabase)
    (hwf : c.WellFormed) (hfu : FreshUnspent fresh c) :
    ∃ c2, flushIfFull n c = some c2 ∧ c2.WellFormed ∧ FreshUnspent fresh c2 ∧
      dbSum pk c2.db + pending pk c = dbSum pk c.db + pending pk c2 ∧
      (∀ k ∈ c2.db.map Prod.fst, k ∈ c.db.map Prod.fst) := by
  unfold flushIfFull
  by_cases hc : (c.mainCacheSize + n) % 2 ^ 32 ≥ c.mainCacheCapacity
  · rw [if_pos hc]
    obtain ⟨c2, h1, h2, h3, h4, h5, h6, h7, _, h9⟩ :=
      FlushMainCache_sum pk c hwf.1 hwf.2.1 hwf.2.2
    refine ⟨c2, h1, ⟨h4, h5, h6⟩, ?_, by rw [h3]; exact h2, h9⟩
    intro e he hfr
    rw [h7] at he
    exact hfu e (List.mem_of_mem_filter he) hfr
  · rw [if_neg hc]
    exact ⟨c, rfl, hwf, hfu, rfl, fun k hk => hk⟩

theorem storeOutputs_sum (pk : String) (fresh : List String) (txHash : String)
    (hin : txHash ∈ fresh) (n : Nat) (outs : List TransactionOutput) :
    ∀ (c : CoinDatabase) (i : Nat), c.WellFormed → FreshUnspent fresh c →
      ∃ c2, storeOutputs txHash n c i outs = some c2 ∧ c2.WellFormed ∧
        FreshUnspent fresh c2 ∧
        dbSum pk c2.db + pending pk c = dbSum pk c.db + pending pk c2 ∧
        (∀ k ∈ c2.db.map Prod.fst, k ∈ c.db.map Prod.fst) := by
  induction outs with
  | nil => intro c i hwf hfu; exact ⟨c, rfl, hwf, hfu, rfl, fun k hk => hk⟩
  | cons txo rest ih =>
    intro c i hwf hfu
    obtain ⟨c1, h1, h2, h3, h4, h5⟩ := flushIfFull_sum pk fresh n c hwf hfu
    have hwf1 : ({ c1 with
        mainCache := kvPut c1.mainCache ⟨txHash, i⟩ ⟨txo, false⟩
        mainCacheSize := (c1.mainCacheSize + 1) % 2 ^ 32 } : CoinDatabase).WellFormed :=
      ⟨h2.1, nodup_keys_kvPut _ _ _ h2.2.1, h2.2.2⟩
    have hfu1 : FreshUnspent fresh ({ c1 with
        mainCache := kvPut c1.mainCache ⟨txHash, i⟩ ⟨txo, false⟩
        mainCacheSize := (c1.mainCacheSize + 1) % 2 ^ 32 } : CoinDatabase) := by
      intro e he hfr
      rcases kvPut_mem _ _ _ _ he with he | he
      · exact h3 e he hfr
      · subst he; rfl
    have hpend : pending pk ({ c1 with
        mainCache := kvPut c1.mainCache ⟨txHash, i⟩ ⟨txo, false⟩
        mainCacheSize := (c1.mainCacheSize + 1) % 2 ^ 32 } : CoinDatabase) = pending pk c1 := by
      unfold pending
      apply pendingIn_put_unspent
      intro coin hg
      exact h3 _ (kvGet_mem _ hg) hin
    obtain ⟨c2, g1, g2, g3, g4, g5⟩ := ih _ (i + 1) hwf1 hfu1
    refine ⟨c2, by simp only [storeOutputs, h1, g1], g2, g3, ?_, fun k hk => h5 k (g5 k hk)⟩
    rw [hpend] at g4
    have hdb : ({ c1 with
        mainCache := kvPut c1.mainCache ⟨txHash, i⟩ ⟨txo, false⟩
        mainCacheSize := (c1.mainCacheSize + 1) % 2 ^ 32 } : CoinDatabase).db = c1.db := rfl
    rw [hdb] at g4
    omega

theorem storeTransactionsInMainCache_sum (pk : String) (E : Ext) (fresh : List String)
    (txs : List Transaction) :
    ∀ c : CoinDatabase, (∀ tx ∈ txs, tx.Hash E ∈ fresh) → c.WellFormed →
      FreshUnspent fresh c →
      ∃ c2, storeTransactionsInMainCache E c txs = some c2 ∧ c2.WellFormed ∧
        FreshUnspent fresh c2 ∧
        dbSum pk c2.db + pending pk c = dbSum pk c.db + pending pk c2 ∧
        (∀ k ∈ c2.db.map Prod.fst, k ∈ c.db.map Prod.fst) := by
  induction txs with
  | nil => intro c _ hwf hfu; exact ⟨c, rfl, hwf, hfu, rfl, fun k hk => hk⟩
  | cons tx rest ih =>
    intro c hfr hwf hfu
    obtain ⟨c1, h1, h2, h3, h4, h5⟩ := storeOutputs_sum pk fresh (tx.Hash E)
      (hfr tx (List.mem_cons_self _ _)) tx.Outputs.length tx.Outputs c 0 hwf hfu
    obtain ⟨c2, g1, g2, g3, g4, g5⟩ :=
      ih c1 (fun t ht => hfr t (List.mem_cons_of_mem _ ht)) h2 h3
    refine ⟨c2, by simp only [storeTransactionsInMainCache, h1, g1], g2, g3, ?_,
      fun k hk => h5 k (g5 k hk)⟩
    omega

/-! ### Storing the coin records, seen from the balance -/

theorem dbSum_append (pk : String) (a b : List (String × CoinRecord)) :
    dbSum pk (a ++ b) = dbSum pk a + dbSum pk b := by
  simp [dbSum]

theorem dbSum_kvPut_fresh (pk : String) (db : List (String × CoinRecord)) (h : String)
    (r : CoinRecord) (hnot : h ∉ db.map Prod.fst) :
    dbSum pk (kvPut db h r) = dbSum pk db + recordSum pk r := by
  rw [kvPut_keys_of_not_mem db h r hnot, dbSum_append]
  simp [dbSum]

theorem pendingIn_db_kvPut (pk : String) (db : List (String × CoinRecord)) (h : String)
    (r : CoinRecord) (cache : List (CoinLocator × Coin))
    (hne : ∀ e ∈ cache, e.2.IsSpent = true → e.1.ReferenceTransactionHash ≠ h) :
    pendingIn pk (kvPut db h r) [] cache = pendingIn pk db [] cache := by
  induction cache with
  | nil => rfl
  | cons e rest ih =>
    obtain ⟨cl, coin⟩ := e
    simp only [pendingIn]
    rw [ih (fun e he => hne e (List.mem_cons_of_mem _ he))]
    congr 1
    cases hs : coin.IsSpent with
    | false => simp
    | true =>
      have hh : h ≠ cl.ReferenceTransactionHash :=
        fun heq => hne (cl, coin) (List.mem_cons_self _ _) hs heq.symm
      simp only [if_true, flushLookup, kvGet, kvGet_kvPut_of_ne _ _ hh]

theorem sumWhere_outputs (pk : String) (outs : List TransactionOutput) :
    sumWhere pk (outs.map (fun txo => txo.LockingScript)) (outs.map (fun txo => txo.Amount))
      = ((outs.filter (fun txo => decide (txo.LockingScript = pk))).map
          (fun txo => txo.Amount)).sum := by
  induction outs with
  | nil => rfl
  | cons o rest ih =>
    by_cases h : o.LockingScript = pk
    · simp [sumWhere, List.filter_cons, h, ih]
    · simp [sumWhere, List.filter_cons, h, ih]

theorem recordSum_createCoinRecord (pk : String) (tx : Transaction) :
    recordSum pk (createCoinRecord tx) = txOutputSum pk tx := by
  simp only [recordSum, createCoinRecord, txOutputSum]
  exact sumWhere_outputs pk tx.Outputs

theorem storeTransactionsInDB_sum (pk : String) (E : Ext) (txs : List Transaction) :
    ∀ c : CoinDatabase, c.WellFormed → (txs.map (fun tx => tx.Hash E)).Nodup →
      (∀ tx ∈ txs, tx.Hash E ∉ c.db.map Prod.fst) →
      FreshUnspent (txs.map (fun tx => tx.Hash E)) c →
      (storeTransactionsInDB E c txs).WellFormed ∧
      dbSum pk (storeTransactionsInDB E c txs).db = dbSum pk c.db + outputSum pk txs ∧
      pending pk (storeTransactionsInDB E c txs) = pending pk c := by
  induction txs with
  | nil => intro c hwf _ _ _; exact ⟨hwf, by simp [storeTransactionsInDB, outputSum], rfl⟩
  | cons tx rest ih =>
    intro c hwf hnd hnot hfu
    simp only [List.map_cons, List.nodup_cons] at hnd
    obtain ⟨hhead, hnd2⟩ := hnd
    have hnot1 : tx.Hash E ∉ c.db.map Prod.fst := hnot tx (List.mem_cons_self _ _)
    have hwf1 : (putRecordInDB c (tx.Hash E) (createCoinRecord tx)).WellFormed :=
      ⟨nodup_keys_kvPut _ _ _ hwf.1, hwf.2.1,
        forall_kvPut _ _ _ _ hwf.2.2 (createCoinRecord_aligned tx)⟩
    have hnot2 : ∀ t ∈ rest,
        t.Hash E ∉ (putRecordInDB c (tx.Hash E) (createCoinRecord tx)).db.map Prod.fst := by
      intro t ht hmem
      simp only [putRecordInDB] at hmem
      rw [kvPut_keys_of_not_mem _ _ _ hnot1, List.map_append] at hmem
      simp only [List.map_cons, List.map_nil, List.mem_append, List.mem_singleton] at hmem
      rcases hmem with hmem | hmem
      · exact hnot t (List.mem_cons_of_mem _ ht) hmem
      · apply hhead
        rw [← hmem]
        exact List.mem_map_of_mem (fun tx => tx.Hash E) ht
    have hfu2 : FreshUnspent (rest.map (fun tx => tx.Hash E))
        (putRecordInDB c (tx.Hash E) (createCoinRecord tx)) := by
      intro e he hfr
      exact hfu e he (List.mem_cons_of_mem _ hfr)
    obtain ⟨g1, g2, g3⟩ := ih _ hwf1 hnd2 hnot2 hfu2
    rw [storeTransactionsInDB]
    refine ⟨g1, ?_, ?_⟩
    · rw [g2]
      simp only [putRecordInDB]
      rw [dbSum_kvPut_fresh pk c.db _ _ hnot1, recordSum_createCoinRecord]
      simp only [outputSum, List.map_cons, List.sum_cons]
      omega
    · rw [g3]
      simp only [pending, putRecordInDB]
      apply pendingIn_db_kvPut
      intro e he hs heq
      have := hfu e he (by rw [heq]; exact List.mem_cons_self _ _)
      rw [this] at hs
      exact Bool.noConfusion hs

end CoinDatabase

namespace CoinDatabase

/-! ### Balance bookkeeping of StoreBlock -/

theorem StoreBlock_balance (pk : String) (E : Ext) (c : CoinDatabase) (txs : List Transaction)
    (hwf : c.WellFormed)
    (hdistinct : ((txs.flatMap (fun tx => tx.Inputs)).map makeCoinLocator).Nodup)
    (hready : ∀ txi ∈ txs.flatMap (fun tx => tx.Inputs), inputReady c txi = true)
    (hnd : (txs.map (fun tx => tx.Hash E)).Nodup)
    (hnew : ∀ tx ∈ txs, tx.Hash E ∉ c.db.map Prod.fst)
    (hnewc : ∀ tx ∈ txs, ∀ e ∈ c.mainCache, e.1.ReferenceTransactionHash ≠ tx.Hash E) :
    ∃ c3 ca cb, StoreBlock E c txs = some c3 ∧ c3.WellFormed ∧
      GetBalance c pk = some (dbSum pk ca.db % 2 ^ 32, ca) ∧
      GetBalance c3 pk = some (dbSum pk cb.db % 2 ^ 32, cb) ∧
      dbSum pk cb.db + inputSum pk c txs = dbSum pk ca.db + outputSum pk txs := by
  have hready2 : ∀ txi ∈ txs.flatMap (fun tx => tx.Inputs),
      ∃ coin, kvGet c.mainCache (makeCoinLocator txi) = some coin ∧ coin.IsSpent = false := by
    intro txi h
    obtain ⟨coin, h1, h2, _⟩ := inputReady_spec c txi (hready txi h)
    exact ⟨coin, h1, h2⟩
  obtain ⟨c1, u1, u2, _, u4, u5⟩ := updateSpentCoins_sum pk E txs c hdistinct hready2
  have hwf1 : c1.WellFormed := by
    refine ⟨by rw [u2]; exact hwf.1, by rw [u4]; exact hwf.2.1, ?_⟩
    unfold AlignedDB
    rw [u2]
    exact hwf.2.2
  have hfu1 : FreshUnspent (txs.map (fun tx => tx.Hash E)) c1 := by
    intro e he hfr
    exfalso
    obtain ⟨tx, htx, heq⟩ := List.mem_map.1 hfr
    have hk : e.1 ∈ c.mainCache.map Prod.fst := by
      rw [← u4]
      exact List.mem_map_of_mem _ he
    obtain ⟨e2, he2, heq2⟩ := List.mem_map.1 hk
    apply hnewc tx htx e2 he2
    rw [heq2, heq]
  obtain ⟨c2, s1, s2, s3, s4, s5⟩ := storeTransactionsInMainCache_sum pk E
    (txs.map (fun tx => tx.Hash E)) txs c1 (fun tx htx => List.mem_map_of_mem _ htx) hwf1 hfu1
  have hnew2 : ∀ tx ∈ txs, tx.Hash E ∉ c2.db.map Prod.fst := by
    intro tx htx hmem
    have := s5 _ hmem
    rw [u2] at this
    exact hnew tx htx this
  obtain ⟨d1, d2, d3⟩ := storeTransactionsInDB_sum pk E txs c2 s2 hnd hnew2 s3
  obtain ⟨ca, ga, ga2⟩ := GetBalance_eq pk c hwf.1 hwf.2.1 hwf.2.2
  obtain ⟨cb, gb, gb2⟩ := GetBalance_eq pk (storeTransactionsInDB E c2 txs) d1.1 d1.2.1 d1.2.2
  refine ⟨storeTransactionsInDB E c2 txs, ca, cb, by simp only [StoreBlock, u1, s1], d1, ga, gb,
    ?_⟩
  have hin : inputSum pk c txs = ((txs.flatMap (fun tx => tx.Inputs)).map (fun txi =>
      coinValue pk (flushLookup c.db [] txi.ReferenceTransactionHash) txi.OutputIndex)).sum := by
    unfold inputSum
    congr 1
    apply List.map_congr_left
    intro txi h
    exact inputValue_of_ready pk c txi (hready txi h)
  rw [hin]
  rw [u2] at s4
  omega

theorem validateInputs_of_ready (c : CoinDatabase) (ins : List TransactionInput)
    (h : ∀ txi ∈ ins, inputReady c txi = true) : validateInputs c ins = Except.ok () := by
  rw [validateInputs_ok_iff]
  intro txi htxi
  obtain ⟨coin, h1, h2, _⟩ := inputReady_spec c txi (h txi htxi)
  exact Or.inl ⟨coin, h1, h2⟩

theorem ValidateBlock_of_ready (c : CoinDatabase) (txs : List Transaction)
    (h : ∀ txi ∈ txs.flatMap (fun tx => tx.Inputs), inputReady c txi = true) :
    ValidateBlock c txs = true := by
  rw [validateBlock_iff]
  intro t ht
  apply validateInputs_of_ready
  intro txi htxi
  exact h txi (List.mem_flatMap.2 ⟨t, ht, htxi⟩)

end CoinDatabase

namespace BlockChain

theorem undoEntries_of_cached (c : CoinDatabase) (ins : List TransactionInput) :
    ∀ ub : UndoBlock,
      (∀ txi ∈ ins, kvGet c.mainCache (CoinDatabase.makeCoinLocator txi) ≠ none) →
      ∃ ub2, undoEntries c ins ub = some (some ub2) := by
  induction ins with
  | nil => intro ub _; exact ⟨ub, rfl⟩
  | cons txi rest ih =>
    intro ub h
    have h1 := h txi (List.mem_cons_self _ _)
    cases hg : kvGet c.mainCache (CoinDatabase.makeCoinLocator txi) with
    | none => exact absurd hg h1
    | some coin =>
      have hgc : CoinDatabase.GetCoin c ⟨txi.ReferenceTransactionHash, txi.OutputIndex⟩
          = some (some coin) := by
        simp only [CoinDatabase.makeCoinLocator] at hg
        simp [CoinDatabase.GetCoin, hg]
      rw [undoEntries, hgc]
      exact ih _ (fun t ht => h t (List.mem_cons_of_mem _ ht))

theorem persistBlock_of_cached (E : Ext) (bc : BlockChain) (b : Block)
    (h : ∀ txi ∈ b.Transactions.flatMap (fun tx => tx.Inputs),
      kvGet bc.CoinDB.mainCache (CoinDatabase.makeCoinLocator txi) ≠ none) :
    ∃ bc1 height, persistBlock E bc b = some (bc1, height) := by
  obtain ⟨ub, hub⟩ := undoEntries_of_cached bc.CoinDB _ ⟨[], [], [], []⟩ h
  unfold persistBlock makeUndoBlock
  rw [hub]
  exact ⟨_, _, rfl⟩

/-- C6, amended: balance bookkeeping on append. For every chain state whose
coin database has distinct store keys, distinct cache keys and aligned
records, and every block that appends to the active chain, whose inputs
reference pairwise different coins, each an unspent coin of the cache that
its coin record lists with the same amount and locking script, and whose
transactions have pairwise different hashes under which the database holds
neither a coin record nor a cache entry: HandleBlock returns with the block
as the new tip, and for every public key the balance afterwards is, modulo
2^32, the balance before plus the amounts of the block's outputs locked to
the key minus the amounts of the coins referenced by the block's inputs
locked to the key. -/
theorem C6_balance_bookkeeping_on_append (E : Ext) (bc : BlockChain) (b : Block) (pk : String)
    (happ : appendsToActiveChain E bc b = true)
    (hwf : bc.CoinDB.WellFormed)
    (hdistinct :
      ((b.Transactions.flatMap (fun tx => tx.Inputs)).map CoinDatabase.makeCoinLocator).Nodup)
    (hready : ∀ txi ∈ b.Transactions.flatMap (fun tx => tx.Inputs),
      CoinDatabase.inputReady bc.CoinDB txi = true)
    (hnd : (b.Transactions.map (fun tx => tx.Hash E)).Nodup)
    (hnew : ∀ tx ∈ b.Transactions, tx.Hash E ∉ bc.CoinDB.db.map Prod.fst)
    (hnewc : ∀ tx ∈ b.Transactions, ∀ e ∈ bc.CoinDB.mainCache,
      e.1.ReferenceTransactionHash ≠ tx.Hash E) :
    CoinDatabase.ValidateBlock bc.CoinDB b.Transactions = true ∧
    ∃ bc2 before after,
      HandleBlock E bc b = some bc2 ∧ bc2.LastHash = b.Hash E ∧
      bc2.CoinDB.WellFormed ∧
      (GetBalance bc pk).map Prod.fst = some before ∧
      (GetBalance bc2 pk).map Prod.fst = some after ∧
      (after + CoinDatabase.inputSum pk bc.CoinDB b.Transactions) % 2 ^ 32
        = (before + outputSum pk b.Transactions) % 2 ^ 32 := by
  have hval := CoinDatabase.ValidateBlock_of_ready bc.CoinDB b.Transactions hready
  refine ⟨hval, ?_⟩
  have hcached : ∀ txi ∈ b.Transactions.flatMap (fun tx => tx.Inputs),
      kvGet bc.CoinDB.mainCache (CoinDatabase.makeCoinLocator txi) ≠ none := by
    intro txi h
    obtain ⟨coin, h1, _, _⟩ := CoinDatabase.inputReady_spec bc.CoinDB txi (hready txi h)
    rw [h1]
    simp
  obtain ⟨bc1, height, hp⟩ := persistBlock_of_cached E bc b hcached
  obtain ⟨_, _, _, _, hC, _⟩ := persistBlock_fields E bc b bc1 height hp
  obtain ⟨c3, ca, cb, hs, hwf3, ga, gb, hsum⟩ :=
    CoinDatabase.StoreBlock_balance pk E bc.CoinDB b.Transactions hwf hdistinct hready hnd hnew
      hnewc
  have hH : HandleBlock E bc b = some { bc1 with
      CoinDB := c3
      Length := (bc1.Length + 1) % 2 ^ 32
      LastBlock := b
      LastHash := b.Hash E
      UnsafeHashes :=
        (if bc1.UnsafeHashes.length ≥ 6 then bc1.UnsafeHashes.drop 1
         else bc1.UnsafeHashes) ++ [b.Hash E] } := by
    unfold HandleBlock
    simp only [happ, hval, Bool.not_true, Bool.and_false, Bool.false_eq_true, if_false, hp,
      if_true, hC, hs]
  refine ⟨_, dbSum pk ca.db % 2 ^ 32, dbSum pk cb.db % 2 ^ 32, hH, rfl, hwf3, ?_, ?_, ?_⟩
  · simp [GetBalance, ga]
  · simp [GetBalance, gb]
  · omega

end BlockChain

namespace Sample

set_option maxRecDepth 1000000 in
/-- C6, counterexample: on the chain made by `New` (genesis subsidy 50 for
"PK"), the block `sameCoinbaseBlock` appends, validates and holds one
coinbase of 50 for "PK" and no input; GetBalance("PK") is 50 before
HandleBlock and 50 after it, not 50 + 50: the coinbase is the genesis
transaction again, and its coin record and cache entry replace the ones
stored under the same hash. -/
theorem C6_same_coinbase_adds_nothing :
    ∃ bc bc2,
      BlockChain.New ext config = some bc ∧
      sameCoinbaseBlock.Header.PreviousHash = bc.LastHash ∧
      BlockChain.appendsToActiveChain ext bc sameCoinbaseBlock = true ∧
      CoinDatabase.ValidateBlock bc.CoinDB sameCoinbaseBlock.Transactions = true ∧
      BlockChain.HandleBlock ext bc sameCoinbaseBlock = some bc2 ∧
      bc2.LastHash = sameCoinbaseBlock.Hash ext ∧
      outputSum "PK" sameCoinbaseBlock.Transactions = 50 ∧
      CoinDatabase.inputSum "PK" bc.CoinDB sameCoinbaseBlock.Transactions = 0 ∧
      (BlockChain.GetBalance bc "PK").map Prod.fst = some 50 ∧
      (BlockChain.GetBalance bc2 "PK").map Prod.fst = some 50 ∧
      (50 + 0) % 2 ^ 32 ≠ (50 + 50) % 2 ^ 32 :=
  ⟨_, _, rfl, by decide, by decide, by decide, rfl, by decide, by decide, by decide, by decide,
    by decide, by decide⟩

end Sample

namespace BlockChain

set_option maxRecDepth 1000000 in
/-- C6, witness: genesis subsidy 50 for "PK"; after the block
`coinbaseBlock`, whose coinbase of 50 for "PK" differs from the genesis
transaction, GetBalance("PK") is 100; the further block `spendBlock`, which
spends the genesis coin into 50 for "PK2", meets the hypotheses of the
theorem and leaves GetBalance("PK") = 50 and GetBalance("PK2") = 50. -/
theorem C6_balance_bookkeeping_on_append_witness :
    Sample.chainAfter [Sample.coinbaseBlock] = some (Sample.stateAfter [Sample.coinbaseBlock]) ∧
    (GetBalance (Sample.stateAfter [Sample.coinbaseBlock]) "PK").map Prod.fst = some 100 ∧
    CoinDatabase.inputSum "PK" (Sample.stateAfter [Sample.coinbaseBlock]).CoinDB
      Sample.spendBlock.Transactions = 50 ∧
    outputSum "PK" Sample.spendBlock.Transactions = 0 ∧
    ∃ bc2, HandleBlock Sample.ext (Sample.stateAfter [Sample.coinbaseBlock]) Sample.spendBlock
        = some bc2 ∧
      (GetBalance bc2 "PK").map Prod.fst = some 50 ∧
      (GetBalance bc2 "PK2").map Prod.fst = some 50 := by
  obtain ⟨_, bc2, before, after, hH, _, _, _, _, _⟩ :=
    C6_balance_bookkeeping_on_append Sample.ext (Sample.stateAfter [Sample.coinbaseBlock])
      Sample.spendBlock "PK" (by decide)
      (by unfold CoinDatabase.WellFormed CoinDatabase.AlignedDB CoinRecord.Aligned; decide)
      (by decide) (by decide) (by decide) (by decide) (by decide)
  have hH2 : HandleBlock Sample.ext (Sample.stateAfter [Sample.coinbaseBlock]) Sample.spendBlock
      = some (Sample.stateAfter [Sample.coinbaseBlock, Sample.spendBlock]) := by decide
  rw [hH2, Option.some.injEq] at hH
  subst hH
  exact ⟨by decide, by decide, by decide, by decide, _, hH2, by decide, by decide⟩

end BlockChain

namespace CoinDatabase

/-! ### Reads of an aligned store never panic -/

theorem GetCoin_aligned (c : CoinDatabase) (cl : CoinLocator) (h : c.AlignedDB) :
    ∃ r, GetCoin c cl = some r := by
  unfold GetCoin getCoinRecordFromDB
  cases hc : kvGet c.mainCache cl with
  | some coin => exact ⟨_, rfl⟩
  | none =>
    cases hd : kvGet c.db cl.ReferenceTransactionHash with
    | none => exact ⟨_, rfl⟩
    | some cr =>
      by_cases hneg : indexOf cr.OutputIndexes cl.OutputIndex < 0
      · simp only [hneg, if_true]
        exact ⟨_, rfl⟩
      · have hlt := indexOf_toNat_lt _ _ hneg
        obtain ⟨h1, h2⟩ := h _ (kvGet_mem _ hd)
        have ha : (indexOf cr.OutputIndexes cl.OutputIndex).toNat < cr.Amounts.length := by
          rw [h1]; exact hlt
        have hs : (indexOf cr.OutputIndexes cl.OutputIndex).toNat < cr.LockingScripts.length := by
          rw [h2]; exact hlt
        simp only [hneg, if_false]
        rw [List.get?_eq_get ha, List.get?_eq_get hs]
        exact ⟨_, rfl⟩

end CoinDatabase

namespace BlockChain

/-! ### The steps of HandleBlock before the branch -/

theorem undoEntries_aligned (c : CoinDatabase) (h : c.AlignedDB) (ins : List TransactionInput) :
    ∀ ub : UndoBlock, ∃ r, undoEntries c ins ub = some r := by
  induction ins with
  | nil => intro ub; exact ⟨_, rfl⟩
  | cons txi rest ih =>
    intro ub
    obtain ⟨r, hr⟩ := CoinDatabase.GetCoin_aligned c
      ⟨txi.ReferenceTransactionHash, txi.OutputIndex⟩ h
    rw [undoEntries, hr]
    cases r with
    | none => exact ⟨_, rfl⟩
    | some coin => exact ih _

theorem makeUndoBlock_aligned (bc : BlockChain) (txs : List Transaction)
    (h : bc.CoinDB.AlignedDB) : ∃ ub, makeUndoBlock bc txs = some ub := by
  obtain ⟨r, hr⟩ := undoEntries_aligned bc.CoinDB h (txs.flatMap (fun tx => tx.Inputs))
    ⟨[], [], [], []⟩
  unfold makeUndoBlock
  rw [hr]
  cases r with
  | none => exact ⟨_, rfl⟩
  | some ub => exact ⟨_, rfl⟩

theorem persistBlock_eq (E : Ext) (bc : BlockChain) (b : Block) (ub : UndoBlock)
    (h : makeUndoBlock bc b.Transactions = some ub) :
    persistBlock E bc b = some
      ({ bc with
          ChainWriter := (ChainWriter.StoreBlock E bc.ChainWriter b ub
            (((bc.BlockInfoDB.GetBlockRecord b.Header.PreviousHash).Height + 1) % 2 ^ 32)).2
          BlockInfoDB := bc.BlockInfoDB.StoreBlockRecord (b.Hash E)
            (ChainWriter.StoreBlock E bc.ChainWriter b ub
              (((bc.BlockInfoDB.GetBlockRecord b.Header.PreviousHash).Height + 1) % 2 ^ 32)).1 },
        ((bc.BlockInfoDB.GetBlockRecord b.Header.PreviousHash).Height + 1) % 2 ^ 32) := by
  unfold persistBlock
  rw [h]

theorem persistBlock_aligned (E : Ext) (bc : BlockChain) (b : Block)
    (h : bc.CoinDB.AlignedDB) : ∃ bc1 height, persistBlock E bc b = some (bc1, height) := by
  obtain ⟨ub, hub⟩ := makeUndoBlock_aligned bc b.Transactions h
  exact ⟨_, _, persistBlock_eq E bc b ub hub⟩

/-- C11: an invalid block that extends the tip is dropped atomically. In a
chain state whose LastHash is the hash of LastBlock, for a block whose
PreviousHash is LastHash and on which ValidateBlock is false, HandleBlock
returns the state it was given: Length, LastBlock, LastHash, UnsafeHashes,
the coin database, the block-info database and the chain writer with its
files, file numbers and offsets are as before. -/
theorem C11_invalid_appending_block_is_dropped (E : Ext) (bc : BlockChain) (b : Block)
    (hcoh : bc.LastHash = bc.LastBlock.Hash E)
    (hprev : b.Header.PreviousHash = bc.LastHash)
    (hval : CoinDatabase.ValidateBlock bc.CoinDB b.Transactions = false) :
    HandleBlock E bc b = some bc := by
  have happ : appendsToActiveChain E bc b = true := by
    simp [appendsToActiveChain, hprev, hcoh]
  simp [HandleBlock, happ, hval]

set_option maxRecDepth 1000000 in
/-- C11, witness: on the chain made by `New`, `invalidBlock` extends the
tip and spends a coin that does not exist; HandleBlock returns the chain
unchanged. -/
theorem C11_invalid_appending_block_is_dropped_witness :
    Sample.chainAfter [] = some (Sample.stateAfter []) ∧
    CoinDatabase.ValidateBlock (Sample.stateAfter []).CoinDB Sample.invalidBlock.Transactions
      = false ∧
    HandleBlock Sample.ext (Sample.stateAfter []) Sample.invalidBlock
      = some (Sample.stateAfter []) :=
  ⟨by decide, by decide,
    C11_invalid_appending_block_is_dropped Sample.ext (Sample.stateAfter []) Sample.invalidBlock
      (by decide) (by decide) (by decide)⟩

end BlockChain

namespace ChainWriter

/-! ### What the chain writer leaves on disk -/

theorem writeToDisk_get (disk : List (String × List Nat)) (f : String) (data : List Nat) :
    kvGet (writeToDisk disk f data) f = some ((kvGet disk f).getD [] ++ data) := by
  unfold writeToDisk
  cases h : kvGet disk f with
  | none => simp [kvGet_kvPut_self]
  | some content => simp [kvGet_kvPut_self]

theorem writeToDisk_grows (disk : List (String × List Nat)) (f : String) (data : List Nat)
    (g : String) (content : List Nat) (hg : kvGet disk g = some content) :
    ∃ tail, kvGet (writeToDisk disk f data) g = some (content ++ tail) := by
  by_cases hfg : f = g
  · subst hfg
    refine ⟨data, ?_⟩
    rw [writeToDisk_get, hg]
    rfl
  · refine ⟨[], ?_⟩
    unfold writeToDisk
    cases h : kvGet disk f with
    | none => simp [kvGet_kvPut_of_ne _ _ hfg, hg]
    | some c0 => simp [kvGet_kvPut_of_ne _ _ hfg, hg]

theorem WriteBlock_disk (cw : ChainWriter) (bytes : List Nat) :
    kvGet (WriteBlock cw bytes).2.disk (WriteBlock cw bytes).1.FileName
      = some ((kvGet cw.disk (WriteBlock cw bytes).1.FileName).getD [] ++ bytes) := by
  unfold WriteBlock
  by_cases h : (cw.CurrentBlockOffset + bytes.length % 2 ^ 32) % 2 ^ 32 ≥ cw.MaxBlockFileSize
  · simp only [h, if_true]
    exact writeToDisk_get _ _ _
  · simp only [h, if_false]
    exact writeToDisk_get _ _ _

theorem WriteBlock_grows (cw : ChainWriter) (bytes : List Nat) (g : String)
    (content : List Nat) (hg : kvGet cw.disk g = some content) :
    ∃ tail, kvGet (WriteBlock cw bytes).2.disk g = some (content ++ tail) := by
  unfold WriteBlock
  by_cases h : (cw.CurrentBlockOffset + bytes.length % 2 ^ 32) % 2 ^ 32 ≥ cw.MaxBlockFileSize
  · simp only [h, if_true]
    exact writeToDisk_grows _ _ _ g content hg
  · simp only [h, if_false]
    exact writeToDisk_grows _ _ _ g content hg

theorem WriteUndoBlock_grows (cw : ChainWriter) (bytes : List Nat) (g : String)
    (content : List Nat) (hg : kvGet cw.disk g = some content) :
    ∃ tail, kvGet (WriteUndoBlock cw bytes).2.disk g = some (content ++ tail) := by
  unfold WriteUndoBlock
  by_cases h : (cw.CurrentUndoOffset + bytes.length % 2 ^ 32) % 2 ^ 32 ≥ cw.MaxUndoFileSize
  · simp only [h, if_true]
    exact writeToDisk_grows _ _ _ g content hg
  · simp only [h, if_false]
    exact writeToDisk_grows _ _ _ g content hg

theorem StoreBlock_record (E : Ext) (cw : ChainWriter) (bl : Block) (ub : UndoBlock)
    (height : Nat) :
    (StoreBlock E cw bl ub height).1.Header = bl.Header ∧
    (StoreBlock E cw bl ub height).1.Height = height ∧
    (StoreBlock E cw bl ub height).1.BlockFile
      = (WriteBlock cw (E.marshalBlock bl)).1.FileName ∧
    (StoreBlock E cw bl ub height).1.BlockStartOffset
      = (WriteBlock cw (E.marshalBlock bl)).1.StartOffset ∧
    (StoreBlock E cw bl ub height).1.BlockEndOffset
      = (WriteBlock cw (E.marshalBlock bl)).1.EndOffset := by
  unfold StoreBlock
  by_cases h : ub.Amounts ≠ []
  · simp [h]
  · simp [h]

theorem StoreBlock_writer (E : Ext) (cw : ChainWriter) (bl : Block) (ub : UndoBlock)
    (height : Nat) :
    (StoreBlock E cw bl ub height).2
      = if ub.Amounts ≠ [] then
          (WriteUndoBlock (WriteBlock cw (E.marshalBlock bl)).2 (E.marshalUndoBlock ub)).2
        else (WriteBlock cw (E.marshalBlock bl)).2 := by
  unfold StoreBlock
  by_cases h : ub.Amounts ≠ []
  · simp [h]
  · simp [h]

theorem StoreBlock_grows (E : Ext) (cw : ChainWriter) (bl : Block) (ub : UndoBlock)
    (height : Nat) (g : String) (content : List Nat)
    (hg : kvGet (WriteBlock cw (E.marshalBlock bl)).2.disk g = some content) :
    ∃ tail, kvGet (StoreBlock E cw bl ub height).2.disk g
      = some (content ++ tail) := by
  rw [StoreBlock_writer]
  by_cases h : ub.Amounts ≠ []
  · rw [if_pos h]
    exact WriteUndoBlock_grows _ _ g content hg
  · rw [if_neg h]
    exact ⟨[], by simpa using hg⟩

end ChainWriter

namespace CoinDatabase

/-! ### The coin database of a new chain -/

theorem StoreBlock_genesis (E : Ext) (cap : Nat) (tx : Transaction) (out : TransactionOutput)
    (hin : tx.Inputs = []) (hout : tx.Outputs = [out]) :
    StoreBlock E (CoinDatabase.New cap) [tx] = some
      { db := [(tx.Hash E, ⟨0, [0], [out.Amount], [out.LockingScript]⟩)]
        mainCache := [(⟨tx.Hash E, 0⟩, ⟨out, false⟩)]
        mainCacheSize := 1
        mainCacheCapacity := cap } := by
  by_cases hcap : cap ≤ 1
  · simp [StoreBlock, updateSpentCoins, updateSpentInputs, hin, storeTransactionsInMainCache,
      hout, storeOutputs, flushIfFull, CoinDatabase.New, hcap, FlushMainCache, flushCollect,
      flushWrite, kvPut, storeTransactionsInDB, putRecordInDB, createCoinRecord, List.range,
      List.range.loop]
  · simp [StoreBlock, updateSpentCoins, updateSpentInputs, hin, storeTransactionsInMainCache,
      hout, storeOutputs, flushIfFull, CoinDatabase.New, hcap, kvPut, storeTransactionsInDB,
      putRecordInDB, createCoinRecord, List.range, List.range.loop]

end CoinDatabase

namespace BlockChain

theorem New_eq (E : Ext) (config : Config) :
    New E config = some
      { Length := 1
        LastBlock := GenesisBlock config
        LastHash := (GenesisBlock config).Hash E
        UnsafeHashes := [(GenesisBlock config).Hash E]
        maxHashes := 6
        BlockInfoDB := BlockInfoDatabase.StoreBlockRecord ⟨[]⟩ ((GenesisBlock config).Hash E)
          (ChainWriter.StoreBlock E (ChainWriter.New config.ChainWriterConfig)
            (GenesisBlock config) ⟨[], [], [], []⟩ 1).1
        ChainWriter := (ChainWriter.StoreBlock E (ChainWriter.New config.ChainWriterConfig)
            (GenesisBlock config) ⟨[], [], [], []⟩ 1).2
        CoinDB :=
          { db := [(Transaction.Hash E ⟨0, [], [⟨config.InitialSubsidy,
                config.GenesisPublicKey⟩], 0⟩,
              ⟨0, [0], [config.InitialSubsidy], [config.GenesisPublicKey]⟩)]
            mainCache := [(⟨Transaction.Hash E ⟨0, [], [⟨config.InitialSubsidy,
                config.GenesisPublicKey⟩], 0⟩, 0⟩,
              ⟨⟨config.InitialSubsidy, config.GenesisPublicKey⟩, false⟩)]
            mainCacheSize := 1
            mainCacheCapacity := config.MainCacheCapacity } } := by
  have h := CoinDatabase.StoreBlock_genesis E config.MainCacheCapacity
    ⟨0, [], [⟨config.InitialSubsidy, config.GenesisPublicKey⟩], 0⟩
    ⟨config.InitialSubsidy, config.GenesisPublicKey⟩ rfl rfl
  unfold New
  simp only [GenesisBlock]
  rw [h]

/-- C12: a fork not longer than the active chain is retained and the active
chain is left alone. In a chain state whose LastHash is the hash of
LastBlock and whose coin records are aligned, for a block whose PreviousHash
is not LastHash and whose height, the recorded Height of its parent plus one
as a uint32, is at most Length, HandleBlock returns a state with the same
Length, LastBlock, LastHash, UnsafeHashes and coin database; the block
record found under the hash of the block has that height and the header of
the block, and the file it names holds what it held before, followed by the
serialized block. -/
theorem C12_short_fork_is_retained (E : Ext) (bc : BlockChain) (b : Block)
    (hcoh : bc.LastHash = bc.LastBlock.Hash E)
    (haligned : bc.CoinDB.AlignedDB)
    (hprev : b.Header.PreviousHash ≠ bc.LastHash)
    (hheight : ((bc.BlockInfoDB.GetBlockRecord b.Header.PreviousHash).Height + 1) % 2 ^ 32
      ≤ bc.Length) :
    ∃ bc1, HandleBlock E bc b = some bc1 ∧
      bc1.Length = bc.Length ∧ bc1.LastBlock = bc.LastBlock ∧ bc1.LastHash = bc.LastHash ∧
      bc1.UnsafeHashes = bc.UnsafeHashes ∧ bc1.CoinDB = bc.CoinDB ∧
      (bc1.BlockInfoDB.GetBlockRecord (b.Hash E)).Height
        = ((bc.BlockInfoDB.GetBlockRecord b.Header.PreviousHash).Height + 1) % 2 ^ 32 ∧
      (bc1.BlockInfoDB.GetBlockRecord (b.Hash E)).Header = b.Header ∧
      ∃ tail, kvGet bc1.ChainWriter.disk (bc1.BlockInfoDB.GetBlockRecord (b.Hash E)).BlockFile
        = some ((kvGet bc.ChainWriter.disk
            (bc1.BlockInfoDB.GetBlockRecord (b.Hash E)).BlockFile).getD []
          ++ E.marshalBlock b ++ tail) := by
  obtain ⟨ub, hub⟩ := makeUndoBlock_aligned bc b.Transactions haligned
  have hp := persistBlock_eq E bc b ub hub
  have happ : appendsToActiveChain E bc b = false := by
    simp only [appendsToActiveChain, beq_eq_false_iff_ne, ne_eq]
    rw [← hcoh]
    exact fun h => hprev h.symm
  have hnot : ¬ ((bc.BlockInfoDB.GetBlockRecord b.Header.PreviousHash).Height + 1) % 2 ^ 32
      > bc.Length := Nat.not_lt.mpr hheight
  have hH : HandleBlock E bc b = some
      { bc with
          ChainWriter := (ChainWriter.StoreBlock E bc.ChainWriter b ub
            (((bc.BlockInfoDB.GetBlockRecord b.Header.PreviousHash).Height + 1) % 2 ^ 32)).2
          BlockInfoDB := bc.BlockInfoDB.StoreBlockRecord (b.Hash E)
            (ChainWriter.StoreBlock E bc.ChainWriter b ub
              (((bc.BlockInfoDB.GetBlockRecord b.Header.PreviousHash).Height + 1) % 2 ^ 32)).1 }
      := by
    unfold HandleBlock
    simp only [happ, hp, Bool.false_and, Bool.false_eq_true, if_false, hnot]
  obtain ⟨r1, r2, r3, _, _⟩ := ChainWriter.StoreBlock_record E bc.ChainWriter b ub
    (((bc.BlockInfoDB.GetBlockRecord b.Header.PreviousHash).Height + 1) % 2 ^ 32)
  have hrec : ∀ br : BlockRecord,
      (bc.BlockInfoDB.StoreBlockRecord (b.Hash E) br).GetBlockRecord (b.Hash E) = br := by
    intro br
    simp [BlockInfoDatabase.GetBlockRecord, BlockInfoDatabase.StoreBlockRecord, kvGet_kvPut_self]
  refine ⟨_, hH, rfl, rfl, rfl, rfl, rfl, ?_, ?_, ?_⟩
  · simp only [hrec]; exact r2
  · simp only [hrec]; exact r1
  · simp only [hrec, r3]
    obtain ⟨tail, ht⟩ := ChainWriter.StoreBlock_grows E bc.ChainWriter b ub
      (((bc.BlockInfoDB.GetBlockRecord b.Header.PreviousHash).Height + 1) % 2 ^ 32) _ _
      (ChainWriter.WriteBlock_disk bc.ChainWriter (E.marshalBlock b))
    exact ⟨tail, ht⟩

set_option maxRecDepth 1000000 in
/-- C12, witness: on the sample chain genesis, `block1`, the block
`siblingBlock` has the genesis block as parent; after HandleBlock the Length
is still 2 and LastHash still the hash of `block1`. -/
theorem C12_short_fork_is_retained_witness :
    Sample.chainAfter [Sample.block1] = some (Sample.stateAfter [Sample.block1]) ∧
    Sample.siblingBlock.Header.PreviousHash = Sample.genesisHash ∧
    (Sample.stateAfter [Sample.block1]).Length = 2 ∧
    ∃ bc1, HandleBlock Sample.ext (Sample.stateAfter [Sample.block1]) Sample.siblingBlock
        = some bc1 ∧
      bc1.Length = 2 ∧ bc1.LastHash = Sample.block1.Hash Sample.ext ∧
      (bc1.BlockInfoDB.GetBlockRecord (Sample.siblingBlock.Hash Sample.ext)).Height = 2 := by
  obtain ⟨bc1, hH, hl, _, hh, _, _, hr, _, _⟩ :=
    C12_short_fork_is_retained Sample.ext (Sample.stateAfter [Sample.block1])
      Sample.siblingBlock (by decide)
      (by unfold CoinDatabase.AlignedDB CoinRecord.Aligned; decide) (by decide) (by decide)
  exact ⟨by decide, by decide, by decide, bc1, hH, by rw [hl]; decide, by rw [hh]; decide,
    by rw [hr]; decide⟩

/-! ### A run of appending blocks -/

theorem HandleBlock_append (E : Ext) (bc : BlockChain) (b : Block)
    (hcoh : bc.LastHash = bc.LastBlock.Hash E) (haligned : bc.CoinDB.AlignedDB)
    (hprev : b.Header.PreviousHash = bc.LastHash)
    (hval : CoinDatabase.ValidateBlock bc.CoinDB b.Transactions = true) :
    ∃ bc2, HandleBlock E bc b = some bc2 ∧ bc2.LastHash = bc2.LastBlock.Hash E ∧
      bc2.CoinDB.AlignedDB ∧ bc2.Length = (bc.Length + 1) % 2 ^ 32 ∧ bc2.LastBlock = b := by
  obtain ⟨ub, hub⟩ := makeUndoBlock_aligned bc b.Transactions haligned
  have hp := persistBlock_eq E bc b ub hub
  have happ : appendsToActiveChain E bc b = true := by
    simp [appendsToActiveChain, hprev, hcoh]
  obtain ⟨c2, hs, ha⟩ := CoinDatabase.StoreBlock_aligned E bc.CoinDB b.Transactions haligned
  unfold HandleBlock
  simp only [happ, hval, hp, hs, Bool.not_true, Bool.and_false, Bool.false_eq_true, if_false,
    if_true]
  exact ⟨_, rfl, rfl, ha, rfl, rfl⟩

theorem handleBlocks_append (E : Ext) (blocks : List Block) :
    ∀ bc : BlockChain, bc.LastHash = bc.LastBlock.Hash E → bc.CoinDB.AlignedDB →
      linked E bc.LastHash blocks → validWhenHandled E bc blocks = true →
      ∃ bc2, handleBlocks E bc blocks = some bc2 ∧
        bc2.Length % 2 ^ 32 = (bc.Length + blocks.length) % 2 ^ 32 ∧
        (bc.Length < 2 ^ 32 → bc2.Length < 2 ^ 32) ∧
        bc2.LastBlock = blocks.getLastD bc.LastBlock ∧
        bc2.LastHash = bc2.LastBlock.Hash E := by
  induction blocks with
  | nil =>
    intro bc hcoh _ _ _
    exact ⟨bc, rfl, rfl, fun h => h, rfl, hcoh⟩
  | cons b rest ih =>
    intro bc hcoh hal hlink hvalid
    obtain ⟨hprev, hrest⟩ := hlink
    rw [validWhenHandled, Bool.and_eq_true] at hvalid
    obtain ⟨hval, hv2⟩ := hvalid
    obtain ⟨bc1, hH, hcoh1, hal1, hlen1, hlast1⟩ := HandleBlock_append E bc b hcoh hal hprev hval
    rw [hH] at hv2
    have hlink1 : linked E bc1.LastHash rest := by
      rw [hcoh1, hlast1]; exact hrest
    obtain ⟨bc2, h1, h2, h3, h4, h5⟩ := ih bc1 hcoh1 hal1 hlink1 hv2
    refine ⟨bc2, by simp only [handleBlocks, hH, h1], ?_, ?_, ?_, h5⟩
    · rw [h2, hlen1, List.length_cons]; omega
    · intro _
      exact h3 (by rw [hlen1]; exact Nat.mod_lt _ (by norm_num))
    · rw [h4, hlast1]
      cases rest with
      | nil => rfl
      | cons b2 rest2 => rfl

/-- C13: a run of valid appending blocks on a new chain. For every
configuration and every list of blocks in which each block has as
PreviousHash the hash of the block before it, the first one the hash of the
genesis block, and each passes ValidateBlock when HandleBlock receives it:
New returns a chain, the HandleBlock calls return a chain, its Length is the
number of blocks plus one as a uint32, which is that number itself below
2^32, and LastBlock and LastHash are the last block of the list and its
hash. -/
theorem C13_appended_blocks_extend_chain (E : Ext) (config : Config) (blocks : List Block)
    (hlink : linked E ((GenesisBlock config).Hash E) blocks)
    (hvalid : ∀ bc0, New E config = some bc0 → validWhenHandled E bc0 blocks = true) :
    ∃ bc0 bc, New E config = some bc0 ∧ handleBlocks E bc0 blocks = some bc ∧
      bc.Length = (blocks.length + 1) % 2 ^ 32 ∧
      (blocks.length + 1 < 2 ^ 32 → bc.Length = blocks.length + 1) ∧
      bc.LastBlock = blocks.getLastD (GenesisBlock config) ∧
      bc.LastHash = (blocks.getLastD (GenesisBlock config)).Hash E := by
  have hnew := New_eq E config
  have hv := hvalid _ hnew
  obtain ⟨bc, h1, h2, h3, h4, h5⟩ := handleBlocks_append E blocks _ rfl
    (by
      intro kv hkv
      simp only [List.mem_singleton] at hkv
      subst hkv
      simp [CoinRecord.Aligned])
    hlink hv
  have hlt : bc.Length < 2 ^ 32 := h3 (by norm_num)
  have hlen : bc.Length = (blocks.length + 1) % 2 ^ 32 := by
    rw [← Nat.mod_eq_of_lt hlt, h2, Nat.add_comm]
  refine ⟨_, bc, hnew, h1, hlen, ?_, h4, ?_⟩
  · intro hk
    rw [hlen, Nat.mod_eq_of_lt hk]
  · rw [h5, h4]

set_option maxRecDepth 1000000 in
/-- C13, witness: the sample blocks `block1` and `block2` on the sample
configuration give Length 3, LastBlock `block2` and its hash as LastHash. -/
theorem C13_appended_blocks_extend_chain_witness :
    ∃ bc0 bc, New Sample.ext Sample.config = some bc0 ∧
      handleBlocks Sample.ext bc0 [Sample.block1, Sample.block2] = some bc ∧
      bc.Length = 3 ∧ bc.LastBlock = Sample.block2 ∧
      bc.LastHash = Sample.block2.Hash Sample.ext := by
  obtain ⟨bc0, bc, h0, h1, h2, _, h4, h5⟩ :=
    C13_appended_blocks_extend_chain Sample.ext Sample.config [Sample.block1, Sample.block2]
      (by unfold linked linked linked; decide)
      (by
        intro bc0 h
        have h2 : New Sample.ext Sample.config = some (Sample.stateAfter []) := by decide
        rw [h2, Option.some.injEq] at h
        subst h
        decide)
  exact ⟨bc0, bc, h0, h1, h2, h4, h5⟩

/-- C15: the genesis state. For every configuration whose initial subsidy is
a uint32, New returns a chain of Length 1 whose LastBlock is the genesis
block, whose LastHash is its hash and whose UnsafeHashes hold that hash
only; the genesis block has one transaction, without inputs and with the
single output of InitialSubsidy for GenesisPublicKey; GetBalance of the
genesis key is InitialSubsidy and GetBalance of every other key is 0. -/
theorem C15_genesis_state (E : Ext) (config : Config)
    (hsub : config.InitialSubsidy < 2 ^ 32) :
    ∃ bc, New E config = some bc ∧ bc.Length = 1 ∧ bc.LastBlock = GenesisBlock config ∧
      bc.LastHash = (GenesisBlock config).Hash E ∧
      bc.UnsafeHashes = [(GenesisBlock config).Hash E] ∧
      (GenesisBlock config).Transactions
        = [⟨0, [], [⟨config.InitialSubsidy, config.GenesisPublicKey⟩], 0⟩] ∧
      (GetBalance bc config.GenesisPublicKey).map Prod.fst = some config.InitialSubsidy ∧
      ∀ pk, pk ≠ config.GenesisPublicKey → (GetBalance bc pk).map Prod.fst = some 0 := by
  refine ⟨_, New_eq E config, rfl, rfl, rfl, rfl, rfl, ?_, ?_⟩
  · simp [GetBalance, CoinDatabase.GetBalance, CoinDatabase.FlushMainCache,
      CoinDatabase.flushCollect, CoinDatabase.flushWrite, CoinDatabase.balanceOfStore,
      CoinDatabase.balanceOfRecord]
    exact hsub
  · intro pk hpk
    simp [GetBalance, CoinDatabase.GetBalance, CoinDatabase.FlushMainCache,
      CoinDatabase.flushCollect, CoinDatabase.flushWrite, CoinDatabase.balanceOfStore,
      CoinDatabase.balanceOfRecord, Ne.symm hpk]

/-- C15, witness: with InitialSubsidy 50 and GenesisPublicKey "PK" the new
chain has Length 1 and GetBalance("PK") is 50. -/
theorem C15_genesis_state_witness :
    ∃ bc, New Sample.ext Sample.config = some bc ∧ bc.Length = 1 ∧
      (GetBalance bc "PK").map Prod.fst = some 50 ∧
      (GetBalance bc "PK1").map Prod.fst = some 0 := by
  obtain ⟨bc, h0, h1, _, _, _, _, h6, h7⟩ :=
    C15_genesis_state Sample.ext Sample.config (by decide)
  exact ⟨bc, h0, h1, h6, h7 "PK1" (by decide)⟩

end BlockChain

namespace CoinDatabase

/-! ### GetBalance as a sum over the flushed store -/

theorem balanceOfRecord_sound (pk : String) (amounts : List Nat) (scripts : List String) :
    ∀ (i bal b : Nat), balanceOfRecord pk amounts i scripts bal = some b →
      b % 2 ^ 32 = (bal + sumWhere pk scripts (amounts.drop i)) % 2 ^ 32 ∧
      (bal < 2 ^ 32 → b < 2 ^ 32) := by
  induction scripts with
  | nil =>
    intro i bal b h
    simp only [balanceOfRecord, Option.some.injEq] at h
    subst h
    exact ⟨by simp [sumWhere], fun h => h⟩
  | cons s ss ih =>
    intro i bal b h
    rw [balanceOfRecord] at h
    by_cases hs : s = pk
    · rw [if_pos hs] at h
      cases hg : amounts.get? i with
      | none => rw [hg] at h; exact absurd h (by simp)
      | some a =>
        rw [hg] at h
        simp only at h
        have hi : i < amounts.length := by
          rw [List.get?_eq_some] at hg
          exact hg.1
        have ha : amounts[i] = a := by
          rw [List.get?_eq_some] at hg
          obtain ⟨_, h2⟩ := hg
          simpa using h2
        have hdrop : amounts.drop i = amounts[i] :: amounts.drop (i + 1) :=
          List.drop_eq_getElem_cons hi
        obtain ⟨h2, h3⟩ := ih (i + 1) ((bal + a) % 2 ^ 32) b h
        refine ⟨?_, fun _ => h3 (Nat.mod_lt _ (by norm_num))⟩
        rw [hdrop, sumWhere, if_pos hs, h2, ha]
        omega
    · rw [if_neg hs] at h
      obtain ⟨h2, h3⟩ := ih (i + 1) bal b h
      refine ⟨?_, h3⟩
      rw [h2]
      cases hd : amounts.drop i with
      | nil =>
        have hlen : amounts.length ≤ i := List.drop_eq_nil_iff.mp hd
        have hd2 : amounts.drop (i + 1) = [] := List.drop_eq_nil_iff.mpr (by omega)
        rw [hd2]
        cases ss <;> simp [sumWhere]
      | cons a rest =>
        have hd2 : amounts.drop (i + 1) = rest := by
          rw [← List.drop_drop, hd]
          rfl
        rw [hd2, sumWhere, if_neg hs, Nat.zero_add]

theorem balanceOfStore_sound (pk : String) (db : List (String × CoinRecord)) :
    ∀ bal b : Nat, balanceOfStore pk db bal = some b →
      b % 2 ^ 32 = (bal + dbSum pk db) % 2 ^ 32 ∧ (bal < 2 ^ 32 → b < 2 ^ 32) := by
  induction db with
  | nil =>
    intro bal b h
    simp only [balanceOfStore, Option.some.injEq] at h
    subst h
    exact ⟨by simp [dbSum], fun h => h⟩
  | cons kv rest ih =>
    obtain ⟨k, cr⟩ := kv
    intro bal b h
    rw [balanceOfStore] at h
    cases h1 : balanceOfRecord pk cr.Amounts 0 cr.LockingScripts bal with
    | none => simp [h1] at h
    | some b1 =>
      simp only [h1] at h
      obtain ⟨h2, h3⟩ := balanceOfRecord_sound pk cr.Amounts cr.LockingScripts 0 bal b1 h1
      obtain ⟨h4, h5⟩ := ih b1 b h
      refine ⟨?_, fun hb => h5 (h3 hb)⟩
      rw [h4]
      simp only [List.drop_zero] at h2
      simp only [dbSum, List.map_cons, List.sum_cons, recordSum] at h2 ⊢
      omega

/-- C16: GetBalance flushes the cache and sums the store left by the flush.
For every state and key: when the coin records are aligned, FlushMainCache
returns a state and GetBalance returns, with that state, the sum modulo
2^32 over the records of its store of the amounts at the positions whose
locking script is the key; and in every state in which GetBalance returns,
the state it leaves is the one FlushMainCache returns and the value is that
sum modulo 2^32. -/
theorem C16_balance_is_sum_over_flushed_store (c : CoinDatabase) (pk : String) :
    (c.AlignedDB → ∃ c1, FlushMainCache c = some c1 ∧
      GetBalance c pk = some (dbSum pk c1.db % 2 ^ 32, c1)) ∧
    (∀ n c1, GetBalance c pk = some (n, c1) →
      FlushMainCache c = some c1 ∧ n = dbSum pk c1.db % 2 ^ 32) := by
  constructor
  · intro hal
    obtain ⟨c1, h1, hal1, _⟩ := FlushMainCache_aligned c hal
    obtain ⟨b, h3, h4, h5⟩ := balanceOfStore_eq pk c1.db hal1 0
    have hb : b = dbSum pk c1.db % 2 ^ 32 := by
      have := h5 (by norm_num)
      rw [Nat.zero_add] at h4
      rw [← h4]
      exact (Nat.mod_eq_of_lt this).symm
    subst hb
    exact ⟨c1, h1, by simp only [GetBalance, h1, h3]⟩
  · intro n c1 h
    unfold GetBalance at h
    cases hf : FlushMainCache c with
    | none => simp [hf] at h
    | some c2 =>
      simp only [hf] at h
      cases hb : balanceOfStore pk c2.db 0 with
      | none => simp [hb] at h
      | some b =>
        simp only [hb, Option.some.injEq, Prod.mk.injEq] at h
        obtain ⟨h1, h2⟩ := h
        subst h1 h2
        obtain ⟨h4, h5⟩ := balanceOfStore_sound pk c2.db 0 b hb
        refine ⟨rfl, ?_⟩
        have := h5 (by norm_num)
        rw [Nat.zero_add] at h4
        rw [← h4]
        exact (Nat.mod_eq_of_lt this).symm

set_option maxRecDepth 1000000 in
/-- C16, witness: in `spentCacheDB` the cache holds the genesis coin marked
spent; the flush deletes its record, and GetBalance is 0 for "PK" and 50 for
"PK1", the sums over the store the flush leaves. -/
theorem C16_balance_is_sum_over_flushed_store_witness :
    ∃ c1, FlushMainCache Sample.spentCacheDB = some c1 ∧
      GetBalance Sample.spentCacheDB "PK1" = some (dbSum "PK1" c1.db % 2 ^ 32, c1) ∧
      dbSum "PK1" c1.db = 50 ∧ dbSum "PK" c1.db = 0 ∧ dbSum "PK" Sample.spentCacheDB.db = 50 := by
  obtain ⟨c1, h1, h2⟩ := (C16_balance_is_sum_over_flushed_store Sample.spentCacheDB "PK1").1
    (by unfold CoinDatabase.AlignedDB CoinRecord.Aligned; decide)
  have h3 : FlushMainCache Sample.spentCacheDB
      = some ((FlushMainCache Sample.spentCacheDB).getD Sample.spentCacheDB) := by decide
  rw [h3, Option.some.injEq] at h1
  subst h1
  exact ⟨_, h3, h2, by decide, by decide, by decide⟩

/-! ### A second flush finds nothing to do -/

theorem flushCollect_of_unspent (db : List (String × CoinRecord)) :
    ∀ (cache : List (CoinLocator × Coin)) (updated : List (String × CoinRecord)),
      (∀ e ∈ cache, e.2.IsSpent = false) → flushCollect db cache updated = some updated := by
  intro cache
  induction cache with
  | nil => intro updated _; rfl
  | cons e rest ih =>
    obtain ⟨cl, coin⟩ := e
    intro updated h
    have hs : coin.IsSpent = false := h (cl, coin) (List.mem_cons_self _ _)
    rw [flushCollect]
    simp only [hs, Bool.not_false, if_true]
    exact ih updated (fun e he => h e (List.mem_cons_of_mem _ he))

theorem FlushMainCache_of_unspent (c : CoinDatabase)
    (h : ∀ e ∈ c.mainCache, e.2.IsSpent = false) :
    FlushMainCache c = some { c with mainCacheSize := 0 } := by
  have hfilter : c.mainCache.filter (fun e => !e.2.IsSpent) = c.mainCache := by
    rw [List.filter_eq_self]
    intro e he
    simp [h e he]
  unfold FlushMainCache
  rw [flushCollect_of_unspent c.db c.mainCache [] h]
  simp only [flushWrite, hfilter]

theorem FlushMainCache_result (c c1 : CoinDatabase) (hf : FlushMainCache c = some c1) :
    (∀ e ∈ c1.mainCache, e.2.IsSpent = false) ∧ c1.mainCacheSize = 0 ∧
      c1.mainCache = c.mainCache.filter (fun e => !e.2.IsSpent) ∧
      c1.mainCacheCapacity = c.mainCacheCapacity := by
  unfold FlushMainCache at hf
  cases hc : flushCollect c.db c.mainCache [] with
  | none => simp [hc] at hf
  | some u =>
    simp only [hc, Option.some.injEq] at hf
    subst hf
    refine ⟨?_, rfl, rfl, rfl⟩
    intro e he
    have := (List.mem_filter.mp he).2
    simpa using this

theorem FlushMainCache_twice (c c1 : CoinDatabase) (hf : FlushMainCache c = some c1) :
    FlushMainCache c1 = some c1 := by
  obtain ⟨h1, h2, _, _⟩ := FlushMainCache_result c c1 hf
  rw [FlushMainCache_of_unspent c1 h1]
  cases c1
  simp only at h2
  subst h2
  rfl

/-- C17: the balance is stable across flushes and FlushMainCache is
idempotent. For every state and key: a flush of the state left by a flush
returns that same state (cache and store unchanged), and GetBalance on it
returns what GetBalance returns on the state before the flush; when
GetBalance returns a value and a state, GetBalance on that state, with or
without a flush in between, returns the same value and the same state; and
when the coin records are aligned the flush and GetBalance do return. -/
theorem C17_balance_stable_across_flush (c : CoinDatabase) (pk : String) :
    (∀ c1, FlushMainCache c = some c1 →
      FlushMainCache c1 = some c1 ∧ GetBalance c1 pk = GetBalance c pk) ∧
    (∀ n c1, GetBalance c pk = some (n, c1) →
      GetBalance c1 pk = some (n, c1) ∧ FlushMainCache c1 = some c1) ∧
    (c.AlignedDB → ∃ n c1, FlushMainCache c = some c1 ∧ GetBalance c pk = some (n, c1)) := by
  have hflush : ∀ c1, FlushMainCache c = some c1 →
      FlushMainCache c1 = some c1 ∧ GetBalance c1 pk = GetBalance c pk := by
    intro c1 hf
    have h2 := FlushMainCache_twice c c1 hf
    exact ⟨h2, by simp only [GetBalance, hf, h2]⟩
  refine ⟨hflush, ?_, ?_⟩
  · intro n c1 h
    have hf : FlushMainCache c = some c1 := by
      unfold GetBalance at h
      cases hf : FlushMainCache c with
      | none => simp [hf] at h
      | some c2 =>
        simp only [hf] at h
        cases hb : balanceOfStore pk c2.db 0 with
        | none => simp [hb] at h
        | some b =>
          simp only [hb, Option.some.injEq, Prod.mk.injEq] at h
          rw [h.2]
    obtain ⟨h1, h2⟩ := hflush c1 hf
    exact ⟨by rw [h2, h], h1⟩
  · intro hal
    obtain ⟨c1, h1, hal1, _⟩ := FlushMainCache_aligned c hal
    obtain ⟨b, h3, _, _⟩ := balanceOfStore_eq pk c1.db hal1 0
    exact ⟨b, c1, h1, by simp only [GetBalance, h1, h3]⟩

set_option maxRecDepth 1000000 in
/-- C17, witness: in `spentCacheDB`, whose cache holds a spent coin,
GetBalance("PK1") returns 50 and a state on which a flush changes nothing
and GetBalance("PK1") returns 50 again. -/
theorem C17_balance_stable_across_flush_witness :
    ∃ c1, GetBalance Sample.spentCacheDB "PK1" = some (50, c1) ∧
      GetBalance c1 "PK1" = some (50, c1) ∧ FlushMainCache c1 = some c1 ∧
      c1 ≠ Sample.spentCacheDB := by
  have h : GetBalance Sample.spentCacheDB "PK1"
      = some (50, (FlushMainCache Sample.spentCacheDB).getD Sample.spentCacheDB) := by decide
  obtain ⟨h1, h2⟩ := (C17_balance_stable_across_flush Sample.spentCacheDB "PK1").2.1 _ _ h
  exact ⟨_, h, h1, h2, by decide⟩

end CoinDatabase

namespace Sample

set_option maxRecDepth 1000000 in
/-- C20, the code at the failing input: a coin database of capacity 2
receives three StoreBlock calls of one single-output coinbase each; the
cache then holds three entries while `mainCacheSize` is 1, and after
FlushMainCache and after GetBalance it still holds three entries, with
`mainCacheSize` 0: the flush evicts spent entries only and resets the
counter. -/
theorem C20_cache_exceeds_capacity :
    storeBlocks (CoinDatabase.New 2) threeCoinbases = some threeCoinbaseDB ∧
    threeCoinbaseDB.mainCacheCapacity = 2 ∧
    threeCoinbaseDB.mainCache.length = 3 ∧
    threeCoinbaseDB.mainCacheSize = 1 ∧
    (∃ c1, CoinDatabase.FlushMainCache threeCoinbaseDB = some c1 ∧
      c1.mainCache.length = 3 ∧ c1.mainCacheSize = 0 ∧ c1.mainCacheCapacity = 2) ∧
    (∃ n c1, CoinDatabase.GetBalance threeCoinbaseDB "A" = some (n, c1) ∧
      c1.mainCache.length = 3 ∧ c1.mainCacheCapacity = 2) :=
  ⟨by decide, by decide, by decide, by decide,
    ⟨_, rfl, by decide, by decide, by decide⟩, ⟨_, _, rfl, by decide, by decide⟩⟩

end Sample

namespace CoinDatabase

/-! ### Removing one coin of a record leaves the others where GetCoin finds them -/

theorem GetCoin_eq (c : CoinDatabase) (cl : CoinLocator) :
    GetCoin c cl =
      match kvGet c.mainCache cl with
      | some coin => some (some coin)
      | none =>
        match kvGet c.db cl.ReferenceTransactionHash with
        | none => some none
        | some cr => coinOfRecord cr cl.OutputIndex := by
  unfold GetCoin getCoinRecordFromDB coinOfRecord
  rfl

theorem indexOf_eraseIdx (j idx : Nat) (hne : j ≠ idx) (os : List Nat) :
    ¬ indexOf os j < 0 →
      (indexOf os idx < 0 → indexOf (os.eraseIdx (indexOf os j).toNat) idx < 0) ∧
      (¬ indexOf os idx < 0 → indexOf os idx ≠ indexOf os j) ∧
      (¬ indexOf os idx < 0 → indexOf os idx < indexOf os j →
        indexOf (os.eraseIdx (indexOf os j).toNat) idx = indexOf os idx) ∧
      (¬ indexOf os idx < 0 → indexOf os j < indexOf os idx →
        indexOf (os.eraseIdx (indexOf os j).toNat) idx = indexOf os idx - 1) := by
  induction os with
  | nil => intro h; simp [indexOf] at h
  | cons a rest ih =>
    intro hj
    by_cases haj : a = j
    · have hai : a ≠ idx := fun h => hne (haj.symm.trans h)
      have h0 : indexOf (a :: rest) j = 0 := by rw [indexOf, if_pos haj]
      have h1 := indexOf_cons_ne a idx rest hai
      have hge := indexOf_ge_neg_one rest idx
      rw [h0]
      simp only [Int.toNat_zero, List.eraseIdx_cons_zero]
      rw [h1]
      refine ⟨?_, ?_, ?_, ?_⟩
      · intro h; split at h <;> omega
      · intro h; split <;> omega
      · intro h h2; split at h2 <;> omega
      · intro h _; split <;> omega
    · have hj1 := indexOf_cons_ne a j rest haj
      have hgej := indexOf_ge_neg_one rest j
      have hrj : ¬ indexOf rest j < 0 := by
        intro hneg
        rw [hj1, if_pos hneg] at hj
        exact hj (by omega)
      rw [hj1, if_neg hrj]
      have hp : (indexOf rest j + 1).toNat = (indexOf rest j).toNat + 1 := by omega
      rw [hp, List.eraseIdx_cons_succ]
      obtain ⟨i1, i2, i3, i4⟩ := ih hrj
      by_cases hai : a = idx
      · have h0 : indexOf (a :: rest) idx = 0 := by rw [indexOf, if_pos hai]
        have h00 : indexOf (a :: rest.eraseIdx (indexOf rest j).toNat) idx = 0 := by
          rw [indexOf, if_pos hai]
        rw [h0, h00]
        refine ⟨?_, ?_, ?_, ?_⟩
        · intro h; omega
        · intro _; omega
        · intro _ _; rfl
        · intro _ h; omega
      · have h1 := indexOf_cons_ne a idx rest hai
        have h2 := indexOf_cons_ne a idx (rest.eraseIdx (indexOf rest j).toNat) hai
        have hge := indexOf_ge_neg_one rest idx
        rw [h1, h2]
        by_cases hri : indexOf rest idx < 0
        · have := i1 hri
          rw [if_pos hri, if_pos this]
          refine ⟨?_, ?_, ?_, ?_⟩
          · intro _; omega
          · intro h; omega
          · intro h; omega
          · intro h; omega
        · rw [if_neg hri]
          have e2 := i2 hri
          refine ⟨?_, ?_, ?_, ?_⟩
          · intro h; omega
          · intro _; omega
          · intro _ hlt
            have e3 := i3 hri (by omega)
            rw [e3, if_neg hri]
          · intro _ hlt
            have e4 := i4 hri (by omega)
            rw [e4]
            have : ¬ indexOf rest idx - 1 < 0 := by omega
            rw [if_neg this]
            omega

theorem get?_eraseIdx_of_lt {α : Type} (l : List α) (p q : Nat) (h : q < p) :
    (l.eraseIdx p).get? q = l.get? q := by
  simp only [List.get?_eq_getElem?]
  rw [List.getElem?_eraseIdx, if_pos h]

theorem get?_eraseIdx_of_ge {α : Type} (l : List α) (p q : Nat) (h : p ≤ q) :
    (l.eraseIdx p).get? q = l.get? (q + 1) := by
  simp only [List.get?_eq_getElem?]
  rw [List.getElem?_eraseIdx, if_neg (by omega)]

theorem coinOfRecord_remove (cr cr2 : CoinRecord) (j idx : Nat) (hne : j ≠ idx)
    (h : removeCoinFromRecord cr j = some cr2) :
    coinOfRecord cr2 idx = coinOfRecord cr idx := by
  unfold removeCoinFromRecord at h
  by_cases hneg : indexOf cr.OutputIndexes j < 0
  · simp only [hneg, if_true, Option.some.injEq] at h
    rw [h]
  · simp only [hneg, if_false] at h
    by_cases hlen : (indexOf cr.OutputIndexes j).toNat < cr.Amounts.length ∧
        (indexOf cr.OutputIndexes j).toNat < cr.LockingScripts.length
    · rw [if_pos hlen, Option.some.injEq] at h
      subst h
      obtain ⟨i1, i2, i3, i4⟩ := indexOf_eraseIdx j idx hne cr.OutputIndexes hneg
      unfold coinOfRecord
      simp only
      by_cases hi : indexOf cr.OutputIndexes idx < 0
      · rw [if_pos (i1 hi), if_pos hi]
      · have hne2 := i2 hi
        rcases lt_or_gt_of_ne hne2 with hlt | hgt
        · have e := i3 hi hlt
          have hq : (indexOf cr.OutputIndexes idx).toNat < (indexOf cr.OutputIndexes j).toNat := by
            omega
          rw [e, if_neg hi, if_neg hi, get?_eraseIdx_of_lt _ _ _ hq,
            get?_eraseIdx_of_lt _ _ _ hq]
        · have e := i4 hi hgt
          have hnn : ¬ indexOf cr.OutputIndexes idx - 1 < 0 := by omega
          have hq : (indexOf cr.OutputIndexes j).toNat
              ≤ (indexOf cr.OutputIndexes idx - 1).toNat := by omega
          have hq2 : (indexOf cr.OutputIndexes idx - 1).toNat + 1
              = (indexOf cr.OutputIndexes idx).toNat := by omega
          rw [e, if_neg hi, if_neg hnn, get?_eraseIdx_of_ge _ _ _ hq,
            get?_eraseIdx_of_ge _ _ _ hq, hq2]
    · rw [if_neg hlen] at h
      exact absurd h (by simp)

theorem coinOfRecord_some_nonempty (cr : CoinRecord) (idx : Nat) (coin : Coin)
    (h : coinOfRecord cr idx = some (some coin)) : cr.OutputIndexes.length ≠ 0 := by
  intro hlen
  have hnil : cr.OutputIndexes = [] := List.length_eq_zero.mp hlen
  unfold coinOfRecord at h
  simp [hnil, indexOf] at h

/-! ### What a flush leaves under a transaction hash -/

theorem flushCollect_coin (db : List (String × CoinRecord)) (cl : CoinLocator) :
    ∀ (cache : List (CoinLocator × Coin)) (updated u2 : List (String × CoinRecord)),
      (∀ e ∈ cache, e.2.IsSpent = true → e.1 ≠ cl) →
      flushCollect db cache updated = some u2 →
      coinOfRecord (flushLookup db u2 cl.ReferenceTransactionHash) cl.OutputIndex
        = coinOfRecord (flushLookup db updated cl.ReferenceTransactionHash) cl.OutputIndex := by
  intro cache
  induction cache with
  | nil =>
    intro updated u2 _ h
    simp only [flushCollect, Option.some.injEq] at h
    rw [h]
  | cons e rest ih =>
    obtain ⟨cl2, coin⟩ := e
    intro updated u2 hne h
    have hrest : ∀ e ∈ rest, e.2.IsSpent = true → e.1 ≠ cl :=
      fun e he => hne e (List.mem_cons_of_mem _ he)
    rw [flushCollect] at h
    by_cases hs : coin.IsSpent = true
    · simp only [hs, Bool.not_true, Bool.false_eq_true, if_false] at h
      cases hr : removeCoinFromRecord (flushLookup db updated cl2.ReferenceTransactionHash)
          cl2.OutputIndex with
      | none => rw [hr] at h; exact absurd h (by simp)
      | some cr3 =>
        rw [hr] at h
        simp only at h
        rw [ih _ u2 hrest h]
        have hcl : cl2 ≠ cl := hne (cl2, coin) (List.mem_cons_self _ _) hs
        by_cases hh : cl2.ReferenceTransactionHash = cl.ReferenceTransactionHash
        · have hidx : cl2.OutputIndex ≠ cl.OutputIndex := by
            intro hi
            apply hcl
            cases cl2
            cases cl
            simp only at hh hi
            rw [hh, hi]
          rw [← hh, flushLookup_kvPut_self]
          rw [hh] at hr ⊢
          exact coinOfRecord_remove _ _ _ _ hidx hr
        · rw [flushLookup_kvPut_of_ne _ _ _ _ _ hh]
    · have hs2 : coin.IsSpent = false := by simpa using hs
      simp only [hs2, Bool.not_false, if_true] at h
      exact ih updated u2 hrest h

theorem flushCollect_nodup (db : List (String × CoinRecord)) :
    ∀ (cache : List (CoinLocator × Coin)) (updated u2 : List (String × CoinRecord)),
      (updated.map Prod.fst).Nodup → flushCollect db cache updated = some u2 →
      (u2.map Prod.fst).Nodup := by
  intro cache
  induction cache with
  | nil =>
    intro updated u2 hn h
    simp only [flushCollect, Option.some.injEq] at h
    rw [← h]; exact hn
  | cons e rest ih =>
    obtain ⟨cl2, coin⟩ := e
    intro updated u2 hn h
    rw [flushCollect] at h
    by_cases hs : coin.IsSpent = true
    · simp only [hs, Bool.not_true, Bool.false_eq_true, if_false] at h
      cases hr : removeCoinFromRecord (flushLookup db updated cl2.ReferenceTransactionHash)
          cl2.OutputIndex with
      | none => rw [hr] at h; exact absurd h (by simp)
      | some cr3 =>
        rw [hr] at h
        simp only at h
        exact ih _ u2 (nodup_keys_kvPut _ _ _ hn) h
    · have hs2 : coin.IsSpent = false := by simpa using hs
      simp only [hs2, Bool.not_false, if_true] at h
      exact ih updated u2 hn h

theorem kvGet_flushWrite (h : String) :
    ∀ (u db : List (String × CoinRecord)), (u.map Prod.fst).Nodup →
      kvGet (flushWrite db u) h =
        match kvGet u h with
        | some r => if r.OutputIndexes.length = 0 then none else some r
        | none => kvGet db h := by
  intro u
  induction u with
  | nil => intro db _; rfl
  | cons kv rest ih =>
    obtain ⟨k, r⟩ := kv
    intro db hn
    simp only [List.map_cons, List.nodup_cons] at hn
    obtain ⟨hk, hrest⟩ := hn
    by_cases hkh : k = h
    · subst hkh
      have hnone : kvGet rest k = none := (kvGet_eq_none_iff rest k).2 hk
      rw [kvGet_cons_self, flushWrite]
      by_cases hlen : r.OutputIndexes.length = 0
      · rw [if_pos hlen, ih _ hrest, hnone]
        simp only [hlen, if_true]
        exact kvGet_kvDelete_self _ _
      · rw [if_neg hlen, ih _ hrest, hnone]
        simp only [hlen, if_false]
        exact kvGet_kvPut_self _ _ _
    · rw [kvGet_cons_of_ne _ _ _ _ hkh, flushWrite]
      by_cases hlen : r.OutputIndexes.length = 0
      · rw [if_pos hlen, ih _ hrest, kvGet_kvDelete_of_ne _ hkh]
      · rw [if_neg hlen, ih _ hrest, kvGet_kvPut_of_ne _ _ hkh]

theorem kvGet_filter_none {α β : Type} [DecidableEq α] (p : α × β → Bool)
    (m : List (α × β)) (a : α) (h : kvGet m a = none) : kvGet (m.filter p) a = none := by
  rw [kvGet_eq_none_iff] at h ⊢
  intro hm
  apply h
  obtain ⟨e, he, hea⟩ := List.mem_map.mp hm
  exact List.mem_map.mpr ⟨e, (List.mem_filter.mp he).1, hea⟩

/-- C18: a flush loses no unspent coin. For every state in which
FlushMainCache returns and every locator: when GetCoin returns a coin with
`IsSpent = false` before the flush, GetCoin returns the same coin, unspent
and with the same amount and locking script, after it; every unspent entry
of the cache is still an entry of the cache, unchanged; and when the coin
records are aligned FlushMainCache does return. -/
theorem C18_flush_keeps_unspent_coins (c : CoinDatabase) :
    (∀ c1 cl coin, FlushMainCache c = some c1 → GetCoin c cl = some (some coin) →
      coin.IsSpent = false → GetCoin c1 cl = some (some coin)) ∧
    (∀ c1 cl coin, FlushMainCache c = some c1 → kvGet c.mainCache cl = some coin →
      coin.IsSpent = false → kvGet c1.mainCache cl = some coin) ∧
    (c.AlignedDB → ∃ c1, FlushMainCache c = some c1) := by
  refine ⟨?_, ?_, ?_⟩
  · intro c1 cl coin hf hg hs
    cases hcache : kvGet c.mainCache cl with
    | some coin0 =>
      rw [GetCoin_eq, hcache] at hg
      simp only [Option.some.injEq] at hg
      subst hg
      have := FlushMainCache_keeps_unspent c c1 hf cl coin0 hcache hs
      rw [GetCoin_eq, this]
    | none =>
      rw [GetCoin_eq, hcache] at hg
      simp only at hg
      cases hdb : kvGet c.db cl.ReferenceTransactionHash with
      | none => rw [hdb] at hg; simp at hg
      | some cr =>
        rw [hdb] at hg
        simp only at hg
        unfold FlushMainCache at hf
        cases hc : flushCollect c.db c.mainCache [] with
        | none => rw [hc] at hf; exact absurd hf (by simp)
        | some u =>
          rw [hc] at hf
          simp only [Option.some.injEq] at hf
          subst hf
          have hne : ∀ e ∈ c.mainCache, e.2.IsSpent = true → e.1 ≠ cl := by
            intro e he _ hecl
            have hmem : cl ∈ c.mainCache.map Prod.fst :=
              List.mem_map.mpr ⟨e, he, hecl⟩
            exact (kvGet_eq_none_iff _ _).1 hcache hmem
          have hcoin := flushCollect_coin c.db cl c.mainCache [] u hne hc
          have hnd := flushCollect_nodup c.db c.mainCache [] u (by simp) hc
          have hl0 : flushLookup c.db [] cl.ReferenceTransactionHash = cr := by
            simp [flushLookup, kvGet, hdb]
          rw [hl0, hg] at hcoin
          rw [GetCoin_eq]
          simp only
          rw [kvGet_filter_none _ _ _ hcache]
          simp only
          rw [kvGet_flushWrite _ _ _ hnd]
          cases hu : kvGet u cl.ReferenceTransactionHash with
          | none =>
            simp only [hdb]
            exact hg
          | some r =>
            have hl : flushLookup c.db u cl.ReferenceTransactionHash = r := by
              simp [flushLookup, hu]
            rw [hl] at hcoin
            have hlen := coinOfRecord_some_nonempty r cl.OutputIndex coin hcoin
            simp only [hlen, if_false]
            exact hcoin
  · intro c1 cl coin hf hg hs
    exact FlushMainCache_keeps_unspent c c1 hf cl coin hg hs
  · intro hal
    obtain ⟨c1, h1, _, _⟩ := FlushMainCache_aligned c hal
    exact ⟨c1, h1⟩

set_option maxRecDepth 1000000 in
/-- C18, witness: a coin database of capacity 2 after three single-output
coinbases stored in succession; each of the three coins is returned unspent
by GetCoin, and is returned unspent by GetCoin after FlushMainCache. -/
theorem C18_flush_keeps_unspent_coins_witness :
    Sample.storeBlocks (CoinDatabase.New 2) Sample.threeCoinbases
      = some Sample.threeCoinbaseDB ∧
    ∃ c1, FlushMainCache Sample.threeCoinbaseDB = some c1 ∧
      GetCoin c1 ⟨Sample.txHash (Sample.coinbaseTx 1 "A"), 0⟩
        = some (some ⟨⟨50, "A"⟩, false⟩) ∧
      GetCoin c1 ⟨Sample.txHash (Sample.coinbaseTx 2 "B"), 0⟩
        = some (some ⟨⟨50, "B"⟩, false⟩) ∧
      GetCoin c1 ⟨Sample.txHash (Sample.coinbaseTx 3 "C"), 0⟩
        = some (some ⟨⟨50, "C"⟩, false⟩) := by
  have hf : FlushMainCache Sample.threeCoinbaseDB
      = some ((FlushMainCache Sample.threeCoinbaseDB).getD Sample.threeCoinbaseDB) := by
    decide
  have h := (C18_flush_keeps_unspent_coins Sample.threeCoinbaseDB).1
    ((FlushMainCache Sample.threeCoinbaseDB).getD Sample.threeCoinbaseDB)
  exact ⟨by decide, _, hf,
    h ⟨Sample.txHash (Sample.coinbaseTx 1 "A"), 0⟩ ⟨⟨50, "A"⟩, false⟩ hf (by decide) rfl,
    h ⟨Sample.txHash (Sample.coinbaseTx 2 "B"), 0⟩ ⟨⟨50, "B"⟩, false⟩ hf (by decide) rfl,
    h ⟨Sample.txHash (Sample.coinbaseTx 3 "C"), 0⟩ ⟨⟨50, "C"⟩, false⟩ hf (by decide) rfl⟩

end CoinDatabase

namespace CoinDatabase

/-! ### A flush removes the spent coins from records without repeated indexes -/

theorem eraseIdx_indexOf_not_mem (idx : Nat) (os : List Nat) (hnd : os.Nodup)
    (h : ¬ indexOf os idx < 0) : idx ∉ os.eraseIdx (indexOf os idx).toNat := by
  induction os with
  | nil => simp
  | cons a rest ih =>
    simp only [List.nodup_cons] at hnd
    obtain ⟨ha, hrest⟩ := hnd
    by_cases hai : a = idx
    · subst hai
      have h0 : indexOf (a :: rest) a = 0 := by rw [indexOf, if_pos rfl]
      rw [h0]
      simpa using ha
    · have h1 := indexOf_cons_ne a idx rest hai
      have hge := indexOf_ge_neg_one rest idx
      have hr : ¬ indexOf rest idx < 0 := by
        intro hneg
        rw [h1, if_pos hneg] at h
        exact h (by omega)
      rw [h1, if_neg hr]
      have hp : (indexOf rest idx + 1).toNat = (indexOf rest idx).toNat + 1 := by omega
      rw [hp, List.eraseIdx_cons_succ]
      intro hm
      rcases List.mem_cons.mp hm with h2 | h2
      · exact hai h2.symm
      · exact ih hrest hr h2

theorem removeCoinFromRecord_indexes (cr cr2 : CoinRecord) (j : Nat)
    (h : removeCoinFromRecord cr j = some cr2) (hnd : cr.OutputIndexes.Nodup) :
    cr2.OutputIndexes.Nodup ∧ j ∉ cr2.OutputIndexes ∧
      ∀ idx, idx ∉ cr.OutputIndexes → idx ∉ cr2.OutputIndexes := by
  unfold removeCoinFromRecord at h
  by_cases hneg : indexOf cr.OutputIndexes j < 0
  · simp only [hneg, if_true, Option.some.injEq] at h
    subst h
    exact ⟨hnd, (indexOf_neg_iff _ _).1 hneg, fun _ hi => hi⟩
  · simp only [hneg, if_false] at h
    by_cases hlen : (indexOf cr.OutputIndexes j).toNat < cr.Amounts.length ∧
        (indexOf cr.OutputIndexes j).toNat < cr.LockingScripts.length
    · rw [if_pos hlen, Option.some.injEq] at h
      subst h
      refine ⟨List.Nodup.sublist (List.eraseIdx_sublist _ _) hnd,
        eraseIdx_indexOf_not_mem j _ hnd hneg, ?_⟩
      intro idx hi hm
      exact hi ((List.eraseIdx_sublist _ _).subset hm)
    · rw [if_neg hlen] at h
      exact absurd h (by simp)

theorem flushLookup_nodup (db updated : List (String × CoinRecord))
    (hdb : ∀ kv ∈ db, kv.2.OutputIndexes.Nodup)
    (hu : ∀ kv ∈ updated, kv.2.OutputIndexes.Nodup) (h : String) :
    (flushLookup db updated h).OutputIndexes.Nodup := by
  unfold flushLookup
  cases h1 : kvGet updated h with
  | some r => exact hu _ (kvGet_mem _ h1)
  | none =>
    cases h2 : kvGet db h with
    | some r => exact hdb _ (kvGet_mem _ h2)
    | none => simp [CoinRecord.empty]

theorem flushCollect_removes (db : List (String × CoinRecord))
    (hdb : ∀ kv ∈ db, kv.2.OutputIndexes.Nodup) (cl : CoinLocator) :
    ∀ (cache : List (CoinLocator × Coin)) (updated u2 : List (String × CoinRecord)),
      (∀ kv ∈ updated, kv.2.OutputIndexes.Nodup) →
      flushCollect db cache updated = some u2 →
      ((∃ coin, (cl, coin) ∈ cache ∧ coin.IsSpent = true) ∨
        (∃ r, kvGet updated cl.ReferenceTransactionHash = some r ∧
          cl.OutputIndex ∉ r.OutputIndexes)) →
      ∃ r, kvGet u2 cl.ReferenceTransactionHash = some r ∧ cl.OutputIndex ∉ r.OutputIndexes := by
  intro cache
  induction cache with
  | nil =>
    intro updated u2 _ h hcase
    simp only [flushCollect, Option.some.injEq] at h
    subst h
    rcases hcase with ⟨coin, hm, _⟩ | hdone
    · simp at hm
    · exact hdone
  | cons e rest ih =>
    obtain ⟨cl2, coin2⟩ := e
    intro updated u2 hu h hcase
    rw [flushCollect] at h
    by_cases hs : coin2.IsSpent = true
    · simp only [hs, Bool.not_true, Bool.false_eq_true, if_false] at h
      cases hr : removeCoinFromRecord (flushLookup db updated cl2.ReferenceTransactionHash)
          cl2.OutputIndex with
      | none => rw [hr] at h; exact absurd h (by simp)
      | some cr3 =>
        rw [hr] at h
        simp only at h
        obtain ⟨n1, n2, n3⟩ := removeCoinFromRecord_indexes _ _ _ hr
          (flushLookup_nodup db updated hdb hu _)
        have hu2 : ∀ kv ∈ kvPut updated cl2.ReferenceTransactionHash cr3,
            kv.2.OutputIndexes.Nodup :=
          forall_kvPut (fun r : CoinRecord => r.OutputIndexes.Nodup) _ _ _ hu n1
        apply ih _ u2 hu2 h
        by_cases hcl : cl2 = cl
        · subst hcl
          exact Or.inr ⟨cr3, kvGet_kvPut_self _ _ _, n2⟩
        · rcases hcase with ⟨coin, hm, hsp⟩ | ⟨r, hr1, hr2⟩
          · rcases List.mem_cons.mp hm with heq | hm2
            · exact absurd (congrArg Prod.fst heq).symm hcl
            · exact Or.inl ⟨coin, hm2, hsp⟩
          · by_cases hh : cl2.ReferenceTransactionHash = cl.ReferenceTransactionHash
            · refine Or.inr ⟨cr3, by rw [← hh]; exact kvGet_kvPut_self _ _ _, ?_⟩
              apply n3
              have hl : flushLookup db updated cl2.ReferenceTransactionHash = r := by
                rw [hh]
                simp [flushLookup, hr1]
              rw [hl]
              exact hr2
            · exact Or.inr ⟨r, by rw [kvGet_kvPut_of_ne _ _ hh]; exact hr1, hr2⟩
    · have hs2 : coin2.IsSpent = false := by simpa using hs
      simp only [hs2, Bool.not_false, if_true] at h
      apply ih updated u2 hu h
      rcases hcase with ⟨coin, hm, hsp⟩ | hdone
      · rcases List.mem_cons.mp hm with heq | hm2
        · have : coin = coin2 := (congrArg Prod.snd heq)
          rw [this] at hsp
          exact absurd hsp hs
        · exact Or.inl ⟨coin, hm2, hsp⟩
      · exact Or.inr hdone

theorem kvGet_filter_of_spent (cache : List (CoinLocator × Coin)) (cl : CoinLocator)
    (coin : Coin) (hnd : (cache.map Prod.fst).Nodup) (hg : kvGet cache cl = some coin)
    (hs : coin.IsSpent = true) :
    kvGet (cache.filter (fun e => !e.2.IsSpent)) cl = none := by
  rw [kvGet_eq_none_iff]
  intro hm
  obtain ⟨e, he, hecl⟩ := List.mem_map.mp hm
  obtain ⟨he1, he2⟩ := List.mem_filter.mp he
  have hmem := kvGet_mem _ hg
  have : e = (cl, coin) := by
    have hinj := List.inj_on_of_nodup_map hnd he1 hmem (by rw [hecl])
    exact hinj
  rw [this] at he2
  simp [hs] at he2

theorem FlushMainCache_removes_spent (c c1 : CoinDatabase) (hf : FlushMainCache c = some c1)
    (hcache : (c.mainCache.map Prod.fst).Nodup)
    (hdb : ∀ kv ∈ c.db, kv.2.OutputIndexes.Nodup)
    (cl : CoinLocator) (coin : Coin) (hg : kvGet c.mainCache cl = some coin)
    (hs : coin.IsSpent = true) :
    GetCoin c1 cl = some none ∧
      ∀ r, kvGet c1.db cl.ReferenceTransactionHash = some r →
        cl.OutputIndex ∉ r.OutputIndexes ∧ r.OutputIndexes.length ≠ 0 := by
  unfold FlushMainCache at hf
  cases hc : flushCollect c.db c.mainCache [] with
  | none => rw [hc] at hf; exact absurd hf (by simp)
  | some u =>
    rw [hc] at hf
    simp only [Option.some.injEq] at hf
    subst hf
    obtain ⟨r, hr1, hr2⟩ := flushCollect_removes c.db hdb cl c.mainCache [] u (by simp) hc
      (Or.inl ⟨coin, kvGet_mem _ hg, hs⟩)
    have hnd := flushCollect_nodup c.db c.mainCache [] u (by simp) hc
    have hdb2 := kvGet_flushWrite cl.ReferenceTransactionHash u c.db hnd
    rw [hr1] at hdb2
    simp only at hdb2
    constructor
    · rw [GetCoin_eq]
      simp only
      rw [kvGet_filter_of_spent _ _ _ hcache hg hs]
      simp only
      rw [hdb2]
      by_cases hlen : r.OutputIndexes.length = 0
      · rw [if_pos hlen]
      · rw [if_neg hlen]
        simp only
        unfold coinOfRecord
        simp only
        rw [if_pos ((indexOf_neg_iff _ _).2 hr2)]
    · intro r2 h2
      rw [hdb2] at h2
      by_cases hlen : r.OutputIndexes.length = 0
      · rw [if_pos hlen] at h2
        exact absurd h2 (by simp)
      · rw [if_neg hlen, Option.some.injEq] at h2
        subst h2
        exact ⟨hr2, hlen⟩

end CoinDatabase

namespace Sample

set_option maxRecDepth 1000000 in
/-- C19, the code at the failing input: in `respentCoinDB` the cache holds
the genesis coin with `IsSpent = true` and the coin record of the genesis
transaction lists output index 0 twice, as UndoCoins left it; after
FlushMainCache no cache entry is spent, but the record still lists index 0
with amount 50 for "PK" and GetCoin returns the coin with
`IsSpent = false`, where the claim has nil. -/
theorem C19_flushed_spend_is_still_a_coin :
    ∃ c c1,
      respentCoinDB = some c ∧
      kvGet c.mainCache ⟨txHash genesisTx, 0⟩ = some ⟨⟨50, "PK"⟩, true⟩ ∧
      kvGet c.db (txHash genesisTx) = some ⟨0, [0, 0], [50, 50], ["PK", "PK"]⟩ ∧
      CoinDatabase.FlushMainCache c = some c1 ∧
      (∀ e ∈ c1.mainCache, e.2.IsSpent = false) ∧
      kvGet c1.db (txHash genesisTx) = some ⟨0, [0], [50], ["PK"]⟩ ∧
      CoinDatabase.GetCoin c1 ⟨txHash genesisTx, 0⟩ = some (some ⟨⟨50, "PK"⟩, false⟩) :=
  ⟨_, _, rfl, by decide, by decide, rfl, by decide, by decide, by decide⟩

end Sample

/-! ## The block log -/

namespace ChainWriter

/-! ### File names -/

theorem digitChar_toNat (k : Nat) (h : k < 10) : (Nat.digitChar k).toNat - 48 = k := by
  interval_cases k <;> rfl

theorem toDigitsCore_value (fuel : Nat) :
    ∀ (n : Nat) (ds : List Char), n < fuel →
      List.foldl (fun acc c => 10 * acc + (c.toNat - 48)) 0 (Nat.toDigitsCore 10 fuel n ds)
        = List.foldl (fun acc c => 10 * acc + (c.toNat - 48)) n ds := by
  induction fuel with
  | zero => intro n ds h; omega
  | succ fuel ih =>
    intro n ds h
    rw [Nat.toDigitsCore]
    have hd := digitChar_toNat (n % 10) (Nat.mod_lt _ (by norm_num))
    by_cases h0 : n / 10 = 0
    · rw [if_pos h0, List.foldl_cons, hd]
      have : n % 10 = n := Nat.mod_eq_of_lt (by omega)
      simp [this]
    · rw [if_neg h0, ih (n / 10) _ (by omega), List.foldl_cons, hd]
      have : 10 * (n / 10) + n % 10 = n := Nat.div_add_mod n 10
      rw [this]

theorem toString_injective (n m : Nat) (h : toString n = toString m) : n = m := by
  have hdata : Nat.toDigits 10 n = Nat.toDigits 10 m := congrArg String.data h
  have hn := toDigitsCore_value (n + 1) n [] (by omega)
  have hm := toDigitsCore_value (m + 1) m [] (by omega)
  unfold Nat.toDigits at hdata
  rw [hdata, hm] at hn
  simpa using hn.symm

theorem blockFile_injective (cw : ChainWriter) (n m : Nat)
    (h : cw.blockFile n = cw.blockFile m) : n = m := by
  unfold blockFile at h
  have hdata := congrArg String.data h
  simp only [String.data_append, List.append_assoc] at hdata
  have h1 := List.append_cancel_left hdata
  have h2 := List.append_cancel_left h1
  have h3 := List.append_cancel_left h2
  have h4 := List.append_cancel_left h3
  have h5 := List.append_cancel_right h4
  exact toString_injective n m (String.ext_iff.mpr h5)

/-! ### One write to the block log -/

theorem writeToDisk_get_of_ne (disk : List (String × List Nat)) (f g : String)
    (data : List Nat) (hne : f ≠ g) : kvGet (writeToDisk disk f data) g = kvGet disk g := by
  unfold writeToDisk
  cases h : kvGet disk f with
  | none => simp [kvGet_kvPut_of_ne _ _ hne]
  | some c0 => simp [kvGet_kvPut_of_ne _ _ hne]

theorem WriteBlock_fields (cw : ChainWriter) (bytes : List Nat) :
    (WriteBlock cw bytes).2.DataDirectory = cw.DataDirectory ∧
    (WriteBlock cw bytes).2.BlockFileName = cw.BlockFileName ∧
    (WriteBlock cw bytes).2.UndoFileName = cw.UndoFileName ∧
    (WriteBlock cw bytes).2.FileExtension = cw.FileExtension ∧
    (WriteBlock cw bytes).2.MaxBlockFileSize = cw.MaxBlockFileSize := by
  simp only [WriteBlock]
  split_ifs <;> exact ⟨rfl, rfl, rfl, rfl, rfl⟩

theorem WriteUndoBlock_fields (cw : ChainWriter) (bytes : List Nat) :
    (WriteUndoBlock cw bytes).2.DataDirectory = cw.DataDirectory ∧
    (WriteUndoBlock cw bytes).2.BlockFileName = cw.BlockFileName ∧
    (WriteUndoBlock cw bytes).2.UndoFileName = cw.UndoFileName ∧
    (WriteUndoBlock cw bytes).2.FileExtension = cw.FileExtension ∧
    (WriteUndoBlock cw bytes).2.MaxBlockFileSize = cw.MaxBlockFileSize ∧
    (WriteUndoBlock cw bytes).2.CurrentBlockFileNumber = cw.CurrentBlockFileNumber ∧
    (WriteUndoBlock cw bytes).2.CurrentBlockOffset = cw.CurrentBlockOffset := by
  simp only [WriteUndoBlock]
  split_ifs <;> exact ⟨rfl, rfl, rfl, rfl, rfl, rfl, rfl⟩

theorem WriteUndoBlock_disk (cw : ChainWriter) (bytes : List Nat) :
    ∃ k, ∀ g, g ≠ cw.undoFile k →
      kvGet (WriteUndoBlock cw bytes).2.disk g = kvGet cw.disk g := by
  by_cases h : (cw.CurrentUndoOffset + bytes.length % 2 ^ 32) % 2 ^ 32 ≥ cw.MaxUndoFileSize
  · refine ⟨(cw.CurrentUndoFileNumber + 1) % 2 ^ 32, fun g hg => ?_⟩
    have hd : (WriteUndoBlock cw bytes).2.disk
        = writeToDisk cw.disk (cw.undoFile ((cw.CurrentUndoFileNumber + 1) % 2 ^ 32)) bytes := by
      simp only [WriteUndoBlock, h, if_true, undoFile]
    rw [hd]
    exact writeToDisk_get_of_ne _ _ _ _ (Ne.symm hg)
  · refine ⟨cw.CurrentUndoFileNumber, fun g hg => ?_⟩
    have hd : (WriteUndoBlock cw bytes).2.disk
        = writeToDisk cw.disk (cw.undoFile cw.CurrentUndoFileNumber) bytes := by
      simp only [WriteUndoBlock, h, if_false, undoFile]
    rw [hd]
    exact writeToDisk_get_of_ne _ _ _ _ (Ne.symm hg)

theorem WriteBlock_synced (cw : ChainWriter) (bytes : List Nat)
    (hs : cw.BlockLogSynced) (hlen : bytes.length < 2 ^ 31)
    (hmax : cw.MaxBlockFileSize ≤ 2 ^ 31) (hnum : cw.CurrentBlockFileNumber + 1 < 2 ^ 32) :
    (WriteBlock cw bytes).2.BlockLogSynced ∧
    (WriteBlock cw bytes).2.CurrentBlockFileNumber ≤ cw.CurrentBlockFileNumber + 1 ∧
    (WriteBlock cw bytes).1.EndOffset = (WriteBlock cw bytes).1.StartOffset + bytes.length ∧
    (WriteBlock cw bytes).1.EndOffset < 2 ^ 32 ∧
    ((kvGet cw.disk (WriteBlock cw bytes).1.FileName).getD []).length
      = (WriteBlock cw bytes).1.StartOffset := by
  obtain ⟨s1, s2, s3⟩ := hs
  have hl : bytes.length % 2 ^ 32 = bytes.length := Nat.mod_eq_of_lt (by omega)
  unfold WriteBlock
  rw [hl]
  by_cases h : (cw.CurrentBlockOffset + bytes.length) % 2 ^ 32 ≥ cw.MaxBlockFileSize
  · simp only [h, if_true]
    have hn : (cw.CurrentBlockFileNumber + 1) % 2 ^ 32 = cw.CurrentBlockFileNumber + 1 :=
      Nat.mod_eq_of_lt hnum
    have habs := s3 (cw.CurrentBlockFileNumber + 1) (by omega)
    have hz : (0 + bytes.length) % 2 ^ 32 = bytes.length := by
      rw [Nat.zero_add]; exact Nat.mod_eq_of_lt (by omega)
    rw [hn]
    refine ⟨⟨?_, ?_, ?_⟩, le_refl _, ?_, ?_, ?_⟩
    · show ((kvGet (writeToDisk cw.disk (cw.blockFile (cw.CurrentBlockFileNumber + 1)) bytes)
          (cw.blockFile (cw.CurrentBlockFileNumber + 1))).getD []).length
          = (0 + bytes.length) % 2 ^ 32
      rw [writeToDisk_get, habs, hz]
      simp
    · show (0 + bytes.length) % 2 ^ 32 ≤ 2 ^ 31
      rw [hz]; omega
    · intro m hm
      show kvGet (writeToDisk cw.disk (cw.blockFile (cw.CurrentBlockFileNumber + 1)) bytes)
          (cw.blockFile m) = none
      have hne : cw.blockFile (cw.CurrentBlockFileNumber + 1) ≠ cw.blockFile m := by
        intro he
        have := blockFile_injective cw _ _ he
        simp only at hm
        omega
      rw [writeToDisk_get_of_ne _ _ _ _ hne]
      exact s3 m (by simp only at hm; omega)
    · show (0 + bytes.length) % 2 ^ 32 = 0 + bytes.length
      rw [hz, Nat.zero_add]
    · show (0 + bytes.length) % 2 ^ 32 < 2 ^ 32
      exact Nat.mod_lt _ (by norm_num)
    · show ((kvGet cw.disk (cw.blockFile (cw.CurrentBlockFileNumber + 1))).getD []).length = 0
      rw [habs]; rfl
  · simp only [h, if_false]
    have hsum : (cw.CurrentBlockOffset + bytes.length) % 2 ^ 32
        = cw.CurrentBlockOffset + bytes.length := Nat.mod_eq_of_lt (by omega)
    rw [hsum] at h
    refine ⟨⟨?_, ?_, ?_⟩, by simp, ?_, ?_, ?_⟩
    · show ((kvGet (writeToDisk cw.disk (cw.blockFile cw.CurrentBlockFileNumber) bytes)
          (cw.blockFile cw.CurrentBlockFileNumber)).getD []).length
          = (cw.CurrentBlockOffset + bytes.length) % 2 ^ 32
      rw [writeToDisk_get, hsum]
      simp [s1]
    · show (cw.CurrentBlockOffset + bytes.length) % 2 ^ 32 ≤ 2 ^ 31
      rw [hsum]; omega
    · intro m hm
      show kvGet (writeToDisk cw.disk (cw.blockFile cw.CurrentBlockFileNumber) bytes)
          (cw.blockFile m) = none
      have hne : cw.blockFile cw.CurrentBlockFileNumber ≠ cw.blockFile m := by
        intro he
        have := blockFile_injective cw _ _ he
        simp only at hm
        omega
      rw [writeToDisk_get_of_ne _ _ _ _ hne]
      exact s3 m hm
    · show (cw.CurrentBlockOffset + bytes.length) % 2 ^ 32
          = cw.CurrentBlockOffset + bytes.length
      exact hsum
    · show (cw.CurrentBlockOffset + bytes.length) % 2 ^ 32 < 2 ^ 32
      exact Nat.mod_lt _ (by norm_num)
    · exact s1

end ChainWriter

namespace ChainWriter

/-! ### StoreBlock keeps the block log in step with the counters -/

theorem blockFile_congr (cw cw2 : ChainWriter) (h1 : cw2.DataDirectory = cw.DataDirectory)
    (h2 : cw2.BlockFileName = cw.BlockFileName) (h3 : cw2.FileExtension = cw.FileExtension)
    (n : Nat) : cw2.blockFile n = cw.blockFile n := by
  unfold blockFile
  rw [h1, h2, h3]

theorem undoFile_congr (cw cw2 : ChainWriter) (h1 : cw2.DataDirectory = cw.DataDirectory)
    (h2 : cw2.UndoFileName = cw.UndoFileName) (h3 : cw2.FileExtension = cw.FileExtension)
    (n : Nat) : cw2.undoFile n = cw.undoFile n := by
  unfold undoFile
  rw [h1, h2, h3]

theorem WriteBlock_file (cw : ChainWriter) (bytes : List Nat) :
    ∃ k, (WriteBlock cw bytes).1.FileName = cw.blockFile k := by
  simp only [WriteBlock]
  split_ifs
  · exact ⟨(cw.CurrentBlockFileNumber + 1) % 2 ^ 32, rfl⟩
  · exact ⟨cw.CurrentBlockFileNumber, rfl⟩

theorem synced_congr (cw cw2 : ChainWriter) (hs : cw.BlockLogSynced)
    (h1 : cw2.DataDirectory = cw.DataDirectory) (h2 : cw2.BlockFileName = cw.BlockFileName)
    (h3 : cw2.FileExtension = cw.FileExtension)
    (h4 : cw2.CurrentBlockFileNumber = cw.CurrentBlockFileNumber)
    (h5 : cw2.CurrentBlockOffset = cw.CurrentBlockOffset)
    (h6 : ∀ n, kvGet cw2.disk (cw.blockFile n) = kvGet cw.disk (cw.blockFile n)) :
    cw2.BlockLogSynced := by
  obtain ⟨s1, s2, s3⟩ := hs
  have hf := blockFile_congr cw cw2 h1 h2 h3
  unfold BlockLogSynced
  rw [h4, h5]
  refine ⟨by rw [hf, h6]; exact s1, s2, ?_⟩
  intro m hm
  rw [hf, h6]
  exact s3 m hm

/-- What StoreBlock leaves: the names and the size limit of the writer are
kept, the block log is still in step with the counters, and the record
names the byte range of the serialized block. -/
theorem StoreBlock_synced (E : Ext) (cw : ChainWriter) (bl : Block) (ub : UndoBlock)
    (height : Nat) (hs : cw.BlockLogSynced) (hsep : cw.SeparateLogs)
    (hlen : (E.marshalBlock bl).length < 2 ^ 31)
    (hmax : cw.MaxBlockFileSize ≤ 2 ^ 31) (hnum : cw.CurrentBlockFileNumber + 1 < 2 ^ 32) :
    (StoreBlock E cw bl ub height).2.BlockLogSynced ∧
    (StoreBlock E cw bl ub height).2.SeparateLogs ∧
    (StoreBlock E cw bl ub height).2.MaxBlockFileSize = cw.MaxBlockFileSize ∧
    (StoreBlock E cw bl ub height).2.CurrentBlockFileNumber ≤ cw.CurrentBlockFileNumber + 1 ∧
    (StoreBlock E cw bl ub height).1.BlockEndOffset
      = (StoreBlock E cw bl ub height).1.BlockStartOffset + (E.marshalBlock bl).length ∧
    (StoreBlock E cw bl ub height).1.BlockEndOffset < 2 ^ 32 ∧
    ∃ content,
      kvGet (StoreBlock E cw bl ub height).2.disk (StoreBlock E cw bl ub height).1.BlockFile
        = some content ∧
      (content.drop (StoreBlock E cw bl ub height).1.BlockStartOffset).take
        (E.marshalBlock bl).length = E.marshalBlock bl := by
  obtain ⟨w1, w2, w3, w4, w5⟩ := WriteBlock_synced cw (E.marshalBlock bl) hs hlen hmax hnum
  obtain ⟨f1, f2, f3, f4, f5⟩ := WriteBlock_fields cw (E.marshalBlock bl)
  obtain ⟨_, _, r3, r4, r5⟩ := StoreBlock_record E cw bl ub height
  have hdisk := WriteBlock_disk cw (E.marshalBlock bl)
  obtain ⟨kf, hkf⟩ := WriteBlock_file cw (E.marshalBlock bl)
  have hrange : ((((kvGet cw.disk (WriteBlock cw (E.marshalBlock bl)).1.FileName).getD []
      ++ E.marshalBlock bl).drop (WriteBlock cw (E.marshalBlock bl)).1.StartOffset).take
        (E.marshalBlock bl).length) = E.marshalBlock bl := by
    rw [← w5, List.drop_left, List.take_length]
  rw [r3, r4, r5, StoreBlock_writer]
  by_cases h : ub.Amounts ≠ []
  · rw [if_pos h]
    obtain ⟨u1, u2, u3, u4, u5, u6, u7⟩ :=
      WriteUndoBlock_fields (WriteBlock cw (E.marshalBlock bl)).2 (E.marshalUndoBlock ub)
    obtain ⟨k, hk⟩ :=
      WriteUndoBlock_disk (WriteBlock cw (E.marshalBlock bl)).2 (E.marshalUndoBlock ub)
    have hbf := blockFile_congr cw _ f1 f2 f4
    have huf := undoFile_congr cw _ f1 f3 f4
    have hkeep : ∀ n, kvGet (WriteUndoBlock (WriteBlock cw (E.marshalBlock bl)).2
        (E.marshalUndoBlock ub)).2.disk (cw.blockFile n)
        = kvGet (WriteBlock cw (E.marshalBlock bl)).2.disk (cw.blockFile n) := by
      intro n
      apply hk
      rw [huf]
      exact hsep n k
    refine ⟨?_, ?_, by rw [u5, f5], by rw [u6]; exact w2, w3, w4, ?_⟩
    · apply synced_congr _ _ w1 u1 u2 u4 u6 u7
      intro n
      rw [hbf]
      exact hkeep n
    · intro n m
      rw [blockFile_congr cw _ (u1.trans f1) (u2.trans f2) (u4.trans f4),
        undoFile_congr cw _ (u1.trans f1) (u3.trans f3) (u4.trans f4)]
      exact hsep n m
    · refine ⟨_, ?_, hrange⟩
      rw [hkf, hkeep, ← hkf]
      exact hdisk
  · rw [if_neg h]
    refine ⟨w1, ?_, f5, w2, w3, w4, _, hdisk, hrange⟩
    intro n m
    rw [blockFile_congr cw _ f1 f2 f4, undoFile_congr cw _ f1 f3 f4]
    exact hsep n m

theorem New_synced (config : ChainWriterConfig) : (New config).BlockLogSynced := by
  refine ⟨?_, ?_, ?_⟩
  · simp [New, kvGet]
  · simp [New]
  · intro m _
    simp [New, kvGet]

theorem range_of_append (content tail bytes : List Nat) (s : Nat)
    (h : (content.drop s).take bytes.length = bytes) :
    ((content ++ tail).drop s).take bytes.length = bytes := by
  by_cases hs : s ≤ content.length
  · rw [List.drop_append_of_le_length hs]
    have hl : bytes.length ≤ (content.drop s).length := by
      have := congrArg List.length h
      rw [List.length_take] at this
      omega
    rw [List.take_append_of_le_length hl]
    exact h
  · have hd : content.drop s = [] := List.drop_eq_nil_iff.mpr (by omega)
    rw [hd, List.take_nil] at h
    rw [← h]
    simp

end ChainWriter

namespace BlockChain

/-! ### Reading back a stored block -/

theorem GetBlock_of_StoredAt (E : Ext) (bc : BlockChain) (b : Block)
    (hround : E.unmarshalBlock (E.marshalBlock b) = b) (h : StoredAt E bc b) :
    GetBlock E bc (b.Hash E) = some b := by
  obtain ⟨h1, h2, content, h3, h4⟩ := h
  have hnum : ((bc.BlockInfoDB.GetBlockRecord (b.Hash E)).BlockEndOffset
      + (2 ^ 32 - (bc.BlockInfoDB.GetBlockRecord (b.Hash E)).BlockStartOffset % 2 ^ 32))
        % 2 ^ 32 = (E.marshalBlock b).length := by
    omega
  unfold GetBlock ChainWriter.ReadBlock ChainWriter.readFromDisk
  simp only [h3, hnum, h4, if_true, hround]

theorem handleFork_stores (E : Ext) (bc : BlockChain) (b : Block) (height : Nat)
    (bc2 : BlockChain) (h : handleFork E bc b height = some bc2) :
    bc2.ChainWriter = bc.ChainWriter ∧ bc2.BlockInfoDB = bc.BlockInfoDB := by
  unfold handleFork at h
  by_cases hneg : (getForkLengthAndAncestor bc (b.Hash E)).1 < 0
  · simp only [hneg, if_true, Option.some.injEq] at h
    subst h
    exact ⟨rfl, rfl⟩
  · simp only [hneg, if_false] at h
    cases h1 : getBlocksAndUndoBlocks E bc (getForkLengthAndAncestor bc (b.Hash E)).1.toNat
        bc.LastHash with
    | none => rw [h1] at h; exact absurd h (by simp)
    | some p =>
      obtain ⟨blocks, undoBlocks⟩ := p
      rw [h1] at h
      simp only at h
      cases h2 : trimUnsafeHashes (getForkLengthAndAncestor bc (b.Hash E)).2 bc.UnsafeHashes
          (min 6 (getForkLengthAndAncestor bc (b.Hash E)).1.toNat - 1) with
      | none => rw [h2] at h; exact absurd h (by simp)
      | some uh =>
        rw [h2] at h
        simp only at h
        cases h3 : CoinDatabase.UndoCoins E bc.CoinDB blocks undoBlocks with
        | none => rw [h3] at h; exact absurd h (by simp)
        | some c1 =>
          rw [h3] at h
          simp only at h
          cases h4 : storeForkBlocks E c1 blocks with
          | none => rw [h4] at h; exact absurd h (by simp)
          | some c2 =>
            rw [h4] at h
            simp only [Option.some.injEq] at h
            subst h
            exact ⟨rfl, rfl⟩

/-- The stores after a HandleBlock call: either the call dropped the block
and wrote nothing, or the writer and the block-info database are the ones
left by storing the block. -/
theorem HandleBlock_stores (E : Ext) (bc : BlockChain) (b : Block) (bc2 : BlockChain)
    (h : HandleBlock E bc b = some bc2) :
    ((appendsToActiveChain E bc b && !CoinDatabase.ValidateBlock bc.CoinDB b.Transactions)
        = true ∧ bc2 = bc) ∨
    ((appendsToActiveChain E bc b && !CoinDatabase.ValidateBlock bc.CoinDB b.Transactions)
        = false ∧
      ∃ ub height,
        bc2.ChainWriter = (ChainWriter.StoreBlock E bc.ChainWriter b ub height).2 ∧
        bc2.BlockInfoDB = bc.BlockInfoDB.StoreBlockRecord (b.Hash E)
          (ChainWriter.StoreBlock E bc.ChainWriter b ub height).1) := by
  unfold HandleBlock at h
  by_cases hd : (appendsToActiveChain E bc b &&
      !CoinDatabase.ValidateBlock bc.CoinDB b.Transactions) = true
  · simp only [hd, if_true, Option.some.injEq] at h
    exact Or.inl ⟨hd, h.symm⟩
  · have hd2 : (appendsToActiveChain E bc b &&
        !CoinDatabase.ValidateBlock bc.CoinDB b.Transactions) = false := by
      simpa using hd
    refine Or.inr ⟨hd2, ?_⟩
    simp only [hd2, Bool.false_eq_true, if_false] at h
    cases hu : makeUndoBlock bc b.Transactions with
    | none =>
      have hp : persistBlock E bc b = none := by
        unfold persistBlock; rw [hu]
      rw [hp] at h
      exact absurd h (by simp)
    | some ub =>
      rw [persistBlock_eq E bc b ub hu] at h
      simp only at h
      refine ⟨ub, ((bc.BlockInfoDB.GetBlockRecord b.Header.PreviousHash).Height + 1) % 2 ^ 32,
        ?_⟩
      by_cases happ : appendsToActiveChain E bc b = true
      · simp only [happ, if_true] at h
        cases hs : CoinDatabase.StoreBlock E bc.CoinDB b.Transactions with
        | none => rw [hs] at h; exact absurd h (by simp)
        | some c =>
          rw [hs] at h
          simp only [Option.some.injEq] at h
          subst h
          exact ⟨rfl, rfl⟩
      · simp only [happ, Bool.false_eq_true, if_false] at h
        split at h
        · obtain ⟨e1, e2⟩ := handleFork_stores E _ b _ bc2 h
          exact ⟨e1, e2⟩
        · simp only [Option.some.injEq] at h
          subst h
          exact ⟨rfl, rfl⟩

end BlockChain

namespace Sample

theorem segmentConfig_separate :
    (ChainWriter.New segmentConfig.ChainWriterConfig).SeparateLogs := by
  intro n m h
  have hdata := congrArg String.data h
  simp [ChainWriter.blockFile, ChainWriter.undoFile, ChainWriter.New, segmentConfig,
    String.data_append] at hdata

end Sample

namespace BlockChain

/-! ### The block log along a run of HandleBlock calls -/

theorem HandleBlock_synced (E : Ext) (bc bc2 : BlockChain) (b : Block) (k : Nat)
    (hs : bc.ChainWriter.BlockLogSynced) (hsep : bc.ChainWriter.SeparateLogs)
    (hmax : bc.ChainWriter.MaxBlockFileSize ≤ 2 ^ 31)
    (hk : bc.ChainWriter.CurrentBlockFileNumber ≤ k) (hk2 : k + 1 < 2 ^ 32)
    (hlen : (E.marshalBlock b).length < 2 ^ 31)
    (h : HandleBlock E bc b = some bc2) :
    bc2.ChainWriter.BlockLogSynced ∧ bc2.ChainWriter.SeparateLogs ∧
      bc2.ChainWriter.MaxBlockFileSize ≤ 2 ^ 31 ∧
      bc2.ChainWriter.CurrentBlockFileNumber ≤ k + 1 := by
  rcases HandleBlock_stores E bc b bc2 h with ⟨_, he⟩ | ⟨_, ub, height, e1, _⟩
  · subst he
    exact ⟨hs, hsep, hmax, by omega⟩
  · obtain ⟨s1, s2, s3, s4, _⟩ := ChainWriter.StoreBlock_synced E bc.ChainWriter b ub height
      hs hsep hlen hmax (by omega)
    rw [e1]
    exact ⟨s1, s2, by rw [s3]; exact hmax, by omega⟩

theorem handleBlocks_synced (E : Ext) (blocks : List Block) :
    ∀ (bc bc2 : BlockChain) (k : Nat),
      bc.ChainWriter.BlockLogSynced → bc.ChainWriter.SeparateLogs →
      bc.ChainWriter.MaxBlockFileSize ≤ 2 ^ 31 →
      bc.ChainWriter.CurrentBlockFileNumber ≤ k → k + blocks.length < 2 ^ 32 →
      (∀ bl ∈ blocks, (E.marshalBlock bl).length < 2 ^ 31) →
      handleBlocks E bc blocks = some bc2 →
      bc2.ChainWriter.BlockLogSynced ∧ bc2.ChainWriter.SeparateLogs ∧
        bc2.ChainWriter.MaxBlockFileSize ≤ 2 ^ 31 ∧
        bc2.ChainWriter.CurrentBlockFileNumber ≤ k + blocks.length := by
  induction blocks with
  | nil =>
    intro bc bc2 k hs hsep hmax hk _ _ h
    simp only [handleBlocks, Option.some.injEq] at h
    subst h
    exact ⟨hs, hsep, hmax, by simpa using hk⟩
  | cons b rest ih =>
    intro bc bc2 k hs hsep hmax hk hk2 hlen h
    simp only [List.length_cons] at hk2
    rw [handleBlocks] at h
    cases h1 : HandleBlock E bc b with
    | none => rw [h1] at h; exact absurd h (by simp)
    | some bc1 =>
      rw [h1] at h
      simp only at h
      obtain ⟨a1, a2, a3, a4⟩ := HandleBlock_synced E bc bc1 b k hs hsep hmax hk (by omega)
        (hlen b (List.mem_cons_self _ _)) h1
      obtain ⟨b1, b2, b3, b4⟩ := ih bc1 bc2 (k + 1) a1 a2 a3 a4 (by omega)
        (fun bl hbl => hlen bl (List.mem_cons_of_mem _ hbl)) h
      refine ⟨b1, b2, b3, ?_⟩
      simp only [List.length_cons]
      omega

theorem New_chain_synced (E : Ext) (config : Config) (bc0 : BlockChain)
    (hsep : (ChainWriter.New config.ChainWriterConfig).SeparateLogs)
    (hmax : config.ChainWriterConfig.MaxBlockFileSize ≤ 2 ^ 31)
    (hlen : (E.marshalBlock (GenesisBlock config)).length < 2 ^ 31)
    (h : New E config = some bc0) :
    bc0.ChainWriter.BlockLogSynced ∧ bc0.ChainWriter.SeparateLogs ∧
      bc0.ChainWriter.MaxBlockFileSize ≤ 2 ^ 31 ∧
      bc0.ChainWriter.CurrentBlockFileNumber ≤ 1 := by
  rw [New_eq, Option.some.injEq] at h
  subst h
  obtain ⟨s1, s2, s3, s4, _⟩ := ChainWriter.StoreBlock_synced E
    (ChainWriter.New config.ChainWriterConfig) (GenesisBlock config) ⟨[], [], [], []⟩ 1
    (ChainWriter.New_synced _) hsep hlen hmax (by simp [ChainWriter.New])
  refine ⟨s1, s2, ?_, ?_⟩
  · show (ChainWriter.StoreBlock E (ChainWriter.New config.ChainWriterConfig)
        (GenesisBlock config) ⟨[], [], [], []⟩ 1).2.MaxBlockFileSize ≤ 2 ^ 31
    rw [s3]; exact hmax
  · exact s4

theorem HandleBlock_StoredAt (E : Ext) (bc bc2 : BlockChain) (b : Block)
    (hs : bc.ChainWriter.BlockLogSynced) (hsep : bc.ChainWriter.SeparateLogs)
    (hmax : bc.ChainWriter.MaxBlockFileSize ≤ 2 ^ 31)
    (hk : bc.ChainWriter.CurrentBlockFileNumber + 1 < 2 ^ 32)
    (hlen : (E.marshalBlock b).length < 2 ^ 31)
    (hpersist : (appendsToActiveChain E bc b &&
      !CoinDatabase.ValidateBlock bc.CoinDB b.Transactions) = false)
    (h : HandleBlock E bc b = some bc2) : StoredAt E bc2 b := by
  rcases HandleBlock_stores E bc b bc2 h with ⟨hd, _⟩ | ⟨_, ub, height, e1, e2⟩
  · rw [hpersist] at hd
    exact absurd hd (by simp)
  · obtain ⟨_, _, _, _, s5, s6, content, s7, s8⟩ :=
      ChainWriter.StoreBlock_synced E bc.ChainWriter b ub height hs hsep hlen hmax hk
    have hrec : bc2.BlockInfoDB.GetBlockRecord (b.Hash E)
        = (ChainWriter.StoreBlock E bc.ChainWriter b ub height).1 := by
      rw [e2]
      simp [BlockInfoDatabase.GetBlockRecord, BlockInfoDatabase.StoreBlockRecord,
        kvGet_kvPut_self]
    unfold StoredAt
    rw [hrec, e1]
    exact ⟨s5, s6, content, s7, s8⟩

theorem StoredAt_step (E : Ext) (bc bc2 : BlockChain) (b b2 : Block)
    (hst : StoredAt E bc b) (hne : b2.Hash E ≠ b.Hash E)
    (h : HandleBlock E bc b2 = some bc2) : StoredAt E bc2 b := by
  rcases HandleBlock_stores E bc b2 bc2 h with ⟨_, he⟩ | ⟨_, ub, height, e1, e2⟩
  · subst he; exact hst
  · obtain ⟨h1, h2, content, h3, h4⟩ := hst
    have hrec : bc2.BlockInfoDB.GetBlockRecord (b.Hash E)
        = bc.BlockInfoDB.GetBlockRecord (b.Hash E) := by
      rw [e2]
      simp [BlockInfoDatabase.GetBlockRecord, BlockInfoDatabase.StoreBlockRecord,
        kvGet_kvPut_of_ne _ _ hne]
    obtain ⟨t1, ht1⟩ := ChainWriter.WriteBlock_grows bc.ChainWriter (E.marshalBlock b2) _
      content h3
    obtain ⟨t2, ht2⟩ := ChainWriter.StoreBlock_grows E bc.ChainWriter b2 ub height _ _ ht1
    unfold StoredAt
    rw [hrec, e1]
    refine ⟨h1, h2, _, ht2, ?_⟩
    rw [List.append_assoc]
    exact ChainWriter.range_of_append _ _ _ _ h4

theorem StoredAt_steps (E : Ext) (b : Block) (later : List Block) :
    ∀ bc bc2 : BlockChain, StoredAt E bc b → (∀ b2 ∈ later, b2.Hash E ≠ b.Hash E) →
      handleBlocks E bc later = some bc2 → StoredAt E bc2 b := by
  induction later with
  | nil =>
    intro bc bc2 hst _ h
    simp only [handleBlocks, Option.some.injEq] at h
    subst h
    exact hst
  | cons b2 rest ih =>
    intro bc bc2 hst hne h
    rw [handleBlocks] at h
    cases h1 : HandleBlock E bc b2 with
    | none => rw [h1] at h; exact absurd h (by simp)
    | some bc1 =>
      rw [h1] at h
      simp only at h
      exact ih bc1 bc2 (StoredAt_step E bc bc1 b b2 hst (hne b2 (List.mem_cons_self _ _)) h1)
        (fun b3 hb3 => hne b3 (List.mem_cons_of_mem _ hb3)) h

/-- C14: a block round trip through the store. A chain made by New on a
fresh data directory receives the blocks `blocks`, then `b`, then the blocks
`later`, every HandleBlock call returning. When block files and undo files
have different names, MaxBlockFileSize is at most 2^31, the serialized
genesis block, `b` and `blocks` are shorter than 2^31 bytes, fewer than
2^32 - 2 blocks came before, unmarshalling the serialized `b` gives `b`,
HandleBlock did not drop `b` as an invalid appending block, and the later
blocks have other hashes: GetBlock on the hash of `b` returns `b` right
after the call and after the later calls, and the byte range of the block
record is where the serialized block lies in the file it names. -/
theorem C14_block_round_trip (E : Ext) (config : Config) (blocks later : List Block)
    (b : Block) (bc0 bc1 bc2 bc3 : BlockChain)
    (hsep : (ChainWriter.New config.ChainWriterConfig).SeparateLogs)
    (hmax : config.ChainWriterConfig.MaxBlockFileSize ≤ 2 ^ 31)
    (hsize : ∀ bl ∈ GenesisBlock config :: b :: blocks, (E.marshalBlock bl).length < 2 ^ 31)
    (hcount : blocks.length + 2 < 2 ^ 32)
    (hround : E.unmarshalBlock (E.marshalBlock b) = b)
    (h0 : New E config = some bc0)
    (h1 : handleBlocks E bc0 blocks = some bc1)
    (hpersist : (appendsToActiveChain E bc1 b &&
      !CoinDatabase.ValidateBlock bc1.CoinDB b.Transactions) = false)
    (h2 : HandleBlock E bc1 b = some bc2)
    (hlater : ∀ b2 ∈ later, b2.Hash E ≠ b.Hash E)
    (h3 : handleBlocks E bc2 later = some bc3) :
    GetBlock E bc2 (b.Hash E) = some b ∧ StoredAt E bc2 b ∧
      GetBlock E bc3 (b.Hash E) = some b ∧ StoredAt E bc3 b := by
  obtain ⟨a1, a2, a3, a4⟩ := New_chain_synced E config bc0 hsep hmax
    (hsize _ (List.mem_cons_self _ _)) h0
  obtain ⟨b1, b2, b3, b4⟩ := handleBlocks_synced E blocks bc0 bc1 1 a1 a2 a3 a4 (by omega)
    (fun bl hbl => hsize bl (List.mem_cons_of_mem _ (List.mem_cons_of_mem _ hbl))) h1
  have hst2 : StoredAt E bc2 b := HandleBlock_StoredAt E bc1 bc2 b b1 b2 b3 (by omega)
    (hsize b (List.mem_cons_of_mem _ (List.mem_cons_self _ _))) hpersist h2
  have hst3 : StoredAt E bc3 b := StoredAt_steps E b later bc2 bc3 hst2 hlater h3
  exact ⟨GetBlock_of_StoredAt E bc2 b hround hst2, hst2,
    GetBlock_of_StoredAt E bc3 b hround hst3, hst3⟩

set_option maxRecDepth 1000000 in
/-- C14, witness: with block files of at most 60 bytes, the chain receives
`block1`, then `block2`, which opens the block file of number 1, then
`siblingBlock`, which opens the block file of number 2; GetBlock on the hash
of `block2` returns `block2` after its call and after the later call, from
bytes 0 to 49 of the file of number 1. -/
theorem C14_block_round_trip_witness :
    GetBlock Sample.ext (Sample.segmentChain [Sample.block1, Sample.block2])
        (Sample.block2.Hash Sample.ext) = some Sample.block2 ∧
      GetBlock Sample.ext
        (Sample.segmentChain [Sample.block1, Sample.block2, Sample.siblingBlock])
        (Sample.block2.Hash Sample.ext) = some Sample.block2 ∧
      (BlockInfoDatabase.GetBlockRecord
        (Sample.segmentChain [Sample.block1, Sample.block2, Sample.siblingBlock]).BlockInfoDB
        (Sample.block2.Hash Sample.ext)).BlockFile = "data/block_1.txt" ∧
      (BlockInfoDatabase.GetBlockRecord
        (Sample.segmentChain [Sample.block1, Sample.block2, Sample.siblingBlock]).BlockInfoDB
        (Sample.block2.Hash Sample.ext)).BlockStartOffset = 0 ∧
      (BlockInfoDatabase.GetBlockRecord
        (Sample.segmentChain [Sample.block1, Sample.block2, Sample.siblingBlock]).BlockInfoDB
        (Sample.block2.Hash Sample.ext)).BlockEndOffset = 49 ∧
      (Sample.segmentChain
        [Sample.block1, Sample.block2, Sample.siblingBlock]).ChainWriter.CurrentBlockFileNumber
        = 2 := by
  obtain ⟨c1, _, c3, _⟩ := C14_block_round_trip Sample.ext Sample.segmentConfig
    [Sample.block1] [Sample.siblingBlock] Sample.block2
    (Sample.segmentChain []) (Sample.segmentChain [Sample.block1])
    (Sample.segmentChain [Sample.block1, Sample.block2])
    (Sample.segmentChain [Sample.block1, Sample.block2, Sample.siblingBlock])
    Sample.segmentConfig_separate (by decide) (by decide) (by decide) (by decide)
    (by decide) (by decide) (by decide) (by decide) (by decide) (by decide)
  exact ⟨c1, c3, by decide, by decide, by decide, by decide⟩

end BlockChain

/-! ## The codec -/

theorem appendEach_eq_map {α β : Type} (f : α → β) :
    ∀ (xs : List α) (ys : List β), appendEach f xs ys = ys ++ xs.map f := by
  intro xs
  induction xs with
  | nil => intro ys; simp [appendEach]
  | cons x rest ih =>
    intro ys
    rw [appendEach, ih]
    simp

theorem decode_encode_each {α β : Type} (f : α → β) (g : β → α) (h : ∀ x, g (f x) = x)
    (xs : List α) : appendEach g (appendEach f xs []) [] = xs := by
  rw [appendEach_eq_map, appendEach_eq_map]
  simp only [List.nil_append, List.map_map]
  have : g ∘ f = id := funext h
  rw [this, List.map_id]

theorem DecodeTransaction_EncodeTransaction (tx : Transaction) :
    DecodeTransaction (EncodeTransaction tx) = tx := by
  cases tx with
  | mk v ins outs lt =>
    simp only [DecodeTransaction, EncodeTransaction]
    rw [decode_encode_each EncodeTransactionInput DecodeTransactionInput (fun x => by cases x; rfl),
      decode_encode_each EncodeTransactionOutput DecodeTransactionOutput
        (fun x => by cases x; rfl)]

/-- C30: the codec round trip. For every header, transaction and block,
decoding the encoded value gives the value back: every field is preserved
and the inputs, outputs and transactions come back in the same order (a nil
and an empty sequence being the same list). -/
theorem C30_codec_round_trip :
    (∀ h : Header, DecodeHeader (EncodeHeader h) = h) ∧
    (∀ tx : Transaction, DecodeTransaction (EncodeTransaction tx) = tx) ∧
    (∀ b : Block, DecodeBlock (EncodeBlock b) = b) := by
  refine ⟨fun h => by cases h; rfl, DecodeTransaction_EncodeTransaction, ?_⟩
  intro b
  cases b with
  | mk h txs =>
    simp only [DecodeBlock, EncodeBlock]
    rw [decode_encode_each EncodeTransaction DecodeTransaction
      DecodeTransaction_EncodeTransaction]
    cases h
    rfl

namespace CoinDatabase

/-! ### GetCoin as a lookup -/

theorem indexOf_of_first (e : Nat) :
    ∀ (os : List Nat) (p : Nat), os.get? p = some e → (∀ q, q < p → os.get? q ≠ some e) →
      indexOf os e = (p : Int) := by
  intro os
  induction os with
  | nil => intro p h _; simp at h
  | cons a rest ih =>
    intro p h hfirst
    cases p with
    | zero =>
      simp only [List.get?_cons_zero, Option.some.injEq] at h
      rw [indexOf, if_pos h]
      rfl
    | succ p =>
      have ha : a ≠ e := by
        intro hae
        exact hfirst 0 (Nat.succ_pos p) (by simp [hae])
      have hrest := ih p (by simpa using h) (fun q hq => by
        have := hfirst (q + 1) (by omega)
        simpa using this)
      rw [indexOf_cons_ne a e rest ha, hrest]
      have : ¬ ((p : Int) < 0) := by omega
      rw [if_neg this]
      push_cast
      rfl

/-- C23: GetCoin is a lookup in the cache, then in the coin record. For
every state and locator: when the cache holds the locator, GetCoin returns
that entry; otherwise, when no record is stored under the transaction hash
or the stored record does not list the output index, it returns nil;
otherwise, with `p` the first position of the output index in the record,
it returns the coin of the amount and locking script at position `p` with
`IsSpent = false`, and these exist when the record is aligned. -/
theorem C23_GetCoin_is_cache_then_record_lookup (c : CoinDatabase) (cl : CoinLocator) :
    (∀ coin, kvGet c.mainCache cl = some coin → GetCoin c cl = some (some coin)) ∧
    (kvGet c.mainCache cl = none → kvGet c.db cl.ReferenceTransactionHash = none →
      GetCoin c cl = some none) ∧
    (∀ cr, kvGet c.mainCache cl = none → kvGet c.db cl.ReferenceTransactionHash = some cr →
      cl.OutputIndex ∉ cr.OutputIndexes → GetCoin c cl = some none) ∧
    (∀ cr p, kvGet c.mainCache cl = none →
      kvGet c.db cl.ReferenceTransactionHash = some cr →
      cr.OutputIndexes.get? p = some cl.OutputIndex →
      (∀ q, q < p → cr.OutputIndexes.get? q ≠ some cl.OutputIndex) →
      (∀ a l, cr.Amounts.get? p = some a → cr.LockingScripts.get? p = some l →
        GetCoin c cl = some (some ⟨⟨a, l⟩, false⟩)) ∧
      (cr.Aligned → ∃ a l, cr.Amounts.get? p = some a ∧ cr.LockingScripts.get? p = some l)) := by
  refine ⟨?_, ?_, ?_, ?_⟩
  · intro coin h
    rw [GetCoin_eq, h]
  · intro h1 h2
    rw [GetCoin_eq, h1]
    simp only [h2]
  · intro cr h1 h2 h3
    rw [GetCoin_eq, h1]
    simp only [h2]
    unfold coinOfRecord
    simp only
    rw [if_pos ((indexOf_neg_iff _ _).2 h3)]
  · intro cr p h1 h2 h3 h4
    have hidx := indexOf_of_first cl.OutputIndex cr.OutputIndexes p h3 h4
    constructor
    · intro a l ha hl
      rw [GetCoin_eq, h1]
      simp only [h2]
      unfold coinOfRecord
      simp only
      have hn : ¬ ((p : Int) < 0) := by omega
      rw [hidx, if_neg hn, Int.toNat_ofNat, ha, hl]
    · intro hal
      have hp : p < cr.OutputIndexes.length := by
        rw [List.get?_eq_some] at h3
        exact h3.1
      obtain ⟨e1, e2⟩ := hal
      have ha : p < cr.Amounts.length := by rw [e1]; exact hp
      have hl : p < cr.LockingScripts.length := by rw [e2]; exact hp
      exact ⟨_, _, List.get?_eq_get ha, List.get?_eq_get hl⟩

set_option maxRecDepth 1000000 in
/-- C23, witness: in `revertedCoinDB` of the sample the genesis coin is held
only in its coin record: the cache does not hold the locator, the record
lists output index 0 at position 0 with amount 50 for "PK", and GetCoin
returns that coin unspent. -/
theorem C23_GetCoin_is_cache_then_record_lookup_witness :
    kvGet (Sample.revertedCoinDB.getD (CoinDatabase.New 100)).mainCache
      ⟨Sample.txHash Sample.genesisTx, 0⟩ = none ∧
    GetCoin (Sample.revertedCoinDB.getD (CoinDatabase.New 100))
      ⟨Sample.txHash Sample.genesisTx, 0⟩ = some (some ⟨⟨50, "PK"⟩, false⟩) :=
  ⟨by decide,
    ((C23_GetCoin_is_cache_then_record_lookup (Sample.revertedCoinDB.getD (CoinDatabase.New 100))
      ⟨Sample.txHash Sample.genesisTx, 0⟩).2.2.2 ⟨0, [0], [50], ["PK"]⟩ 0 (by decide) (by decide)
      (by decide) (by decide)).1 50 "PK" (by decide) (by decide)⟩

end CoinDatabase

namespace ChainWriter

theorem WriteBlock_of_rotate (cw : ChainWriter) (bytes : List Nat)
    (h : (cw.CurrentBlockOffset + bytes.length % 2 ^ 32) % 2 ^ 32 ≥ cw.MaxBlockFileSize) :
    WriteBlock cw bytes =
      (⟨cw.blockFile ((cw.CurrentBlockFileNumber + 1) % 2 ^ 32), 0,
          (0 + bytes.length % 2 ^ 32) % 2 ^ 32⟩,
        { cw with
          CurrentBlockFileNumber := (cw.CurrentBlockFileNumber + 1) % 2 ^ 32
          CurrentBlockOffset := (0 + bytes.length % 2 ^ 32) % 2 ^ 32
          disk := writeToDisk cw.disk
            (cw.blockFile ((cw.CurrentBlockFileNumber + 1) % 2 ^ 32)) bytes }) := by
  unfold WriteBlock
  simp only [h, if_true]
  rfl

theorem WriteBlock_of_keep (cw : ChainWriter) (bytes : List Nat)
    (h : ¬ (cw.CurrentBlockOffset + bytes.length % 2 ^ 32) % 2 ^ 32 ≥ cw.MaxBlockFileSize) :
    WriteBlock cw bytes =
      (⟨cw.blockFile cw.CurrentBlockFileNumber, cw.CurrentBlockOffset,
          (cw.CurrentBlockOffset + bytes.length % 2 ^ 32) % 2 ^ 32⟩,
        { cw with
          CurrentBlockOffset := (cw.CurrentBlockOffset + bytes.length % 2 ^ 32) % 2 ^ 32
          disk := writeToDisk cw.disk (cw.blockFile cw.CurrentBlockFileNumber) bytes }) := by
  unfold WriteBlock
  simp only [h, if_false]
  rfl

theorem WriteUndoBlock_of_rotate (cw : ChainWriter) (bytes : List Nat)
    (h : (cw.CurrentUndoOffset + bytes.length % 2 ^ 32) % 2 ^ 32 ≥ cw.MaxUndoFileSize) :
    WriteUndoBlock cw bytes =
      (⟨cw.undoFile ((cw.CurrentUndoFileNumber + 1) % 2 ^ 32), 0,
          (0 + bytes.length % 2 ^ 32) % 2 ^ 32⟩,
        { cw with
          CurrentUndoFileNumber := (cw.CurrentUndoFileNumber + 1) % 2 ^ 32
          CurrentUndoOffset := (0 + bytes.length % 2 ^ 32) % 2 ^ 32
          disk := writeToDisk cw.disk
            (cw.undoFile ((cw.CurrentUndoFileNumber + 1) % 2 ^ 32)) bytes }) := by
  unfold WriteUndoBlock
  simp only [h, if_true]
  rfl

theorem WriteUndoBlock_of_keep (cw : ChainWriter) (bytes : List Nat)
    (h : ¬ (cw.CurrentUndoOffset + bytes.length % 2 ^ 32) % 2 ^ 32 ≥ cw.MaxUndoFileSize) :
    WriteUndoBlock cw bytes =
      (⟨cw.undoFile cw.CurrentUndoFileNumber, cw.CurrentUndoOffset,
          (cw.CurrentUndoOffset + bytes.length % 2 ^ 32) % 2 ^ 32⟩,
        { cw with
          CurrentUndoOffset := (cw.CurrentUndoOffset + bytes.length % 2 ^ 32) % 2 ^ 32
          disk := writeToDisk cw.disk (cw.undoFile cw.CurrentUndoFileNumber) bytes }) := by
  unfold WriteUndoBlock
  simp only [h, if_false]
  rfl

/-- C25: what one write does to the counters. For every writer state and
byte string of length n, as long as the uint32 sums do not wrap: when
CurrentBlockOffset + n reaches MaxBlockFileSize, WriteBlock moves to the
block file of the next number and returns the range from 0 to n there;
otherwise it keeps the file number and returns the range from the previous
offset to the previous offset plus n. In both cases CurrentBlockOffset is
the returned EndOffset afterwards and the undo counters are unchanged.
WriteUndoBlock does the same on the undo counters with MaxUndoFileSize and
leaves the block counters unchanged. -/
theorem C25_write_advances_counters (cw : ChainWriter) (s : List Nat)
    (hb : cw.CurrentBlockOffset + s.length < 2 ^ 32)
    (hbn : cw.CurrentBlockFileNumber + 1 < 2 ^ 32)
    (hu : cw.CurrentUndoOffset + s.length < 2 ^ 32)
    (hun : cw.CurrentUndoFileNumber + 1 < 2 ^ 32) :
    (cw.CurrentBlockOffset + s.length ≥ cw.MaxBlockFileSize →
      (WriteBlock cw s).2.CurrentBlockFileNumber = cw.CurrentBlockFileNumber + 1 ∧
      (WriteBlock cw s).1.FileName = cw.blockFile (cw.CurrentBlockFileNumber + 1) ∧
      (WriteBlock cw s).1.StartOffset = 0 ∧ (WriteBlock cw s).1.EndOffset = s.length) ∧
    (cw.CurrentBlockOffset + s.length < cw.MaxBlockFileSize →
      (WriteBlock cw s).2.CurrentBlockFileNumber = cw.CurrentBlockFileNumber ∧
      (WriteBlock cw s).1.FileName = cw.blockFile cw.CurrentBlockFileNumber ∧
      (WriteBlock cw s).1.StartOffset = cw.CurrentBlockOffset ∧
      (WriteBlock cw s).1.EndOffset = cw.CurrentBlockOffset + s.length) ∧
    (WriteBlock cw s).2.CurrentBlockOffset = (WriteBlock cw s).1.EndOffset ∧
    (WriteBlock cw s).2.CurrentUndoFileNumber = cw.CurrentUndoFileNumber ∧
    (WriteBlock cw s).2.CurrentUndoOffset = cw.CurrentUndoOffset ∧
    (cw.CurrentUndoOffset + s.length ≥ cw.MaxUndoFileSize →
      (WriteUndoBlock cw s).2.CurrentUndoFileNumber = cw.CurrentUndoFileNumber + 1 ∧
      (WriteUndoBlock cw s).1.FileName = cw.undoFile (cw.CurrentUndoFileNumber + 1) ∧
      (WriteUndoBlock cw s).1.StartOffset = 0 ∧
      (WriteUndoBlock cw s).1.EndOffset = s.length) ∧
    (cw.CurrentUndoOffset + s.length < cw.MaxUndoFileSize →
      (WriteUndoBlock cw s).2.CurrentUndoFileNumber = cw.CurrentUndoFileNumber ∧
      (WriteUndoBlock cw s).1.FileName = cw.undoFile cw.CurrentUndoFileNumber ∧
      (WriteUndoBlock cw s).1.StartOffset = cw.CurrentUndoOffset ∧
      (WriteUndoBlock cw s).1.EndOffset = cw.CurrentUndoOffset + s.length) ∧
    (WriteUndoBlock cw s).2.CurrentUndoOffset = (WriteUndoBlock cw s).1.EndOffset ∧
    (WriteUndoBlock cw s).2.CurrentBlockFileNumber = cw.CurrentBlockFileNumber ∧
    (WriteUndoBlock cw s).2.CurrentBlockOffset = cw.CurrentBlockOffset := by
  have hl : s.length % 2 ^ 32 = s.length := Nat.mod_eq_of_lt (by omega)
  have hbs : (cw.CurrentBlockOffset + s.length) % 2 ^ 32 = cw.CurrentBlockOffset + s.length :=
    Nat.mod_eq_of_lt hb
  have hus : (cw.CurrentUndoOffset + s.length) % 2 ^ 32 = cw.CurrentUndoOffset + s.length :=
    Nat.mod_eq_of_lt hu
  have hz : (0 + s.length) % 2 ^ 32 = s.length := by
    rw [Nat.zero_add]; exact hl
  have hbn2 : (cw.CurrentBlockFileNumber + 1) % 2 ^ 32 = cw.CurrentBlockFileNumber + 1 :=
    Nat.mod_eq_of_lt hbn
  have hun2 : (cw.CurrentUndoFileNumber + 1) % 2 ^ 32 = cw.CurrentUndoFileNumber + 1 :=
    Nat.mod_eq_of_lt hun
  have hblock : (WriteBlock cw s).2.CurrentBlockOffset = (WriteBlock cw s).1.EndOffset ∧
      (WriteBlock cw s).2.CurrentUndoFileNumber = cw.CurrentUndoFileNumber ∧
      (WriteBlock cw s).2.CurrentUndoOffset = cw.CurrentUndoOffset := by
    by_cases h : (cw.CurrentBlockOffset + s.length % 2 ^ 32) % 2 ^ 32 ≥ cw.MaxBlockFileSize
    · rw [WriteBlock_of_rotate cw s h]; exact ⟨rfl, rfl, rfl⟩
    · rw [WriteBlock_of_keep cw s h]; exact ⟨rfl, rfl, rfl⟩
  have hundo : (WriteUndoBlock cw s).2.CurrentUndoOffset = (WriteUndoBlock cw s).1.EndOffset ∧
      (WriteUndoBlock cw s).2.CurrentBlockFileNumber = cw.CurrentBlockFileNumber ∧
      (WriteUndoBlock cw s).2.CurrentBlockOffset = cw.CurrentBlockOffset := by
    by_cases h : (cw.CurrentUndoOffset + s.length % 2 ^ 32) % 2 ^ 32 ≥ cw.MaxUndoFileSize
    · rw [WriteUndoBlock_of_rotate cw s h]; exact ⟨rfl, rfl, rfl⟩
    · rw [WriteUndoBlock_of_keep cw s h]; exact ⟨rfl, rfl, rfl⟩
  refine ⟨?_, ?_, hblock.1, hblock.2.1, hblock.2.2, ?_, ?_, hundo.1, hundo.2.1, hundo.2.2⟩
  · intro h
    rw [WriteBlock_of_rotate cw s (by rw [hl, hbs]; exact h), hbn2, hl, hz]
    exact ⟨rfl, rfl, rfl, rfl⟩
  · intro h
    rw [WriteBlock_of_keep cw s (by rw [hl, hbs]; omega), hl, hbs]
    exact ⟨rfl, rfl, rfl, rfl⟩
  · intro h
    rw [WriteUndoBlock_of_rotate cw s (by rw [hl, hus]; exact h), hun2, hl, hz]
    exact ⟨rfl, rfl, rfl, rfl⟩
  · intro h
    rw [WriteUndoBlock_of_keep cw s (by rw [hl, hus]; omega), hl, hus]
    exact ⟨rfl, rfl, rfl, rfl⟩

/-- C25, witness: the writer of the sample configuration with block files of
at most 60 bytes, at offset 0; a write of 70 bytes opens the block file of
number 1 and returns the range from 0 to 70. -/
theorem C25_write_advances_counters_witness :
    (WriteBlock (New Sample.segmentConfig.ChainWriterConfig) (List.replicate 70 0)).1
      = ⟨"data/block_1.txt", 0, 70⟩ ∧
    (WriteBlock (New Sample.segmentConfig.ChainWriterConfig)
      (List.replicate 70 0)).2.CurrentBlockFileNumber = 1 := by
  obtain ⟨h1, _⟩ := C25_write_advances_counters (New Sample.segmentConfig.ChainWriterConfig)
    (List.replicate 70 0) (by decide) (by decide) (by decide) (by decide)
  obtain ⟨a, _, _, _⟩ := h1 (by decide)
  exact ⟨by decide, a⟩

end ChainWriter

/-! ## The Merkle root -/

theorem merklePairs_dup (H : HashExt) :
    ∀ (n : Nat) (hs : List String), hs.length = n →
      (hs.length % 2 = 0 → merklePairs H hs = some (merkleSpecLevel H hs)) ∧
      (hs.length % 2 ≠ 0 → ∃ h, hs.getLast? = some h ∧
        merklePairs H (hs ++ [h]) = some (merkleSpecLevel H hs)) := by
  intro n
  induction n using Nat.strong_induction_on with
  | _ n ih =>
    intro hs hn
    match hs with
    | [] => exact ⟨fun _ => rfl, fun h => absurd rfl h⟩
    | [a] =>
      refine ⟨fun h => by simp at h, fun _ => ⟨a, rfl, ?_⟩⟩
      simp [merklePairs, merkleSpecLevel]
    | a :: b :: rest =>
      simp only [List.length_cons] at hn
      obtain ⟨i1, i2⟩ := ih rest.length (by omega) rest rfl
      constructor
      · intro h
        simp only [List.length_cons] at h
        rw [merklePairs, i1 (by omega), merkleSpecLevel]
      · intro h
        simp only [List.length_cons] at h
        obtain ⟨x, hx, hp⟩ := i2 (by omega)
        have hne : rest ≠ [] := by
          intro hr
          rw [hr] at hx
          simp at hx
        refine ⟨x, ?_, ?_⟩
        · cases rest with
          | nil => exact absurd rfl hne
          | cons r rs =>
            simp only [List.getLast?_cons_cons] at hx ⊢
            exact hx
        · rw [List.cons_append, List.cons_append, merklePairs, hp, merkleSpecLevel]

theorem merkleLevels_eq_spec (H : HashExt) :
    ∀ (fuel : Nat) (hs : List String), merkleLevels H fuel hs = merkleSpecRoot H fuel hs := by
  intro fuel
  induction fuel with
  | zero => intro hs; rfl
  | succ fuel ih =>
    intro hs
    obtain ⟨d1, d2⟩ := merklePairs_dup H hs.length hs rfl
    by_cases h1 : hs.length = 1
    · match hs, h1 with
      | [h], _ => simp [merkleLevels, merkleSpecRoot]
    · have hspec : merkleSpecRoot H (fuel + 1) hs = merkleSpecRoot H fuel (merkleSpecLevel H hs) := by
        match hs, h1 with
        | [], _ => rfl
        | [h], h1 => exact absurd rfl h1
        | a :: b :: rest, _ => rfl
      rw [hspec, merkleLevels, if_pos h1]
      by_cases hodd : hs.length % 2 ≠ 0
      · obtain ⟨x, hx, hp⟩ := d2 hodd
        rw [if_pos hodd, hx]
        simp only [hp]
        exact ih _
      · rw [if_neg hodd]
        simp only [d1 (by omega)]
        exact ih _

theorem merkleSpecLevel_length (H : HashExt) :
    ∀ (n : Nat) (hs : List String), hs.length = n →
      (merkleSpecLevel H hs).length = (hs.length + 1) / 2 := by
  intro n
  induction n using Nat.strong_induction_on with
  | _ n ih =>
    intro hs hn
    match hs with
    | [] => rfl
    | [a] => simp [merkleSpecLevel]
    | a :: b :: rest =>
      simp only [List.length_cons] at hn
      rw [merkleSpecLevel, List.length_cons, ih rest.length (by omega) rest rfl]
      simp only [List.length_cons]
      omega

theorem merkleSpecRoot_total (H : HashExt) :
    ∀ (fuel : Nat) (hs : List String), hs ≠ [] → hs.length ≤ fuel →
      ∃ root, merkleSpecRoot H fuel hs = some root := by
  intro fuel
  induction fuel with
  | zero =>
    intro hs hne hlen
    have : hs = [] := List.length_eq_zero.mp (by omega)
    exact absurd this hne
  | succ fuel ih =>
    intro hs hne hlen
    match hs, hne with
    | [h], _ => exact ⟨h, rfl⟩
    | a :: b :: rest, _ =>
      have hl := merkleSpecLevel_length H _ (a :: b :: rest) rfl
      have hne2 : merkleSpecLevel H (a :: b :: rest) ≠ [] := by
        intro h0
        rw [h0] at hl
        simp only [List.length_nil, List.length_cons] at hl
        omega
      have : merkleSpecRoot H (fuel + 1) (a :: b :: rest)
          = merkleSpecRoot H fuel (merkleSpecLevel H (a :: b :: rest)) := rfl
      rw [this]
      apply ih _ hne2
      rw [hl]
      simp only [List.length_cons] at hlen ⊢
      omega

/-- C29: CalculateMerkleRoot is the duplicate-last-odd Merkle root of the
transaction hashes. For every non-empty list of transactions and every fuel
of at least its length, CalculateMerkleRoot returns a root, and it is the
root the specification defines on the hashes of the transactions, where the
last node is duplicated only inside the level loop: duplicating the last
transaction up front changes nothing. For a single transaction the root is
the hash of the transaction. -/
theorem C29_merkle_root_is_duplicate_last_odd (E : Ext) (H : HashExt) (fuel : Nat)
    (txs : List Transaction) (hne : txs ≠ []) (hfuel : txs.length ≤ fuel) :
    (∃ root, CalculateMerkleRoot E H fuel txs = some root) ∧
    CalculateMerkleRoot E H fuel txs = merkleSpecRoot H fuel (txs.map (Transaction.Hash E)) ∧
    (∀ tx, txs = [tx] → CalculateMerkleRoot E H fuel txs = some (tx.Hash E)) := by
  have heq : CalculateMerkleRoot E H fuel txs
      = merkleSpecRoot H fuel (txs.map (Transaction.Hash E)) := by
    unfold CalculateMerkleRoot
    by_cases hodd : txs.length > 1 ∧ txs.length % 2 ≠ 0
    · rw [if_pos hodd]
      obtain ⟨h1, h2⟩ := hodd
      have hne2 : txs ≠ [] := hne
      obtain ⟨t, ht⟩ : ∃ t, txs.getLast? = some t := by
        cases hl : txs.getLast? with
        | none => exact absurd (List.getLast?_eq_none_iff.mp hl) hne2
        | some t => exact ⟨t, rfl⟩
      rw [ht]
      simp only
      rw [appendEach_eq_map, List.nil_append, merkleLevels_eq_spec]
      cases fuel with
      | zero => rfl
      | succ fuel =>
        have hlen : (txs.map (Transaction.Hash E)).length = txs.length := List.length_map _ _
        obtain ⟨_, d2⟩ := merklePairs_dup H _ (txs.map (Transaction.Hash E)) rfl
        obtain ⟨x, hx, hp⟩ := d2 (by rw [hlen]; exact h2)
        have hx2 : x = t.Hash E := by
          rw [List.getLast?_map, ht] at hx
          simpa using hx.symm
        have hl2 : (List.map (Transaction.Hash E) (txs ++ [t])).length ≠ 1 := by
          simp only [List.length_map, List.length_append, List.length_singleton]
          omega
        have hl3 : (List.map (Transaction.Hash E) (txs ++ [t])).length % 2 = 0 := by
          simp only [List.length_map, List.length_append, List.length_singleton]
          omega
        obtain ⟨e1, _⟩ := merklePairs_dup H _ (List.map (Transaction.Hash E) (txs ++ [t])) rfl
        have hs1 : merkleSpecRoot H (fuel + 1) (List.map (Transaction.Hash E) (txs ++ [t]))
            = merkleSpecRoot H fuel
              (merkleSpecLevel H (List.map (Transaction.Hash E) (txs ++ [t]))) := by
          rw [← merkleLevels_eq_spec, ← merkleLevels_eq_spec, merkleLevels, if_pos hl2,
            if_neg (by omega)]
          simp only [e1 hl3]
        have hl4 : (txs.map (Transaction.Hash E)).length ≠ 1 := by
          rw [hlen]; omega
        have hs2 : merkleSpecRoot H (fuel + 1) (txs.map (Transaction.Hash E))
            = merkleSpecRoot H fuel (merkleSpecLevel H (txs.map (Transaction.Hash E))) := by
          rw [← merkleLevels_eq_spec, ← merkleLevels_eq_spec, merkleLevels, if_pos hl4,
            if_pos (by rw [hlen]; exact h2), hx]
          simp only [hp]
        rw [hs1, hs2]
        have e2 := e1 hl3
        rw [List.map_append, List.map_singleton, ← hx2, hp] at e2
        rw [List.map_append, List.map_singleton, ← hx2]
        exact congrArg _ (Option.some.inj e2).symm
    · rw [if_neg hodd]
      simp only
      rw [appendEach_eq_map, List.nil_append, merkleLevels_eq_spec]
  refine ⟨?_, heq, ?_⟩
  · rw [heq]
    exact merkleSpecRoot_total H fuel _ (by simpa using hne) (by simpa using hfuel)
  · intro tx htx
    rw [heq, htx]
    cases fuel with
    | zero => rw [htx] at hfuel; simp at hfuel
    | succ fuel => rfl

set_option maxRecDepth 1000000 in
/-- C29, witness: the three sample transactions; CalculateMerkleRoot returns
the root of the tree whose second level pairs the third hash with itself. -/
theorem C29_merkle_root_is_duplicate_last_odd_witness :
    CalculateMerkleRoot Sample.ext Sample.hashExt 3 [Sample.genesisTx, Sample.tx1, Sample.tx2]
      = some (Sample.hashExt.hash
          (Sample.hashExt.decodeHex (Sample.hashExt.hash
              (Sample.hashExt.decodeHex (Sample.txHash Sample.genesisTx)
                ++ Sample.hashExt.decodeHex (Sample.txHash Sample.tx1)))
            ++ Sample.hashExt.decodeHex (Sample.hashExt.hash
              (Sample.hashExt.decodeHex (Sample.txHash Sample.tx2)
                ++ Sample.hashExt.decodeHex (Sample.txHash Sample.tx2))))) := by
  obtain ⟨_, h, _⟩ := C29_merkle_root_is_duplicate_last_odd Sample.ext Sample.hashExt 3
    [Sample.genesisTx, Sample.tx1, Sample.tx2] (by decide) (by decide)
  rw [h]
  rfl

namespace Sample

set_option maxRecDepth 1000000 in
/-- C21, the code at the failing input: a coin database of capacity 2 after
three StoreBlock calls of one single-output coinbase each holds three cache
entries while `mainCacheSize` is 1; after FlushMainCache it holds three
entries while `mainCacheSize` is 0; and after UndoCoins of the three blocks,
which deletes the three entries, `mainCacheSize` is 2^32 - 2. -/
theorem C21_cache_size_is_not_the_entry_count :
    storeBlocks (CoinDatabase.New 2) threeCoinbases = some threeCoinbaseDB ∧
    threeCoinbaseDB.mainCache.length = 3 ∧ threeCoinbaseDB.mainCacheSize = 1 ∧
    (∃ c1, CoinDatabase.FlushMainCache threeCoinbaseDB = some c1 ∧
      c1.mainCache.length = 3 ∧ c1.mainCacheSize = 0) ∧
    (∃ c2, CoinDatabase.UndoCoins ext threeCoinbaseDB threeCoinbaseBlocks
        [⟨[], [], [], []⟩, ⟨[], [], [], []⟩, ⟨[], [], [], []⟩] = some c2 ∧
      c2.mainCache.length = 0 ∧ c2.mainCacheSize = 2 ^ 32 - 2) :=
  ⟨by decide, by decide, by decide, ⟨_, rfl, by decide, by decide⟩,
    ⟨_, rfl, by decide, by decide⟩⟩

set_option maxRecDepth 1000000 in
/-- C26, the code at the failing input: `coinbaseBlock` holds one coinbase
and extends the genesis block; makeUndoBlock computes the undo block without
entries for it, HandleBlock makes it the tip, and the block record under its
hash has the empty undo locator: getUndoBlock panics on it, and so does
getBlocksAndUndoBlocks for one block from the tip. -/
theorem C26_coinbase_block_has_no_undo_record :
    chainAfter [coinbaseBlock] = some (stateAfter [coinbaseBlock]) ∧
    coinbaseBlock.Header.PreviousHash = genesisHash ∧
    BlockChain.makeUndoBlock (stateAfter []) coinbaseBlock.Transactions
      = some ⟨[], [], [], []⟩ ∧
    (stateAfter [coinbaseBlock]).LastHash = coinbaseBlock.Hash ext ∧
    ((stateAfter [coinbaseBlock]).BlockInfoDB.GetBlockRecord (coinbaseBlock.Hash ext)).UndoFile
      = "" ∧
    ((stateAfter [coinbaseBlock]).BlockInfoDB.GetBlockRecord
      (coinbaseBlock.Hash ext)).UndoStartOffset = 0 ∧
    ((stateAfter [coinbaseBlock]).BlockInfoDB.GetBlockRecord
      (coinbaseBlock.Hash ext)).UndoEndOffset = 0 ∧
    BlockChain.GetBlock ext (stateAfter [coinbaseBlock]) (coinbaseBlock.Hash ext)
      = some coinbaseBlock ∧
    BlockChain.getUndoBlock ext (stateAfter [coinbaseBlock]) (coinbaseBlock.Hash ext) = none ∧
    BlockChain.getBlocksAndUndoBlocks ext (stateAfter [coinbaseBlock]) 1
      (stateAfter [coinbaseBlock]).LastHash = none :=
  ⟨by decide, by decide, by decide, by decide, by decide, by decide, by decide, by decide,
    by decide, by decide⟩

end Sample

namespace ChainWriter

/-! ### Sequences of writes -/

theorem WriteBlock_step (cw : ChainWriter) (bytes : List Nat)
    (ho : cw.CurrentBlockOffset ≤ 2 ^ 31) (hlen : bytes.length < 2 ^ 31)
    (hmax : cw.MaxBlockFileSize ≤ 2 ^ 31) (hnum : cw.CurrentBlockFileNumber + 1 < 2 ^ 32) :
    (∀ n, (WriteBlock cw bytes).2.blockFile n = cw.blockFile n) ∧
    (WriteBlock cw bytes).2.MaxBlockFileSize = cw.MaxBlockFileSize ∧
    (WriteBlock cw bytes).2.CurrentBlockOffset ≤ 2 ^ 31 ∧
    (WriteBlock cw bytes).2.CurrentBlockOffset = (WriteBlock cw bytes).1.EndOffset ∧
    (WriteBlock cw bytes).1.StartOffset ≤ (WriteBlock cw bytes).1.EndOffset ∧
    (WriteBlock cw bytes).1.FileName
      = cw.blockFile (WriteBlock cw bytes).2.CurrentBlockFileNumber ∧
    (((WriteBlock cw bytes).2.CurrentBlockFileNumber = cw.CurrentBlockFileNumber ∧
        (WriteBlock cw bytes).1.StartOffset = cw.CurrentBlockOffset) ∨
      ((WriteBlock cw bytes).2.CurrentBlockFileNumber = cw.CurrentBlockFileNumber + 1 ∧
        (WriteBlock cw bytes).1.StartOffset = 0)) := by
  obtain ⟨f1, f2, _, f4, f5⟩ := WriteBlock_fields cw bytes
  have hl : bytes.length % 2 ^ 32 = bytes.length := Nat.mod_eq_of_lt (by omega)
  have hsum : (cw.CurrentBlockOffset + bytes.length) % 2 ^ 32
      = cw.CurrentBlockOffset + bytes.length := Nat.mod_eq_of_lt (by omega)
  have hz : (0 + bytes.length) % 2 ^ 32 = bytes.length := by
    rw [Nat.zero_add]; exact hl
  have hn : (cw.CurrentBlockFileNumber + 1) % 2 ^ 32 = cw.CurrentBlockFileNumber + 1 :=
    Nat.mod_eq_of_lt hnum
  refine ⟨blockFile_congr cw _ f1 f2 f4, f5, ?_⟩
  by_cases h : (cw.CurrentBlockOffset + bytes.length % 2 ^ 32) % 2 ^ 32 ≥ cw.MaxBlockFileSize
  · rw [WriteBlock_of_rotate cw bytes h, hl, hz, hn]
    exact ⟨by show bytes.length ≤ 2 ^ 31; omega, rfl, Nat.zero_le _, rfl, Or.inr ⟨rfl, rfl⟩⟩
  · rw [WriteBlock_of_keep cw bytes h]
    rw [hl, hsum] at h ⊢
    exact ⟨by show cw.CurrentBlockOffset + bytes.length ≤ 2 ^ 31; omega, rfl,
      by show cw.CurrentBlockOffset ≤ cw.CurrentBlockOffset + bytes.length; omega, rfl,
      Or.inl ⟨rfl, rfl⟩⟩

theorem writeBlocks_files (datas : List (List Nat)) :
    ∀ cw : ChainWriter, cw.CurrentBlockOffset ≤ 2 ^ 31 → cw.MaxBlockFileSize ≤ 2 ^ 31 →
      (∀ d ∈ datas, d.length < 2 ^ 31) → cw.CurrentBlockFileNumber + datas.length < 2 ^ 32 →
      ∀ g ∈ (writeBlocks cw datas).1, ∃ n, cw.CurrentBlockFileNumber ≤ n ∧
        g.FileName = cw.blockFile n ∧
        (n = cw.CurrentBlockFileNumber → cw.CurrentBlockOffset ≤ g.StartOffset) ∧
        g.StartOffset ≤ g.EndOffset := by
  induction datas with
  | nil => intro cw _ _ _ _ g hg; simp [writeBlocks] at hg
  | cons d rest ih =>
    intro cw ho hmax hsize hnum g hg
    simp only [List.length_cons] at hnum
    obtain ⟨s1, s2, s3, s4, s5, s6, s7⟩ := WriteBlock_step cw d ho
      (hsize d (List.mem_cons_self _ _)) hmax (by omega)
    rw [writeBlocks] at hg
    rcases List.mem_cons.mp hg with hg1 | hg2
    · rw [hg1]
      rcases s7 with ⟨e1, e2⟩ | ⟨e1, e2⟩
      · exact ⟨cw.CurrentBlockFileNumber, le_refl _, by rw [s6, e1], fun _ => by rw [e2], s5⟩
      · exact ⟨cw.CurrentBlockFileNumber + 1, by omega, by rw [s6, e1],
          fun h => by omega, s5⟩
    · have hnum1 : (WriteBlock cw d).2.CurrentBlockFileNumber + rest.length < 2 ^ 32 := by
        rcases s7 with ⟨e1, _⟩ | ⟨e1, _⟩ <;> omega
      obtain ⟨n, n1, n2, n3, n4⟩ := ih (WriteBlock cw d).2 s3 (by rw [s2]; exact hmax)
        (fun d2 hd2 => hsize d2 (List.mem_cons_of_mem _ hd2)) hnum1 g hg2
      refine ⟨n, ?_, by rw [n2, s1], ?_, n4⟩
      · rcases s7 with ⟨e1, _⟩ | ⟨e1, _⟩ <;> omega
      · intro hn
        rcases s7 with ⟨e1, e2⟩ | ⟨e1, _⟩
        · have := n3 (by omega)
          rw [s4] at this
          omega
        · omega

theorem writeBlocks_first (datas : List (List Nat)) :
    ∀ cw : ChainWriter, cw.CurrentBlockOffset ≤ 2 ^ 31 → cw.MaxBlockFileSize ≤ 2 ^ 31 →
      (∀ d ∈ datas, d.length < 2 ^ 31) → cw.CurrentBlockFileNumber + datas.length < 2 ^ 32 →
      ∀ pre b post, (writeBlocks cw datas).1 = pre ++ b :: post →
        (∀ a ∈ pre, a.FileName ≠ b.FileName) →
        (b.FileName = cw.blockFile cw.CurrentBlockFileNumber →
          b.StartOffset = cw.CurrentBlockOffset) ∧
        (b.FileName ≠ cw.blockFile cw.CurrentBlockFileNumber → b.StartOffset = 0) := by
  induction datas with
  | nil =>
    intro cw _ _ _ _ pre b post h
    simp [writeBlocks] at h
  | cons d rest ih =>
    intro cw ho hmax hsize hnum pre b post h hpre
    simp only [List.length_cons] at hnum
    obtain ⟨s1, s2, s3, s4, s5, s6, s7⟩ := WriteBlock_step cw d ho
      (hsize d (List.mem_cons_self _ _)) hmax (by omega)
    have hnum1 : (WriteBlock cw d).2.CurrentBlockFileNumber + rest.length < 2 ^ 32 := by
      rcases s7 with ⟨e1, _⟩ | ⟨e1, _⟩ <;> omega
    have hsize1 : ∀ d2 ∈ rest, d2.length < 2 ^ 31 :=
      fun d2 hd2 => hsize d2 (List.mem_cons_of_mem _ hd2)
    rw [writeBlocks] at h
    cases pre with
    | nil =>
      simp only [List.nil_append, List.cons.injEq] at h
      obtain ⟨hb, _⟩ := h
      rw [← hb]
      rcases s7 with ⟨e1, e2⟩ | ⟨e1, e2⟩
      · refine ⟨fun _ => e2, fun hne => ?_⟩
        rw [s6, e1] at hne
        exact absurd rfl hne
      · refine ⟨fun he => ?_, fun _ => e2⟩
        rw [s6, e1] at he
        have := blockFile_injective cw _ _ he
        omega
    | cons x pre2 =>
      simp only [List.cons_append, List.cons.injEq] at h
      obtain ⟨hx, hrest⟩ := h
      have hxb : x.FileName ≠ b.FileName := hpre x (List.mem_cons_self _ _)
      obtain ⟨i1, i2⟩ := ih (WriteBlock cw d).2 s3 (by rw [s2]; exact hmax) hsize1 hnum1
        pre2 b post hrest (fun a ha => hpre a (List.mem_cons_of_mem _ ha))
      have hbne : b.FileName ≠ (WriteBlock cw d).2.blockFile
          (WriteBlock cw d).2.CurrentBlockFileNumber := by
        rw [s1, ← s6, hx]
        exact fun he => hxb he.symm
      have hb0 := i2 hbne
      refine ⟨fun he => ?_, fun _ => hb0⟩
      have hbmem : b ∈ (writeBlocks (WriteBlock cw d).2 rest).1 := by
        rw [hrest]; simp
      obtain ⟨n, n1, n2, _, _⟩ := writeBlocks_files rest (WriteBlock cw d).2 s3
        (by rw [s2]; exact hmax) hsize1 hnum1 b hbmem
      rw [s1] at n2
      have hn : n = cw.CurrentBlockFileNumber := blockFile_injective cw _ _ (n2.symm.trans he)
      have hc : (WriteBlock cw d).2.CurrentBlockFileNumber = cw.CurrentBlockFileNumber := by
        rcases s7 with ⟨e1, _⟩ | ⟨e1, _⟩ <;> omega
      rw [s1, hc] at hbne
      exact absurd he hbne

theorem writeBlocks_fills (datas : List (List Nat)) :
    ∀ cw : ChainWriter, cw.CurrentBlockOffset ≤ 2 ^ 31 → cw.MaxBlockFileSize ≤ 2 ^ 31 →
      (∀ d ∈ datas, d.length < 2 ^ 31) → cw.CurrentBlockFileNumber + datas.length < 2 ^ 32 →
      (writeBlocks cw datas).1.Pairwise
        (fun a b => a.FileName ≠ b.FileName ∨ a.EndOffset ≤ b.StartOffset) ∧
      (∀ pre a mid b post, (writeBlocks cw datas).1 = pre ++ a :: (mid ++ b :: post) →
        a.FileName = b.FileName → (∀ m ∈ mid, m.FileName ≠ b.FileName) →
        b.StartOffset = a.EndOffset) := by
  induction datas with
  | nil =>
    intro cw _ _ _ _
    refine ⟨by simp [writeBlocks], ?_⟩
    intro pre a mid b post h
    simp [writeBlocks] at h
  | cons d rest ih =>
    intro cw ho hmax hsize hnum
    simp only [List.length_cons] at hnum
    obtain ⟨s1, s2, s3, s4, s5, s6, s7⟩ := WriteBlock_step cw d ho
      (hsize d (List.mem_cons_self _ _)) hmax (by omega)
    have hnum1 : (WriteBlock cw d).2.CurrentBlockFileNumber + rest.length < 2 ^ 32 := by
      rcases s7 with ⟨e1, _⟩ | ⟨e1, _⟩ <;> omega
    have hsize1 : ∀ d2 ∈ rest, d2.length < 2 ^ 31 :=
      fun d2 hd2 => hsize d2 (List.mem_cons_of_mem _ hd2)
    have hmax1 : (WriteBlock cw d).2.MaxBlockFileSize ≤ 2 ^ 31 := by rw [s2]; exact hmax
    obtain ⟨i1, i2⟩ := ih (WriteBlock cw d).2 s3 hmax1 hsize1 hnum1
    rw [writeBlocks]
    constructor
    · rw [List.pairwise_cons]
      refine ⟨?_, i1⟩
      intro g hg
      obtain ⟨n, n1, n2, n3, _⟩ := writeBlocks_files rest (WriteBlock cw d).2 s3 hmax1 hsize1
        hnum1 g hg
      by_cases hn : n = (WriteBlock cw d).2.CurrentBlockFileNumber
      · right
        have := n3 hn
        rw [s4] at this
        exact this
      · left
        rw [s6, n2, s1]
        intro he
        exact hn (blockFile_injective cw _ _ he).symm
    · intro pre a mid b post h hab hmid
      cases pre with
      | nil =>
        simp only [List.nil_append, List.cons.injEq] at h
        obtain ⟨ha, hrest⟩ := h
        obtain ⟨f1, _⟩ := writeBlocks_first rest (WriteBlock cw d).2 s3 hmax1 hsize1 hnum1
          mid b post hrest hmid
        rw [← ha, ← s4]
        apply f1
        rw [s1, ← s6, ha]
        exact hab.symm
      | cons x pre2 =>
        simp only [List.cons_append, List.cons.injEq] at h
        exact i2 pre2 a mid b post h.2 hab hmid

theorem writeBlocks_FillsInOrder (cw : ChainWriter) (datas : List (List Nat))
    (ho : cw.CurrentBlockOffset = 0) (hmax : cw.MaxBlockFileSize ≤ 2 ^ 31)
    (hsize : ∀ d ∈ datas, d.length < 2 ^ 31)
    (hnum : cw.CurrentBlockFileNumber + datas.length < 2 ^ 32) :
    FillsInOrder (writeBlocks cw datas).1 := by
  have ho2 : cw.CurrentBlockOffset ≤ 2 ^ 31 := by rw [ho]; exact Nat.zero_le _
  obtain ⟨p1, p2⟩ := writeBlocks_fills datas cw ho2 hmax hsize hnum
  refine ⟨p1, ?_, ?_, p2⟩
  · intro a ha
    obtain ⟨_, _, _, _, h⟩ := writeBlocks_files datas cw ho2 hmax hsize hnum a ha
    exact h
  · intro pre b post h hpre
    obtain ⟨f1, f2⟩ := writeBlocks_first datas cw ho2 hmax hsize hnum pre b post h hpre
    by_cases hb : b.FileName = cw.blockFile cw.CurrentBlockFileNumber
    · rw [f1 hb, ho]
    · exact f2 hb

/-! ### The undo log is the block log of the writer with the logs exchanged -/

theorem swapLogs_swapLogs (cw : ChainWriter) : cw.swapLogs.swapLogs = cw := by
  cases cw
  rfl

theorem WriteUndoBlock_eq_swap (cw : ChainWriter) (bytes : List Nat) :
    WriteUndoBlock cw bytes
      = ((WriteBlock cw.swapLogs bytes).1, (WriteBlock cw.swapLogs bytes).2.swapLogs) := by
  by_cases h : (cw.CurrentUndoOffset + bytes.length % 2 ^ 32) % 2 ^ 32 ≥ cw.MaxUndoFileSize
  · rw [WriteUndoBlock_of_rotate cw bytes h, WriteBlock_of_rotate cw.swapLogs bytes h]
    rfl
  · rw [WriteUndoBlock_of_keep cw bytes h, WriteBlock_of_keep cw.swapLogs bytes h]
    rfl

theorem writeUndoBlocks_eq_swap (datas : List (List Nat)) :
    ∀ cw : ChainWriter, writeUndoBlocks cw datas
      = ((writeBlocks cw.swapLogs datas).1, (writeBlocks cw.swapLogs datas).2.swapLogs) := by
  induction datas with
  | nil => intro cw; simp [writeUndoBlocks, writeBlocks, swapLogs_swapLogs]
  | cons d rest ih =>
    intro cw
    rw [writeUndoBlocks, writeBlocks, WriteUndoBlock_eq_swap, ih, swapLogs_swapLogs]

/-- C24: segment rotation never makes two writes overlap. For every writer
made by New and every sequence of WriteBlock calls, and likewise every
sequence of WriteUndoBlock calls, with a size limit of at most 2^31, byte
strings shorter than 2^31 and fewer than 2^32 of them: two FileInfos
returned by different calls name different files or the earlier range ends
where the later one starts or before; every range runs forward; the first
write to a file starts at offset 0 and every other write starts where the
previous write to the same file ended. -/
theorem C24_writes_do_not_overlap (config : ChainWriterConfig) (datas : List (List Nat))
    (hbmax : config.MaxBlockFileSize ≤ 2 ^ 31) (humax : config.MaxUndoFileSize ≤ 2 ^ 31)
    (hsize : ∀ d ∈ datas, d.length < 2 ^ 31) (hcount : datas.length < 2 ^ 32) :
    FillsInOrder (writeBlocks (New config) datas).1 ∧
    FillsInOrder (writeUndoBlocks (New config) datas).1 := by
  constructor
  · exact writeBlocks_FillsInOrder (New config) datas rfl hbmax hsize
      (by show 0 + datas.length < 2 ^ 32; omega)
  · rw [writeUndoBlocks_eq_swap]
    exact writeBlocks_FillsInOrder (New config).swapLogs datas rfl humax hsize
      (by show 0 + datas.length < 2 ^ 32; omega)

set_option maxRecDepth 1000000 in
/-- C24, witness: block files of at most 60 bytes and writes of 20, 30, 20,
70, 5 and 10 bytes; the ranges are 0 to 20 and 20 to 50 in the file of
number 0, 0 to 20 in the file of number 1, 0 to 70 in the file of number 2,
0 to 5 and 5 to 15 in the file of number 3. -/
theorem C24_writes_do_not_overlap_witness :
    (writeBlocks (New Sample.segmentConfig.ChainWriterConfig)
      [List.replicate 20 0, List.replicate 30 0, List.replicate 20 0, List.replicate 70 0,
        List.replicate 5 0, List.replicate 10 1]).1
      = [⟨"data/block_0.txt", 0, 20⟩, ⟨"data/block_0.txt", 20, 50⟩, ⟨"data/block_1.txt", 0, 20⟩,
          ⟨"data/block_2.txt", 0, 70⟩, ⟨"data/block_3.txt", 0, 5⟩,
          ⟨"data/block_3.txt", 5, 15⟩] ∧
    FillsInOrder (writeBlocks (New Sample.segmentConfig.ChainWriterConfig)
      [List.replicate 20 0, List.replicate 30 0, List.replicate 20 0, List.replicate 70 0,
        List.replicate 5 0, List.replicate 10 1]).1 :=
  ⟨by decide,
    (C24_writes_do_not_overlap Sample.segmentConfig.ChainWriterConfig
      [List.replicate 20 0, List.replicate 30 0, List.replicate 20 0, List.replicate 70 0,
        List.replicate 5 0, List.replicate 10 1] (by decide) (by decide) (by decide)
      (by decide)).1⟩

end ChainWriter

namespace BlockChain

/-! ### What a HandleBlock call does to the chain fields and the block records -/

theorem handleFork_outcome (E : Ext) (bc : BlockChain) (b : Block) (height : Nat)
    (bc2 : BlockChain) (h : handleFork E bc b height = some bc2) :
    bc2 = bc ∨
    (bc2.BlockInfoDB = bc.BlockInfoDB ∧ bc2.ChainWriter = bc.ChainWriter ∧ bc2.LastBlock = b ∧
      bc2.LastHash = b.Hash E ∧ bc2.Length = height) := by
  unfold handleFork at h
  by_cases hneg : (getForkLengthAndAncestor bc (b.Hash E)).1 < 0
  · simp only [hneg, if_true, Option.some.injEq] at h
    exact Or.inl h.symm
  · simp only [hneg, if_false] at h
    cases h1 : getBlocksAndUndoBlocks E bc (getForkLengthAndAncestor bc (b.Hash E)).1.toNat
        bc.LastHash with
    | none => rw [h1] at h; exact absurd h (by simp)
    | some p =>
      obtain ⟨blocks, undoBlocks⟩ := p
      rw [h1] at h
      simp only at h
      cases h2 : trimUnsafeHashes (getForkLengthAndAncestor bc (b.Hash E)).2 bc.UnsafeHashes
          (min 6 (getForkLengthAndAncestor bc (b.Hash E)).1.toNat - 1) with
      | none => rw [h2] at h; exact absurd h (by simp)
      | some uh =>
        rw [h2] at h
        simp only at h
        cases h3 : CoinDatabase.UndoCoins E bc.CoinDB blocks undoBlocks with
        | none => rw [h3] at h; exact absurd h (by simp)
        | some c1 =>
          rw [h3] at h
          simp only at h
          cases h4 : storeForkBlocks E c1 blocks with
          | none => rw [h4] at h; exact absurd h (by simp)
          | some c2 =>
            rw [h4] at h
            simp only [Option.some.injEq] at h
            subst h
            exact Or.inr ⟨rfl, rfl, rfl, rfl, rfl⟩

/-- The outcomes of a HandleBlock call that returns: the block was dropped
and the state is unchanged, or a record with the header of the block and
the height of its parent plus one was stored under its hash, and the tip is
unchanged, or the block was appended, or the block became the tip of a
reorganized chain of that height. -/
theorem HandleBlock_outcome (E : Ext) (bc : BlockChain) (b : Block) (bc2 : BlockChain)
    (h : HandleBlock E bc b = some bc2) :
    bc2 = bc ∨
    ∃ br : BlockRecord, br.Header = b.Header ∧
      br.Height = ((bc.BlockInfoDB.GetBlockRecord b.Header.PreviousHash).Height + 1) % 2 ^ 32 ∧
      bc2.BlockInfoDB = bc.BlockInfoDB.StoreBlockRecord (b.Hash E) br ∧
      ((bc2.Length = bc.Length ∧ bc2.LastHash = bc.LastHash ∧ bc2.LastBlock = bc.LastBlock) ∨
        (bc.LastBlock.Hash E = b.Header.PreviousHash ∧
          bc2.Length = (bc.Length + 1) % 2 ^ 32 ∧ bc2.LastHash = b.Hash E ∧ bc2.LastBlock = b) ∨
        (bc2.Length = br.Height ∧ bc2.LastHash = b.Hash E ∧ bc2.LastBlock = b)) := by
  unfold HandleBlock at h
  by_cases hd : (appendsToActiveChain E bc b &&
      !CoinDatabase.ValidateBlock bc.CoinDB b.Transactions) = true
  · simp only [hd, if_true, Option.some.injEq] at h
    exact Or.inl h.symm
  · have hd2 : (appendsToActiveChain E bc b &&
        !CoinDatabase.ValidateBlock bc.CoinDB b.Transactions) = false := by
      simpa using hd
    simp only [hd2, Bool.false_eq_true, if_false] at h
    cases hu : makeUndoBlock bc b.Transactions with
    | none =>
      have hp : persistBlock E bc b = none := by
        unfold persistBlock; rw [hu]
      rw [hp] at h
      exact absurd h (by simp)
    | some ub =>
      rw [persistBlock_eq E bc b ub hu] at h
      simp only at h
      obtain ⟨r1, r2, _⟩ := ChainWriter.StoreBlock_record E bc.ChainWriter b ub
        (((bc.BlockInfoDB.GetBlockRecord b.Header.PreviousHash).Height + 1) % 2 ^ 32)
      refine Or.inr ⟨_, r1, r2, ?_⟩
      by_cases happ : appendsToActiveChain E bc b = true
      · simp only [happ, if_true] at h
        cases hs : CoinDatabase.StoreBlock E bc.CoinDB b.Transactions with
        | none => rw [hs] at h; exact absurd h (by simp)
        | some c =>
          rw [hs] at h
          simp only [Option.some.injEq] at h
          subst h
          refine ⟨rfl, Or.inr (Or.inl ⟨?_, rfl, rfl, rfl⟩)⟩
          simpa [appendsToActiveChain] using happ
      · simp only [happ, Bool.false_eq_true, if_false] at h
        split at h
        · rcases handleFork_outcome E _ b _ bc2 h with he | ⟨e1, _, e3, e4, e5⟩
          · subst he
            exact ⟨rfl, Or.inl ⟨rfl, rfl, rfl⟩⟩
          · exact ⟨e1, Or.inr (Or.inr ⟨by rw [e5, r2], e4, e3⟩)⟩
        · simp only [Option.some.injEq] at h
          subst h
          exact ⟨rfl, Or.inl ⟨rfl, rfl, rfl⟩⟩

theorem kvPut_length_of_fresh {α β : Type} [DecidableEq α] (m : List (α × β)) (a : α) (b : β)
    (h : kvGet m a = none) : (kvPut m a b).length = m.length + 1 := by
  have hk := kvPut_keys_of_not_mem m a b ((kvGet_eq_none_iff m a).1 h)
  have := congrArg List.length hk
  simpa using this

/-! ### The block records stay in order -/

theorem New_records (E : Ext) (config : Config) (bc0 : BlockChain)
    (h : New E config = some bc0) :
    RecordsInOrder E ((GenesisBlock config).Hash E) bc0 := by
  rw [New_eq, Option.some.injEq] at h
  subst h
  obtain ⟨_, r2, _⟩ := ChainWriter.StoreBlock_record E
    (ChainWriter.New config.ChainWriterConfig) (GenesisBlock config) ⟨[], [], [], []⟩ 1
  refine ⟨?_, ?_, rfl⟩
  · intro h br hget
    simp only [BlockInfoDatabase.StoreBlockRecord, kvPut, kvGet] at hget
    by_cases hk : (GenesisBlock config).Hash E = h
    · rw [if_pos hk, Option.some.injEq] at hget
      subst hget
      rw [r2]
      exact ⟨le_refl _, by simp [BlockInfoDatabase.StoreBlockRecord, kvPut],
        Or.inl ⟨hk.symm, rfl⟩⟩
    · rw [if_neg hk] at hget
      exact absurd hget (by simp)
  · refine ⟨_, ?_, r2⟩
    simp [BlockInfoDatabase.StoreBlockRecord, kvPut, kvGet]

theorem HandleBlock_records (E : Ext) (g : String) (bc bc2 : BlockChain) (b : Block)
    (hinv : RecordsInOrder E g bc)
    (hfresh : kvGet bc.BlockInfoDB.db (b.Hash E) = none)
    (hparent : kvGet bc.BlockInfoDB.db b.Header.PreviousHash ≠ none)
    (hcount : bc.BlockInfoDB.db.length + 1 < 2 ^ 32)
    (h : HandleBlock E bc b = some bc2) :
    RecordsInOrder E g bc2 ∧ bc2.BlockInfoDB.db.length ≤ bc.BlockInfoDB.db.length + 1 := by
  obtain ⟨hR, ⟨tr, ht1, ht2⟩, hC⟩ := hinv
  rcases HandleBlock_outcome E bc b bc2 h with he | ⟨br, b1, b2, b3, hcase⟩
  · subst he
    exact ⟨⟨hR, ⟨tr, ht1, ht2⟩, hC⟩, by omega⟩
  · obtain ⟨pr, hpr⟩ : ∃ pr, kvGet bc.BlockInfoDB.db b.Header.PreviousHash = some pr := by
      cases hp : kvGet bc.BlockInfoDB.db b.Header.PreviousHash with
      | none => exact absurd hp hparent
      | some pr => exact ⟨pr, rfl⟩
    obtain ⟨p1, p2, _⟩ := hR _ pr hpr
    have hrec : bc.BlockInfoDB.GetBlockRecord b.Header.PreviousHash = pr := by
      simp [BlockInfoDatabase.GetBlockRecord, hpr]
    have hH : br.Height = pr.Height + 1 := by
      rw [b2, hrec]
      exact Nat.mod_eq_of_lt (by omega)
    have hdb : bc2.BlockInfoDB.db = kvPut bc.BlockInfoDB.db (b.Hash E) br := by
      rw [b3]; rfl
    have hlen : bc2.BlockInfoDB.db.length = bc.BlockInfoDB.db.length + 1 := by
      rw [hdb]; exact kvPut_length_of_fresh _ _ _ hfresh
    have hold : ∀ k v, kvGet bc.BlockInfoDB.db k = some v →
        kvGet bc2.BlockInfoDB.db k = some v := by
      intro k v hk
      have hne : b.Hash E ≠ k := by
        intro he
        rw [he, hk] at hfresh
        exact absurd hfresh (by simp)
      rw [hdb, kvGet_kvPut_of_ne _ _ hne]
      exact hk
    have hnew : kvGet bc2.BlockInfoDB.db (b.Hash E) = some br := by
      rw [hdb]; exact kvGet_kvPut_self _ _ _
    have hR2 : ∀ k v, kvGet bc2.BlockInfoDB.db k = some v →
        1 ≤ v.Height ∧ v.Height ≤ bc2.BlockInfoDB.db.length ∧
        ((k = g ∧ v.Height = 1) ∨
          ∃ pr, kvGet bc2.BlockInfoDB.db v.Header.PreviousHash = some pr ∧
            pr.Height + 1 = v.Height) := by
      intro k v hk
      by_cases hkb : b.Hash E = k
      · rw [← hkb, hnew, Option.some.injEq] at hk
        subst hk
        refine ⟨by omega, by omega, Or.inr ⟨pr, ?_, hH.symm⟩⟩
        rw [b1]
        exact hold _ _ hpr
      · rw [hdb, kvGet_kvPut_of_ne _ _ hkb] at hk
        obtain ⟨o1, o2, o3⟩ := hR k v hk
        refine ⟨o1, by omega, ?_⟩
        rcases o3 with o3 | ⟨pr2, q1, q2⟩
        · exact Or.inl o3
        · exact Or.inr ⟨pr2, hold _ _ q1, q2⟩
    refine ⟨⟨hR2, ?_, ?_⟩, by omega⟩
    · rcases hcase with ⟨c1, c2, _⟩ | ⟨c0, c1, c2, _⟩ | ⟨c1, c2, _⟩
      · exact ⟨tr, by rw [c2]; exact hold _ _ ht1, by rw [c1]; exact ht2⟩
      · refine ⟨br, by rw [c2]; exact hnew, ?_⟩
        have hpt : pr = tr := by
          rw [← c0, ← hC, ht1, Option.some.injEq] at hpr
          exact hpr.symm
        obtain ⟨_, t2, _⟩ := hR _ tr ht1
        rw [c1, hH, hpt, ht2]
        exact (Nat.mod_eq_of_lt (by omega)).symm
      · exact ⟨br, by rw [c2]; exact hnew, c1.symm⟩
    · rcases hcase with ⟨_, c2, c3⟩ | ⟨_, _, c2, c3⟩ | ⟨_, c2, c3⟩
      · rw [c2, c3]; exact hC
      · rw [c2, c3]
      · rw [c2, c3]

theorem handleBlocks_records (E : Ext) (g : String) (blocks : List Block) :
    ∀ bc bc2 : BlockChain, RecordsInOrder E g bc → arrivesInOrder E bc blocks = true →
      bc.BlockInfoDB.db.length + blocks.length < 2 ^ 32 →
      handleBlocks E bc blocks = some bc2 →
      RecordsInOrder E g bc2 ∧
        bc2.BlockInfoDB.db.length ≤ bc.BlockInfoDB.db.length + blocks.length := by
  induction blocks with
  | nil =>
    intro bc bc2 hinv _ _ h
    simp only [handleBlocks, Option.some.injEq] at h
    subst h
    exact ⟨hinv, by simp⟩
  | cons b rest ih =>
    intro bc bc2 hinv hord hcount h
    simp only [List.length_cons] at hcount
    rw [handleBlocks] at h
    cases h1 : HandleBlock E bc b with
    | none => rw [h1] at h; exact absurd h (by simp)
    | some bc1 =>
      rw [h1] at h
      simp only at h
      rw [arrivesInOrder, h1] at hord
      simp only [Bool.and_eq_true, Option.isNone_iff_eq_none, Option.isSome_iff_ne_none] at hord
      obtain ⟨⟨hf, hp⟩, hrest⟩ := hord
      obtain ⟨i1, i2⟩ := HandleBlock_records E g bc bc1 b hinv hf hp (by omega) h1
      obtain ⟨j1, j2⟩ := ih bc1 bc2 i1 hrest (by omega) h
      refine ⟨j1, ?_⟩
      simp only [List.length_cons]
      omega

theorem activeHash_records (E : Ext) (g : String) (bc : BlockChain)
    (hinv : RecordsInOrder E g bc) :
    ∀ i, i < bc.Length → ∃ br, kvGet bc.BlockInfoDB.db (bc.activeHash i) = some br ∧
      br.Height = bc.Length - i := by
  obtain ⟨hR, ⟨tr, ht1, ht2⟩, _⟩ := hinv
  intro i
  induction i with
  | zero => intro _; exact ⟨tr, ht1, by rw [ht2]; rfl⟩
  | succ i ih =>
    intro hi
    obtain ⟨br, h1, h2⟩ := ih (by omega)
    obtain ⟨_, _, o3⟩ := hR _ br h1
    have hact : bc.activeHash (i + 1) = br.Header.PreviousHash := by
      simp [activeHash, parentHash, BlockInfoDatabase.GetBlockRecord, h1]
    rcases o3 with ⟨_, o4⟩ | ⟨pr, q1, q2⟩
    · omega
    · exact ⟨pr, by rw [hact]; exact q1, by omega⟩

/-- C27: the heights along the active chain. A chain made by New receives a
list of blocks, fewer than 2^32 - 1, each of which, when HandleBlock
receives it, has a hash under which no block record is stored yet and a
parent whose block record is stored; every call returns. Then Length is at
least 1 and, following PreviousHash from LastHash, the block reached after
i < Length steps has a block record of Height Length - i: the record of
LastHash has Height Length, each parent has a Height one less than its
child, every Height lies between 1 and Length, and the block of Height 1 is
the genesis block. -/
theorem C27_heights_along_active_chain (E : Ext) (config : Config) (blocks : List Block)
    (bc0 bc : BlockChain) (h0 : New E config = some bc0)
    (hord : arrivesInOrder E bc0 blocks = true) (hcount : blocks.length + 1 < 2 ^ 32)
    (h : handleBlocks E bc0 blocks = some bc) :
    1 ≤ bc.Length ∧
    (∀ i, i < bc.Length → ∃ br, kvGet bc.BlockInfoDB.db (bc.activeHash i) = some br ∧
      br.Height = bc.Length - i) ∧
    bc.activeHash (bc.Length - 1) = (GenesisBlock config).Hash E := by
  have hinv0 := New_records E config bc0 h0
  have hlen0 : bc0.BlockInfoDB.db.length = 1 := by
    rw [New_eq, Option.some.injEq] at h0
    subst h0
    simp [BlockInfoDatabase.StoreBlockRecord, kvPut]
  obtain ⟨hinv, _⟩ := handleBlocks_records E _ blocks bc0 bc hinv0 hord (by omega) h
  have hact := activeHash_records E _ bc hinv
  obtain ⟨hR, ⟨tr, ht1, ht2⟩, _⟩ := hinv
  have hpos : 1 ≤ bc.Length := by
    obtain ⟨t1, _, _⟩ := hR _ tr ht1
    omega
  refine ⟨hpos, hact, ?_⟩
  obtain ⟨br, h1, h2⟩ := hact (bc.Length - 1) (by omega)
  obtain ⟨_, _, o3⟩ := hR _ br h1
  rcases o3 with ⟨o4, _⟩ | ⟨pr, q1, q2⟩
  · exact o4
  · obtain ⟨p1, _, _⟩ := hR _ pr q1
    omega

set_option maxRecDepth 1000000 in
/-- C27, witness: `block1` and `block2` are appended, `forkBlock2` on
`block1` is retained and `forkBlock3` on it makes the chain reorganize:
Length is 4 and the records of `forkBlock3`, `forkBlock2`, `block1` and the
genesis block have the heights 4, 3, 2 and 1. -/
theorem C27_heights_along_active_chain_witness :
    (Sample.stateAfter (Sample.reorgBlocks ++ [Sample.forkBlock3])).Length = 4 ∧
    (Sample.stateAfter (Sample.reorgBlocks ++ [Sample.forkBlock3])).LastHash
      = Sample.forkBlock3.Hash Sample.ext ∧
    (∀ i, i < 4 → ∃ br,
      kvGet (Sample.stateAfter (Sample.reorgBlocks ++ [Sample.forkBlock3])).BlockInfoDB.db
        ((Sample.stateAfter (Sample.reorgBlocks ++ [Sample.forkBlock3])).activeHash i)
        = some br ∧ br.Height = 4 - i) ∧
    (Sample.stateAfter (Sample.reorgBlocks ++ [Sample.forkBlock3])).activeHash 3
      = Sample.genesisHash := by
  obtain ⟨_, h2, h3⟩ := C27_heights_along_active_chain Sample.ext Sample.config
    (Sample.reorgBlocks ++ [Sample.forkBlock3]) (Sample.stateAfter [])
    (Sample.stateAfter (Sample.reorgBlocks ++ [Sample.forkBlock3]))
    (by decide) (by decide) (by decide) (by decide)
  have hl : (Sample.stateAfter (Sample.reorgBlocks ++ [Sample.forkBlock3])).Length = 4 := by
    decide
  rw [hl] at h2 h3
  exact ⟨hl, by decide, h2, h3⟩

end BlockChain

namespace Sample

set_option maxRecDepth 1000000 in
/-- C27, the claim at a reachable state: `block2`, `block3` and
`upperBlock1` arrive before their ancestor `block1` and are retained with
the heights 1, 2 and 3; `block1`, `block2` and `block3` are then appended
(heights 2, 3 and 4), `upperBlock2` is retained with height 4 and
`upperBlock3`, of height 5, makes the chain reorganize. Length is 5 and the
active chain from LastHash has seven blocks: `upperBlock1` has Height 3
while its parent `block3` has Height 4. -/
theorem C27_out_of_order_heights :
    chainAfter outOfOrderBlocks = some (stateAfter outOfOrderBlocks) ∧
    (stateAfter outOfOrderBlocks).Length = 5 ∧
    (stateAfter outOfOrderBlocks).LastHash = upperBlock3.Hash ext ∧
    (stateAfter outOfOrderBlocks).activeHash 2 = upperBlock1.Hash ext ∧
    ((stateAfter outOfOrderBlocks).BlockInfoDB.GetBlockRecord (upperBlock1.Hash ext)).Height
      = 3 ∧
    (stateAfter outOfOrderBlocks).activeHash 3 = block3.Hash ext ∧
    ((stateAfter outOfOrderBlocks).BlockInfoDB.GetBlockRecord (block3.Hash ext)).Height = 4 ∧
    (stateAfter outOfOrderBlocks).activeHash 4 = block2.Hash ext ∧
    (stateAfter outOfOrderBlocks).activeHash 6 = genesisHash :=
  ⟨by decide, by decide, by decide, by decide, by decide, by decide, by decide, by decide,
    by decide⟩

end Sample

namespace BlockChain

/-! ### Every recorded block can be read back -/

theorem New_stored (E : Ext) (config : Config) (bc0 : BlockChain)
    (hsep : (ChainWriter.New config.ChainWriterConfig).SeparateLogs)
    (hmax : config.ChainWriterConfig.MaxBlockFileSize ≤ 2 ^ 31)
    (hlen : (E.marshalBlock (GenesisBlock config)).length < 2 ^ 31)
    (hround : E.unmarshalBlock (E.marshalBlock (GenesisBlock config)) = GenesisBlock config)
    (h : New E config = some bc0) :
    AllStored E ((GenesisBlock config).Hash E) (GenesisBlock config) bc0 := by
  rw [New_eq, Option.some.injEq] at h
  subst h
  obtain ⟨_, _, _, _, s5, s6, content, s7, s8⟩ := ChainWriter.StoreBlock_synced E
    (ChainWriter.New config.ChainWriterConfig) (GenesisBlock config) ⟨[], [], [], []⟩ 1
    (ChainWriter.New_synced _) hsep hlen hmax (by simp [ChainWriter.New])
  have hst : StoredAt E
      { Length := 1
        LastBlock := GenesisBlock config
        LastHash := (GenesisBlock config).Hash E
        UnsafeHashes := [(GenesisBlock config).Hash E]
        maxHashes := 6
        BlockInfoDB := BlockInfoDatabase.StoreBlockRecord ⟨[]⟩ ((GenesisBlock config).Hash E)
          (ChainWriter.StoreBlock E (ChainWriter.New config.ChainWriterConfig)
            (GenesisBlock config) ⟨[], [], [], []⟩ 1).1
        ChainWriter := (ChainWriter.StoreBlock E (ChainWriter.New config.ChainWriterConfig)
            (GenesisBlock config) ⟨[], [], [], []⟩ 1).2
        CoinDB :=
          { db := [(Transaction.Hash E ⟨0, [], [⟨config.InitialSubsidy,
                config.GenesisPublicKey⟩], 0⟩,
              ⟨0, [0], [config.InitialSubsidy], [config.GenesisPublicKey]⟩)]
            mainCache := [(⟨Transaction.Hash E ⟨0, [], [⟨config.InitialSubsidy,
                config.GenesisPublicKey⟩], 0⟩, 0⟩,
              ⟨⟨config.InitialSubsidy, config.GenesisPublicKey⟩, false⟩)]
            mainCacheSize := 1
            mainCacheCapacity := config.MainCacheCapacity } } (GenesisBlock config) := by
    have hrec : BlockInfoDatabase.GetBlockRecord
        (BlockInfoDatabase.StoreBlockRecord ⟨[]⟩ ((GenesisBlock config).Hash E)
          (ChainWriter.StoreBlock E (ChainWriter.New config.ChainWriterConfig)
            (GenesisBlock config) ⟨[], [], [], []⟩ 1).1) ((GenesisBlock config).Hash E)
        = (ChainWriter.StoreBlock E (ChainWriter.New config.ChainWriterConfig)
            (GenesisBlock config) ⟨[], [], [], []⟩ 1).1 := by
      simp [BlockInfoDatabase.GetBlockRecord, BlockInfoDatabase.StoreBlockRecord,
        kvGet_kvPut_self]
    unfold StoredAt
    simp only [hrec]
    exact ⟨s5, s6, content, s7, s8⟩
  refine ⟨?_, ?_, rfl, hst, hround⟩
  · intro k v hk
    simp only [BlockInfoDatabase.StoreBlockRecord, kvPut, kvGet] at hk
    by_cases hkg : (GenesisBlock config).Hash E = k
    · exact ⟨GenesisBlock config, hkg, hst, hround⟩
    · rw [if_neg hkg] at hk
      exact absurd hk (by simp)
  · simp [BlockInfoDatabase.StoreBlockRecord, kvPut, kvGet]

theorem HandleBlock_stored (E : Ext) (g : String) (genesis : Block) (bc bc2 : BlockChain)
    (b : Block) (hinv : AllStored E g genesis bc)
    (hs : bc.ChainWriter.BlockLogSynced) (hsep : bc.ChainWriter.SeparateLogs)
    (hmax : bc.ChainWriter.MaxBlockFileSize ≤ 2 ^ 31)
    (hk : bc.ChainWriter.CurrentBlockFileNumber + 1 < 2 ^ 32)
    (hlen : (E.marshalBlock b).length < 2 ^ 31)
    (hround : E.unmarshalBlock (E.marshalBlock b) = b)
    (hfresh : kvGet bc.BlockInfoDB.db (b.Hash E) = none)
    (h : HandleBlock E bc b = some bc2) : AllStored E g genesis bc2 := by
  obtain ⟨hA, hg1, hg2, hg3, hg4⟩ := hinv
  rcases HandleBlock_stores E bc b bc2 h with ⟨_, he⟩ | ⟨hp, ub, height, e1, e2⟩
  · subst he
    exact ⟨hA, hg1, hg2, hg3, hg4⟩
  · have hdb : bc2.BlockInfoDB.db = kvPut bc.BlockInfoDB.db (b.Hash E)
        (ChainWriter.StoreBlock E bc.ChainWriter b ub height).1 := by
      rw [e2]; rfl
    have hbg : b.Hash E ≠ g := by
      intro he
      rw [he] at hfresh
      exact hg1 hfresh
    refine ⟨?_, ?_, hg2, ?_, hg4⟩
    · intro k v hkv
      by_cases hkb : b.Hash E = k
      · exact ⟨b, hkb, HandleBlock_StoredAt E bc bc2 b hs hsep hmax hk hlen hp h, hround⟩
      · rw [hdb, kvGet_kvPut_of_ne _ _ hkb] at hkv
        obtain ⟨b1, q1, q2, q3⟩ := hA k v hkv
        refine ⟨b1, q1, StoredAt_step E bc bc2 b1 b q2 ?_ h, q3⟩
        rw [q1]; exact hkb
    · rw [hdb, kvGet_kvPut_of_ne _ _ hbg]
      exact hg1
    · refine StoredAt_step E bc bc2 genesis b hg3 ?_ h
      rw [hg2]; exact hbg

theorem handleBlocks_stored (E : Ext) (g : String) (genesis : Block) (blocks : List Block) :
    ∀ (bc bc2 : BlockChain) (k : Nat), AllStored E g genesis bc →
      bc.ChainWriter.BlockLogSynced → bc.ChainWriter.SeparateLogs →
      bc.ChainWriter.MaxBlockFileSize ≤ 2 ^ 31 →
      bc.ChainWriter.CurrentBlockFileNumber ≤ k → k + blocks.length < 2 ^ 32 →
      (∀ bl ∈ blocks, (E.marshalBlock bl).length < 2 ^ 31) →
      (∀ bl ∈ blocks, E.unmarshalBlock (E.marshalBlock bl) = bl) →
      arrivesInOrder E bc blocks = true →
      handleBlocks E bc blocks = some bc2 → AllStored E g genesis bc2 := by
  induction blocks with
  | nil =>
    intro bc bc2 k hinv _ _ _ _ _ _ _ _ h
    simp only [handleBlocks, Option.some.injEq] at h
    subst h
    exact hinv
  | cons b rest ih =>
    intro bc bc2 k hinv hs hsep hmax hk hk2 hlen hround hord h
    simp only [List.length_cons] at hk2
    rw [handleBlocks] at h
    cases h1 : HandleBlock E bc b with
    | none => rw [h1] at h; exact absurd h (by simp)
    | some bc1 =>
      rw [h1] at h
      simp only at h
      rw [arrivesInOrder, h1] at hord
      simp only [Bool.and_eq_true, Option.isNone_iff_eq_none, Option.isSome_iff_ne_none] at hord
      obtain ⟨⟨hf, _⟩, hrest⟩ := hord
      obtain ⟨a1, a2, a3, a4⟩ := HandleBlock_synced E bc bc1 b k hs hsep hmax hk (by omega)
        (hlen b (List.mem_cons_self _ _)) h1
      exact ih bc1 bc2 (k + 1)
        (HandleBlock_stored E g genesis bc bc1 b hinv hs hsep hmax (by omega)
          (hlen b (List.mem_cons_self _ _)) (hround b (List.mem_cons_self _ _)) hf h1)
        a1 a2 a3 a4 (by omega)
        (fun bl hbl => hlen bl (List.mem_cons_of_mem _ hbl))
        (fun bl hbl => hround bl (List.mem_cons_of_mem _ hbl)) hrest h

/-! ### The walks of GetBlocks and GetHashes -/

theorem getHashesLoop_collect (bc : BlockChain) (start last : Nat) (hstart : 1 ≤ start) :
    ∀ (n c i fuel : Nat) (acc : List String), c + 1 = start + n → c ≤ last → c < 2 ^ 32 →
      n < fuel →
      getHashesLoop bc start last fuel c (bc.activeHash i) acc
        = some (acc ++ (List.range n).map (fun j => bc.activeHash (i + j))) := by
  intro n
  induction n with
  | zero =>
    intro c i fuel acc hc _ _ hf
    obtain ⟨f, rfl⟩ : ∃ f, fuel = f + 1 := ⟨fuel - 1, by omega⟩
    have hlt : ¬ c ≥ start := by omega
    simp [getHashesLoop, hlt]
  | succ n ih =>
    intro c i fuel acc hc hl hc32 hf
    obtain ⟨f, rfl⟩ : ∃ f, fuel = f + 1 := ⟨fuel - 1, by omega⟩
    have hge : c ≥ start := by omega
    have hdec : (c + (2 ^ 32 - 1)) % 2 ^ 32 = c - 1 := by omega
    have hnext : (bc.BlockInfoDB.GetBlockRecord (bc.activeHash i)).Header.PreviousHash
        = bc.activeHash (i + 1) := rfl
    rw [getHashesLoop, if_pos hge, if_pos hl, hdec, hnext,
      ih (c - 1) (i + 1) f _ (by omega) (by omega) (by omega) (by omega)]
    have hmap : (List.range n).map (fun j => bc.activeHash (i + 1 + j))
        = (List.range n).map ((fun j => bc.activeHash (i + j)) ∘ Nat.succ) := by
      apply List.map_congr_left
      intro j _
      show bc.activeHash (i + 1 + j) = bc.activeHash (i + (j + 1))
      rw [Nat.add_right_comm i 1 j, Nat.add_assoc]
    rw [List.range_succ_eq_map, List.map_cons, List.map_map, List.append_assoc, hmap]
    rfl

theorem getHashesLoop_skip (bc : BlockChain) (start last : Nat) (hstart : 1 ≤ start)
    (hle : start ≤ last) :
    ∀ (d c i fuel : Nat) (acc : List String), c = last + d → c < 2 ^ 32 →
      d + (last + 1 - start) < fuel →
      getHashesLoop bc start last fuel c (bc.activeHash i) acc
        = some (acc ++ (List.range (last + 1 - start)).map
            (fun j => bc.activeHash (i + d + j))) := by
  intro d
  induction d with
  | zero =>
    intro c i fuel acc hc hc32 hf
    exact getHashesLoop_collect bc start last hstart _ c i fuel acc (by omega) (by omega)
      hc32 (by omega)
  | succ d ih =>
    intro c i fuel acc hc hc32 hf
    obtain ⟨f, rfl⟩ : ∃ f, fuel = f + 1 := ⟨fuel - 1, by omega⟩
    have hge : c ≥ start := by omega
    have hnl : ¬ c ≤ last := by omega
    have hdec : (c + (2 ^ 32 - 1)) % 2 ^ 32 = c - 1 := by omega
    have hnext : (bc.BlockInfoDB.GetBlockRecord (bc.activeHash i)).Header.PreviousHash
        = bc.activeHash (i + 1) := rfl
    rw [getHashesLoop, if_pos hge, if_neg hnl, hdec, hnext,
      ih (c - 1) (i + 1) f acc (by omega) (by omega) (by omega)]
    have he : i + 1 + d = i + (d + 1) := by omega
    rw [he]

theorem getBlocksLoop_collect (E : Ext) (bc : BlockChain) (start last : Nat)
    (hstart : 1 ≤ start) :
    ∀ (n c i fuel : Nat) (acc : List Block), c + 1 = start + n → c ≤ last → c < 2 ^ 32 →
      n < fuel →
      (∀ j, j < n → GetBlock E bc (bc.activeHash (i + j)) = some (activeBlock E bc (i + j))) →
      getBlocksLoop E bc start last fuel c (bc.activeHash i) acc
        = some (acc ++ (List.range n).map (fun j => activeBlock E bc (i + j))) := by
  intro n
  induction n with
  | zero =>
    intro c i fuel acc hc _ _ hf _
    obtain ⟨f, rfl⟩ : ∃ f, fuel = f + 1 := ⟨fuel - 1, by omega⟩
    have hlt : ¬ c ≥ start := by omega
    simp [getBlocksLoop, hlt]
  | succ n ih =>
    intro c i fuel acc hc hl hc32 hf hread
    obtain ⟨f, rfl⟩ : ∃ f, fuel = f + 1 := ⟨fuel - 1, by omega⟩
    have hge : c ≥ start := by omega
    have hdec : (c + (2 ^ 32 - 1)) % 2 ^ 32 = c - 1 := by omega
    have hnext : (bc.BlockInfoDB.GetBlockRecord (bc.activeHash i)).Header.PreviousHash
        = bc.activeHash (i + 1) := rfl
    have hr0 : ChainWriter.ReadBlock E bc.ChainWriter
        ⟨(bc.BlockInfoDB.GetBlockRecord (bc.activeHash i)).BlockFile,
          (bc.BlockInfoDB.GetBlockRecord (bc.activeHash i)).BlockStartOffset,
          (bc.BlockInfoDB.GetBlockRecord (bc.activeHash i)).BlockEndOffset⟩
        = some (activeBlock E bc i) := hread 0 (by omega)
    rw [getBlocksLoop, if_pos hge, if_pos hl, hr0]
    simp only
    rw [hdec, hnext, ih (c - 1) (i + 1) f _ (by omega) (by omega) (by omega) (by omega)
      (fun j hj => by
        have := hread (j + 1) (by omega)
        have he : i + 1 + j = i + (j + 1) := by omega
        rw [he]; exact this)]
    have hmap : (List.range n).map (fun j => activeBlock E bc (i + 1 + j))
        = (List.range n).map ((fun j => activeBlock E bc (i + j)) ∘ Nat.succ) := by
      apply List.map_congr_left
      intro j _
      show activeBlock E bc (i + 1 + j) = activeBlock E bc (i + (j + 1))
      rw [Nat.add_right_comm i 1 j, Nat.add_assoc]
    rw [List.range_succ_eq_map, List.map_cons, List.map_map, List.append_assoc, hmap]
    rfl

theorem getBlocksLoop_skip (E : Ext) (bc : BlockChain) (start last : Nat) (hstart : 1 ≤ start)
    (hle : start ≤ last) :
    ∀ (d c i fuel : Nat) (acc : List Block), c = last + d → c < 2 ^ 32 →
      d + (last + 1 - start) < fuel →
      (∀ j, j < last + 1 - start →
        GetBlock E bc (bc.activeHash (i + d + j)) = some (activeBlock E bc (i + d + j))) →
      getBlocksLoop E bc start last fuel c (bc.activeHash i) acc
        = some (acc ++ (List.range (last + 1 - start)).map
            (fun j => activeBlock E bc (i + d + j))) := by
  intro d
  induction d with
  | zero =>
    intro c i fuel acc hc hc32 hf hread
    exact getBlocksLoop_collect E bc start last hstart _ c i fuel acc (by omega) (by omega)
      hc32 (by omega) hread
  | succ d ih =>
    intro c i fuel acc hc hc32 hf hread
    obtain ⟨f, rfl⟩ : ∃ f, fuel = f + 1 := ⟨fuel - 1, by omega⟩
    have hge : c ≥ start := by omega
    have hnl : ¬ c ≤ last := by omega
    have hdec : (c + (2 ^ 32 - 1)) % 2 ^ 32 = c - 1 := by omega
    have hnext : (bc.BlockInfoDB.GetBlockRecord (bc.activeHash i)).Header.PreviousHash
        = bc.activeHash (i + 1) := rfl
    have he : i + 1 + d = i + (d + 1) := by omega
    rw [getBlocksLoop, if_pos hge, if_neg hnl, hdec, hnext,
      ih (c - 1) (i + 1) f acc (by omega) (by omega) (by omega)
        (fun j hj => by rw [he]; exact hread j hj)]
    rw [he]

end BlockChain

namespace BlockChain

theorem activeBlock_read (E : Ext) (g : String) (genesis : Block) (bc : BlockChain)
    (hrec : RecordsInOrder E g bc) (hall : AllStored E g genesis bc) :
    ∀ i, i < bc.Length →
      GetBlock E bc (bc.activeHash i) = some (activeBlock E bc i) ∧
      (activeBlock E bc i).Hash E = bc.activeHash i ∧
      (bc.BlockInfoDB.GetBlockRecord (bc.activeHash i)).Height = bc.Length - i := by
  intro i hi
  obtain ⟨br, h1, h2⟩ := activeHash_records E g bc hrec i hi
  obtain ⟨b, q1, q2, q3⟩ := hall.1 _ br h1
  have hget := GetBlock_of_StoredAt E bc b q3 q2
  rw [q1] at hget
  have hab : activeBlock E bc i = b := by
    simp [activeBlock, hget]
  refine ⟨by rw [hab]; exact hget, by rw [hab]; exact q1, ?_⟩
  simp [BlockInfoDatabase.GetBlockRecord, h1, h2]

theorem activeBlock_genesis (E : Ext) (g : String) (genesis : Block) (bc : BlockChain)
    (hrec : RecordsInOrder E g bc) (hall : AllStored E g genesis bc) :
    1 ≤ bc.Length ∧ bc.Length ≤ bc.BlockInfoDB.db.length ∧
      activeBlock E bc (bc.Length - 1) = genesis := by
  have hact := activeHash_records E g bc hrec
  obtain ⟨hR, ⟨tr, ht1, ht2⟩, _⟩ := hrec
  obtain ⟨t1, t2, _⟩ := hR _ tr ht1
  have hpos : 1 ≤ bc.Length := by omega
  obtain ⟨br, h1, h2⟩ := hact (bc.Length - 1) (by omega)
  have hg : bc.activeHash (bc.Length - 1) = g := by
    obtain ⟨_, _, o3⟩ := hR _ br h1
    rcases o3 with ⟨o4, _⟩ | ⟨pr, q1, q2⟩
    · exact o4
    · obtain ⟨p1, _, _⟩ := hR _ pr q1
      omega
  obtain ⟨_, _, g2, g3, g4⟩ := hall
  have hget := GetBlock_of_StoredAt E bc genesis g4 g3
  rw [g2] at hget
  refine ⟨hpos, by omega, ?_⟩
  simp [activeBlock, hg, hget]

/-- C28: GetBlocks and GetHashes on a chain whose blocks arrived in order. A
chain made by New on a fresh data directory receives a list of blocks, each
of which, when HandleBlock receives it, has a hash under which no block
record is stored yet and a parent whose block record is stored; every call
returns. Block files and undo files have different names, MaxBlockFileSize
is at most 2^31, the serialized genesis block and blocks are shorter than
2^31 bytes and unmarshalling gives them back, and there are fewer than
2^32 - 2 blocks. Then for 1 ≤ start ≤ last ≤ Length, GetBlocks(start, last)
returns (its loop ends within Length + 2 - start iterations) exactly
last - start + 1 blocks; the block at position t is the block of the active
chain, reached from LastHash after Length - (start + t) steps along
PreviousHash, whose block record has Height start + t, and it is the block
GetBlock returns for its hash; GetBlocks(1, last) starts with the genesis
block; GetHashes(start, last) returns the hashes of these blocks in the same
order. -/
theorem C28_GetBlocks_returns_heights_in_order (E : Ext) (config : Config)
    (blocks : List Block) (bc0 bc : BlockChain) (start last fuel : Nat)
    (hsep : (ChainWriter.New config.ChainWriterConfig).SeparateLogs)
    (hmax : config.ChainWriterConfig.MaxBlockFileSize ≤ 2 ^ 31)
    (hsize : ∀ bl ∈ GenesisBlock config :: blocks, (E.marshalBlock bl).length < 2 ^ 31)
    (hround : ∀ bl ∈ GenesisBlock config :: blocks, E.unmarshalBlock (E.marshalBlock bl) = bl)
    (hcount : blocks.length + 2 < 2 ^ 32)
    (h0 : New E config = some bc0)
    (hord : arrivesInOrder E bc0 blocks = true)
    (h : handleBlocks E bc0 blocks = some bc)
    (hstart : 1 ≤ start) (hle : start ≤ last) (hlast : last ≤ bc.Length)
    (hfuel : bc.Length + 1 - start < fuel) :
    ∃ bs, GetBlocks E bc fuel start last = some bs ∧
      GetHashes E bc fuel start last = some (bs.map (Block.Hash E)) ∧
      bs.length = last - start + 1 ∧
      (∀ t, t < last - start + 1 → ∃ b, bs.get? t = some b ∧
        b.Hash E = bc.activeHash (bc.Length - (start + t)) ∧
        (bc.BlockInfoDB.GetBlockRecord (b.Hash E)).Height = start + t ∧
        GetBlock E bc (b.Hash E) = some b) ∧
      (start = 1 → bs.get? 0 = some (GenesisBlock config)) := by
  have hrec0 := New_records E config bc0 h0
  have hlen0 : bc0.BlockInfoDB.db.length = 1 := by
    rw [New_eq, Option.some.injEq] at h0
    subst h0
    simp [BlockInfoDatabase.StoreBlockRecord, kvPut]
  obtain ⟨hrec, hdblen⟩ := handleBlocks_records E _ blocks bc0 bc hrec0 hord (by omega) h
  obtain ⟨a1, a2, a3, a4⟩ := New_chain_synced E config bc0 hsep hmax
    (hsize _ (List.mem_cons_self _ _)) h0
  have hall0 := New_stored E config bc0 hsep hmax (hsize _ (List.mem_cons_self _ _))
    (hround _ (List.mem_cons_self _ _)) h0
  have hall := handleBlocks_stored E _ _ blocks bc0 bc 1 hall0 a1 a2 a3 a4 (by omega)
    (fun bl hbl => hsize bl (List.mem_cons_of_mem _ hbl))
    (fun bl hbl => hround bl (List.mem_cons_of_mem _ hbl)) hord h
  have hread := activeBlock_read E _ _ bc hrec hall
  obtain ⟨hpos, hlendb, hgen⟩ := activeBlock_genesis E _ _ bc hrec hall
  have htip : bc.LastBlock.Hash E = bc.activeHash 0 := hrec.2.2.symm
  have hL32 : bc.Length < 2 ^ 32 := by omega
  have hblocks := getBlocksLoop_skip E bc start last hstart hle (bc.Length - last) bc.Length 0
    fuel [] (by omega) hL32 (by omega)
    (fun j hj => (hread (0 + (bc.Length - last) + j) (by omega)).1)
  have hhashes := getHashesLoop_skip bc start last hstart hle (bc.Length - last) bc.Length 0
    fuel [] (by omega) hL32 (by omega)
  refine ⟨((List.range (last + 1 - start)).map
    (fun j => activeBlock E bc (0 + (bc.Length - last) + j))).reverse, ?_, ?_, ?_, ?_, ?_⟩
  · unfold GetBlocks
    rw [htip, hblocks]
    rfl
  · unfold GetHashes
    rw [htip, hhashes]
    simp only [List.nil_append, reverseHashes, List.map_reverse, List.map_map,
      Option.some.injEq]
    congr 1
    apply List.map_congr_left
    intro j hj
    rw [List.mem_range] at hj
    exact (hread (0 + (bc.Length - last) + j) (by omega)).2.1.symm
  · simp only [List.length_reverse, List.length_map, List.length_range]
    omega
  · intro t ht
    have hidx : 0 + (bc.Length - last) + (last + 1 - start - 1 - t)
        = bc.Length - (start + t) := by omega
    obtain ⟨r1, r2, r3⟩ := hread (bc.Length - (start + t)) (by omega)
    refine ⟨activeBlock E bc (bc.Length - (start + t)), ?_, r2, ?_, ?_⟩
    · rw [List.get?_eq_getElem?, List.getElem?_reverse (by simp; omega)]
      simp only [List.length_map, List.length_range, List.getElem?_map]
      rw [List.getElem?_range (by omega)]
      simp only [Option.map_some']
      rw [hidx]
    · rw [r2, r3]; omega
    · rw [r2]; exact r1
  · intro h1
    have hidx : 0 + (bc.Length - last) + (last + 1 - start - 1 - 0) = bc.Length - 1 := by
      omega
    rw [List.get?_eq_getElem?, List.getElem?_reverse (by simp; omega)]
    simp only [List.length_map, List.length_range, List.getElem?_map]
    rw [List.getElem?_range (by omega)]
    simp only [Option.map_some']
    rw [hidx, hgen]

end BlockChain

namespace BlockChain

set_option maxRecDepth 1000000 in
/-- C28, witness: with block files of at most 60 bytes, the chain receives
`block1`, `block2` and `siblingBlock`, which is retained beside `block2`;
Length is 3, and GetBlocks(2, 3) returns `block1` and `block2`, read from
two block files, GetHashes(2, 3) their hashes. -/
theorem C28_GetBlocks_returns_heights_in_order_witness :
    (Sample.segmentChain [Sample.block1, Sample.block2, Sample.siblingBlock]).Length = 3 ∧
    GetBlocks Sample.ext
      (Sample.segmentChain [Sample.block1, Sample.block2, Sample.siblingBlock]) 3 2 3
      = some [Sample.block1, Sample.block2] ∧
    ∃ bs, GetBlocks Sample.ext
        (Sample.segmentChain [Sample.block1, Sample.block2, Sample.siblingBlock]) 3 2 3
        = some bs ∧
      GetHashes Sample.ext
        (Sample.segmentChain [Sample.block1, Sample.block2, Sample.siblingBlock]) 3 2 3
        = some (bs.map (Block.Hash Sample.ext)) ∧
      bs.length = 3 - 2 + 1 ∧
      (∀ t, t < 3 - 2 + 1 → ∃ b, bs.get? t = some b ∧
        b.Hash Sample.ext
          = (Sample.segmentChain [Sample.block1, Sample.block2, Sample.siblingBlock]).activeHash
            ((Sample.segmentChain [Sample.block1, Sample.block2, Sample.siblingBlock]).Length
              - (2 + t)) ∧
        (BlockInfoDatabase.GetBlockRecord
          (Sample.segmentChain [Sample.block1, Sample.block2, Sample.siblingBlock]).BlockInfoDB
          (b.Hash Sample.ext)).Height = 2 + t ∧
        GetBlock Sample.ext
          (Sample.segmentChain [Sample.block1, Sample.block2, Sample.siblingBlock])
          (b.Hash Sample.ext) = some b) ∧
      (2 = 1 → bs.get? 0 = some (GenesisBlock Sample.segmentConfig)) :=
  ⟨by decide, by decide,
    C28_GetBlocks_returns_heights_in_order Sample.ext Sample.segmentConfig
      [Sample.block1, Sample.block2, Sample.siblingBlock] (Sample.segmentChain [])
      (Sample.segmentChain [Sample.block1, Sample.block2, Sample.siblingBlock]) 2 3 3
      Sample.segmentConfig_separate (by decide) (by decide) (by decide) (by decide)
      (by decide) (by decide) (by decide) (by decide) (by decide) (by decide) (by decide)⟩

end BlockChain

namespace Sample

set_option maxRecDepth 1000000 in
/-- C28, the claim at a reachable state: after `outOfOrderBlocks` (`block2`,
`block3` and `upperBlock1` arrive before their ancestor `block1`) Length is
5 while the active chain from LastHash has seven blocks. GetBlocks(1, 1)
returns `block2`, not the genesis block, and GetBlocks(1, 5) returns
`block2`, `block3`, `upperBlock1`, `upperBlock2`, `upperBlock3`, whose block
records have the heights 3, 4, 3, 4, 5; GetHashes returns their hashes. -/
theorem C28_GetBlocks_misses_the_genesis_block :
    chainAfter outOfOrderBlocks = some (stateAfter outOfOrderBlocks) ∧
    (stateAfter outOfOrderBlocks).Length = 5 ∧
    BlockChain.GetBlocks ext (stateAfter outOfOrderBlocks) 10 1 1 = some [block2] ∧
    block2 ≠ BlockChain.GenesisBlock config ∧
    BlockChain.GetHashes ext (stateAfter outOfOrderBlocks) 10 1 1 = some [block2.Hash ext] ∧
    BlockChain.GetBlocks ext (stateAfter outOfOrderBlocks) 10 1 5
      = some [block2, block3, upperBlock1, upperBlock2, upperBlock3] ∧
    [block2, block3, upperBlock1, upperBlock2, upperBlock3].map
      (fun b => ((stateAfter outOfOrderBlocks).BlockInfoDB.GetBlockRecord (b.Hash ext)).Height)
      = [3, 4, 3, 4, 5] :=
  ⟨by decide, by decide, by decide, by decide, by decide, by decide, by decide⟩

end Sample

namespace CoinDatabase

/-! ### UndoCoins: what a pass of the loops does to a coin -/

theorem drop_cons_get {α : Type} :
    ∀ (l : List α) (j : Nat) (x : α) (xs : List α), l.drop j = x :: xs →
      l.get? j = some x ∧ l.drop (j + 1) = xs := by
  intro l
  induction l with
  | nil => intro j x xs h; simp at h
  | cons a rest ih =>
    intro j x xs h
    cases j with
    | zero =>
      simp only [List.drop_zero, List.cons.injEq] at h
      obtain ⟨h1, h2⟩ := h
      subst h1 h2
      exact ⟨rfl, rfl⟩
    | succ j =>
      simp only [List.drop_succ_cons] at h
      exact ih j x xs h

theorem indexOf_append_of_mem (e o : Nat) :
    ∀ os : List Nat, e ∈ os → indexOf (os ++ [o]) e = indexOf os e := by
  intro os
  induction os with
  | nil => intro h; simp at h
  | cons a rest ih =>
    intro h
    by_cases hae : a = e
    · simp [indexOf, hae]
    · have hr : e ∈ rest := by
        rcases List.mem_cons.1 h with h1 | h1
        · exact absurd h1.symm hae
        · exact h1
      rw [List.cons_append, indexOf, if_neg hae, ih hr]
      conv_rhs => rw [indexOf, if_neg hae]

theorem indexOf_append_self (e : Nat) :
    ∀ os : List Nat, e ∉ os → indexOf (os ++ [e]) e = (os.length : Int) := by
  intro os
  induction os with
  | nil => intro _; simp [indexOf]
  | cons a rest ih =>
    intro h
    have hae : a ≠ e := fun h1 => h (by simp [h1])
    have hr : e ∉ rest := fun h1 => h (List.mem_cons_of_mem _ h1)
    have hnn : ¬ ((rest.length : Int) < 0) := by omega
    rw [List.cons_append, indexOf, if_neg hae, ih hr, if_neg hnn, List.length_cons]
    omega

theorem coinOfRecord_append (cr : CoinRecord) (idx o a : Nat) (l : String) (coin : Coin)
    (h : coinOfRecord cr idx = some (some coin)) :
    coinOfRecord
      { cr with
        OutputIndexes := cr.OutputIndexes ++ [o]
        Amounts := cr.Amounts ++ [a]
        LockingScripts := cr.LockingScripts ++ [l] } idx = some (some coin) := by
  unfold coinOfRecord at h ⊢
  simp only at h ⊢
  by_cases hneg : indexOf cr.OutputIndexes idx < 0
  · rw [if_pos hneg] at h
    exact absurd h (by simp)
  · have hmem : idx ∈ cr.OutputIndexes := by
      by_contra hn
      exact hneg ((indexOf_neg_iff _ _).2 hn)
    rw [if_neg hneg] at h
    rw [indexOf_append_of_mem idx o _ hmem, if_neg hneg]
    cases ha : cr.Amounts.get? (indexOf cr.OutputIndexes idx).toNat with
    | none => rw [ha] at h; exact absurd h (by simp)
    | some a0 =>
      cases hl : cr.LockingScripts.get? (indexOf cr.OutputIndexes idx).toNat with
      | none => rw [ha, hl] at h; exact absurd h (by simp)
      | some l0 =>
        rw [ha, hl] at h
        have ha2 : (cr.Amounts ++ [a]).get? (indexOf cr.OutputIndexes idx).toNat = some a0 := by
          rw [List.get?_eq_getElem?] at ha ⊢
          rw [List.getElem?_append_left (by
            by_contra hge
            rw [List.getElem?_eq_none (by omega)] at ha
            exact absurd ha (by simp))]
          exact ha
        have hl2 : (cr.LockingScripts ++ [l]).get? (indexOf cr.OutputIndexes idx).toNat
            = some l0 := by
          rw [List.get?_eq_getElem?] at hl ⊢
          rw [List.getElem?_append_left (by
            by_contra hge
            rw [List.getElem?_eq_none (by omega)] at hl
            exact absurd hl (by simp))]
          exact hl
        rw [ha2, hl2]
        exact h

theorem coinOfRecord_append_new (cr : CoinRecord) (idx a : Nat) (l : String)
    (h1 : cr.Amounts.length = cr.OutputIndexes.length)
    (h2 : cr.LockingScripts.length = cr.OutputIndexes.length)
    (h3 : idx ∉ cr.OutputIndexes) :
    coinOfRecord
      { cr with
        OutputIndexes := cr.OutputIndexes ++ [idx]
        Amounts := cr.Amounts ++ [a]
        LockingScripts := cr.LockingScripts ++ [l] } idx = some (some ⟨⟨a, l⟩, false⟩) := by
  unfold coinOfRecord
  simp only
  have hnn : ¬ ((cr.OutputIndexes.length : Int) < 0) := by omega
  rw [indexOf_append_self idx _ h3, if_neg hnn]
  have ha : (cr.Amounts ++ [a]).get? ((cr.OutputIndexes.length : Int)).toNat = some a := by
    rw [Int.toNat_ofNat, ← h1, List.get?_eq_getElem?]
    simp
  have hl : (cr.LockingScripts ++ [l]).get? ((cr.OutputIndexes.length : Int)).toNat
      = some l := by
    rw [Int.toNat_ofNat, ← h2, List.get?_eq_getElem?]
    simp
  rw [ha, hl]

end CoinDatabase

namespace CoinDatabase

theorem undoInput_cache_of_ne (ub : UndoBlock) (c : CoinDatabase) (cl0 cl : CoinLocator)
    (out0 : TransactionOutput) (hne : cl0 ≠ cl) :
    kvGet (undoInput ub c cl0 out0).mainCache cl = kvGet c.mainCache cl := by
  unfold undoInput putRecordInDB
  cases h : kvGet c.mainCache cl0 with
  | none => rfl
  | some coin =>
    simp only
    exact kvGet_kvPut_of_ne _ _ hne

theorem undoInput_cache_self (ub : UndoBlock) (c : CoinDatabase) (cl0 : CoinLocator)
    (out0 : TransactionOutput) :
    kvGet (undoInput ub c cl0 out0).mainCache cl0
      = (kvGet c.mainCache cl0).map (fun coin => { coin with IsSpent := false }) := by
  unfold undoInput putRecordInDB
  cases h : kvGet c.mainCache cl0 with
  | none => simp only [Option.map_none']; exact h
  | some coin =>
    simp only [Option.map_some']
    exact kvGet_kvPut_self _ _ _

theorem undoInput_db_of_ne (ub : UndoBlock) (c : CoinDatabase) (cl0 : CoinLocator)
    (out0 : TransactionOutput) (h : String) (hne : cl0.ReferenceTransactionHash ≠ h) :
    kvGet (undoInput ub c cl0 out0).db h = kvGet c.db h := by
  unfold undoInput putRecordInDB
  cases hc : kvGet c.mainCache cl0 with
  | none => exact kvGet_kvPut_of_ne _ _ hne
  | some coin => exact kvGet_kvPut_of_ne _ _ hne

theorem undoInput_db_self (ub : UndoBlock) (c : CoinDatabase) (cl0 : CoinLocator)
    (out0 : TransactionOutput) (r : CoinRecord)
    (hr : kvGet c.db cl0.ReferenceTransactionHash = some r) :
    kvGet (undoInput ub c cl0 out0).db cl0.ReferenceTransactionHash
      = some { r with
          OutputIndexes := r.OutputIndexes ++ [cl0.OutputIndex]
          Amounts := r.Amounts ++ [out0.Amount]
          LockingScripts := r.LockingScripts ++ [out0.LockingScript] } := by
  unfold undoInput putRecordInDB
  rw [hr]
  cases hc : kvGet c.mainCache cl0 with
  | none => exact kvGet_kvPut_self _ _ _
  | some coin => exact kvGet_kvPut_self _ _ _

theorem GetCoin_of_lookups (c c2 : CoinDatabase) (cl : CoinLocator)
    (h1 : kvGet c2.mainCache cl = kvGet c.mainCache cl)
    (h2 : kvGet c2.db cl.ReferenceTransactionHash = kvGet c.db cl.ReferenceTransactionHash) :
    GetCoin c2 cl = GetCoin c cl := by
  rw [GetCoin_eq, GetCoin_eq, h1, h2]

theorem restorable_of_lookups (c c2 : CoinDatabase) (cl : CoinLocator) (out : TransactionOutput)
    (h1 : kvGet c2.mainCache cl = kvGet c.mainCache cl)
    (h2 : kvGet c2.db cl.ReferenceTransactionHash = kvGet c.db cl.ReferenceTransactionHash) :
    c2.restorable cl out = c.restorable cl out := by
  unfold restorable
  rw [h1, h2]

/-- A pass of the loop keeps every restored coin. -/
theorem undoInput_keeps (ub : UndoBlock) (c : CoinDatabase) (cl0 cl : CoinLocator)
    (out0 out : TransactionOutput) (h : GetCoin c cl = some (some ⟨out, false⟩)) :
    GetCoin (undoInput ub c cl0 out0) cl = some (some ⟨out, false⟩) := by
  rw [GetCoin_eq] at h ⊢
  by_cases hcl : cl0 = cl
  · subst hcl
    rw [undoInput_cache_self]
    cases hc : kvGet c.mainCache cl0 with
    | some coin =>
      rw [hc] at h
      simp only [Option.some.injEq] at h
      subst h
      rfl
    | none =>
      rw [hc] at h
      simp only [Option.map_none'] at h ⊢
      cases hr : kvGet c.db cl0.ReferenceTransactionHash with
      | none => rw [hr] at h; exact absurd h (by simp)
      | some r =>
        rw [hr] at h
        simp only at h
        rw [undoInput_db_self ub c cl0 out0 r hr]
        exact coinOfRecord_append r _ _ _ _ _ h
  · rw [undoInput_cache_of_ne ub c cl0 cl out0 hcl]
    cases hc : kvGet c.mainCache cl with
    | some coin => rw [hc] at h; exact h
    | none =>
      rw [hc] at h
      simp only at h ⊢
      by_cases hh : cl0.ReferenceTransactionHash = cl.ReferenceTransactionHash
      · cases hr : kvGet c.db cl.ReferenceTransactionHash with
        | none => rw [hr] at h; exact absurd h (by simp)
        | some r =>
          rw [hr] at h
          simp only at h
          rw [← hh] at hr ⊢
          rw [undoInput_db_self ub c cl0 out0 r hr]
          exact coinOfRecord_append r _ _ _ _ _ h
      · rw [undoInput_db_of_ne ub c cl0 out0 _ hh]
        exact h

/-- A pass of the loop for another coin keeps a coin restorable. -/
theorem undoInput_restorable (ub : UndoBlock) (c : CoinDatabase) (cl0 cl : CoinLocator)
    (out0 out : TransactionOutput) (hne : cl0 ≠ cl) (h : c.restorable cl out = true) :
    (undoInput ub c cl0 out0).restorable cl out = true := by
  have hcache := undoInput_cache_of_ne ub c cl0 cl out0 hne
  by_cases hh : cl0.ReferenceTransactionHash = cl.ReferenceTransactionHash
  · unfold restorable at h ⊢
    rw [hcache]
    cases hc : kvGet c.mainCache cl with
    | some coin => rw [hc] at h; exact h
    | none =>
      rw [hc] at h
      simp only at h ⊢
      cases hr : kvGet c.db cl.ReferenceTransactionHash with
      | none => rw [hr] at h; exact absurd h (by simp)
      | some r =>
        rw [hr] at h
        simp only [Bool.or_eq_true, decide_eq_true_eq] at h
        have hidx : cl0.OutputIndex ≠ cl.OutputIndex := by
          intro hi
          apply hne
          cases cl0
          cases cl
          simp only at hh hi
          rw [hh, hi]
        rw [← hh] at hr ⊢
        rw [undoInput_db_self ub c cl0 out0 r hr]
        simp only [Bool.or_eq_true, decide_eq_true_eq]
        rcases h with ⟨a1, a2, a3⟩ | h
        · refine Or.inl ⟨by simp [a1], by simp [a2], ?_⟩
          intro hm
          rcases List.mem_append.1 hm with hm | hm
          · exact a3 hm
          · exact hidx (List.mem_singleton.1 hm).symm
        · exact Or.inr (coinOfRecord_append r _ _ _ _ _ h)
  · rw [restorable_of_lookups c _ cl out hcache (undoInput_db_of_ne ub c cl0 out0 _ hh)]
    exact h

/-- The pass of the loop for a restorable coin restores it. -/
theorem undoInput_restores (ub : UndoBlock) (c : CoinDatabase) (cl0 : CoinLocator)
    (out0 : TransactionOutput) (h : c.restorable cl0 out0 = true) :
    GetCoin (undoInput ub c cl0 out0) cl0 = some (some ⟨out0, false⟩) := by
  unfold restorable at h
  rw [GetCoin_eq, undoInput_cache_self]
  cases hc : kvGet c.mainCache cl0 with
  | some coin =>
    rw [hc] at h
    simp only [decide_eq_true_eq] at h
    simp only [Option.map_some']
    rw [← h]
  | none =>
    rw [hc] at h
    simp only at h
    simp only [Option.map_none']
    cases hr : kvGet c.db cl0.ReferenceTransactionHash with
    | none => rw [hr] at h; exact absurd h (by simp)
    | some r =>
      rw [hr] at h
      simp only [Bool.or_eq_true, decide_eq_true_eq] at h
      rw [undoInput_db_self ub c cl0 out0 r hr]
      rcases h with ⟨a1, a2, a3⟩ | h
      · exact coinOfRecord_append_new r _ _ _ a1 a2 a3
      · exact coinOfRecord_append r _ _ _ _ _ h

end CoinDatabase

namespace CoinDatabase

/-! ### UndoCoins: the loops -/

theorem undoInputs_cons (ub : UndoBlock) (c : CoinDatabase) (j : Nat) (h : String)
    (rest : List String) (o a : Nat) (l : String)
    (ho : ub.OutputIndexes.get? j = some o) (ha : ub.Amounts.get? j = some a)
    (hl : ub.LockingScripts.get? j = some l) :
    undoInputs ub c j (h :: rest) = undoInputs ub (undoInput ub c ⟨h, o⟩ ⟨a, l⟩) (j + 1) rest := by
  rw [undoInputs, ho]
  simp only
  cases hc : kvGet c.mainCache ⟨h, o⟩ with
  | none =>
    simp only [getCoinRecordFromDB]
    cases hr : kvGet c.db h with
    | none =>
      simp only [undoInput, hc, hr]
    | some r =>
      simp only [addCoinToRecord, ho, ha, hl, undoInput, hc, hr]
  | some coin =>
    simp only [getCoinRecordFromDB]
    cases hr : kvGet c.db h with
    | none =>
      simp only [undoInput, hc, hr]
    | some r =>
      simp only [addCoinToRecord, ho, ha, hl, undoInput, hc, hr]

theorem mem_zipWith_locator :
    ∀ (hs : List String) (os : List Nat) (cl : CoinLocator),
      cl ∈ List.zipWith CoinLocator.mk hs os → cl.ReferenceTransactionHash ∈ hs := by
  intro hs
  induction hs with
  | nil => intro os cl h; simp at h
  | cons x xs ih =>
    intro os cl h
    cases os with
    | nil => simp at h
    | cons y ys =>
      simp only [List.zipWith_cons_cons, List.mem_cons] at h
      rcases h with h | h
      · subst h; exact List.mem_cons_self _ _
      · exact List.mem_cons_of_mem _ (ih ys cl h)

theorem mem_zip_fst {α β : Type} :
    ∀ (xs : List α) (ys : List β) (e : α × β), e ∈ List.zip xs ys → e.1 ∈ xs := by
  intro xs
  induction xs with
  | nil => intro ys e h; simp at h
  | cons x xs ih =>
    intro ys e h
    cases ys with
    | nil => simp at h
    | cons y ys =>
      simp only [List.zip_cons_cons, List.mem_cons] at h
      rcases h with h | h
      · subst h; exact List.mem_cons_self _ _
      · exact List.mem_cons_of_mem _ (ih ys e h)

theorem undoInputs_run (ub : UndoBlock) :
    ∀ (hs : List String) (os as : List Nat) (ls : List String) (j : Nat) (c : CoinDatabase),
      ub.TransactionInputHashes.drop j = hs → ub.OutputIndexes.drop j = os →
      ub.Amounts.drop j = as → ub.LockingScripts.drop j = ls →
      os.length = hs.length → as.length = hs.length → ls.length = hs.length →
      ∃ c2, undoInputs ub c j hs = some c2 ∧
        (∀ cl out, GetCoin c cl = some (some ⟨out, false⟩) →
          GetCoin c2 cl = some (some ⟨out, false⟩)) ∧
        (∀ cl out, c.restorable cl out = true → cl ∉ List.zipWith CoinLocator.mk hs os →
          c2.restorable cl out = true) ∧
        ((List.zipWith CoinLocator.mk hs os).Nodup →
          ∀ e ∈ List.zip (List.zipWith CoinLocator.mk hs os)
              (List.zipWith TransactionOutput.mk as ls),
            c.restorable e.1 e.2 = true → GetCoin c2 e.1 = some (some ⟨e.2, false⟩)) := by
  intro hs
  induction hs with
  | nil =>
    intro os as ls j c _ _ _ _ _ _ _
    refine ⟨c, rfl, fun _ _ h => h, fun _ _ h _ => h, ?_⟩
    intro _ e he
    simp at he
  | cons h rest ih =>
    intro os as ls j c e1 e2 e3 e4 l1 l2 l3
    cases os with
    | nil => simp at l1
    | cons o os =>
      cases as with
      | nil => simp at l2
      | cons a as =>
        cases ls with
        | nil => simp at l3
        | cons l ls =>
          obtain ⟨_, d1⟩ := drop_cons_get _ _ _ _ e1
          obtain ⟨g2, d2⟩ := drop_cons_get _ _ _ _ e2
          obtain ⟨g3, d3⟩ := drop_cons_get _ _ _ _ e3
          obtain ⟨g4, d4⟩ := drop_cons_get _ _ _ _ e4
          simp only [List.length_cons, Nat.add_right_cancel_iff] at l1 l2 l3
          obtain ⟨c2, r1, r2, r3, r4⟩ := ih os as ls (j + 1)
            (undoInput ub c ⟨h, o⟩ ⟨a, l⟩) d1 d2 d3 d4 l1 l2 l3
          refine ⟨c2, ?_, ?_, ?_, ?_⟩
          · rw [undoInputs_cons ub c j h rest o a l g2 g3 g4]
            exact r1
          · intro cl out hget
            exact r2 cl out (undoInput_keeps ub c _ cl _ out hget)
          · intro cl out hres hnot
            simp only [List.zipWith_cons_cons, List.mem_cons, not_or] at hnot
            exact r3 cl out (undoInput_restorable ub c _ cl _ out (fun he => hnot.1 he.symm) hres)
              hnot.2
          · intro hnd e he hres
            simp only [List.zipWith_cons_cons, List.nodup_cons] at hnd
            simp only [List.zipWith_cons_cons, List.zip_cons_cons, List.mem_cons] at he
            rcases he with he | he
            · subst he
              exact r2 _ _ (undoInput_restores ub c _ _ hres)
            · have hmem := mem_zip_fst _ _ e he
              have hne : (⟨h, o⟩ : CoinLocator) ≠ e.1 := by
                intro heq
                rw [← heq] at hmem
                exact hnd.1 hmem
              exact r4 hnd.2 e he (undoInput_restorable ub c _ e.1 _ e.2 hne hres)

theorem undoOutputs_frame (txHash : String) :
    ∀ (k j : Nat) (c : CoinDatabase),
      (undoOutputs txHash c j k).db = c.db ∧
      ∀ cl : CoinLocator, cl.ReferenceTransactionHash ≠ txHash →
        kvGet (undoOutputs txHash c j k).mainCache cl = kvGet c.mainCache cl := by
  intro k
  induction k with
  | zero => intro j c; exact ⟨rfl, fun _ _ => rfl⟩
  | succ k ih =>
    intro j c
    rw [undoOutputs]
    obtain ⟨i1, i2⟩ := ih (j + 1)
      { c with
        mainCache := kvDelete c.mainCache ⟨txHash, j⟩
        mainCacheSize := (c.mainCacheSize + (2 ^ 32 - 1)) % 2 ^ 32 }
    refine ⟨i1, ?_⟩
    intro cl hne
    rw [i2 cl hne]
    apply kvGet_kvDelete_of_ne
    intro he
    apply hne
    rw [← he]

theorem undoTransactions_frame (E : Ext) (cl : CoinLocator) :
    ∀ (txs : List Transaction) (c : CoinDatabase),
      (∀ tx ∈ txs, tx.Hash E ≠ cl.ReferenceTransactionHash) →
      kvGet (undoTransactions E c txs).mainCache cl = kvGet c.mainCache cl ∧
      kvGet (undoTransactions E c txs).db cl.ReferenceTransactionHash
        = kvGet c.db cl.ReferenceTransactionHash := by
  intro txs
  induction txs with
  | nil => intro c _; exact ⟨rfl, rfl⟩
  | cons tx rest ih =>
    intro c hne
    have h1 : tx.Hash E ≠ cl.ReferenceTransactionHash := hne tx (List.mem_cons_self _ _)
    obtain ⟨o1, o2⟩ := undoOutputs_frame (tx.Hash E) tx.Outputs.length 0 c
    rw [undoTransactions]
    obtain ⟨i1, i2⟩ := ih
      { undoOutputs (tx.Hash E) c 0 tx.Outputs.length with
        db := kvDelete (undoOutputs (tx.Hash E) c 0 tx.Outputs.length).db (tx.Hash E) }
      (fun t ht => hne t (List.mem_cons_of_mem _ ht))
    rw [i1, i2]
    refine ⟨o2 cl (fun he => h1 he.symm), ?_⟩
    show kvGet (kvDelete (undoOutputs (tx.Hash E) c 0 tx.Outputs.length).db (tx.Hash E))
      cl.ReferenceTransactionHash = _
    rw [kvGet_kvDelete_of_ne _ h1, o1]

theorem UndoCoins_run (E : Ext) :
    ∀ (blocks : List Block) (undoBlocks : List UndoBlock) (c : CoinDatabase),
      undoBlocks.length = blocks.length →
      (∀ ub ∈ undoBlocks, ub.OutputIndexes.length = ub.TransactionInputHashes.length ∧
        ub.Amounts.length = ub.TransactionInputHashes.length ∧
        ub.LockingScripts.length = ub.TransactionInputHashes.length) →
      (undoBlocks.flatMap UndoBlock.locators).Nodup →
      (∀ ub ∈ undoBlocks, ∀ h ∈ ub.TransactionInputHashes, ∀ b ∈ blocks,
        ∀ tx ∈ b.Transactions, tx.Hash E ≠ h) →
      ∃ c2, UndoCoins E c blocks undoBlocks = some c2 ∧
        (∀ cl out, (∀ b ∈ blocks, ∀ tx ∈ b.Transactions,
            tx.Hash E ≠ cl.ReferenceTransactionHash) →
          GetCoin c cl = some (some ⟨out, false⟩) → GetCoin c2 cl = some (some ⟨out, false⟩)) ∧
        (∀ ub ∈ undoBlocks, ∀ e ∈ ub.entries, c.restorable e.1 e.2 = true →
          GetCoin c2 e.1 = some (some ⟨e.2, false⟩)) := by
  intro blocks
  induction blocks with
  | nil =>
    intro undoBlocks c hlen _ _ _
    have hnil : undoBlocks = [] := List.length_eq_zero.1 hlen
    subst hnil
    refine ⟨c, rfl, fun _ _ _ h => h, ?_⟩
    intro ub hub
    simp at hub
  | cons b bs ih =>
    intro undoBlocks c hlen hal hnd hother
    cases undoBlocks with
    | nil => simp at hlen
    | cons ub ubs =>
      simp only [List.length_cons, Nat.add_right_cancel_iff] at hlen
      obtain ⟨a1, a2, a3⟩ := hal ub (List.mem_cons_self _ _)
      rw [List.flatMap_cons, List.nodup_append] at hnd
      obtain ⟨n1, n2, n3⟩ := hnd
      obtain ⟨c2, r1, r2, r3, r4⟩ := undoInputs_run ub ub.TransactionInputHashes
        ub.OutputIndexes ub.Amounts ub.LockingScripts 0 (undoTransactions E c b.Transactions)
        rfl rfl rfl rfl a1 a2 a3
      obtain ⟨c3, s1, s2, s3⟩ := ih ubs c2 hlen
        (fun u hu => hal u (List.mem_cons_of_mem _ hu)) n2
        (fun u hu h hh b2 hb2 tx htx =>
          hother u (List.mem_cons_of_mem _ hu) h hh b2 (List.mem_cons_of_mem _ hb2) tx htx)
      have hframe : ∀ cl : CoinLocator,
          (∀ tx ∈ b.Transactions, tx.Hash E ≠ cl.ReferenceTransactionHash) →
          GetCoin (undoTransactions E c b.Transactions) cl = GetCoin c cl ∧
          ∀ out, (undoTransactions E c b.Transactions).restorable cl out
            = c.restorable cl out := by
        intro cl hcl
        obtain ⟨f1, f2⟩ := undoTransactions_frame E cl b.Transactions c hcl
        exact ⟨GetCoin_of_lookups c _ cl f1 f2,
          fun out => restorable_of_lookups c _ cl out f1 f2⟩
      have hhash : ∀ u ∈ ub :: ubs, ∀ e ∈ u.entries, ∀ b2 ∈ b :: bs, ∀ tx ∈ b2.Transactions,
          tx.Hash E ≠ e.1.ReferenceTransactionHash := by
        intro u hu e he b2 hb2 tx htx
        exact hother u hu _ (mem_zipWith_locator _ _ _ (mem_zip_fst _ _ e he)) b2 hb2 tx htx
      refine ⟨c3, ?_, ?_, ?_⟩
      · rw [UndoCoins]
        simp only [r1]
        exact s1
      · intro cl out hcl hget
        apply s2 cl out (fun b2 hb2 tx htx => hcl b2 (List.mem_cons_of_mem _ hb2) tx htx)
        apply r2
        rw [(hframe cl (fun tx htx => hcl b (List.mem_cons_self _ _) tx htx)).1]
        exact hget
      · intro u hu e he hres
        have hb := hhash u hu e he
        have hres1 : (undoTransactions E c b.Transactions).restorable e.1 e.2 = true := by
          rw [(hframe e.1 (fun tx htx => hb b (List.mem_cons_self _ _) tx htx)).2 e.2]
          exact hres
        rcases List.mem_cons.1 hu with hu1 | hu1
        · subst hu1
          apply s2 e.1 e.2 (fun b2 hb2 tx htx => hb b2 (List.mem_cons_of_mem _ hb2) tx htx)
          exact r4 n1 e he hres1
        · apply s3 u hu1 e he
          apply r3 e.1 e.2 hres1
          intro hin
          have hin2 : e.1 ∈ ubs.flatMap UndoBlock.locators :=
            List.mem_flatMap.2 ⟨u, hu1, mem_zip_fst _ _ e he⟩
          exact n3 hin hin2

end CoinDatabase

namespace CoinDatabase

theorem entries_get :
    ∀ (hs : List String) (os as : List Nat) (ls : List String) (j : Nat),
      os.length = hs.length → as.length = hs.length → ls.length = hs.length → j < hs.length →
      ∃ h o a l, hs.get? j = some h ∧ os.get? j = some o ∧ as.get? j = some a ∧
        ls.get? j = some l ∧
        ((⟨h, o⟩, ⟨a, l⟩) : CoinLocator × TransactionOutput) ∈
          List.zip (List.zipWith CoinLocator.mk hs os) (List.zipWith TransactionOutput.mk as ls) := by
  intro hs
  induction hs with
  | nil => intro os as ls j _ _ _ hj; simp at hj
  | cons h rest ih =>
    intro os as ls j l1 l2 l3 hj
    cases os with
    | nil => simp at l1
    | cons o os =>
      cases as with
      | nil => simp at l2
      | cons a as =>
        cases ls with
        | nil => simp at l3
        | cons l ls =>
          simp only [List.length_cons, Nat.add_right_cancel_iff] at l1 l2 l3
          cases j with
          | zero =>
            exact ⟨h, o, a, l, rfl, rfl, rfl, rfl, List.mem_cons_self _ _⟩
          | succ j =>
            obtain ⟨h2, o2, a2, l2, q1, q2, q3, q4, q5⟩ := ih os as ls j l1 l2 l3
              (by simpa using hj)
            exact ⟨h2, o2, a2, l2, q1, q2, q3, q4, List.mem_cons_of_mem _ q5⟩

/-- C22: UndoCoins re-establishes the spent inputs. The lists of blocks and
of undo blocks have the same length and the four vectors of every undo
block are aligned; no two positions of the undo blocks name the same coin;
no transaction of the blocks has the hash of a restored coin (no undone
block created a coin that another undone block spent); and the database
accounts for every coin to restore: mainCache holds it with the amount and
locking script of its position, spent or not, whether or not a coin record
of its transaction exists, or mainCache does not hold it and its coin
record exists, with aligned vectors that do not list it or listing it with
that amount and locking script. Then UndoCoins returns and, for every
position j of every undo block, GetCoin of the locator
(TransactionInputHashes[j], OutputIndexes[j]) returns a coin with
IsSpent = false, amount Amounts[j] and locking script LockingScripts[j],
also when the undo block restores coins of several transactions. -/
theorem C22_UndoCoins_restores_spent_inputs (E : Ext) (c : CoinDatabase)
    (blocks : List Block) (undoBlocks : List UndoBlock)
    (hlen : undoBlocks.length = blocks.length)
    (haligned : ∀ ub ∈ undoBlocks,
      ub.OutputIndexes.length = ub.TransactionInputHashes.length ∧
      ub.Amounts.length = ub.TransactionInputHashes.length ∧
      ub.LockingScripts.length = ub.TransactionInputHashes.length)
    (hdistinct : (undoBlocks.flatMap UndoBlock.locators).Nodup)
    (hother : ∀ ub ∈ undoBlocks, ∀ h ∈ ub.TransactionInputHashes, ∀ b ∈ blocks,
      ∀ tx ∈ b.Transactions, tx.Hash E ≠ h)
    (hpre : ∀ ub ∈ undoBlocks, ∀ e ∈ ub.entries, c.restorable e.1 e.2 = true) :
    ∃ c2, UndoCoins E c blocks undoBlocks = some c2 ∧
      ∀ ub ∈ undoBlocks, ∀ j, j < ub.TransactionInputHashes.length →
        ∃ h o a l, ub.TransactionInputHashes.get? j = some h ∧
          ub.OutputIndexes.get? j = some o ∧ ub.Amounts.get? j = some a ∧
          ub.LockingScripts.get? j = some l ∧
          GetCoin c2 ⟨h, o⟩ = some (some ⟨⟨a, l⟩, false⟩) := by
  obtain ⟨c2, r1, _, r3⟩ := UndoCoins_run E blocks undoBlocks c hlen haligned hdistinct hother
  refine ⟨c2, r1, ?_⟩
  intro ub hub j hj
  obtain ⟨a1, a2, a3⟩ := haligned ub hub
  obtain ⟨h, o, a, l, q1, q2, q3, q4, q5⟩ := entries_get ub.TransactionInputHashes
    ub.OutputIndexes ub.Amounts ub.LockingScripts j a1 a2 a3 hj
  exact ⟨h, o, a, l, q1, q2, q3, q4, r3 ub hub _ q5 (hpre ub hub _ q5)⟩

set_option maxRecDepth 1000000 in
/-- C22, witness: the store holds a record of output 1 of "hA" and
mainCache the spent coin 0 of "hB", which has no record; UndoCoins of one
coinbase block with an undo block restoring outputs 0 and 2 of "hA" and
output 0 of "hB" returns, and GetCoin gives the three coins back unspent
with the amounts 3, 5, 9 and the locking scripts of their positions. -/
theorem C22_UndoCoins_restores_spent_inputs_witness :
    ∃ c2, UndoCoins Sample.ext Sample.partialDB [Sample.loneBlock] [Sample.mixedUndo]
        = some c2 ∧
      GetCoin c2 ⟨"hA", 0⟩ = some (some ⟨⟨3, "P"⟩, false⟩) ∧
      GetCoin c2 ⟨"hB", 0⟩ = some (some ⟨⟨5, "Y"⟩, false⟩) ∧
      GetCoin c2 ⟨"hA", 2⟩ = some (some ⟨⟨9, "Q"⟩, false⟩) := by
  obtain ⟨c2, h1, h2⟩ := C22_UndoCoins_restores_spent_inputs Sample.ext Sample.partialDB
    [Sample.loneBlock] [Sample.mixedUndo] (by decide) (by decide) (by decide) (by decide)
    (by decide)
  refine ⟨c2, h1, ?_, ?_, ?_⟩
  · obtain ⟨h, o, a, l, q1, q2, q3, q4, q5⟩ := h2 Sample.mixedUndo (List.mem_singleton.2 rfl) 0
      (by decide)
    simp only [Sample.mixedUndo, List.get?_cons_zero, Option.some.injEq] at q1 q2 q3 q4
    subst q1 q2 q3 q4
    exact q5
  · obtain ⟨h, o, a, l, q1, q2, q3, q4, q5⟩ := h2 Sample.mixedUndo (List.mem_singleton.2 rfl) 1
      (by decide)
    simp only [Sample.mixedUndo, List.get?_cons_succ, List.get?_cons_zero,
      Option.some.injEq] at q1 q2 q3 q4
    subst q1 q2 q3 q4
    exact q5
  · obtain ⟨h, o, a, l, q1, q2, q3, q4, q5⟩ := h2 Sample.mixedUndo (List.mem_singleton.2 rfl) 2
      (by decide)
    simp only [Sample.mixedUndo, List.get?_cons_succ, List.get?_cons_zero,
      Option.some.injEq] at q1 q2 q3 q4
    subst q1 q2 q3 q4
    exact q5

end CoinDatabase

namespace Sample

set_option maxRecDepth 1000000 in
/-- C22, the claim at a reachable state: after StoreBlock of the genesis
transaction, of `tx1` and of `tx2`, UndoCoins undoes `block2` and `block1`
with their aligned undo blocks, as a reorganization of two blocks does.
The undo block of `block2` restores the coin of `tx1`, of amount 50 for
"PK1"; `block1`, which created that coin, is undone next and its coins are
erased: GetCoin of that locator returns nil. -/
theorem C22_coin_of_an_undone_block_stays_erased :
    storeBlocks (CoinDatabase.New 100) [[genesisTx], [tx1], [tx2]] = some twoSpendsDB ∧
    [undo2, undo1].length = [block2, block1].length ∧
    (∀ ub ∈ [undo2, undo1],
      ub.OutputIndexes.length = ub.TransactionInputHashes.length ∧
      ub.Amounts.length = ub.TransactionInputHashes.length ∧
      ub.LockingScripts.length = ub.TransactionInputHashes.length) ∧
    undo2.TransactionInputHashes.get? 0 = some (txHash tx1) ∧
    undo2.OutputIndexes.get? 0 = some 0 ∧
    undo2.Amounts.get? 0 = some 50 ∧
    undo2.LockingScripts.get? 0 = some "PK1" ∧
    (CoinDatabase.UndoCoins ext twoSpendsDB [block2, block1] [undo2, undo1]).map
      (fun c => CoinDatabase.GetCoin c ⟨txHash tx1, 0⟩) = some (some none) :=
  ⟨by decide, by decide, by decide, by decide, by decide, by decide, by decide, by decide⟩

set_option maxRecDepth 1000000 in
/-- UndoCoins on the empty database of capacity 100, one coinbase block and
an undo block restoring output 0 of "hA" (3 for "P") and output 0 of "hB"
(5 for "Y"): neither coin has a record, so each record is made of all the
positions of the undo block, and GetCoin of output 0 of "hB" returns the
amount 3 for "P". -/
theorem UndoCoins_new_record_takes_every_position :
    (CoinDatabase.UndoCoins ext (CoinDatabase.New 100) [loneBlock]
        [⟨["hA", "hB"], [0, 0], [3, 5], ["P", "Y"]⟩]).map
      (fun c => (kvGet c.db "hB", CoinDatabase.GetCoin c ⟨"hB", 0⟩))
      = some (some ⟨0, [0, 0], [3, 5], ["P", "Y"]⟩, some (some ⟨⟨3, "P"⟩, false⟩)) := by
  decide

end Sample

/-! ## Validation of blocks -/

theorem sumOutputsLoop_eq :
    ∀ (outs : List TransactionOutput) (r : Nat),
      Transaction.sumOutputsLoop outs (r % 2 ^ 32)
        = (r + (outs.map (fun o => o.Amount)).sum) % 2 ^ 32 := by
  intro outs
  induction outs with
  | nil => intro r; simp [Transaction.sumOutputsLoop]
  | cons v rest ih =>
    intro r
    rw [Transaction.sumOutputsLoop, ih (r % 2 ^ 32 + v.Amount), List.map_cons, List.sum_cons]
    omega

theorem SumOutputs_eq (tx : Transaction) :
    tx.SumOutputs = (tx.Outputs.map (fun o => o.Amount)).sum % 2 ^ 32 := by
  have h := sumOutputsLoop_eq tx.Outputs 0
  rw [Nat.zero_mod, Nat.zero_add] at h
  exact h

/-- C31: CheckBlockSyntax. For every block b, CheckBlockSyntax(b) is true
if and only if b has at least one transaction, its first transaction has no
inputs (is a coinbase), and the sum of that transaction's output amounts
taken modulo 2^32, which is what the uint32 sum of SumOutputs holds, is
greater than 0. -/
theorem C31_CheckBlockSyntax_iff (b : Block) :
    CheckBlockSyntax b = true ↔
      ∃ tx rest, b.Transactions = tx :: rest ∧ tx.Inputs = [] ∧
        0 < (tx.Outputs.map (fun o => o.Amount)).sum % 2 ^ 32 := by
  unfold CheckBlockSyntax
  cases hb : b.Transactions with
  | nil => simp
  | cons tx rest =>
    simp only [Bool.and_eq_true, decide_eq_true_eq, Transaction.IsCoinbase, beq_iff_eq,
      List.length_eq_zero, SumOutputs_eq, List.cons.injEq]
    constructor
    · intro h
      exact ⟨tx, rest, ⟨rfl, rfl⟩, h.1, h.2⟩
    · rintro ⟨tx2, rest2, ⟨h1, _⟩, h2, h3⟩
      subst h1
      exact ⟨h2, h3⟩

namespace Sample

set_option maxRecDepth 1000000 in
/-- C31, the claim on a block whose amounts wrap: `wrapBlock` has one
transaction, without inputs, whose two outputs of 2^31 sum to 2^32, which
is greater than 0; SumOutputs returns 0 and CheckBlockSyntax is false. -/
theorem C31_wrapped_sum_fails_the_syntax_check :
    wrapBlock.Transactions = [⟨0, [], [⟨2147483648, "PK"⟩, ⟨2147483648, "PK"⟩], 0⟩] ∧
    (([⟨2147483648, "PK"⟩, ⟨2147483648, "PK"⟩] : List TransactionOutput).map
      (fun o => o.Amount)).sum = 4294967296 ∧
    Transaction.SumOutputs ⟨0, [], [⟨2147483648, "PK"⟩, ⟨2147483648, "PK"⟩], 0⟩ = 0 ∧
    CheckBlockSyntax wrapBlock = false :=
  ⟨rfl, by decide, by decide, by decide⟩

set_option maxRecDepth 1000000 in
/-- C32: CheckBlockSemantics returns true for every block, whatever its hash
and its difficulty target. No hash is less than the empty difficulty target,
and the hash of `targetBlock` is not less than its difficulty target "00ff":
CheckBlockSemantics returns true for these blocks too. -/
theorem C32_semantics_check_is_always_true :
    (∀ b : Block, CheckBlockSemantics b = true) ∧
    (∀ (E : Ext) (b : Block),
      hashBelowTarget E { b with Header := { b.Header with DifficultyTarget := "" } } = false ∧
      CheckBlockSemantics { b with Header := { b.Header with DifficultyTarget := "" } }
        = true) ∧
    targetBlock.Header.DifficultyTarget = "00ff" ∧
    targetBlock.Hash ext = "h9^h0^" ∧
    hashBelowTarget ext targetBlock = false ∧
    CheckBlockSemantics targetBlock = true :=
  ⟨fun _ => rfl, fun _ _ => ⟨by simp [hashBelowTarget, bytesLess], rfl⟩, rfl, by decide,
    by decide, rfl⟩

set_option maxRecDepth 1000000 in
/-- C33: Node.CheckBlock is CoinDB.ValidateBlock alone. On the chain made by
New it accepts `emptyBlock`, which has no transaction, `block1`, whose first
transaction spends a coin, and `minedBlock`, whose second transaction does
not pass CheckTransactionSemantics: CheckBlockSyntax is false for the first
two. -/
theorem C33_CheckBlock_accepts_invalid_blocks :
    (∀ (bc : BlockChain) (b : Block),
      CheckBlock bc (some b) = CoinDatabase.ValidateBlock bc.CoinDB b.Transactions) ∧
    chainAfter [] = some (stateAfter []) ∧
    CheckBlock (stateAfter []) (some emptyBlock) = true ∧
    CheckBlockSyntax emptyBlock = false ∧
    CheckBlock (stateAfter []) (some block1) = true ∧
    CheckBlockSyntax block1 = false ∧
    CheckBlock (stateAfter []) (some minedBlock) = true ∧
    minedBlock.Transactions.get? 1 = some tx1 ∧
    CheckTransactionSemantics tx1 = false :=
  ⟨fun _ _ => rfl, by decide, by decide, by decide, by decide, by decide, by decide,
    by decide, rfl⟩

end Sample

/-! ## The transaction heap: number of nodes and sum of the priorities -/

theorem prioritySum_set :
    ∀ (l : List HeapNode) (i : Nat) (a x : HeapNode), l.get? i = some a →
      Heap.prioritySum (l.set i x) + a.Priority = Heap.prioritySum l + x.Priority := by
  intro l
  induction l with
  | nil => intro i a x h; simp at h
  | cons y rest ih =>
    intro i a x h
    cases i with
    | zero =>
      simp only [List.get?_cons_zero, Option.some.injEq] at h
      subst h
      simp only [List.set_cons_zero, Heap.prioritySum, List.map_cons, List.sum_cons]
      omega
    | succ i =>
      simp only [List.get?_cons_succ] at h
      have := ih i a x h
      simp only [List.set_cons_succ, Heap.prioritySum, List.map_cons, List.sum_cons] at this ⊢
      omega

theorem Swap_length (h : List HeapNode) (i j : Nat) : (Heap.Swap h i j).length = h.length := by
  unfold Heap.Swap
  cases h.get? i with
  | none => rfl
  | some a =>
    cases h.get? j with
    | none => rfl
    | some b => simp

theorem Swap_prioritySum (h : List HeapNode) (i j : Nat) :
    Heap.prioritySum (Heap.Swap h i j) = Heap.prioritySum h := by
  unfold Heap.Swap
  cases hi : h.get? i with
  | none => rfl
  | some a =>
    cases hj : h.get? j with
    | none => rfl
    | some b =>
      simp only
      have h1 := prioritySum_set h i a b hi
      have hj2 : (h.set i b).get? j = some b := by
        rw [List.get?_eq_getElem?] at hi hj ⊢
        rw [List.getElem?_set]
        by_cases hij : i = j
        · have hlt : i < h.length := (List.getElem?_eq_some.1 hi).1
          rw [if_pos hij, if_pos hlt]
        · rw [if_neg hij]; exact hj
      have h2 := prioritySum_set (h.set i b) j b a hj2
      omega

theorem Swap_get_right (h : List HeapNode) (i j : Nat) (a : HeapNode)
    (hi : h.get? i = some a) (hj : j < h.length) : (Heap.Swap h i j).get? j = some a := by
  unfold Heap.Swap
  rw [hi]
  cases hjj : h.get? j with
  | none =>
    rw [List.get?_eq_getElem?, List.getElem?_eq_none_iff] at hjj
    omega
  | some b =>
    simp only
    rw [List.get?_eq_getElem?, List.getElem?_set_self (by simpa using hj)]

theorem up_total :
    ∀ (fuel : Nat) (h : List HeapNode) (j : Nat), j < fuel →
      ∃ h2, heap.up fuel h j = some h2 ∧ h2.length = h.length ∧
        Heap.prioritySum h2 = Heap.prioritySum h := by
  intro fuel
  induction fuel with
  | zero => intro h j hj; omega
  | succ fuel ih =>
    intro h j hj
    rw [heap.up]
    by_cases hc : (j - 1) / 2 = j ∨ Heap.Less h j ((j - 1) / 2) = false
    · rw [if_pos hc]
      exact ⟨h, rfl, rfl, rfl⟩
    · rw [if_neg hc]
      have hne : (j - 1) / 2 ≠ j := fun he => hc (Or.inl he)
      obtain ⟨h2, e1, e2, e3⟩ := ih (Heap.Swap h ((j - 1) / 2) j) ((j - 1) / 2) (by omega)
      exact ⟨h2, e1, by rw [e2, Swap_length], by rw [e3, Swap_prioritySum]⟩

theorem down_total :
    ∀ (fuel : Nat) (h : List HeapNode) (i n : Nat), 0 < fuel → n < fuel + i →
      ∃ h2, heap.down fuel h i n = some h2 ∧ h2.length = h.length ∧
        Heap.prioritySum h2 = Heap.prioritySum h := by
  intro fuel
  induction fuel with
  | zero => intro h i n hf; omega
  | succ fuel ih =>
    intro h i n _ hn
    rw [heap.down]
    by_cases h1 : 2 * i + 1 ≥ n
    · rw [if_pos h1]
      exact ⟨h, rfl, rfl, rfl⟩
    · rw [if_neg h1]
      generalize hc : (if 2 * i + 2 < n ∧ Heap.Less h (2 * i + 2) (2 * i + 1) = true
        then 2 * i + 2 else 2 * i + 1) = c
      have hj : 2 * i + 1 ≤ c := by
        rw [← hc]
        split <;> omega
      by_cases h2 : Heap.Less h c i = false
      · rw [if_pos h2]
        exact ⟨h, rfl, rfl, rfl⟩
      · rw [if_neg h2]
        obtain ⟨h2, e1, e2, e3⟩ := ih (Heap.Swap h i c) c n (by omega) (by omega)
        exact ⟨h2, e1, by rw [e2, Swap_length], by rw [e3, Swap_prioritySum]⟩

theorem initLoop_total :
    ∀ (k : Nat) (h : List HeapNode),
      ∃ h2, heap.initLoop h k = some h2 ∧ h2.length = h.length ∧
        Heap.prioritySum h2 = Heap.prioritySum h := by
  intro k
  induction k with
  | zero => intro h; exact ⟨h, rfl, rfl, rfl⟩
  | succ k ih =>
    intro h
    obtain ⟨h1, d1, d2, d3⟩ := down_total (h.length + 1) h k h.length (by omega) (by omega)
    obtain ⟨h2, e1, e2, e3⟩ := ih h1
    refine ⟨h2, ?_, by rw [e2, d2], by rw [e3, d3]⟩
    rw [heap.initLoop, d1]
    exact e1

theorem Init_total (h : List HeapNode) :
    ∃ h2, heap.Init h = some h2 ∧ h2.length = h.length ∧
      Heap.prioritySum h2 = Heap.prioritySum h :=
  initLoop_total (h.length / 2) h

theorem Push_total (h : List HeapNode) (x : HeapNode) :
    ∃ h2, heap.Push h x = some h2 ∧ h2.length = h.length + 1 ∧
      Heap.prioritySum h2 = Heap.prioritySum h + x.Priority := by
  obtain ⟨h2, e1, e2, e3⟩ := up_total (h.length + 1) (h ++ [x]) h.length (by omega)
  refine ⟨h2, e1, by rw [e2]; simp, ?_⟩
  rw [e3]
  simp [Heap.prioritySum]

theorem getIndexLoop_range (E : Ext) (tHash : String) :
    ∀ (l : List HeapNode) (k : Nat), (Heap.getIndexLoop E tHash l k).2 = true →
      k ≤ (Heap.getIndexLoop E tHash l k).1 ∧ (Heap.getIndexLoop E tHash l k).1 < k + l.length := by
  intro l
  induction l with
  | nil => intro k h; simp [Heap.getIndexLoop] at h
  | cons v rest ih =>
    intro k h
    rw [Heap.getIndexLoop] at h ⊢
    by_cases hv : v.Transaction.Hash E = tHash
    · rw [if_pos hv]
      simp
    · rw [if_neg hv] at h ⊢
      obtain ⟨a, b⟩ := ih (k + 1) h
      simp only [List.length_cons]
      omega

theorem removeLoop_total (E : Ext) :
    ∀ (ts : List (Option Transaction)) (h : List HeapNode) (r : List Transaction)
      (total : Nat), (∀ t ∈ ts, t ≠ none) →
      ∃ q r2 total2, Heap.removeLoop E h ts r total = some (q, some r2, total2) ∧
        q.length + r2.length = h.length + r.length ∧
        (Heap.prioritySum q + total2) % 2 ^ 32 = (Heap.prioritySum h + total) % 2 ^ 32 := by
  intro ts
  induction ts with
  | nil =>
    intro h r total _
    obtain ⟨h2, e1, e2, e3⟩ := Init_total h
    refine ⟨h2, r, total, ?_, by rw [e2], by rw [e3]⟩
    rw [Heap.removeLoop, e1]
  | cons t rest ih =>
    intro h r total hsome
    cases t with
    | none => exact absurd rfl (hsome none (List.mem_cons_self _ _))
    | some tx =>
      have hrest : ∀ t ∈ rest, t ≠ none := fun t ht => hsome t (List.mem_cons_of_mem _ ht)
      rw [Heap.removeLoop]
      by_cases hfound : (Heap.GetIndex E h (some tx)).2 = true
      · rw [if_pos hfound]
        have hrange := getIndexLoop_range E (tx.Hash E) h 0 hfound
        have hlt : (Heap.GetIndex E h (some tx)).1 < h.length := by
          have := hrange.2
          simpa [Heap.GetIndex] using this
        cases hnode : h.get? (Heap.GetIndex E h (some tx)).1 with
        | none =>
          rw [List.get?_eq_getElem?, List.getElem?_eq_none_iff] at hnode
          omega
        | some node =>
          simp only
          have hlast : (Heap.Swap h (Heap.GetIndex E h (some tx)).1 (h.length - 1)).getLast?
              = some node := by
            rw [List.getLast?_eq_getElem?, Swap_length, ← List.get?_eq_getElem?]
            exact Swap_get_right h _ _ node hnode (by omega)
          have hsplit := List.dropLast_append_getLast? node hlast
          have hlen : (Heap.Swap h (Heap.GetIndex E h (some tx)).1 (h.length - 1)).dropLast.length
              + 1 = h.length := by
            have := congrArg List.length hsplit
            rw [Swap_length] at this
            simpa using this
          have hsum : Heap.prioritySum
              (Heap.Swap h (Heap.GetIndex E h (some tx)).1 (h.length - 1)).dropLast
              + node.Priority = Heap.prioritySum h := by
            have := congrArg Heap.prioritySum hsplit
            rw [Swap_prioritySum] at this
            rw [← this]
            simp [Heap.prioritySum]
          obtain ⟨q, r2, total2, e1, e2, e3⟩ := ih
            (Heap.Swap h (Heap.GetIndex E h (some tx)).1 (h.length - 1)).dropLast (r ++ [tx])
            ((total + node.Priority) % 2 ^ 32) hrest
          refine ⟨q, r2, total2, e1, ?_, ?_⟩
          · rw [e2, List.length_append, List.length_singleton]
            omega
          · rw [e3]
            omega
      · have hf : (Heap.GetIndex E h (some tx)).2 = false := by
          simpa using hfound
        rw [hf]
        simp only [Bool.false_eq_true, if_false]
        exact ih h r total hrest

/-! ## The transaction pool -/

theorem sizeOfInputs_eq :
    ∀ (l : List pro.TransactionInput) (sz : Nat),
      pro.sizeOfInputs l (sz % 2 ^ 32) = (sz + 36 * l.length) % 2 ^ 32 := by
  intro l
  induction l with
  | nil => intro sz; simp [pro.sizeOfInputs]
  | cons x rest ih =>
    intro sz
    rw [pro.sizeOfInputs, ih (((sz % 2 ^ 32 + 16) % 2 ^ 32 + 16) % 2 ^ 32 + 4), List.length_cons]
    omega

theorem sizeOfOutputs_eq :
    ∀ (l : List pro.TransactionOutput) (sz : Nat),
      pro.sizeOfOutputs l (sz % 2 ^ 32) = (sz + 20 * l.length) % 2 ^ 32 := by
  intro l
  induction l with
  | nil => intro sz; simp [pro.sizeOfOutputs]
  | cons x rest ih =>
    intro sz
    rw [pro.sizeOfOutputs, ih ((sz % 2 ^ 32 + 4) % 2 ^ 32 + 16), List.length_cons]
    omega

theorem Transaction_Size_eq (tx : Transaction) :
    tx.Size = (36 * tx.Inputs.length + 20 * tx.Outputs.length + 8) % 2 ^ 32 := by
  unfold Transaction.Size pro.SizeOfTransaction EncodeTransaction
  simp only [appendEach_eq_map, List.nil_append]
  have h1 := sizeOfInputs_eq (tx.Inputs.map EncodeTransactionInput) 0
  rw [Nat.zero_mod, Nat.zero_add, List.length_map] at h1
  rw [h1, sizeOfOutputs_eq, List.length_map]
  omega

theorem Add_bookkeeping (tp : miner.TxPool) (t : Option Transaction) (sumInputs : Nat)
    (hreg : (miner.PoolCall.add t sumInputs).regular = true)
    (h1 : tp.Count = tp.TxQ.length) (h2 : tp.Count ≤ tp.Capacity)
    (h3 : tp.CurrentPriority = Heap.prioritySum tp.TxQ % 2 ^ 32) (h4 : tp.Capacity < 2 ^ 32) :
    ∃ tp2, miner.TxPool.Add tp t sumInputs = some tp2 ∧ tp2.Capacity = tp.Capacity ∧
      tp2.Count = tp2.TxQ.length ∧ tp2.Count ≤ tp2.Capacity ∧
      tp2.CurrentPriority = Heap.prioritySum tp2.TxQ % 2 ^ 32 := by
  cases t with
  | none => exact ⟨tp, rfl, rfl, h1, h2, h3⟩
  | some tx =>
    unfold miner.TxPool.Add
    simp only
    by_cases hfull : tp.Count ≥ tp.Capacity
    · rw [if_pos hfull]
      exact ⟨tp, rfl, rfl, h1, h2, h3⟩
    · rw [if_neg hfull]
      have hsz : tx.Size ≠ 0 := by
        rw [Transaction_Size_eq]
        simp only [miner.PoolCall.regular, decide_eq_true_eq] at hreg
        omega
      have hpri : ∃ pri, miner.CalculatePriority (some tx) sumInputs = some pri := by
        unfold miner.CalculatePriority
        simp only [hsz, if_false]
        split
        · exact ⟨_, rfl⟩
        · exact ⟨_, rfl⟩
      obtain ⟨pri, hp⟩ := hpri
      rw [hp]
      simp only
      obtain ⟨q, e1, e2, e3⟩ := Push_total tp.TxQ ⟨pri, tx⟩
      have hadd : Heap.Add tp.TxQ pri (some tx) = some q := e1
      rw [hadd]
      simp only
      refine ⟨_, rfl, rfl, ?_, ?_, ?_⟩
      · show (tp.Count + 1) % 2 ^ 32 = q.length
        rw [e2, ← h1]
        exact Nat.mod_eq_of_lt (by omega)
      · show (tp.Count + 1) % 2 ^ 32 ≤ tp.Capacity
        rw [Nat.mod_eq_of_lt (by omega)]
        omega
      · show (tp.CurrentPriority + pri) % 2 ^ 32 = Heap.prioritySum q % 2 ^ 32
        rw [e3, h3]
        simp only
        omega

theorem CheckTransactions_bookkeeping (E : Ext) (tp : miner.TxPool)
    (txs : List (Option Transaction))
    (hreg : (miner.PoolCall.check txs).regular = true)
    (h1 : tp.Count = tp.TxQ.length) (h2 : tp.Count ≤ tp.Capacity)
    (h3 : tp.CurrentPriority = Heap.prioritySum tp.TxQ % 2 ^ 32) (h4 : tp.Capacity < 2 ^ 32) :
    ∃ tp2, miner.TxPool.CheckTransactions E tp txs = some tp2 ∧ tp2.Capacity = tp.Capacity ∧
      tp2.Count = tp2.TxQ.length ∧ tp2.Count ≤ tp2.Capacity ∧
      tp2.CurrentPriority = Heap.prioritySum tp2.TxQ % 2 ^ 32 := by
  have hsome : ∀ t ∈ txs, t ≠ none := by
    intro t ht hn
    simp only [miner.PoolCall.regular, List.all_eq_true] at hreg
    have := hreg t ht
    rw [hn] at this
    exact absurd this (by simp)
  obtain ⟨q, r2, total2, e1, e2, e3⟩ := removeLoop_total E txs tp.TxQ [] 0 hsome
  unfold miner.TxPool.CheckTransactions Heap.Remove
  rw [e1]
  simp only [List.length_nil, Nat.add_zero] at e2 e3
  refine ⟨_, rfl, rfl, ?_, ?_, ?_⟩
  · show (tp.Count + (2 ^ 32 - ((some r2 : Option (List Transaction)).getD []).length % 2 ^ 32))
      % 2 ^ 32 = q.length
    simp only [Option.getD_some]
    omega
  · show (tp.Count + (2 ^ 32 - ((some r2 : Option (List Transaction)).getD []).length % 2 ^ 32))
      % 2 ^ 32 ≤ tp.Capacity
    simp only [Option.getD_some]
    omega
  · show (tp.CurrentPriority + (2 ^ 32 - total2 % 2 ^ 32)) % 2 ^ 32
      = Heap.prioritySum q % 2 ^ 32
    rw [h3]
    omega

theorem calls_bookkeeping (E : Ext) :
    ∀ (calls : List miner.PoolCall) (tp : miner.TxPool),
      (∀ call ∈ calls, call.regular = true) →
      tp.Count = tp.TxQ.length → tp.Count ≤ tp.Capacity →
      tp.CurrentPriority = Heap.prioritySum tp.TxQ % 2 ^ 32 → tp.Capacity < 2 ^ 32 →
      ∃ tp2, miner.TxPool.calls E tp calls = some tp2 ∧ tp2.Capacity = tp.Capacity ∧
        tp2.Count = tp2.TxQ.length ∧ tp2.Count ≤ tp2.Capacity ∧
        tp2.CurrentPriority = Heap.prioritySum tp2.TxQ % 2 ^ 32 := by
  intro calls
  induction calls with
  | nil => intro tp _ h1 h2 h3 _; exact ⟨tp, rfl, rfl, h1, h2, h3⟩
  | cons call rest ih =>
    intro tp hreg h1 h2 h3 h4
    have hrest : ∀ c ∈ rest, c.regular = true := fun c hc => hreg c (List.mem_cons_of_mem _ hc)
    cases call with
    | add t s =>
      obtain ⟨tp1, a0, a1, a2, a3, a4⟩ := Add_bookkeeping tp t s
        (hreg _ (List.mem_cons_self _ _)) h1 h2 h3 h4
      obtain ⟨tp2, b0, b1, b2, b3, b4⟩ := ih tp1 hrest a2 a3 a4 (by rw [a1]; exact h4)
      refine ⟨tp2, ?_, by rw [b1, a1], b2, b3, b4⟩
      rw [miner.TxPool.calls, a0]
      exact b0
    | check txs =>
      obtain ⟨tp1, a0, a1, a2, a3, a4⟩ := CheckTransactions_bookkeeping E tp txs
        (hreg _ (List.mem_cons_self _ _)) h1 h2 h3 h4
      obtain ⟨tp2, b0, b1, b2, b3, b4⟩ := ih tp1 hrest a2 a3 a4 (by rw [a1]; exact h4)
      refine ⟨tp2, ?_, by rw [b1, a1], b2, b3, b4⟩
      rw [miner.TxPool.calls, a0]
      exact b0

namespace miner

/-- Transaction-pool bookkeeping without nil transactions. A pool is made by
NewTxPool, with a Capacity in the range of a uint32, and receives a sequence
of TxPool.Add and TxPool.CheckTransactions calls in which no list of
CheckTransactions holds a nil transaction and every added transaction has a
size in the range of a uint32. Every call returns, and afterwards Count is
the number of nodes of the heap TxQ and is at most Capacity, CurrentPriority
is the sum modulo 2^32 of the priorities of the nodes of TxQ, and an Add on
the pool, when Count ≥ Capacity, changes nothing. -/
theorem pool_bookkeeping_without_nil (E : Ext) (c : miner.Config) (calls : List miner.PoolCall)
    (hcap : c.TransactionPoolCapacity < 2 ^ 32)
    (hreg : ∀ call ∈ calls, call.regular = true) :
    ∃ tp, TxPool.calls E (NewTxPool c) calls = some tp ∧
      tp.Count = tp.TxQ.length ∧ tp.Count ≤ tp.Capacity ∧
      tp.Capacity = c.TransactionPoolCapacity ∧
      tp.CurrentPriority = Heap.prioritySum tp.TxQ % 2 ^ 32 ∧
      ∀ t sumInputs, tp.Count ≥ tp.Capacity → TxPool.Add tp t sumInputs = some tp := by
  obtain ⟨tp, e0, e1, e2, e3, e4⟩ := calls_bookkeeping E calls (NewTxPool c) hreg rfl
    (Nat.zero_le _) rfl hcap
  refine ⟨tp, e0, e2, e3, e1, e4, ?_⟩
  intro t s hfull
  cases t with
  | none => rfl
  | some tx =>
    unfold TxPool.Add
    simp only [hfull, if_true]

set_option maxRecDepth 1000000 in
/-- Transaction-pool bookkeeping on ten transactions: the ten transactions of
`tenTransactions` are added to the default pool, of capacity 50: Count is 10
and Has finds each of them; CheckTransactions of the ten then leaves Count 0
and an empty heap. -/
theorem pool_bookkeeping_of_ten_transactions :
    (∃ tp, TxPool.calls Sample.ext (NewTxPool Sample.minerConfig)
        (Sample.tenAdds ++ [PoolCall.check (Sample.tenTransactions.map some)]) = some tp ∧
      tp.Count = tp.TxQ.length ∧ tp.Count ≤ tp.Capacity ∧
      tp.Capacity = Sample.minerConfig.TransactionPoolCapacity ∧
      tp.CurrentPriority = Heap.prioritySum tp.TxQ % 2 ^ 32 ∧
      ∀ t sumInputs, tp.Count ≥ tp.Capacity → TxPool.Add tp t sumInputs = some tp) ∧
    TxPool.calls Sample.ext (NewTxPool Sample.minerConfig) Sample.tenAdds
      = some Sample.tenPool ∧
    Sample.tenPool.Count = 10 ∧
    Sample.tenPool.Capacity = 50 ∧
    (∀ t ∈ Sample.tenTransactions, Heap.Has Sample.ext Sample.tenPool.TxQ (some t) = true) ∧
    (TxPool.CheckTransactions Sample.ext Sample.tenPool
      (Sample.tenTransactions.map some)).map (fun tp => (tp.Count, tp.TxQ, tp.CurrentPriority))
      = some (0, [], 0) :=
  ⟨pool_bookkeeping_without_nil Sample.ext Sample.minerConfig
      (Sample.tenAdds ++ [PoolCall.check (Sample.tenTransactions.map some)])
      (by decide) (by decide),
    by decide, by decide, by decide, by decide, by decide⟩

/-- C35: the minting reward. For every miner configuration whose product
SubsidyHalvingRate × MaxHalvings is in the range of a uint32 and whose
MaxHalvings is at most 32, and every chain length L:
CalculateMintingReward returns 0 when L ≥ SubsidyHalvingRate × MaxHalvings
and otherwise returns, without dividing by zero, InitialSubsidy divided by
2^(L div SubsidyHalvingRate); hence the reward never increases as the chain
length grows. -/
theorem C35_minting_reward (m : miner.Miner)
    (hprod : m.Config.SubsidyHalvingRate * m.Config.MaxHalvings < 2 ^ 32)
    (hmax : m.Config.MaxHalvings ≤ 32) :
    (∀ L, L ≥ m.Config.SubsidyHalvingRate * m.Config.MaxHalvings →
      Miner.CalculateMintingReward { m with ChainLength := L } = some 0) ∧
    (∀ L, L < m.Config.SubsidyHalvingRate * m.Config.MaxHalvings →
      Miner.CalculateMintingReward { m with ChainLength := L }
        = some (m.Config.InitialSubsidy / 2 ^ (L / m.Config.SubsidyHalvingRate))) ∧
    (∀ L1 L2 r1 r2, L1 ≤ L2 →
      Miner.CalculateMintingReward { m with ChainLength := L1 } = some r1 →
      Miner.CalculateMintingReward { m with ChainLength := L2 } = some r2 → r2 ≤ r1) := by
  have hmod : (m.Config.SubsidyHalvingRate * m.Config.MaxHalvings) % 2 ^ 32
      = m.Config.SubsidyHalvingRate * m.Config.MaxHalvings := Nat.mod_eq_of_lt hprod
  have hA : ∀ L, L ≥ m.Config.SubsidyHalvingRate * m.Config.MaxHalvings →
      Miner.CalculateMintingReward { m with ChainLength := L } = some 0 := by
    intro L hL
    unfold Miner.CalculateMintingReward
    simp only [hmod]
    rw [if_pos hL]
  have hB : ∀ L, L < m.Config.SubsidyHalvingRate * m.Config.MaxHalvings →
      Miner.CalculateMintingReward { m with ChainLength := L }
        = some (m.Config.InitialSubsidy / 2 ^ (L / m.Config.SubsidyHalvingRate)) := by
    intro L hL
    have hrate : m.Config.SubsidyHalvingRate ≠ 0 := by
      intro h0
      rw [h0, Nat.zero_mul] at hL
      omega
    have hh : L / m.Config.SubsidyHalvingRate < 32 := by
      have : L / m.Config.SubsidyHalvingRate < m.Config.MaxHalvings :=
        (Nat.div_lt_iff_lt_mul (Nat.pos_of_ne_zero hrate)).2 (by rw [Nat.mul_comm]; exact hL)
      omega
    have hpow : powAsUint32 (L / m.Config.SubsidyHalvingRate)
        = 2 ^ (L / m.Config.SubsidyHalvingRate) := by
      unfold powAsUint32
      exact Nat.mod_eq_of_lt (Nat.pow_lt_pow_right (by decide) hh)
    have hpos : 2 ^ (L / m.Config.SubsidyHalvingRate) ≠ 0 := by positivity
    unfold Miner.CalculateMintingReward
    simp only [hmod]
    rw [if_neg (by omega), if_neg hrate, hpow, if_neg hpos]
  refine ⟨hA, hB, ?_⟩
  intro L1 L2 r1 r2 hle h1 h2
  by_cases hL2 : L2 ≥ m.Config.SubsidyHalvingRate * m.Config.MaxHalvings
  · rw [hA L2 hL2, Option.some.injEq] at h2
    omega
  · rw [hB L2 (by omega), Option.some.injEq] at h2
    rw [hB L1 (by omega), Option.some.injEq] at h1
    rw [← h1, ← h2]
    apply Nat.div_le_div_left
    · exact Nat.pow_le_pow_right (by decide) (Nat.div_le_div_right hle)
    · positivity

set_option maxRecDepth 1000000 in
/-- C35, witness: with InitialSubsidy 50, SubsidyHalvingRate 10 and
MaxHalvings 10 the reward is 50 at chain length 1, 25 at chain length 10 and
0 at chain length 100. -/
theorem C35_minting_reward_witness :
    Miner.CalculateMintingReward { Sample.rankedMiner with ChainLength := 1 } = some 50 ∧
    Miner.CalculateMintingReward { Sample.rankedMiner with ChainLength := 10 } = some 25 ∧
    Miner.CalculateMintingReward { Sample.rankedMiner with ChainLength := 100 } = some 0 := by
  obtain ⟨h1, h2, _⟩ := C35_minting_reward Sample.rankedMiner (by decide) (by decide)
  exact ⟨h2 1 (by decide), h2 10 (by decide), h1 100 (by decide)⟩

end miner

namespace Sample

set_option maxRecDepth 1000000 in
/-- C34: the default miner after Add of three transactions of size 316 and
priorities 10, 6 and 9: the heap slice holds them in this order, and
NewMiningPool, whose block size of 1000 leaves room for two of them, returns
the first two: the transaction of priority 6 is returned and the one of
priority 9 is not. -/
theorem C34_mining_pool_misses_higher_priority :
    rankedPool = some rankedMiner.TxPool ∧
    rankedMiner.Config.BlockSize = 1000 ∧
    (wideTx "a" 50).Size = 316 ∧
    rankedMiner.TxPool.TxQ
      = [⟨10, wideTx "a" 50⟩, ⟨6, wideTx "b" 50⟩, ⟨9, wideTx "c" 50⟩] ∧
    rankedMiner.NewMiningPool = [wideTx "a" 50, wideTx "b" 50] :=
  ⟨by decide, rfl, by decide, by decide, by decide⟩

set_option maxRecDepth 1000000 in
/-- C35, the claim on two configurations. With SubsidyHalvingRate and
MaxHalvings of 65536 the uint32 product is 0: at chain length 1, below the
product 2^32, the reward is 0 and not InitialSubsidy div 2^0 = 50. With a
halving at every block and 64 halvings, at chain length 32, below the
product 64, the divisor 2^32 does not fit a uint32 and the division is by
zero. -/
theorem C35_reward_of_large_configurations :
    miner.Miner.CalculateMintingReward ⟨wideConfig, miner.NewTxPool wideConfig, 1⟩ = some 0 ∧
    1 < wideConfig.SubsidyHalvingRate * wideConfig.MaxHalvings ∧
    wideConfig.InitialSubsidy / 2 ^ (1 / wideConfig.SubsidyHalvingRate) = 50 ∧
    miner.Miner.CalculateMintingReward ⟨halvingConfig, miner.NewTxPool halvingConfig, 32⟩
      = none ∧
    32 < halvingConfig.SubsidyHalvingRate * halvingConfig.MaxHalvings :=
  ⟨by decide, by decide, by decide, by decide, by decide⟩

set_option maxRecDepth 1000000 in
/-- C37: the transaction-pool bookkeeping breaks at a nil transaction. After
Add of `tx1` with inputs summing to 57 the default pool holds one node, of
priority 10, with Count 1 and CurrentPriority 10. Heap.Remove of the list of
`tx1` and a nil transaction removes the node of `tx1` and then returns at
the nil transaction with the nil slice and the total priority 10, so that
CheckTransactions subtracts 10 from CurrentPriority and nothing from Count:
the heap is empty and Count is 1, not the number of nodes of TxQ. -/
theorem C37_nil_transaction_leaves_the_count :
    (miner.TxPool.calls ext (miner.NewTxPool minerConfig)
        [miner.PoolCall.add (some tx1) 57]).map
      (fun tp => (tp.TxQ, tp.Count, tp.CurrentPriority)) = some ([⟨10, tx1⟩], 1, 10) ∧
    Heap.Remove ext [⟨10, tx1⟩] [some tx1, none] = some ([], none, 10) ∧
    (miner.TxPool.calls ext (miner.NewTxPool minerConfig)
        [miner.PoolCall.add (some tx1) 57, miner.PoolCall.check [some tx1, none]]).map
      (fun tp => (tp.TxQ, tp.Count, tp.CurrentPriority)) = some ([], 1, 0) ∧
    (miner.TxPool.calls ext (miner.NewTxPool minerConfig)
        [miner.PoolCall.add (some tx1) 57, miner.PoolCall.check [some tx1, none]]).map
      (fun tp => (tp.TxQ.length, tp.Count)) = some (0, 1) :=
  ⟨by decide, by decide, by decide, by decide⟩

end Sample

namespace BlockChain

/-! ### The blocks handleFork undoes -/

theorem getBlocksAndUndoBlocks_length (E : Ext) (bc : BlockChain) :
    ∀ (n : Nat) (h : String) (blocks : List Block) (undoBlocks : List UndoBlock),
      getBlocksAndUndoBlocks E bc n h = some (blocks, undoBlocks) →
      blocks.length = n ∧ undoBlocks.length = n := by
  intro n
  induction n with
  | zero =>
    intro h blocks undoBlocks hg
    simp only [getBlocksAndUndoBlocks, Option.some.injEq, Prod.mk.injEq] at hg
    obtain ⟨h1, h2⟩ := hg
    subst h1 h2
    exact ⟨rfl, rfl⟩
  | succ n ih =>
    intro h blocks undoBlocks hg
    rw [getBlocksAndUndoBlocks] at hg
    cases hb : GetBlock E bc h with
    | none => rw [hb] at hg; exact absurd hg (by simp)
    | some b =>
      cases hu : getUndoBlock E bc h with
      | none => rw [hb, hu] at hg; exact absurd hg (by simp)
      | some ub =>
        rw [hb, hu] at hg
        simp only at hg
        cases hr : getBlocksAndUndoBlocks E bc n b.Header.PreviousHash with
        | none => rw [hr] at hg; exact absurd hg (by simp)
        | some p =>
          obtain ⟨bs, ubs⟩ := p
          rw [hr] at hg
          simp only [Option.some.injEq, Prod.mk.injEq] at hg
          obtain ⟨h1, h2⟩ := hg
          subst h1 h2
          obtain ⟨i1, i2⟩ := ih _ bs ubs hr
          exact ⟨by simp [i1], by simp [i2]⟩

/-- When handleFork finds a fork and returns a changed chain, the blocks and
undo blocks it passed to UndoCoins are as many as the fork is long, fetched
from LastHash on. -/
theorem handleFork_undoes (E : Ext) (bc : BlockChain) (b : Block) (height : Nat)
    (bc2 : BlockChain) (h : handleFork E bc b height = some bc2)
    (hfork : ¬ (getForkLengthAndAncestor bc (b.Hash E)).1 < 0) :
    ∃ blocks undoBlocks c1,
      getBlocksAndUndoBlocks E bc (getForkLengthAndAncestor bc (b.Hash E)).1.toNat bc.LastHash
        = some (blocks, undoBlocks) ∧
      CoinDatabase.UndoCoins E bc.CoinDB blocks undoBlocks = some c1 ∧
      blocks.length = (getForkLengthAndAncestor bc (b.Hash E)).1.toNat ∧
      undoBlocks.length = (getForkLengthAndAncestor bc (b.Hash E)).1.toNat := by
  unfold handleFork at h
  simp only [hfork, if_false] at h
  cases h1 : getBlocksAndUndoBlocks E bc (getForkLengthAndAncestor bc (b.Hash E)).1.toNat
      bc.LastHash with
  | none => rw [h1] at h; exact absurd h (by simp)
  | some p =>
    obtain ⟨blocks, undoBlocks⟩ := p
    rw [h1] at h
    simp only at h
    cases h2 : trimUnsafeHashes (getForkLengthAndAncestor bc (b.Hash E)).2 bc.UnsafeHashes
        (min 6 (getForkLengthAndAncestor bc (b.Hash E)).1.toNat - 1) with
    | none => rw [h2] at h; exact absurd h (by simp)
    | some uh =>
      rw [h2] at h
      simp only at h
      cases h3 : CoinDatabase.UndoCoins E bc.CoinDB blocks undoBlocks with
      | none => rw [h3] at h; exact absurd h (by simp)
      | some c1 =>
        obtain ⟨l1, l2⟩ := getBlocksAndUndoBlocks_length E bc _ _ blocks undoBlocks h1
        exact ⟨blocks, undoBlocks, c1, rfl, h3, l1, l2⟩

end BlockChain

namespace Sample

set_option maxRecDepth 1000000 in
/-- C36: the reorganization sample. The active chain is the genesis block,
`block1` and `block2` (Length 3); `forkBlock2` on `block1` is retained and
`forkBlock3` on it has height 4. The common ancestor is `block1`, of Height
2, so one block, `block2`, lies above it; the fork length is 2 and
`handleFork` fetches, and passes to UndoCoins, two blocks from the tip:
`block2` and the ancestor `block1`. -/
theorem C36_handleFork_undoes_the_ancestor :
    BlockChain.persistBlock ext (stateAfter reorgBlocks) forkBlock3 = some (forkState, 4) ∧
    BlockChain.HandleBlock ext (stateAfter reorgBlocks) forkBlock3
      = BlockChain.handleFork ext forkState forkBlock3 4 ∧
    forkState.Length = 3 ∧
    forkState.LastHash = block2.Hash ext ∧
    block2.Header.PreviousHash = block1.Hash ext ∧
    BlockChain.getForkLengthAndAncestor forkState (forkBlock3.Hash ext)
      = (2, block1.Hash ext) ∧
    (forkState.BlockInfoDB.GetBlockRecord (block1.Hash ext)).Height = 2 ∧
    BlockChain.getBlocksAndUndoBlocks ext forkState 2 forkState.LastHash
      = some ([block2, block1], [undo2, undo1]) :=
  ⟨by decide, by decide, by decide, by decide, by decide, by decide, by decide, by decide⟩

end Sample

/-! ## Loops that do not end -/

/-- C39: on the empty list of transactions the level loop of
CalculateMerkleRoot, `for len(hashes) != 1`, comes back to the empty list of
hashes after every pass, without a panic, so that it ends for no amount of
fuel: the branch that prints the error and returns the empty string is not
reached. -/
theorem C39_merkle_loop_never_ends_on_empty (E : Ext) (H : HashExt) :
    (∀ fuel, merkleLevels H (fuel + 1) [] = merkleLevels H fuel []) ∧
    (∀ fuel, CalculateMerkleRoot E H fuel [] = none) := by
  have h1 : ∀ fuel, merkleLevels H (fuel + 1) [] = merkleLevels H fuel [] := by
    intro fuel
    simp [merkleLevels, merklePairs]
  have h2 : ∀ fuel, merkleLevels H fuel [] = none := by
    intro fuel
    induction fuel with
    | zero => rfl
    | succ fuel ih => rw [h1, ih]
  refine ⟨h1, ?_⟩
  intro fuel
  simp [CalculateMerkleRoot, appendEach, h2]

namespace BlockChain

theorem getHashesLoop_zero (bc : BlockChain) (last : Nat) :
    ∀ (fuel c : Nat) (h : String) (acc : List String),
      getHashesLoop bc 0 last fuel c h acc = none := by
  intro fuel
  induction fuel with
  | zero => intro c h acc; rfl
  | succ fuel ih =>
    intro c h acc
    rw [getHashesLoop, if_pos (Nat.zero_le _)]
    exact ih _ _ _

theorem getBlocksLoop_zero (E : Ext) (bc : BlockChain) (last : Nat) :
    ∀ (fuel c : Nat) (h : String) (acc : List Block),
      getBlocksLoop E bc 0 last fuel c h acc = none := by
  intro fuel
  induction fuel with
  | zero => intro c h acc; rfl
  | succ fuel ih =>
    intro c h acc
    rw [getBlocksLoop, if_pos (Nat.zero_le _)]
    split
    · split
      · rfl
      · exact ih _ _ _
    · exact ih _ _ _

/-- C40: with start = 0 the condition `currentHeight >= start` of the loops
of GetHashes and GetBlocks holds for every uint32: a pass of the loop of
GetHashes with fuel left goes on to the next pass, the height going from 0
to 2^32 - 1, so that GetHashes(0, last) returns for no amount of fuel;
GetBlocks(0, last) returns for no amount of fuel either (its loop goes on or
a read panics). -/
theorem C40_start_zero_never_returns (E : Ext) (bc : BlockChain) (last : Nat) :
    (∀ fuel c h acc,
      getHashesLoop bc 0 last (fuel + 1) c h acc
        = getHashesLoop bc 0 last fuel ((c + (2 ^ 32 - 1)) % 2 ^ 32)
            (bc.BlockInfoDB.GetBlockRecord h).Header.PreviousHash
            (if c ≤ last then acc ++ [h] else acc)) ∧
    (∀ fuel, GetHashes E bc fuel 0 last = none) ∧
    (∀ fuel, GetBlocks E bc fuel 0 last = none) := by
  refine ⟨?_, ?_, ?_⟩
  · intro fuel c h acc
    rw [getHashesLoop, if_pos (Nat.zero_le _)]
  · intro fuel
    unfold GetHashes
    rw [getHashesLoop_zero]
  · intro fuel
    unfold GetBlocks
    rw [getBlocksLoop_zero]

/-- With start ≥ 1 the loop of GetHashes from the height `c` makes
c + 1 - start passes: it returns with more fuel than that, not with less,
and what it returns is the list it started from when start > last. -/
theorem getHashesLoop_passes (bc : BlockChain) (start last : Nat) (hstart : 1 ≤ start) :
    ∀ (fuel c : Nat) (h : String) (acc : List String), c < 2 ^ 32 →
      (c + 1 - start < fuel →
        ∃ hs, getHashesLoop bc start last fuel c h acc = some hs ∧ (last < start → hs = acc)) ∧
      (fuel ≤ c + 1 - start → getHashesLoop bc start last fuel c h acc = none) := by
  intro fuel
  induction fuel with
  | zero =>
    intro c h acc _
    exact ⟨fun hf => absurd hf (by omega), fun _ => rfl⟩
  | succ fuel ih =>
    intro c h acc hc
    by_cases hge : c ≥ start
    · have hdec : (c + (2 ^ 32 - 1)) % 2 ^ 32 = c - 1 := by omega
      obtain ⟨i1, i2⟩ := ih (c - 1) (bc.BlockInfoDB.GetBlockRecord h).Header.PreviousHash
        (if c ≤ last then acc ++ [h] else acc) (by omega)
      rw [getHashesLoop, if_pos hge, hdec]
      constructor
      · intro hf
        obtain ⟨hs, e1, e2⟩ := i1 (by omega)
        refine ⟨hs, e1, ?_⟩
        intro hl
        rw [e2 hl, if_neg (by omega)]
      · intro hf
        exact i2 (by omega)
    · rw [getHashesLoop, if_neg hge]
      exact ⟨fun _ => ⟨acc, rfl, fun _ => rfl⟩, fun hf => absurd hf (by omega)⟩

/-- For start ≥ 1 GetHashes returns after max(0, Length + 1 - start) passes
of its loop, one block record read in each, and returns the empty list when
start > last or start > Length. -/
theorem GetHashes_of_positive_start (E : Ext) (bc : BlockChain) (start last : Nat)
    (hstart : 1 ≤ start) (hlen : bc.Length < 2 ^ 32) :
    (∀ fuel, bc.Length + 1 - start < fuel → ∃ hs, GetHashes E bc fuel start last = some hs) ∧
    (∀ fuel, fuel ≤ bc.Length + 1 - start → GetHashes E bc fuel start last = none) ∧
    (∀ fuel, bc.Length + 1 - start < fuel → last < start →
      GetHashes E bc fuel start last = some []) ∧
    (∀ fuel, 0 < fuel → bc.Length < start → GetHashes E bc fuel start last = some []) := by
  refine ⟨?_, ?_, ?_, ?_⟩
  · intro fuel hf
    obtain ⟨hs, e1, _⟩ := (getHashesLoop_passes bc start last hstart fuel bc.Length
      (bc.LastBlock.Hash E) [] hlen).1 hf
    exact ⟨reverseHashes hs, by unfold GetHashes; rw [e1]⟩
  · intro fuel hf
    unfold GetHashes
    rw [(getHashesLoop_passes bc start last hstart fuel bc.Length
      (bc.LastBlock.Hash E) [] hlen).2 hf]
  · intro fuel hf hl
    obtain ⟨hs, e1, e2⟩ := (getHashesLoop_passes bc start last hstart fuel bc.Length
      (bc.LastBlock.Hash E) [] hlen).1 hf
    unfold GetHashes
    rw [e1, e2 hl]
    rfl
  · intro fuel hf hl
    obtain ⟨f, rfl⟩ : ∃ f, fuel = f + 1 := ⟨fuel - 1, by omega⟩
    unfold GetHashes
    rw [getHashesLoop, if_neg (by omega)]
    rfl

end BlockChain

namespace CoinDatabase

/-! ### UndoCoins keeps the coin records aligned -/

theorem undoTransactions_aligned (E : Ext) :
    ∀ (txs : List Transaction) (c : CoinDatabase), c.AlignedDB →
      (undoTransactions E c txs).AlignedDB := by
  intro txs
  induction txs with
  | nil => intro c h; exact h
  | cons tx rest ih =>
    intro c h
    rw [undoTransactions]
    apply ih
    obtain ⟨o1, _⟩ := undoOutputs_frame (tx.Hash E) tx.Outputs.length 0 c
    show ∀ kv ∈ kvDelete (undoOutputs (tx.Hash E) c 0 tx.Outputs.length).db (tx.Hash E),
      kv.2.Aligned
    rw [o1]
    exact forall_kvDelete _ _ _ h

theorem undoInput_aligned (ub : UndoBlock) (c : CoinDatabase) (cl : CoinLocator)
    (out : TransactionOutput) (h : c.AlignedDB)
    (h2 : ub.Amounts.length = ub.OutputIndexes.length)
    (h3 : ub.LockingScripts.length = ub.OutputIndexes.length) :
    (undoInput ub c cl out).AlignedDB := by
  have hrec : CoinRecord.Aligned
      (match kvGet c.db cl.ReferenceTransactionHash with
        | some r =>
          { r with
            OutputIndexes := r.OutputIndexes ++ [cl.OutputIndex]
            Amounts := r.Amounts ++ [out.Amount]
            LockingScripts := r.LockingScripts ++ [out.LockingScript] }
        | none => ⟨0, ub.OutputIndexes, ub.Amounts, ub.LockingScripts⟩) := by
    cases hr : kvGet c.db cl.ReferenceTransactionHash with
    | none => exact ⟨h2, h3⟩
    | some r =>
      obtain ⟨a1, a2⟩ := h (cl.ReferenceTransactionHash, r) (kvGet_mem _ hr)
      exact ⟨by simp [a1], by simp [a2]⟩
  unfold undoInput putRecordInDB
  cases hc : kvGet c.mainCache cl with
  | none => exact forall_kvPut _ _ _ _ h hrec
  | some coin => exact forall_kvPut _ _ _ _ h hrec

theorem undoInputs_aligned (ub : UndoBlock)
    (h2 : ub.Amounts.length = ub.OutputIndexes.length)
    (h3 : ub.LockingScripts.length = ub.OutputIndexes.length) :
    ∀ (hs : List String) (os as : List Nat) (ls : List String) (j : Nat) (c : CoinDatabase),
      ub.TransactionInputHashes.drop j = hs → ub.OutputIndexes.drop j = os →
      ub.Amounts.drop j = as → ub.LockingScripts.drop j = ls →
      os.length = hs.length → as.length = hs.length → ls.length = hs.length →
      c.AlignedDB → ∃ c2, undoInputs ub c j hs = some c2 ∧ c2.AlignedDB := by
  intro hs
  induction hs with
  | nil =>
    intro os as ls j c _ _ _ _ _ _ _ h
    exact ⟨c, rfl, h⟩
  | cons h rest ih =>
    intro os as ls j c e1 e2 e3 e4 l1 l2 l3 hal
    cases os with
    | nil => simp at l1
    | cons o os =>
      cases as with
      | nil => simp at l2
      | cons a as =>
        cases ls with
        | nil => simp at l3
        | cons l ls =>
          obtain ⟨_, d1⟩ := drop_cons_get _ _ _ _ e1
          obtain ⟨g2, d2⟩ := drop_cons_get _ _ _ _ e2
          obtain ⟨g3, d3⟩ := drop_cons_get _ _ _ _ e3
          obtain ⟨g4, d4⟩ := drop_cons_get _ _ _ _ e4
          simp only [List.length_cons, Nat.add_right_cancel_iff] at l1 l2 l3
          obtain ⟨c2, r1, r2⟩ := ih os as ls (j + 1) (undoInput ub c ⟨h, o⟩ ⟨a, l⟩)
            d1 d2 d3 d4 l1 l2 l3 (undoInput_aligned ub c _ _ hal h2 h3)
          exact ⟨c2, by rw [undoInputs_cons ub c j h rest o a l g2 g3 g4]; exact r1, r2⟩

theorem UndoCoins_aligned (E : Ext) :
    ∀ (blocks : List Block) (undoBlocks : List UndoBlock) (c : CoinDatabase),
      (∀ ub ∈ undoBlocks, ub.OutputIndexes.length = ub.TransactionInputHashes.length ∧
        ub.Amounts.length = ub.TransactionInputHashes.length ∧
        ub.LockingScripts.length = ub.TransactionInputHashes.length) →
      c.AlignedDB →
      (∀ c2, UndoCoins E c blocks undoBlocks = some c2 → c2.AlignedDB) ∧
      (blocks.length ≤ undoBlocks.length → ∃ c2, UndoCoins E c blocks undoBlocks = some c2) := by
  intro blocks
  induction blocks with
  | nil =>
    intro undoBlocks c _ hal
    refine ⟨?_, fun _ => ⟨c, rfl⟩⟩
    intro c2 h
    simp only [UndoCoins, Option.some.injEq] at h
    subst h
    exact hal
  | cons b bs ih =>
    intro undoBlocks c hub hal
    cases undoBlocks with
    | nil =>
      refine ⟨?_, fun hl => absurd hl (by simp)⟩
      intro c2 h
      simp [UndoCoins] at h
    | cons ub ubs =>
      obtain ⟨a1, a2, a3⟩ := hub ub (List.mem_cons_self _ _)
      obtain ⟨c1, r1, r2⟩ := undoInputs_aligned ub (by rw [a2, a1]) (by rw [a3, a1])
        ub.TransactionInputHashes ub.OutputIndexes ub.Amounts ub.LockingScripts 0
        (undoTransactions E c b.Transactions) rfl rfl rfl rfl a1 a2 a3
        (undoTransactions_aligned E _ c hal)
      obtain ⟨i1, i2⟩ := ih ubs c1 (fun u hu => hub u (List.mem_cons_of_mem _ hu)) r2
      have heq : UndoCoins E c (b :: bs) (ub :: ubs) = UndoCoins E c1 bs ubs := by
        rw [UndoCoins]
        simp only [r1]
      rw [heq]
      refine ⟨i1, ?_⟩
      intro hl
      exact i2 (by simpa using hl)

/-- C38: coin records stay aligned. If every CoinRecord of the persistent
store has OutputIndexes, Amounts and LockingScripts of equal length, then
StoreBlock, FlushMainCache and GetBalance return and leave such a store;
UndoCoins, whenever each undo block's four vectors have equal length,
leaves such a store when it returns, and it returns when there are as many
undo blocks as blocks; and GetCoin returns for every locator: the accesses
to Amounts and LockingScripts of GetCoin and GetBalance are never out of
range. -/
theorem C38_coin_records_stay_aligned (E : Ext) (c : CoinDatabase) (h : c.AlignedDB) :
    (∀ txs, ∃ c2, StoreBlock E c txs = some c2 ∧ c2.AlignedDB) ∧
    (∃ c2, FlushMainCache c = some c2 ∧ c2.AlignedDB) ∧
    (∀ pk, ∃ n c2, GetBalance c pk = some (n, c2) ∧ c2.AlignedDB) ∧
    (∀ blocks undoBlocks,
      (∀ ub ∈ undoBlocks, ub.OutputIndexes.length = ub.TransactionInputHashes.length ∧
        ub.Amounts.length = ub.TransactionInputHashes.length ∧
        ub.LockingScripts.length = ub.TransactionInputHashes.length) →
      (∀ c2, UndoCoins E c blocks undoBlocks = some c2 → c2.AlignedDB) ∧
      (blocks.length ≤ undoBlocks.length →
        ∃ c2, UndoCoins E c blocks undoBlocks = some c2)) ∧
    (∀ cl, ∃ r, GetCoin c cl = some r) := by
  refine ⟨fun txs => StoreBlock_aligned E c txs h, ?_, ?_,
    fun blocks undoBlocks hub => UndoCoins_aligned E blocks undoBlocks c hub h,
    fun cl => GetCoin_aligned c cl h⟩
  · obtain ⟨c2, e1, e2, _⟩ := FlushMainCache_aligned c h
    exact ⟨c2, e1, e2⟩
  · intro pk
    obtain ⟨c2, e1, e2, _⟩ := FlushMainCache_aligned c h
    obtain ⟨b, e3, _, _⟩ := balanceOfStore_eq pk c2.db e2 0
    refine ⟨b, c2, ?_, e2⟩
    unfold GetBalance
    rw [e1]
    simp only [e3]

set_option maxRecDepth 1000000 in
/-- C38, witness: in `twoSpendsDB`, the coin database after StoreBlock of
the genesis transaction, of `tx1` and of `tx2`, every record has one index,
one amount and one locking script; UndoCoins of `block2` with its undo block
returns a store with aligned records, in which the record of `tx1` has two
indexes, two amounts and two locking scripts. -/
theorem C38_coin_records_stay_aligned_witness :
    (∃ c2, UndoCoins Sample.ext Sample.twoSpendsDB [Sample.block2] [Sample.undo2] = some c2 ∧
      c2.AlignedDB ∧
      kvGet c2.db (Sample.txHash Sample.tx1) = some ⟨0, [0, 0], [50, 50], ["PK1", "PK1"]⟩) ∧
    (∃ n c2, GetBalance Sample.twoSpendsDB "PK2" = some (n, c2) ∧ c2.AlignedDB) := by
  obtain ⟨_, _, h3, h4, _⟩ := C38_coin_records_stay_aligned Sample.ext Sample.twoSpendsDB
    (by unfold CoinDatabase.AlignedDB CoinRecord.Aligned; decide)
  obtain ⟨u1, u2⟩ := h4 [Sample.block2] [Sample.undo2] (by decide)
  obtain ⟨c2, e⟩ := u2 (by decide)
  refine ⟨⟨c2, e, u1 c2 e, ?_⟩, h3 "PK2"⟩
  have he : UndoCoins Sample.ext Sample.twoSpendsDB [Sample.block2] [Sample.undo2]
      = some ((UndoCoins Sample.ext Sample.twoSpendsDB [Sample.block2]
        [Sample.undo2]).getD Sample.twoSpendsDB) := by decide
  rw [he, Option.some.injEq] at e
  subst e
  decide

end CoinDatabase

end StencilCoin
